import Mathlib

/-!
# lmcc: lowering of the source language to Little Man Computer blocks

A shallow embedding of `asm.go`, `scope.go`, `ast.go` and `compile.go`.

Conventions of the embedding.

* Go `int` is modelled by `Int`.  Every counter of the builder moves by one
  per call and every literal is copied unchanged, so no arithmetic of the
  program can leave the 64-bit range on a program that fits in memory.
* A `*Block` is modelled by the index of the block in `Assembly.blocks`.
  Blocks are created only by `newBlock`, which appends to that slice, and no
  block is ever removed, so an index names one block for its whole life.
* A `**Block` parameter (the current-block cursor) is an index passed in and
  returned in the result.
* `map[int]bool` of the builder is the list of its keys; `map[string]*Variable`
  of the scope is an association list whose first match is the bound value.
* A `*Variable` is `Option Variable`; the records are immutable once created.
* An `error` is its message.
* The operator symbols are enumerations: the parser builds no other symbol.
* A Go panic is the result `none`: the `default: panic("undefined symbol")`
  arm of `compileBinaryCondition` (reached by `+` and `-` in a condition) and
  the nil dereference in `popScope`.  Every lowering function therefore
  returns an `Option`; `some` carries the state left behind and the Go
  results, whether or not an `error` was returned.
* The helpers of compile.go that receive an `Expr` only to call its methods
  receive an `Operand` instead: the position of the expression and its two
  method values `expr.compileValue` and `expr.compileCondition`, with the
  scope already supplied.  Expression lowering only reads the scope.
  Likewise `If.compile`, `While.compile` and `BlockScope.compile` receive the
  statements they lower as the method value `statement.compile`.
-/

namespace LMCC

/-! ## compile.go: types and value descriptors -/

/-- Source `Type`: `Int = 0`, `Bool = 1`, `Undefined = 2`. -/
inductive Ty where
  | Int
  | Bool
  | Undefined
  deriving DecidableEq, Repr

/-- Source `Type.String`. -/
def Ty.String : Ty → String
  | .Int => "int"
  | .Bool => "bool"
  | .Undefined => "undefined"

/-- Source `Position` (parser.go). -/
structure Position where
  line : Int
  column : Int
  index : Int
  deriving DecidableEq, Repr

/-- Source `Position.String`: `fmt.Sprintf("(%d, %d)", pos.line, pos.column)`. -/
def Position.String (pos : Position) : String :=
  "(" ++ toString pos.line ++ ", " ++ toString pos.column ++ ")"

/-- A Go `error` built by `fmt.Errorf`, kept as its message. -/
structure CompileError where
  msg : String
  deriving DecidableEq, Repr

/-- Source `Value`. -/
structure Value where
  ty : Ty
  acc : Bool
  label : String
  deriving DecidableEq, Repr

/-- The Go zero value `Value{}`. -/
def Value.zero : Value := ⟨Ty.Int, false, ""⟩

/-! ## ast.go -/

/-- Symbols of `Binary.symbol`. -/
inductive BinarySymbol where
  | add
  | sub
  | eq
  | ne
  | gt
  | lt
  | ge
  | le
  | and
  | or
  deriving DecidableEq, Repr

/-- Symbols of `Unary.symbol`. -/
inductive UnarySymbol where
  | neg
  | not
  deriving DecidableEq, Repr

/-- Source `Expr` with its `ExprNode`: every constructor carries the `pos` and
`length` fields of `Expr` followed by the fields of the node. -/
inductive Expr where
  | IntLiteral (pos : Position) (length : Int) (value : Int)
  | BoolLiteral (pos : Position) (length : Int) (value : Bool)
  | Input (pos : Position) (length : Int)
  | Ident (pos : Position) (length : Int) (name : String)
  | Binary (pos : Position) (length : Int) (symbol : BinarySymbol) (left right : Expr)
  | Unary (pos : Position) (length : Int) (symbol : UnarySymbol) (expr : Expr)
  deriving DecidableEq, Repr

/-- Field `Expr.pos`. -/
def Expr.pos : Expr → Position
  | .IntLiteral pos _ _ => pos
  | .BoolLiteral pos _ _ => pos
  | .Input pos _ => pos
  | .Ident pos _ _ => pos
  | .Binary pos _ _ _ _ => pos
  | .Unary pos _ _ _ => pos

/-- Source `Statement` with its `StatementNode`.  An `Expr` or `Statement`
whose `node` is nil (an absent initialiser, an absent else branch) is `none`. -/
inductive Statement where
  | Declare (pos : Position) (length : Int) (name : String) (expr : Option Expr) (ty : Ty)
  | Assign (pos : Position) (length : Int) (name : String) (expr : Expr)
  | BlockScope (pos : Position) (length : Int) (statements : List Statement)
  | If (pos : Position) (length : Int) (cond : Expr) (ifTrue : Statement)
      (ifFalse : Option Statement)
  | While (pos : Position) (length : Int) (cond : Expr) (loop : Statement)
  | Output (pos : Position) (length : Int) (expr : Expr)

/-! ## asm.go -/

/-- Source `Instruction`. -/
structure Instruction where
  opcode : String
  operand : String
  deriving DecidableEq, Repr

/-- Source `Block`. -/
structure Block where
  label : String
  insts : List Instruction
  deriving DecidableEq, Repr

/-- Source `Assembly`. -/
structure Assembly where
  blocks : List Block
  constants : List Int
  maxTemp : Int
  currentTemp : Int
  currentBlock : Int
  deriving DecidableEq, Repr

/-- Source `InitAssembly`. -/
def InitAssembly : Assembly := ⟨[], [], 0, 0, 0⟩

/-- Source `Block.emitInstruction`, on the block itself. -/
def Block.emitInstruction (block : Block) (opcode operand : String) : Block :=
  { block with insts := block.insts ++ [⟨opcode, operand⟩] }

/-- The block list after `emitInstruction` through the pointer `block`. -/
def emitAt : List Block → Nat → String → String → List Block
  | [], _, _, _ => []
  | b :: bs, 0, opcode, operand => b.emitInstruction opcode operand :: bs
  | b :: bs, n + 1, opcode, operand => b :: emitAt bs n opcode operand

/-- Source `Block.emitInstruction`, called through a `*Block`. -/
def Assembly.emitInstruction (asm : Assembly) (block : Nat) (opcode operand : String) :
    Assembly :=
  { asm with blocks := emitAt asm.blocks block opcode operand }

/-- Field read `block.label` through a `*Block`. -/
def Assembly.label (asm : Assembly) (block : Nat) : String :=
  match asm.blocks[block]? with
  | some b => b.label
  | none => ""

/-- Source `Assembly.newBlock`: the new builder and the pointer returned. -/
def Assembly.newBlock (asm : Assembly) (label : String) : Assembly × Nat :=
  ({ asm with blocks := asm.blocks ++ [⟨label, []⟩] }, asm.blocks.length)

/-- Source `Assembly.newUniqueBlock`. -/
def Assembly.newUniqueBlock (asm : Assembly) : Assembly × Nat :=
  let r := asm.newBlock ("b" ++ toString asm.currentBlock)
  ({ r.1 with currentBlock := r.1.currentBlock + 1 }, r.2)

/-- Source `Assembly.createVariable`. -/
def Assembly.createVariable (asm : Assembly) (label : String) (value : Int) : Assembly :=
  let r := asm.newBlock label
  r.1.emitInstruction r.2 "DAT" (toString value)

/-- Source `Assembly.getConstant`. -/
def Assembly.getConstant (asm : Assembly) (value : Int) : Assembly × String :=
  if value ∈ asm.constants then
    (asm, "c" ++ toString value)
  else
    let asm1 := asm.createVariable ("c" ++ toString value) value
    ({ asm1 with constants := value :: asm1.constants }, "c" ++ toString value)

/-- Source `Assembly.pushTemp`. -/
def Assembly.pushTemp (asm : Assembly) : Assembly × String :=
  let label := "temp" ++ toString asm.currentTemp
  let asm1 :=
    if asm.currentTemp = asm.maxTemp then
      ({ asm with maxTemp := asm.maxTemp + 1 } : Assembly).createVariable label 0
    else asm
  ({ asm1 with currentTemp := asm1.currentTemp + 1 }, label)

/-- Source `Assembly.popTemp`. -/
def Assembly.popTemp (asm : Assembly) : Assembly :=
  { asm with currentTemp := asm.currentTemp - 1 }

/-- Text of one instruction in `Block.assemble`: `"\t%s %s\n"`. -/
def Instruction.assemble (inst : Instruction) : String :=
  "\t" ++ inst.opcode ++ " " ++ inst.operand ++ "\n"

/-- Source `Block.assemble`. -/
def Block.assemble (block : Block) : String :=
  block.insts.foldl (fun w inst => w ++ inst.assemble) block.label

/-- Source `Assembly.assemble`, returning what is written. -/
def Assembly.assemble (asm : Assembly) : String :=
  asm.blocks.foldl (fun w block => w ++ block.assemble) ""

/-! ## scope.go -/

/-- Source `Variable`. -/
inductive Variable where
  | mk (name label : String) (kind : Ty) (prevName prevDecl : Option Variable) (depth : Int)

/-- Field `Variable.name`. -/
def Variable.name : Variable → String
  | .mk name _ _ _ _ _ => name

/-- Field `Variable.label`. -/
def Variable.label : Variable → String
  | .mk _ label _ _ _ _ => label

/-- Field `Variable.kind`. -/
def Variable.kind : Variable → Ty
  | .mk _ _ kind _ _ _ => kind

/-- Field `Variable.prevName`. -/
def Variable.prevName : Variable → Option Variable
  | .mk _ _ _ prevName _ _ => prevName

/-- Field `Variable.prevDecl`. -/
def Variable.prevDecl : Variable → Option Variable
  | .mk _ _ _ _ prevDecl _ => prevDecl

/-- Field `Variable.depth`. -/
def Variable.depth : Variable → Int
  | .mk _ _ _ _ _ depth => depth

/-- Map read `hashmap[name]`. -/
def mapGet : List (String × Variable) → String → Option Variable
  | [], _ => none
  | (k, v) :: rest, name => if k = name then some v else mapGet rest name

/-- Map removal `delete(hashmap, name)`. -/
def mapDelete : List (String × Variable) → String → List (String × Variable)
  | [], _ => []
  | (k, v) :: rest, name =>
    if k = name then mapDelete rest name else (k, v) :: mapDelete rest name

/-- Map write `hashmap[name] = v`. -/
def mapSet (m : List (String × Variable)) (name : String) (v : Variable) :
    List (String × Variable) :=
  (name, v) :: mapDelete m name

/-- Source `Scope`. -/
structure Scope where
  hashmap : List (String × Variable)
  lastDecl : Option Variable
  currentDepth : Int

/-- Source `InitScope`. -/
def InitScope : Scope := ⟨[], none, 0⟩

/-- Source `Scope.declare`: the new scope and the label returned. -/
def Scope.declare (scope : Scope) (name : String) (kind : Ty) : Scope × String :=
  let var : Variable :=
    match mapGet scope.hashmap name with
    | some prev =>
      Variable.mk name (prev.label ++ "_") kind (some prev) scope.lastDecl scope.currentDepth
    | none => Variable.mk name name kind none scope.lastDecl scope.currentDepth
  ({ scope with hashmap := mapSet scope.hashmap name var, lastDecl := some var },
    var.label)

/-- Source `Scope.get`. -/
def Scope.get (scope : Scope) (name : String) : String × Ty × Bool :=
  match mapGet scope.hashmap name with
  | some var => (var.label, var.kind, true)
  | none => ("", Ty.Int, false)

/-- Source `Scope.pushScope`. -/
def Scope.pushScope (scope : Scope) : Scope :=
  { scope with currentDepth := scope.currentDepth + 1 }

/-- The `for` loop of `Scope.popScope` from a `lastDecl` that is not nil, by
recursion on the declaration chain that `lastDecl` walks.  The result is the
map and the `lastDecl` left when the loop ends, or `none` when
`scope.hashmap[scope.lastDecl.name]` is nil and the read of its `prevName`
fails. -/
def popLoop (currentDepth : Int) :
    Variable → List (String × Variable) →
      Option (List (String × Variable) × Option Variable)
  | .mk name label kind prevName prevDecl depth, hashmap =>
    if depth > currentDepth then
      match mapGet hashmap name with
      | none => none
      | some var =>
        let hashmap1 :=
          match var.prevName with
          | some p => mapSet hashmap name p
          | none => mapDelete hashmap name
        match prevDecl with
        | none => some (hashmap1, none)
        | some next => popLoop currentDepth next hashmap1
    else some (hashmap, some (.mk name label kind prevName prevDecl depth))

/-- Source `Scope.popScope`. -/
def Scope.popScope (scope : Scope) : Option Scope :=
  match scope.lastDecl with
  | none => some ⟨scope.hashmap, none, scope.currentDepth - 1⟩
  | some v =>
    match popLoop (scope.currentDepth - 1) v scope.hashmap with
    | none => none
    | some r => some ⟨r.1, r.2, scope.currentDepth - 1⟩

/-! ## compile.go: expressions -/

/-- State and Go results `(Value, error)` after a value-mode call. -/
structure ValueResult where
  asm : Assembly
  block : Nat
  val : Value
  err : Option CompileError
  deriving DecidableEq, Repr

/-- State and Go result `error` after a condition-mode call. -/
structure CondResult where
  asm : Assembly
  block : Nat
  err : Option CompileError
  deriving DecidableEq, Repr

/-- An expression as the helpers of compile.go use it. -/
structure Operand where
  pos : Position
  compileValue : Assembly → Nat → Option ValueResult
  compileCondition : Assembly → Nat → Nat → Nat → Option CondResult

/-- Source `loadToAcc`. -/
def loadToAcc (val : Value) (asm : Assembly) (block : Nat) : Assembly :=
  if !val.acc then asm.emitInstruction block "LDA" val.label else asm

/-- Source `storeToTemp`. -/
def storeToTemp (val : Value) (asm : Assembly) (block : Nat) : Assembly × String :=
  if val.acc then
    let r := asm.pushTemp
    (r.1.emitInstruction block "STA" r.2, r.2)
  else (asm, val.label)

/-- Source `popTemp`. -/
def popTemp (val : Value) (asm : Assembly) : Assembly :=
  if !val.acc then asm.popTemp else asm

/-- Source `compileAndExpect`. -/
def compileAndExpect (expr : Operand) (asm : Assembly) (block : Nat) (ty : Ty) :
    Option ValueResult :=
  match expr.compileValue asm block with
  | none => none
  | some r =>
    match r.err with
    | some err => some ⟨r.asm, r.block, Value.zero, some err⟩
    | none =>
      if r.val.ty ≠ ty then
        some ⟨r.asm, r.block, Value.zero,
          some ⟨"expected a " ++ ty.String ++ " instead got " ++ r.val.ty.String ++ " at "
            ++ expr.pos.String⟩⟩
      else some ⟨r.asm, r.block, r.val, none⟩

/-- Source `compileArithmetic`.  The deferred `popTemp(rightVal, asm)` runs on
every return that follows the `defer` statement. -/
def compileArithmetic (asm : Assembly) (block : Nat) (symbol : BinarySymbol)
    (left right : Operand) : Option ValueResult :=
  match compileAndExpect right asm block Ty.Int with
  | none => none
  | some r =>
    match r.err with
    | some err => some ⟨r.asm, r.block, Value.zero, some err⟩
    | none =>
      let s := storeToTemp r.val r.asm r.block
      match compileAndExpect left s.1 r.block Ty.Int with
      | none => none
      | some l =>
        match l.err with
        | some err => some ⟨popTemp r.val l.asm, l.block, Value.zero, some err⟩
        | none =>
          let asm1 := loadToAcc l.val l.asm l.block
          let asm2 :=
            match symbol with
            | .add => asm1.emitInstruction l.block "ADD" s.2
            | .sub => asm1.emitInstruction l.block "SUB" s.2
            | _ => asm1
          some ⟨popTemp r.val asm2, l.block, ⟨Ty.Int, true, ""⟩, none⟩

/-- Source `compileCompare`. -/
def compileCompare (left right : Operand) (asm : Assembly) (block : Nat) :
    Option CondResult :=
  match compileAndExpect right asm block Ty.Int with
  | none => none
  | some r =>
    match r.err with
    | some err => some ⟨r.asm, r.block, some err⟩
    | none =>
      let s := storeToTemp r.val r.asm r.block
      match compileAndExpect left s.1 r.block Ty.Int with
      | none => none
      | some l =>
        match l.err with
        | some err => some ⟨popTemp r.val l.asm, l.block, some err⟩
        | none =>
          let asm1 := loadToAcc l.val l.asm l.block
          let asm2 := asm1.emitInstruction l.block "SUB" s.2
          some ⟨popTemp r.val asm2, l.block, none⟩

/-- Source `compileZeroBranch`. -/
def compileZeroBranch (left right : Operand) (asm : Assembly) (block ifTrue ifFalse : Nat) :
    Option CondResult :=
  match compileCompare left right asm block with
  | none => none
  | some r =>
    match r.err with
    | some err => some ⟨r.asm, r.block, some err⟩
    | none =>
      let asm1 := r.asm.emitInstruction r.block "BRP" (r.asm.label ifTrue)
      let asm2 := asm1.emitInstruction r.block "BRA" (asm1.label ifFalse)
      some ⟨asm2, r.block, none⟩

/-- Source `compilePostiveBranch`. -/
def compilePostiveBranch (left right : Operand) (asm : Assembly)
    (block ifTrue ifFalse : Nat) : Option CondResult :=
  match compileCompare left right asm block with
  | none => none
  | some r =>
    match r.err with
    | some err => some ⟨r.asm, r.block, some err⟩
    | none =>
      let asm1 := r.asm.emitInstruction r.block "BRP" (r.asm.label ifTrue)
      let asm2 := asm1.emitInstruction r.block "BRA" (asm1.label ifFalse)
      some ⟨asm2, r.block, none⟩

/-- Source `compileBinaryCondition`.  In the `and` and `or` arms the right
operand is lowered through `&nextCondition`, a cursor of its own, so the
caller's cursor is the one the left operand left. -/
def compileBinaryCondition (symbol : BinarySymbol) (left right : Operand) (asm : Assembly)
    (block ifTrue ifFalse : Nat) : Option CondResult :=
  match symbol with
  | .ge => compilePostiveBranch left right asm block ifTrue ifFalse
  | .lt => compilePostiveBranch left right asm block ifFalse ifTrue
  | .le => compilePostiveBranch right left asm block ifTrue ifFalse
  | .gt => compilePostiveBranch right left asm block ifFalse ifTrue
  | .eq => compileZeroBranch left right asm block ifTrue ifFalse
  | .ne => compileZeroBranch left right asm block ifFalse ifTrue
  | .and =>
    let n := asm.newUniqueBlock
    match left.compileCondition n.1 block n.2 ifFalse with
    | none => none
    | some l =>
      match l.err with
      | some err => some ⟨l.asm, l.block, some err⟩
      | none =>
        match right.compileCondition l.asm n.2 ifTrue ifFalse with
        | none => none
        | some r => some ⟨r.asm, l.block, r.err⟩
  | .or =>
    let n := asm.newUniqueBlock
    match left.compileCondition n.1 block ifTrue n.2 with
    | none => none
    | some l =>
      match l.err with
      | some err => some ⟨l.asm, l.block, some err⟩
      | none =>
        match right.compileCondition l.asm n.2 ifTrue ifFalse with
        | none => none
        | some r => some ⟨r.asm, l.block, r.err⟩
  | .add => none
  | .sub => none

/-- Source `compileUnaryCondition`. -/
def compileUnaryCondition (symbol : UnarySymbol) (expr : Operand) (asm : Assembly)
    (block ifTrue ifFalse : Nat) (pos : Position) : Option CondResult :=
  match symbol with
  | .not => expr.compileCondition asm block ifFalse ifTrue
  | .neg =>
    some ⟨asm, block, some ⟨"cannot use '-' operator in condition at " ++ pos.String⟩⟩

/-- The three blocks that `Binary.compileValue` and `Unary.compileValue` build
before they lower a boolean in condition mode: the builder, then `ifTrue`,
`ifFalse` and `exitBlock`. -/
def materialise (asm : Assembly) : Assembly × Nat × Nat × Nat :=
  let t := asm.newUniqueBlock
  let f := t.1.newUniqueBlock
  let e := f.1.newUniqueBlock
  let c0 := e.1.getConstant 0
  let asm1 := c0.1.emitInstruction f.2 "LDA" c0.2
  let c1 := asm1.getConstant 1
  let asm2 := c1.1.emitInstruction t.2 "LDA" c1.2
  let asm3 := asm2.emitInstruction t.2 "BRA" (asm2.label e.2)
  let asm4 := asm3.emitInstruction f.2 "BRA" (asm3.label e.2)
  (asm4, t.2, f.2, e.2)

/-- What follows the condition-mode call in the boolean arms of
`Binary.compileValue` and `Unary.compileValue`. -/
def materialised (exitBlock : Nat) : Option CondResult → Option ValueResult
  | none => none
  | some c =>
    match c.err with
    | some err => some ⟨c.asm, c.block, Value.zero, some err⟩
    | none => some ⟨c.asm, exitBlock, ⟨Ty.Bool, true, ""⟩, none⟩

mutual
/-- Source `Expr.compileValue` with the `compileValue` method of each node. -/
def Expr.compileValue : Expr → Assembly → Nat → Scope → Option ValueResult
  | .IntLiteral _ _ value, asm, block, _ =>
    let c := asm.getConstant value
    some ⟨c.1, block, ⟨Ty.Int, false, c.2⟩, none⟩
  | .BoolLiteral _ _ value, asm, block, _ =>
    let c := asm.getConstant (if value then 1 else 0)
    some ⟨c.1, block, ⟨Ty.Bool, false, c.2⟩, none⟩
  | .Input _ _, asm, block, _ =>
    some ⟨asm.emitInstruction block "INP" "", block, ⟨Ty.Int, true, ""⟩, none⟩
  | .Ident pos _ name, asm, block, scope =>
    match scope.get name with
    | (label, ty, prs) =>
      if !prs then
        some ⟨asm, block, Value.zero,
          some ⟨"undefined variable '" ++ name ++ "' at " ++ pos.String⟩⟩
      else some ⟨asm, block, ⟨ty, false, label⟩, none⟩
  | .Binary _ _ symbol left right, asm, block, scope =>
    let l : Operand :=
      ⟨left.pos, fun a b => left.compileValue a b scope,
        fun a b t f => left.compileCondition a b t f scope⟩
    let r : Operand :=
      ⟨right.pos, fun a b => right.compileValue a b scope,
        fun a b t f => right.compileCondition a b t f scope⟩
    match symbol with
    | .add => compileArithmetic asm block symbol l r
    | .sub => compileArithmetic asm block symbol l r
    | _ =>
      let m := materialise asm
      materialised m.2.2.2 (compileBinaryCondition symbol l r m.1 block m.2.1 m.2.2.1)
  | .Unary pos _ symbol expr, asm, block, scope =>
    let e : Operand :=
      ⟨expr.pos, fun a b => expr.compileValue a b scope,
        fun a b t f => expr.compileCondition a b t f scope⟩
    match symbol with
    | .neg =>
      match compileAndExpect e asm block Ty.Int with
      | none => none
      | some v =>
        match v.err with
        | some err => some ⟨v.asm, v.block, Value.zero, some err⟩
        | none =>
          let s := storeToTemp v.val v.asm v.block
          let c0 := s.1.getConstant 0
          let asm1 := c0.1.emitInstruction v.block "LDA" c0.2
          let asm2 := asm1.emitInstruction v.block "SUB" s.2
          some ⟨popTemp v.val asm2, v.block, ⟨Ty.Int, true, ""⟩, none⟩
    | .not =>
      let m := materialise asm
      materialised m.2.2.2 (compileUnaryCondition symbol e m.1 block m.2.1 m.2.2.1 pos)
/-- Source `Expr.compileCondition` with the `compileCondition` method of each
node. -/
def Expr.compileCondition :
    Expr → Assembly → Nat → Nat → Nat → Scope → Option CondResult
  | .IntLiteral pos _ _, asm, block, _, _, _ =>
    some ⟨asm, block, some ⟨"int used as a condition at " ++ pos.String⟩⟩
  | .BoolLiteral _ _ value, asm, block, ifTrue, ifFalse, _ =>
    if value then some ⟨asm.emitInstruction block "BRA" (asm.label ifTrue), block, none⟩
    else some ⟨asm.emitInstruction block "BRA" (asm.label ifFalse), block, none⟩
  | .Input pos _, asm, block, _, _, _ =>
    some ⟨asm, block, some ⟨"cannot use input as condition at " ++ pos.String⟩⟩
  | .Ident pos _ name, asm, block, ifTrue, ifFalse, scope =>
    match scope.get name with
    | (label, ty, prs) =>
      if !prs then
        some ⟨asm, block, some ⟨"undefined variable '" ++ name ++ "' at " ++ pos.String⟩⟩
      else if ty = Ty.Int then
        some ⟨asm, block,
          some ⟨"variable '" ++ name ++ "' at " ++ pos.String ++ " has type " ++ ty.String
            ++ " but is being used in condition so should be bool"⟩⟩
      else
        let asm1 := asm.emitInstruction block "LDA" label
        let asm2 := asm1.emitInstruction block "BRZ" (asm1.label ifFalse)
        let asm3 := asm2.emitInstruction block "BRA" (asm2.label ifTrue)
        some ⟨asm3, block, none⟩
  | .Binary _ _ symbol left right, asm, block, ifTrue, ifFalse, scope =>
    let l : Operand :=
      ⟨left.pos, fun a b => left.compileValue a b scope,
        fun a b t f => left.compileCondition a b t f scope⟩
    let r : Operand :=
      ⟨right.pos, fun a b => right.compileValue a b scope,
        fun a b t f => right.compileCondition a b t f scope⟩
    compileBinaryCondition symbol l r asm block ifTrue ifFalse
  | .Unary pos _ symbol expr, asm, block, ifTrue, ifFalse, scope =>
    let e : Operand :=
      ⟨expr.pos, fun a b => expr.compileValue a b scope,
        fun a b t f => expr.compileCondition a b t f scope⟩
    compileUnaryCondition symbol e asm block ifTrue ifFalse pos
end

/-- The `Operand` of an expression under a scope. -/
def Expr.operand (expr : Expr) (scope : Scope) : Operand :=
  ⟨expr.pos, fun a b => expr.compileValue a b scope,
    fun a b t f => expr.compileCondition a b t f scope⟩

/-! ## compile.go: statements -/

/-- State and Go result `[]error` after a statement. -/
structure StmtResult where
  asm : Assembly
  block : Nat
  scope : Scope
  errors : List CompileError

/-- A statement as the `compile` methods use it: its method value
`statement.compile`, from the state before to the state after. -/
abbrev Lowering : Type :=
  Assembly → Nat → Scope → List CompileError → Option StmtResult

/-- Source `Assign.compile`. -/
def Assign.compile (name : String) (expr : Expr) (pos : Position) : Lowering :=
  fun asm block scope errors =>
    match scope.get name with
    | (label, ty, prs) =>
      if !prs then
        some ⟨asm, block, scope,
          errors ++ [⟨"cannot assign to undefined variable '" ++ name ++ "' at "
            ++ pos.String⟩]⟩
      else
        match compileAndExpect (expr.operand scope) asm block ty with
        | none => none
        | some v =>
          match v.err with
          | some err => some ⟨v.asm, v.block, scope, errors ++ [err]⟩
          | none =>
            let asm1 := loadToAcc v.val v.asm v.block
            some ⟨asm1.emitInstruction v.block "STA" label, v.block, scope, errors⟩

/-- Source `Declare.compile`. -/
def Declare.compile (name : String) (expr : Option Expr) (ty : Ty) (pos : Position) :
    Lowering :=
  fun asm block scope errors =>
    match expr with
    | some e =>
      match e.compileValue asm block scope with
      | none => none
      | some v =>
        match v.err with
        | some err => some ⟨v.asm, v.block, scope, errors ++ [err]⟩
        | none =>
          if ty ≠ v.val.ty ∧ ty ≠ Ty.Undefined then
            some ⟨v.asm, v.block, scope,
              errors ++ [⟨"expression at " ++ e.pos.String ++ " has type "
                ++ v.val.ty.String ++ " but declaration at " ++ pos.String ++ " has type "
                ++ ty.String⟩]⟩
          else
            let d := scope.declare name v.val.ty
            let asm1 := v.asm.createVariable d.2 0
            let asm2 := loadToAcc v.val asm1 v.block
            some ⟨asm2.emitInstruction v.block "STA" d.2, v.block, d.1, errors⟩
    | none =>
      let d := scope.declare name ty
      some ⟨asm.createVariable d.2 0, block, d.1, errors⟩

/-- Source `If.compile`.  The branches are lowered through `&ifTrue` and
`&ifFalse`, so the closing `BRA` goes to the block each branch ended in; the
caller's cursor is only written on the two successful returns. -/
def If.compile (cond : Expr) (ifTrue : Lowering) (ifFalse : Option Lowering) : Lowering :=
  fun asm block scope errors =>
    let t := asm.newUniqueBlock
    let f := t.1.newUniqueBlock
    match cond.compileCondition f.1 block t.2 f.2 scope with
    | none => none
    | some c =>
      match c.err with
      | some err => some ⟨c.asm, c.block, scope, errors ++ [err]⟩
      | none =>
        match ifTrue c.asm t.2 scope errors with
        | none => none
        | some r1 =>
          if r1.errors.length > 0 then some ⟨r1.asm, c.block, r1.scope, r1.errors⟩
          else
            match ifFalse with
            | none =>
              some ⟨r1.asm.emitInstruction r1.block "BRA" (r1.asm.label f.2), f.2, r1.scope,
                []⟩
            | some s2 =>
              let e := r1.asm.newUniqueBlock
              match s2 e.1 f.2 r1.scope r1.errors with
              | none => none
              | some r2 =>
                if r2.errors.length > 0 then some ⟨r2.asm, c.block, r2.scope, r2.errors⟩
                else
                  let asm1 := r2.asm.emitInstruction r1.block "BRA" (r2.asm.label e.2)
                  let asm2 := asm1.emitInstruction r2.block "BRA" (asm1.label e.2)
                  some ⟨asm2, e.2, r2.scope, []⟩

/-- Source `While.compile`.  The condition is lowered through `&condBlock` and
the body through `&loopBlock`, so the back edge is emitted into the block the
body ended in and names the block the condition ended in. -/
def While.compile (cond : Expr) (loop : Lowering) : Lowering :=
  fun asm block scope errors =>
    let c := asm.newUniqueBlock
    let l := c.1.newUniqueBlock
    let x := l.1.newUniqueBlock
    let asm1 := x.1.emitInstruction block "BRA" (x.1.label c.2)
    match cond.compileCondition asm1 c.2 l.2 x.2 scope with
    | none => none
    | some cr =>
      match cr.err with
      | some err => some ⟨cr.asm, block, scope, errors ++ [err]⟩
      | none =>
        match loop cr.asm l.2 scope errors with
        | none => none
        | some r =>
          let asm2 := r.asm.emitInstruction r.block "BRA" (r.asm.label cr.block)
          some ⟨asm2, x.2, r.scope, r.errors⟩

/-- Source `BlockScope.compile`; `statements` is `compileStatements` of the
statements of the block. -/
def BlockScope.compile (statements : Lowering) : Lowering :=
  fun asm block scope errors =>
    match statements asm block scope.pushScope errors with
    | none => none
    | some r =>
      match r.scope.popScope with
      | none => none
      | some sc => some ⟨r.asm, r.block, sc, r.errors⟩

/-- Source `Output.compile`. -/
def Output.compile (expr : Expr) : Lowering :=
  fun asm block scope errors =>
    match compileAndExpect (expr.operand scope) asm block Ty.Int with
    | none => none
    | some v =>
      match v.err with
      | some err => some ⟨v.asm, v.block, scope, errors ++ [err]⟩
      | none =>
        let asm1 := loadToAcc v.val v.asm v.block
        some ⟨asm1.emitInstruction v.block "OUT" "", v.block, scope, errors⟩

mutual
/-- Source `Statement.compile`: the call of the `compile` method of the node. -/
def Statement.compile : Statement → Lowering
  | .Declare pos _ name expr ty => Declare.compile name expr ty pos
  | .Assign pos _ name expr => Assign.compile name expr pos
  | .BlockScope _ _ statements => BlockScope.compile (compileStatements statements)
  | .If _ _ cond ifTrue ifFalse =>
    If.compile cond ifTrue.compile
      (match ifFalse with
        | none => none
        | some s => some s.compile)
  | .While _ _ cond loop => While.compile cond loop.compile
  | .Output _ _ expr => Output.compile expr
/-- Source `compileStatements`. -/
def compileStatements : List Statement → Lowering
  | [] => fun asm block scope errors => some ⟨asm, block, scope, errors⟩
  | statement :: rest => fun asm block scope errors =>
    match statement.compile asm block scope errors with
    | none => none
    | some r => compileStatements rest r.asm r.block r.scope r.errors
end

/-- The part of source `Compile` that comes before the text is written: the
state after `compileStatements` and `block.emitInstruction("HLT", "")`. -/
def lowerProgram (statements : List Statement) : Option StmtResult :=
  let start := InitAssembly.newBlock "start"
  match compileStatements statements start.1 start.2 InitScope [] with
  | none => none
  | some r => some ⟨r.asm.emitInstruction r.block "HLT" "", r.block, r.scope, r.errors⟩

/-- Source `Compile`. -/
def Compile (statements : List Statement) : Option (String × List CompileError) :=
  match lowerProgram statements with
  | none => none
  | some r =>
    if r.errors.length > 0 then some ("", r.errors) else some (r.asm.assemble, [])

/-! ## Concrete programs

Positions and lengths only reach the text of error messages, so the sample
programs carry one position throughout. -/

/-- A position for the sample programs. -/
def pos0 : Position := ⟨1, 1, 0⟩

/-- An integer literal of the sample programs. -/
def lit (value : Int) : Expr := .IntLiteral pos0 1 value

/-- An identifier of the sample programs. -/
def ident (name : String) : Expr := .Ident pos0 1 name

/-- A binary expression of the sample programs. -/
def binary (symbol : BinarySymbol) (left right : Expr) : Expr :=
  .Binary pos0 1 symbol left right

/-- The program `out 1 + 2`. -/
def progOutSum : List Statement :=
  [.Output pos0 1 (binary .add (lit 1) (lit 2))]

/-- The program `out 1 + 2  out 1 + in`. -/
def progOutSumThenInput : List Statement :=
  [.Output pos0 1 (binary .add (lit 1) (lit 2)),
   .Output pos0 1 (binary .add (lit 1) (.Input pos0 1))]

/-- The program `{ x:int } { x:int }`. -/
def progSiblingScopes : List Statement :=
  [.BlockScope pos0 1 [.Declare pos0 1 "x" none Ty.Int],
   .BlockScope pos0 1 [.Declare pos0 1 "x" none Ty.Int]]

/-- The program `start : int`. -/
def progStartName : List Statement :=
  [.Declare pos0 1 "start" none Ty.Int]

/-- The program `c0 : int = 0`. -/
def progConstantName : List Statement :=
  [.Declare pos0 1 "c0" (some (lit 0)) Ty.Int]

/-- The state `lowerProgram` returns, or the initial state when it panics. -/
def loweredState (statements : List Statement) : StmtResult :=
  match lowerProgram statements with
  | some r => r
  | none => ⟨InitAssembly, 0, InitScope, []⟩

/-- The labels of the blocks a program is lowered to, in output order. -/
def blockLabels (statements : List Statement) : Option (List String) :=
  (lowerProgram statements).map fun r => r.asm.blocks.map fun b => b.label

/-- The block list with `insts` appended to the block at index `block`: what a
run of `emitInstruction` calls through one `*Block` does to the block list. -/
def appendInsts : List Block → Nat → List Instruction → List Block
  | [], _, _ => []
  | b :: bs, 0, insts => ⟨b.label, b.insts ++ insts⟩ :: bs
  | b :: bs, n + 1, insts => b :: appendInsts bs n insts

/-- A builder with the blocks `start`, `b0`, `b1`. -/
def asmThree : Assembly :=
  (InitAssembly.newBlock "start").1.newUniqueBlock.1.newUniqueBlock.1

/-- A scope binding `a` and `b` with type `Int`. -/
def scopeIntAB : Scope :=
  ((InitScope.declare "a" Ty.Int).1.declare "b" Ty.Int).1

/-- A scope binding `a` and `b` with type `Bool`. -/
def scopeBoolAB : Scope :=
  ((InitScope.declare "a" Ty.Bool).1.declare "b" Ty.Bool).1

/-! ## Sequences of scope calls -/

/-- One call on a scope. -/
inductive ScopeOp where
  | declare (name : String) (kind : Ty)
  | pushScope
  | popScope
  deriving DecidableEq, Repr

/-- The scope after a sequence of calls, `none` when a `popScope` of the
sequence panics. -/
def runOps : List ScopeOp → Scope → Option Scope
  | [], scope => some scope
  | .declare name kind :: rest, scope => runOps rest (scope.declare name kind).1
  | .pushScope :: rest, scope => runOps rest scope.pushScope
  | .popScope :: rest, scope =>
    match scope.popScope with
    | none => none
    | some s => runOps rest s

/-- The number of scopes left open by a sequence of calls that starts with
`opened` open scopes, `none` when a `popScope` of the sequence finds no open
scope to close. -/
def nesting : List ScopeOp → Nat → Option Nat
  | [], opened => some opened
  | .declare _ _ :: rest, opened => nesting rest opened
  | .pushScope :: rest, opened => nesting rest (opened + 1)
  | .popScope :: _, 0 => none
  | .popScope :: rest, opened + 1 => nesting rest opened

/-- The loop of `popScope` from a `lastDecl` that may be nil. -/
def popChain (currentDepth : Int) :
    Option Variable → List (String × Variable) →
      Option (List (String × Variable) × Option Variable)
  | none, hashmap => some (hashmap, none)
  | some v, hashmap => popLoop currentDepth v hashmap

/-- Two association lists that hold the same map. -/
def SameMap (m m' : List (String × Variable)) : Prop :=
  ∀ name, mapGet m name = mapGet m' name

/-- Two outcomes of the `popScope` loop that agree: both panic, or both end
with the same map and the same `lastDecl`. -/
def SameResult :
    Option (List (String × Variable) × Option Variable) →
      Option (List (String × Variable) × Option Variable) → Prop
  | none, none => True
  | some a, some b => SameMap a.1 b.1 ∧ a.2 = b.2
  | _, _ => False

/-- The `lastDecl` of a scope, when there is one, was declared at a depth that
is not greater than `currentDepth`. -/
def HeadOk (s : Scope) : Prop :=
  ∀ v, s.lastDecl = some v → v.depth ≤ s.currentDepth

/-- The program `{ x:int=1 { x:int=2 out x } out x }`. -/
def progShadow : List Statement :=
  [.BlockScope pos0 1
    [.Declare pos0 1 "x" (some (lit 1)) Ty.Int,
     .BlockScope pos0 1
       [.Declare pos0 1 "x" (some (lit 2)) Ty.Int, .Output pos0 1 (ident "x")],
     .Output pos0 1 (ident "x")]]

/-! ## Blocks that end in a transfer -/

/-- An instruction that transfers control: `BRA`, `BRZ`, `BRP` or `HLT`. -/
def Instruction.isTransfer (inst : Instruction) : Bool :=
  inst.opcode == "BRA" || inst.opcode == "BRZ" || inst.opcode == "BRP" ||
    inst.opcode == "HLT"

/-- A data cell in the shape `createVariable` gives it: one `DAT` instruction. -/
def Block.isData (b : Block) : Bool :=
  match b.insts with
  | [inst] => inst.opcode == "DAT"
  | _ => false

/-- A block that is not empty and whose last instruction transfers control. -/
def Block.endsInTransfer (b : Block) : Bool :=
  match b.insts.getLast? with
  | some inst => inst.isTransfer
  | none => false

/-- A block that is a data cell or ends in a transfer. -/
def Block.Closed (b : Block) : Prop :=
  b.isData = true ∨ b.endsInTransfer = true

/-- Every block whose index is outside `pending` is closed. -/
def Ok (bs : List Block) (pending : Set Nat) : Prop :=
  ∀ i b, bs[i]? = some b → i ∉ pending → b.Closed

/-- What a successful value-mode call started at the cursor `cur` guarantees:
no block is lost, a cursor that pointed to a block still does, a value of type
`Int` leaves the cursor where it was, and the blocks that may be left without a
final transfer are the new cursor and those that were pending before, the old
cursor excepted. -/
def ValuePost (asm : Assembly) (cur : Nat) (r : ValueResult) : Prop :=
  asm.blocks.length ≤ r.asm.blocks.length ∧
    (cur < asm.blocks.length → r.block < r.asm.blocks.length) ∧
    (r.val.ty = Ty.Int → r.block = cur) ∧
    ∀ pending, Ok asm.blocks pending → Ok r.asm.blocks (insert r.block (pending \ {cur}))

/-- What a successful condition-mode call started at the cursor `cur`
guarantees: no block is lost, the cursor has not moved, and the blocks that may
be left without a final transfer are those that were pending before, the
cursor excepted. -/
def CondPost (asm : Assembly) (cur : Nat) (r : CondResult) : Prop :=
  asm.blocks.length ≤ r.asm.blocks.length ∧ r.block = cur ∧
    ∀ pending, Ok asm.blocks pending → Ok r.asm.blocks (pending \ {cur})

/-- An operand whose two lowering modes meet `ValuePost` and `CondPost` when
they return without error. -/
def Operand.Sound (o : Operand) : Prop :=
  (∀ asm cur r, o.compileValue asm cur = some r → r.err = none → ValuePost asm cur r) ∧
    ∀ asm cur t f r, o.compileCondition asm cur t f = some r → r.err = none →
      CondPost asm cur r

/-- What a statement started at the cursor `cur` guarantees when it returns no
error: none was passed in, no block is lost, a cursor that pointed to a block
still does, and the blocks that may be left without a final transfer are the
new cursor and those that were pending before, the old cursor excepted. -/
def StmtPost (asm : Assembly) (cur : Nat) (errors : List CompileError) (r : StmtResult) :
    Prop :=
  r.errors = [] →
    errors = [] ∧ asm.blocks.length ≤ r.asm.blocks.length ∧
      (cur < asm.blocks.length → r.block < r.asm.blocks.length) ∧
      ∀ pending, Ok asm.blocks pending → Ok r.asm.blocks (insert r.block (pending \ {cur}))

/-- A statement whose lowering meets `StmtPost` from every state. -/
def Lowering.Sound (f : Lowering) : Prop :=
  ∀ asm cur scope errors r, f asm cur scope errors = some r → StmtPost asm cur errors r

/-! ## How lowering changes the builder -/

/-- A block without a `DAT` instruction: a block that holds code. -/
def Block.NoDat (b : Block) : Prop :=
  ∀ inst ∈ b.insts, inst.opcode ≠ "DAT"

/-- The pointer `i` points to a block of the builder that holds code. -/
def CodeAt (asm : Assembly) (i : Nat) : Prop :=
  ∃ b, asm.blocks[i]? = some b ∧ b.NoDat

/-- The cell that `getConstant` creates for the value `v`. -/
def constantCell (v : Int) : Block :=
  ⟨"c" ++ toString v, [⟨"DAT", toString v⟩]⟩

/-- The constant pool is sound: no value is recorded twice and the cell of
every recorded value is in the block list. -/
def Pool (asm : Assembly) : Prop :=
  asm.constants.Nodup ∧ ∀ v ∈ asm.constants, constantCell v ∈ asm.blocks

/-- Every block is a data cell or holds no `DAT` at all. -/
def Sorted (asm : Assembly) : Prop :=
  ∀ b ∈ asm.blocks, b.isData = true ∨ b.NoDat

/-- The builder `b` comes from `a` by appending blocks and appending
instructions to blocks that hold code: every block of `a` is still there under
its label with its instructions at the front, code blocks still hold code,
blocks with a `DAT` are unchanged, recorded constants stay recorded, a sound
pool stays sound, and data cells and code stay apart. -/
def Evolves (a b : Assembly) : Prop :=
  (∀ (i : Nat) (blk : Block), a.blocks[i]? = some blk →
      ∃ extra, b.blocks[i]? = some (Block.mk blk.label (blk.insts ++ extra))) ∧
    (∀ i, CodeAt a i → CodeAt b i) ∧
    (∀ (i : Nat) (blk : Block), a.blocks[i]? = some blk → ¬ blk.NoDat →
      b.blocks[i]? = some blk) ∧
    (∀ v ∈ a.constants, v ∈ b.constants) ∧
    (Pool a → Pool b) ∧
    (Sorted a → Sorted b)

/-- The builder `b` comes from `a` and the cursor `cur` points to a block of
`b` that holds code. -/
def Run (a b : Assembly) (cur : Nat) : Prop :=
  Evolves a b ∧ CodeAt b cur

/-- An operand whose two lowering modes, whatever they return, leave a builder
that comes from the one they started with and a cursor on a code block. -/
def Operand.Evolving (o : Operand) : Prop :=
  (∀ asm cur r, o.compileValue asm cur = some r → CodeAt asm cur → Run asm r.asm r.block) ∧
    ∀ asm cur t f r, o.compileCondition asm cur t f = some r → CodeAt asm cur →
      Run asm r.asm r.block

/-- A statement whose lowering, whatever it returns, leaves a builder that
comes from the one it started with and a cursor on a code block. -/
def Lowering.Evolving (f : Lowering) : Prop :=
  ∀ asm cur scope errors r, f asm cur scope errors = some r → CodeAt asm cur →
    Run asm r.asm r.block

/-! ## The constants a program asks for -/

mutual
/-- The values that value-mode lowering of an expression interns when it
succeeds: every integer literal of the expression, 0 or 1 for every boolean
literal in value position, 0 and 1 for every boolean that is materialised and
0 for every unary minus. -/
def Expr.valueConstants : Expr → List Int
  | .IntLiteral _ _ value => [value]
  | .BoolLiteral _ _ value => [if value then 1 else 0]
  | .Input _ _ => []
  | .Ident _ _ _ => []
  | .Binary _ _ symbol left right =>
    match symbol with
    | .add => left.valueConstants ++ right.valueConstants
    | .sub => left.valueConstants ++ right.valueConstants
    | .and => 0 :: 1 :: (left.conditionConstants ++ right.conditionConstants)
    | .or => 0 :: 1 :: (left.conditionConstants ++ right.conditionConstants)
    | _ => 0 :: 1 :: (left.valueConstants ++ right.valueConstants)
  | .Unary _ _ symbol expr =>
    match symbol with
    | .neg => 0 :: expr.valueConstants
    | .not => 0 :: 1 :: expr.conditionConstants
/-- The values that condition-mode lowering of an expression interns when it
succeeds; a boolean literal in condition position asks for none.  (Where
condition mode cannot succeed the integer literals are listed all the same.) -/
def Expr.conditionConstants : Expr → List Int
  | .IntLiteral _ _ value => [value]
  | .BoolLiteral _ _ _ => []
  | .Input _ _ => []
  | .Ident _ _ _ => []
  | .Binary _ _ symbol left right =>
    match symbol with
    | .and => left.conditionConstants ++ right.conditionConstants
    | .or => left.conditionConstants ++ right.conditionConstants
    | _ => left.valueConstants ++ right.valueConstants
  | .Unary _ _ symbol expr =>
    match symbol with
    | .neg => expr.valueConstants
    | .not => expr.conditionConstants
end

mutual
/-- The values that lowering a statement interns when it succeeds. -/
def Statement.constants : Statement → List Int
  | .Declare _ _ _ (some e) _ => e.valueConstants
  | .Declare _ _ _ none _ => []
  | .Assign _ _ _ expr => expr.valueConstants
  | .BlockScope _ _ statements => programConstants statements
  | .If _ _ cond ifTrue none => cond.conditionConstants ++ ifTrue.constants
  | .If _ _ cond ifTrue (some s) =>
    cond.conditionConstants ++ (ifTrue.constants ++ s.constants)
  | .While _ _ cond loop => cond.conditionConstants ++ loop.constants
  | .Output _ _ expr => expr.valueConstants
/-- The values that lowering a statement list interns when it succeeds. -/
def programConstants : List Statement → List Int
  | [] => []
  | statement :: rest => statement.constants ++ programConstants rest
end

/-- An operand whose value mode interns `vs` and whose condition mode interns
`cs` when they return without error, and forget no recorded constant. -/
def Operand.Interns (o : Operand) (vs cs : List Int) : Prop :=
  (∀ asm cur r, o.compileValue asm cur = some r → r.err = none →
      (∀ v ∈ asm.constants, v ∈ r.asm.constants) ∧ ∀ v ∈ vs, v ∈ r.asm.constants) ∧
    ∀ asm cur t f r, o.compileCondition asm cur t f = some r → r.err = none →
      (∀ v ∈ asm.constants, v ∈ r.asm.constants) ∧ ∀ v ∈ cs, v ∈ r.asm.constants

/-- A statement whose lowering interns `vs` when it returns no error, and
forgets no recorded constant. -/
def Lowering.Interns (f : Lowering) (vs : List Int) : Prop :=
  ∀ asm cur scope errors r, f asm cur scope errors = some r → r.errors = [] →
    (∀ v ∈ asm.constants, v ∈ r.asm.constants) ∧ ∀ v ∈ vs, v ∈ r.asm.constants

/-- The program `if true out 5`. -/
def progIfTrue : List Statement :=
  [.If pos0 1 (.BoolLiteral pos0 1 true) (.Output pos0 1 (lit 5)) none]

/-- The program `while true if true out 1`. -/
def progWhileIf : List Statement :=
  [.While pos0 1 (.BoolLiteral pos0 1 true)
    (.If pos0 1 (.BoolLiteral pos0 1 true) (.Output pos0 1 (lit 1)) none)]

/-! ## States between the steps of a statement -/

/-- The builder when `While.compile` is about to lower the condition: the
blocks `condBlock`, `loopBlock`, `exitBlock` are created and `BRA condBlock`
is emitted through the caller's cursor. -/
def whileEntry (asm : Assembly) (block : Nat) : Assembly :=
  let c := asm.newUniqueBlock
  let l := c.1.newUniqueBlock
  let x := l.1.newUniqueBlock
  x.1.emitInstruction block "BRA" (x.1.label c.2)

/-- The builder with the one block `start`, as `Compile` sets it up. -/
def asmStart : Assembly := (InitAssembly.newBlock "start").1

/-- The result a condition-mode call returned, or an empty state when it
panicked. -/
def condState (o : Option CondResult) : CondResult :=
  match o with
  | some c => c
  | none => ⟨InitAssembly, 0, none⟩

/-- The result a value-mode call returned, or an empty state when it
panicked. -/
def valueState (o : Option ValueResult) : ValueResult :=
  match o with
  | some v => v
  | none => ⟨InitAssembly, 0, Value.zero, none⟩

/-- The result a statement returned, or an empty state when it panicked. -/
def stmtState (o : Option StmtResult) : StmtResult :=
  match o with
  | some r => r
  | none => ⟨InitAssembly, 0, InitScope, []⟩

/-- The statement `if true out 1`. -/
def stmtIfTrueOut : Statement :=
  .If pos0 1 (.BoolLiteral pos0 1 true) (.Output pos0 1 (lit 1)) none

/-! ## The order in which operands are lowered -/

/-- In a run from the builder `asm` with the cursor `block` to the builder
`final`, the operand `first` is lowered before the operand `second`: `first`
is lowered in value mode from the starting state, and when it gives a value of
type `Int` without error, `second` is lowered in value mode from the state
that `first` and `storeToTemp` left.  Each builder comes from the one before
it, so every block and instruction made for `first` precedes those made for
`second`. -/
def Operand.Before (first second : Operand) (asm : Assembly) (block : Nat)
    (final : Assembly) : Prop :=
  ∃ fv, first.compileValue asm block = some fv ∧ Evolves asm fv.asm ∧
    Evolves fv.asm final ∧
    (fv.err = none → fv.val.ty = Ty.Int →
      ∃ sv, second.compileValue (storeToTemp fv.val fv.asm fv.block).1 fv.block = some sv ∧
        Evolves fv.asm (storeToTemp fv.val fv.asm fv.block).1 ∧
        Evolves (storeToTemp fv.val fv.asm fv.block).1 sv.asm ∧ Evolves sv.asm final)

/-- The program `out 1 - 2`. -/
def progOutDiff : List Statement :=
  [.Output pos0 1 (binary .sub (lit 1) (lit 2))]

/-- The program `if 1 <= 2 out 0`. -/
def progIfLe : List Statement :=
  [.If pos0 1 (binary .le (lit 1) (lit 2)) (.Output pos0 1 (lit 0)) none]

/-! ## The end-to-end scenarios -/

/-- The program `if in < 10 out 1 else out 2`. -/
def progInputCompare : List Statement :=
  [.If pos0 1 (binary .lt (.Input pos0 1) (lit 10)) (.Output pos0 1 (lit 1))
    (some (.Output pos0 1 (lit 2)))]

/-- The program `x : int = 5  x = x + 3  out x`. -/
def progIncrement : List Statement :=
  [.Declare pos0 1 "x" (some (lit 5)) Ty.Int,
   .Assign pos0 1 "x" (binary .add (ident "x") (lit 3)),
   .Output pos0 1 (ident "x")]

/-- The state after `x : int = 5` is lowered in the block `start`. -/
def stateAfterDeclare : StmtResult :=
  stmtState (compileStatements [.Declare pos0 1 "x" (some (lit 5)) Ty.Int] asmStart 0
    InitScope [])

/-- The value of `3` lowered after `x : int = 5`. -/
def cellOperand : ValueResult :=
  valueState ((lit 3).compileValue stateAfterDeclare.asm 0 stateAfterDeclare.scope)

/-- The value of `x` lowered after `x : int = 5` and `3`. -/
def leftOperand : ValueResult :=
  valueState ((ident "x").compileValue cellOperand.asm cellOperand.block
    stateAfterDeclare.scope)

/-- The statement `if true out 1 else y = 2`. -/
def stmtIfElseAssign : Statement :=
  .If pos0 1 (.BoolLiteral pos0 1 true) (.Output pos0 1 (lit 1))
    (some (.Assign pos0 1 "y" (lit 2)))

/-- The program `x = 1  if true out 1 else y = 2`. -/
def progTwoFailures : List Statement :=
  [.Assign pos0 1 "x" (lit 1), stmtIfElseAssign]

/-- The program `x = 1  if true y = 2 else out 1`. -/
def progTwoFailuresThen : List Statement :=
  [.Assign pos0 1 "x" (lit 1),
   .If pos0 1 (.BoolLiteral pos0 1 true) (.Assign pos0 1 "y" (lit 2))
     (some (.Output pos0 1 (lit 1)))]

/-- The declaration `x :`, with neither an annotation nor an initialiser. -/
def declUntyped : Statement := .Declare pos0 1 "x" none Ty.Undefined

/-- The scope after `x :`. -/
def scopeUntyped : Scope := (InitScope.declare "x" Ty.Undefined).1

/-! ## The live bindings of a name -/

/-- The label `name` followed by `k` underscores. -/
def underscored (name : String) (k : Nat) : String :=
  name ++ String.mk (List.replicate k '_')

/-- The names declared in each open scope, innermost scope first and latest
declaration first, after a sequence of calls that starts with the open scopes
`frames`; `none` when a `popScope` of the sequence finds no scope opened by a
`pushScope`. -/
def liveNames : List ScopeOp → List (List String) → Option (List (List String))
  | [], frames => some frames
  | .declare name _ :: rest, f :: frames => liveNames rest ((name :: f) :: frames)
  | .declare _ _ :: _, [] => none
  | .pushScope :: rest, frames => liveNames rest ([] :: frames)
  | .popScope :: rest, _ :: f :: frames => liveNames rest (f :: frames)
  | .popScope :: _, [_] => none
  | .popScope :: _, [] => none

/-- The number of live bindings of a name: its declarations in the open
scopes. -/
def liveCount (frames : List (List String)) (name : String) : Nat :=
  frames.flatten.count name

/-- The name and the depth of every binding on the `prevDecl` chain of a
binding, latest first. -/
def declChain : Variable → List (String × Int)
  | .mk name _ _ _ prevDecl depth =>
    (name, depth) ::
      match prevDecl with
      | none => []
      | some p => declChain p

/-- The chain of a `lastDecl` that may be nil. -/
def declChainOpt : Option Variable → List (String × Int)
  | none => []
  | some v => declChain v

/-- The first binding of a name on the `prevDecl` chain of a binding. -/
def firstNamed (n : String) : Variable → Option Variable
  | .mk name label kind prevName prevDecl depth =>
    if name = n then some (.mk name label kind prevName prevDecl depth)
    else
      match prevDecl with
      | none => none
      | some p => firstNamed n p

/-- The first binding of a name on the chain of a `lastDecl` that may be nil. -/
def firstNamedOpt (n : String) : Option Variable → Option Variable
  | none => none
  | some v => firstNamed n v

/-- Every binding on the `prevDecl` chain of a binding has as label its name
followed by one underscore for every earlier binding of the name on the chain,
and as `prevName` the next binding of its name on the chain. -/
def Linked : Variable → Prop
  | .mk name label _ prevName prevDecl _ =>
    label = underscored name (((declChainOpt prevDecl).map Prod.fst).count name) ∧
      prevName = firstNamedOpt name prevDecl ∧
      match prevDecl with
      | none => True
      | some p => Linked p

/-- `Linked` for a `lastDecl` that may be nil. -/
def LinkedOpt : Option Variable → Prop
  | none => True
  | some v => Linked v

/-- The names of the open scopes with the depth of each scope. -/
def tagged : List (List String) → List (String × Int)
  | [] => []
  | f :: frames => f.map (fun n => (n, (frames.length : Int))) ++ tagged frames

/-- The scope holds the bindings of the open scopes `frames`. -/
def Rep (scope : Scope) (frames : List (List String)) : Prop :=
  scope.currentDepth + 1 = frames.length ∧ declChainOpt scope.lastDecl = tagged frames ∧
    LinkedOpt scope.lastDecl ∧ ∀ n, mapGet scope.hashmap n = firstNamedOpt n scope.lastDecl

/-- The map after one turn of the loop of `popScope`: the binding that the
removed one shadowed is back, or the name is gone. -/
def restoreShadowed (m : List (String × Variable)) (name : String) :
    Option Variable → List (String × Variable)
  | some p => mapSet m name p
  | none => mapDelete m name

/-- The calls `declare x`, `pushScope`, `declare x`. -/
def opsTwoX : List ScopeOp :=
  [.declare "x" Ty.Int, .pushScope, .declare "x" Ty.Int]

/-- The scope after the calls `opsTwoX`. -/
def scopeTwoX : Scope :=
  ((InitScope.declare "x" Ty.Int).1.pushScope.declare "x" Ty.Int).1

/-- The expressions that value mode lowers through condition mode and the
three blocks `ifTrue`, `ifFalse`, `exitBlock`: a binary with a relational or
logical symbol and a `not`. -/
def Expr.materialises : Expr → Bool
  | .Binary _ _ symbol _ _ =>
    match symbol with
    | .add => false
    | .sub => false
    | _ => true
  | .Unary _ _ symbol _ =>
    match symbol with
    | .neg => false
    | .not => true
  | _ => false

/-- The value that `5` lowers to in the block `start`. -/
def valueOfFive : ValueResult :=
  valueState ((lit 5).compileValue asmStart 0 InitScope)

/-! ## Blocks are only appended to -/

/-- The builder `b` keeps every block of `a` at its index, under its label and
with its instructions at the front of the instruction list. -/
def Grows (a b : Assembly) : Prop :=
  ∀ (i : Nat) (blk : Block), a.blocks[i]? = some blk →
    ∃ extra, b.blocks[i]? = some (Block.mk blk.label (blk.insts ++ extra))

/-- An operand whose two lowering modes, whatever they return, keep the blocks
they were given. -/
def Operand.Growing (o : Operand) : Prop :=
  (∀ asm cur r, o.compileValue asm cur = some r → Grows asm r.asm) ∧
    ∀ asm cur t f r, o.compileCondition asm cur t f = some r → Grows asm r.asm

/-- A statement whose lowering, whatever it returns, keeps the blocks it was
given. -/
def Lowering.Growing (f : Lowering) : Prop :=
  ∀ asm cur scope errors r, f asm cur scope errors = some r → Grows asm r.asm

/-! ## parser.go -/

/-- The three predicates of Go's package `unicode` that the parser calls.  The
tables behind them are not part of the repository, so the parser takes them
as a parameter. -/
structure Unicode where
  IsSpace : Char → Bool
  IsLetter : Char → Bool
  IsDigit : Char → Bool

/-- Go's `utf8.RuneError`, the rune that `utf8.DecodeRuneInString` returns,
with size 0, at the end of the source. -/
def RuneError : Char := Char.ofNat 0xFFFD

/-- Source `ParseError`. -/
structure ParseError where
  pos : Position
  msg : String
  deriving DecidableEq, Repr

/-- Source `ParseError.String`. -/
def ParseError.String (err : ParseError) : String :=
  err.msg ++ " at " ++ err.pos.String

/-- Source `Length`. -/
def Length (start stop : Position) : Int := stop.index - start.index

/-- Source `Parser`.  The field `source` holds `parser.source[parser.pos.index:]`,
the part of the source text that is still to be read, as its runes; the text is
valid UTF-8.  `pos.index` counts bytes as in the source. -/
structure Parser where
  pos : Position
  source : List Char
  errors : List ParseError
  deriving DecidableEq, Repr

/-- Source `Expr` as the parser builds it.  `Nil` is `Expr{}`, the zero value
with a nil `node`, which the parser returns after an error and may place as
an operand. -/
inductive ParsedExpr where
  | Nil
  | IntLiteral (pos : Position) (length : Int) (value : Int)
  | BoolLiteral (pos : Position) (length : Int) (value : Bool)
  | Input (pos : Position) (length : Int)
  | Ident (pos : Position) (length : Int) (name : String)
  | Binary (pos : Position) (length : Int) (symbol : BinarySymbol) (left right : ParsedExpr)
  | Unary (pos : Position) (length : Int) (symbol : UnarySymbol) (expr : ParsedExpr)
  deriving DecidableEq, Repr

/-- Field `Expr.pos`; the zero value has the zero position. -/
def ParsedExpr.pos : ParsedExpr → Position
  | .Nil => ⟨0, 0, 0⟩
  | .IntLiteral pos _ _ => pos
  | .BoolLiteral pos _ _ => pos
  | .Input pos _ => pos
  | .Ident pos _ _ => pos
  | .Binary pos _ _ _ _ => pos
  | .Unary pos _ _ _ => pos

/-- Source `Statement` as the parser builds it.  `Nil` is `Statement{}`. -/
inductive ParsedStatement where
  | Nil
  | Declare (pos : Position) (length : Int) (name : String) (expr : ParsedExpr) (ty : Ty)
  | Assign (pos : Position) (length : Int) (name : String) (expr : ParsedExpr)
  | BlockScope (pos : Position) (length : Int) (statements : List ParsedStatement)
  | If (pos : Position) (length : Int) (cond : ParsedExpr) (ifTrue ifFalse : ParsedStatement)
  | While (pos : Position) (length : Int) (cond : ParsedExpr) (loop : ParsedStatement)
  | Output (pos : Position) (length : Int) (expr : ParsedExpr)

/-- The test `statement.node == nil`. -/
def ParsedStatement.isNil : ParsedStatement → Bool
  | .Nil => true
  | _ => false

/-- The text of a binary symbol in the source language. -/
def BinarySymbol.text : BinarySymbol → String
  | .add => "+"
  | .sub => "-"
  | .eq => "=="
  | .ne => "!="
  | .gt => ">"
  | .lt => "<"
  | .ge => ">="
  | .le => "<="
  | .and => "and"
  | .or => "or"

/-- The precedence level `SUM`. -/
def SUM : Int := 0

/-- The precedence level `COMPARISON`. -/
def COMPARISON : Int := 1

/-- The precedence level `LOGIC`. -/
def LOGIC : Int := 2

/-- The precedence level `EXPR`. -/
def EXPR : Int := 3

/-- Source `Parser.peek`. -/
def Parser.peek (parser : Parser) : Char :=
  match parser.source with
  | [] => RuneError
  | r :: _ => r

/-- The position after `Parser.next` has read the rune `r`. -/
def Position.advance (pos : Position) (r : Char) : Position :=
  if r = '\n' then ⟨pos.line + 1, 1, pos.index + r.utf8Size⟩
  else ⟨pos.line, pos.column + 1, pos.index + r.utf8Size⟩

/-- Source `Parser.next`.  At the end of the source the rune is `RuneError` with
size 0. -/
def Parser.next (parser : Parser) : Parser :=
  match parser.source with
  | [] => { parser with pos := ⟨parser.pos.line, parser.pos.column + 1, parser.pos.index⟩ }
  | r :: rest => { parser with pos := parser.pos.advance r, source := rest }

/-- Source `Parser.eof`. -/
def Parser.eof (parser : Parser) : Bool := parser.source.isEmpty

/-- Source `Parser.error`. -/
def Parser.error (parser : Parser) (msg : String) : Parser :=
  { parser with errors := parser.errors ++ [⟨parser.pos, msg⟩] }

/-- The loop `for test(parser.peek()) { parser.next() }` from the position `pos`
with `source` still to be read: the position and the source left when the loop
ends, `none` when it does not end, which is when `test` holds of `RuneError` at
the end of the source. -/
def nextWhile (test : Char → Bool) : List Char → Position → Option (Position × List Char)
  | [], pos => if test RuneError then none else some (pos, [])
  | r :: rest, pos =>
    if test r then nextWhile test rest (pos.advance r) else some (pos, r :: rest)

/-- The loop `for test(parser.peek()) { parser.next() }` on a parser. -/
def Parser.nextWhile (parser : Parser) (test : Char → Bool) : Option Parser :=
  match LMCC.nextWhile test parser.source parser.pos with
  | none => none
  | some r => some { parser with pos := r.1, source := r.2 }

/-- Source `Parser.skipSpaces`. -/
def Parser.skipSpaces (u : Unicode) (parser : Parser) : Option Parser :=
  parser.nextWhile u.IsSpace

/-- The slice `parser.source[start.pos.index:stop.pos.index]`, where `stop` was
reached from `start` by reading: the runes read in between. -/
def Parser.slice (start stop : Parser) : List Char :=
  start.source.take (start.source.length - stop.source.length)

/-- Go's `strconv.Atoi` with the error dropped, on a platform whose `int` has 64
bits: the value of a text of ASCII digits, the largest `int` when that value
does not fit, and 0 for any other text. -/
def Atoi (s : List Char) : Int :=
  if s.all Char.isDigit ∧ s ≠ [] then
    min (s.foldl (fun n c => 10 * n + ((c.toNat : Int) - 48)) 0) (2 ^ 63 - 1)
  else 0

/-- Source `Parser.parseInt`. -/
def Parser.parseInt (u : Unicode) (parser : Parser) : Option (ParsedExpr × Bool × Parser) :=
  if !u.IsDigit parser.peek then some (.Nil, false, parser)
  else
    match parser.nextWhile u.IsDigit with
    | none => none
    | some p =>
      some (.IntLiteral parser.pos (Length parser.pos p.pos) (Atoi (parser.slice p)), true, p)

/-- Source `Parser.parseIdent`. -/
def Parser.parseIdent (u : Unicode) (parser : Parser) : Option (String × Bool × Parser) :=
  if !u.IsLetter parser.peek then some ("", false, parser)
  else
    match parser.nextWhile (fun r => u.IsLetter r || u.IsDigit r) with
    | none => none
    | some p => some (String.mk (parser.slice p), true, p)

/-- Source `Parser.parseSymbol`. -/
def Parser.parseSymbol (parser : Parser) (symbol : String) : Bool × Parser :=
  if !symbol.data.isPrefixOf parser.source then (false, parser)
  else
    (true, { parser with
              pos := { parser.pos with index := parser.pos.index + symbol.utf8ByteSize },
              source := parser.source.drop symbol.length })

/-- Source `Parser.parseValue`. -/
def Parser.parseValue (u : Unicode) (parser : Parser) : Option (ParsedExpr × Parser) :=
  match parser.parseInt u with
  | none => none
  | some (literal, ok, p1) =>
    if ok then some (literal, p1)
    else
      match p1.parseIdent u with
      | none => none
      | some (name, ok, p2) =>
        if ok then
          if name = "true" then
            some (.BoolLiteral parser.pos (Length parser.pos p2.pos) true, p2)
          else if name = "false" then
            some (.BoolLiteral parser.pos (Length parser.pos p2.pos) false, p2)
          else if name = "in" then some (.Input parser.pos (Length parser.pos p2.pos), p2)
          else some (.Ident parser.pos (Length parser.pos p2.pos) name, p2)
        else some (.Nil, p2.error "expected a value")

/-- A call of `parseExpr` with a precedence, as `parseInfix` and `parseUnary`
make it. -/
abbrev ExprParser : Type := Int → Parser → Option (ParsedExpr × Parser)

/-- Source `Parser.parseInfix`: the parser, the value left in `*left` and the
result. -/
def Parser.parseInfix (u : Unicode) (parseExpr : ExprParser) (parser : Parser)
    (left : ParsedExpr) (symbol : BinarySymbol) (prec symbolPrec : Int) :
    Option (Bool × ParsedExpr × Parser) :=
  if prec > symbolPrec then
    match parser.parseSymbol symbol.text with
    | (true, p1) =>
      match p1.skipSpaces u with
      | none => none
      | some p2 =>
        match parseExpr symbolPrec p2 with
        | none => none
        | some (right, p3) =>
          some (true, .Binary left.pos (Length left.pos p3.pos) symbol left right, p3)
    | (false, p1) => some (false, left, p1)
  else some (false, left, parser)

/-- Source `Parser.parseUnary`. -/
def Parser.parseUnary (u : Unicode) (parseExpr : ExprParser) (parser : Parser) :
    Option (ParsedExpr × Parser) :=
  match parser.parseSymbol "-" with
  | (true, p1) =>
    match p1.skipSpaces u with
    | none => none
    | some p2 =>
      match parseExpr SUM p2 with
      | none => none
      | some (expr, p3) => some (.Unary parser.pos (Length parser.pos p3.pos) .neg expr, p3)
  | (false, p1) =>
    match p1.parseSymbol "not" with
    | (true, p2) =>
      match p2.skipSpaces u with
      | none => none
      | some p3 =>
        match parseExpr LOGIC p3 with
        | none => none
        | some (expr, p4) => some (.Unary parser.pos (Length parser.pos p4.pos) .not expr, p4)
    | (false, p2) => p2.parseValue u

/-- The symbols that the loop of `parseExpr` tries, in its order, with their
levels. -/
def infixTable : List (BinarySymbol × Int) :=
  [(.add, SUM), (.sub, SUM), (.eq, COMPARISON), (.ne, COMPARISON), (.le, COMPARISON),
   (.ge, COMPARISON), (.lt, COMPARISON), (.gt, COMPARISON), (.and, LOGIC), (.or, LOGIC)]

/-- The chain `parseInfix(...) || parseInfix(...) || ...` of `parseExpr`: the
calls are made in order until one returns true. -/
def Parser.parseInfixes (u : Unicode) (parseExpr : ExprParser) (prec : Int) :
    List (BinarySymbol × Int) → Parser → ParsedExpr → Option (Bool × ParsedExpr × Parser)
  | [], parser, left => some (false, left, parser)
  | (symbol, symbolPrec) :: rest, parser, left =>
    match parser.parseInfix u parseExpr left symbol prec symbolPrec with
    | none => none
    | some (true, l, p) => some (true, l, p)
    | some (false, l, p) => Parser.parseInfixes u parseExpr prec rest p l

/-- The `for` loop of `parseExpr`, with a bound on its turns. -/
def Parser.exprLoop (u : Unicode) (parseExpr : ExprParser) (prec : Int) :
    Nat → Parser → ParsedExpr → Option (ParsedExpr × Parser)
  | 0, _, _ => none
  | turns + 1, parser, left =>
    match parser.skipSpaces u with
    | none => none
    | some p1 =>
      match p1.parseInfixes u parseExpr prec infixTable left with
      | none => none
      | some (true, l, p2) => Parser.exprLoop u parseExpr prec turns p2 l
      | some (false, l, p2) => some (l, p2)

/-- Source `Parser.parseExpr`, with a bound `fuel` on the nesting of its calls
and on the turns of its loop; `none` when the bound is reached or a loop over
runes does not end. -/
def Parser.parseExpr (u : Unicode) : Nat → ExprParser
  | 0, _, _ => none
  | fuel + 1, prec, parser =>
    match parser.parseUnary u (Parser.parseExpr u fuel) with
    | none => none
    | some (left, p) => p.exprLoop u (Parser.parseExpr u fuel) prec (fuel + 1) left

/-- A call of `parseStatement`, as `parseStatements` makes it. -/
abbrev StatementParser : Type := Parser → Option (ParsedStatement × Parser)

/-- The `for` loop of `parseStatements`, with a bound on its turns. -/
def Parser.statementLoop (u : Unicode) (parseStatement : StatementParser) :
    Nat → Parser → List ParsedStatement → Option (List ParsedStatement × Parser)
  | 0, _, _ => none
  | turns + 1, parser, statements =>
    if !parser.eof && !(parser.peek == '}') && !(parser.peek == ')') then
      match parseStatement parser with
      | none => none
      | some (statement, p1) =>
        if statement.isNil then some (statements, p1)
        else
          match p1.skipSpaces u with
          | none => none
          | some p2 =>
            Parser.statementLoop u parseStatement turns p2 (statements ++ [statement])
    else some (statements, parser)

/-- Source `Parser.parseStatements` over a given `parseStatement`, with a bound
on the turns of its loop. -/
def Parser.statementsOf (u : Unicode) (parseStatement : StatementParser) (turns : Nat)
    (parser : Parser) : Option (List ParsedStatement × Parser) :=
  match parser.skipSpaces u with
  | none => none
  | some p => p.statementLoop u parseStatement turns []

/-- The type annotation of a declaration: what `parseStatement` does between
the `:` and the `=`.  The result is `none` when the name is not a type name:
then `parseStatement` returns `Statement{}`. -/
def Parser.parseType (u : Unicode) (parser : Parser) : Option (Option Ty × Parser) :=
  match parser.parseIdent u with
  | none => none
  | some (name, ok, p) =>
    if ok then
      if name = "int" then some (some Ty.Int, p)
      else if name = "bool" then some (some Ty.Bool, p)
      else some (none, p.error "invalid type name")
    else some (some Ty.Undefined, p)

/-- Source `Parser.parseStatement`, with a bound `fuel` on the nesting of its
calls; `parseStatements` is the call of it on the statements of a block. -/
def Parser.parseStatement (u : Unicode) : Nat → StatementParser
  | 0, _ => none
  | fuel + 1, parser =>
    match parser.parseSymbol "if" with
    | (true, p1) =>
      match p1.skipSpaces u with
      | none => none
      | some p2 =>
        match p2.parseExpr u fuel EXPR with
        | none => none
        | some (cond, p3) =>
          match p3.skipSpaces u with
          | none => none
          | some p4 =>
            match Parser.parseStatement u fuel p4 with
            | none => none
            | some (ifTrue, p5) =>
              match p5.skipSpaces u with
              | none => none
              | some p6 =>
                match p6.parseSymbol "else" with
                | (true, p7) =>
                  match p7.skipSpaces u with
                  | none => none
                  | some p8 =>
                    match Parser.parseStatement u fuel p8 with
                    | none => none
                    | some (ifFalse, p9) =>
                      some (.If parser.pos (Length parser.pos p9.pos) cond ifTrue ifFalse, p9)
                | (false, p7) =>
                  some (.If parser.pos (Length parser.pos p7.pos) cond ifTrue .Nil, p7)
    | (false, p1) =>
      match p1.parseSymbol "while" with
      | (true, p2) =>
        match p2.skipSpaces u with
        | none => none
        | some p3 =>
          match p3.parseExpr u fuel EXPR with
          | none => none
          | some (cond, p4) =>
            match p4.skipSpaces u with
            | none => none
            | some p5 =>
              match Parser.parseStatement u fuel p5 with
              | none => none
              | some (loop, p6) =>
                some (.While parser.pos (Length parser.pos p6.pos) cond loop, p6)
      | (false, p2) =>
        match p2.parseSymbol "out" with
        | (true, p3) =>
          match p3.skipSpaces u with
          | none => none
          | some p4 =>
            match p4.parseExpr u fuel EXPR with
            | none => none
            | some (expr, p5) => some (.Output parser.pos (Length parser.pos p5.pos) expr, p5)
        | (false, p3) =>
          match p3.parseSymbol "\x7b" with
          | (true, p4) =>
            match p4.skipSpaces u with
            | none => none
            | some p5 =>
              match p5.statementsOf u (Parser.parseStatement u fuel) (fuel + 1) with
              | none => none
              | some (statements, p6) =>
                match p6.parseSymbol "\x7d" with
                | (true, p7) =>
                  some (.BlockScope parser.pos (Length parser.pos p7.pos) statements, p7)
                | (false, p7) =>
                  some (.BlockScope parser.pos
                    (Length parser.pos (p7.error "expected a '\x7d'").pos) statements,
                    p7.error "expected a '\x7d'")
          | (false, p4) =>
            match p4.parseIdent u with
            | none => none
            | some (name, ok, p5) =>
              match p5.skipSpaces u with
              | none => none
              | some p6 =>
                match (if ok then p6.parseSymbol ":" else (false, p6)) with
                | (true, p7) =>
                  match p7.skipSpaces u with
                  | none => none
                  | some p8 =>
                    match p8.parseType u with
                    | none => none
                    | some (none, p9) => some (.Nil, p9)
                    | some (some ty, p9) =>
                      match p9.skipSpaces u with
                      | none => none
                      | some p10 =>
                        match p10.parseSymbol "=" with
                        | (true, p11) =>
                          match p11.skipSpaces u with
                          | none => none
                          | some p12 =>
                            match p12.parseExpr u fuel EXPR with
                            | none => none
                            | some (expr, p13) =>
                              some (.Declare parser.pos (Length parser.pos p13.pos) name expr
                                ty, p13)
                        | (false, p11) =>
                          some (.Declare parser.pos (Length parser.pos p11.pos) name .Nil ty,
                            p11)
                | (false, p7) =>
                  match (if ok then p7.parseSymbol "=" else (false, p7)) with
                  | (true, p8) =>
                    match p8.skipSpaces u with
                    | none => none
                    | some p9 =>
                      match p9.parseExpr u fuel EXPR with
                      | none => none
                      | some (expr, p10) =>
                        some (.Assign parser.pos (Length parser.pos p10.pos) name expr, p10)
                  | (false, p8) => some (.Nil, p8.error "was expecting a statement")

/-- Source `Parser.parseStatements`, with the bound `fuel`. -/
def Parser.parseStatements (u : Unicode) (fuel : Nat) (parser : Parser) :
    Option (List ParsedStatement × Parser) :=
  parser.statementsOf u (Parser.parseStatement u fuel) (fuel + 1)

/-- Source `Parse`, with the bound `fuel` on the nesting of the calls and on the
turns of the loops: `none` when the bound is reached or a loop over runes does
not end. -/
def Parse (u : Unicode) (fuel : Nat) (source : String) :
    Option (List ParsedStatement × List ParseError) :=
  match Parser.parseStatements u fuel ⟨⟨1, 1, 0⟩, source.data, []⟩ with
  | none => none
  | some (statements, parser) => some (statements, parser.errors)

/-- The tree of an expression without its positions and lengths. -/
def ParsedExpr.shape : ParsedExpr → ParsedExpr
  | .Nil => .Nil
  | .IntLiteral _ _ value => .IntLiteral ⟨0, 0, 0⟩ 0 value
  | .BoolLiteral _ _ value => .BoolLiteral ⟨0, 0, 0⟩ 0 value
  | .Input _ _ => .Input ⟨0, 0, 0⟩ 0
  | .Ident _ _ name => .Ident ⟨0, 0, 0⟩ 0 name
  | .Binary _ _ symbol left right => .Binary ⟨0, 0, 0⟩ 0 symbol left.shape right.shape
  | .Unary _ _ symbol expr => .Unary ⟨0, 0, 0⟩ 0 symbol expr.shape

mutual
/-- The tree of a statement without its positions and lengths. -/
def ParsedStatement.shape : ParsedStatement → ParsedStatement
  | .Nil => .Nil
  | .Declare _ _ name expr ty => .Declare ⟨0, 0, 0⟩ 0 name expr.shape ty
  | .Assign _ _ name expr => .Assign ⟨0, 0, 0⟩ 0 name expr.shape
  | .BlockScope _ _ statements => .BlockScope ⟨0, 0, 0⟩ 0 (shapes statements)
  | .If _ _ cond ifTrue ifFalse => .If ⟨0, 0, 0⟩ 0 cond.shape ifTrue.shape ifFalse.shape
  | .While _ _ cond loop => .While ⟨0, 0, 0⟩ 0 cond.shape loop.shape
  | .Output _ _ expr => .Output ⟨0, 0, 0⟩ 0 expr.shape
/-- The trees of a list of statements without their positions and lengths. -/
def shapes : List ParsedStatement → List ParsedStatement
  | [] => []
  | statement :: rest => statement.shape :: shapes rest
end

/-- The outcome of `Parse` without the positions and lengths of its trees. -/
def parsedShape (r : Option (List ParsedStatement × List ParseError)) :
    Option (List ParsedStatement × List ParseError) :=
  r.map fun p => (shapes p.1, p.2)

/-- The grammar's `ident`: a letter, then letters and digits. -/
def isIdent (u : Unicode) (name : String) : Bool :=
  match name.data with
  | [] => false
  | r :: rest => u.IsLetter r && rest.all fun c => u.IsLetter c || u.IsDigit c

/-- The words that `parseValue` does not read as a variable. -/
def valueWords : List String := ["true", "false", "in"]

/-- A name that an expression can start with and be read as a variable: an
identifier that is not a word of `parseValue` and does not begin with the
letters of the symbol `not`. -/
def plainName (u : Unicode) (name : String) : Bool :=
  isIdent u name && !(valueWords.contains name) && !("not".data.isPrefixOf name.data)

/-- What the theorems on the parser assume of the tables of package `unicode`;
all of it holds of Go's tables: the blank is a space, the ASCII letters are
letters, no letter is a digit, no letter or digit is a space, and the blank,
the signs `+`, `-`, `<` and `RuneError` are neither letters nor digits, the
latter four no spaces either. -/
structure Unicode.Sound (u : Unicode) : Prop where
  blank : u.IsSpace ' ' = true
  ascii : ∀ r : Char, r.isAlpha = true → u.IsLetter r = true
  letter : ∀ r : Char, u.IsLetter r = true → u.IsDigit r = false ∧ u.IsSpace r = false
  digit : ∀ r : Char, u.IsDigit r = true → u.IsSpace r = false
  signs : ∀ r : Char, r ∈ [' ', '+', '-', '<', RuneError] →
    u.IsLetter r = false ∧ u.IsDigit r = false
  marks : ∀ r : Char, r ∈ ['+', '-', '<', RuneError] → u.IsSpace r = false

/-- The tables of package `unicode` restricted to ASCII: the six ASCII spaces,
the ASCII letters and the ASCII digits. -/
def asciiTables : Unicode :=
  ⟨fun r => r = ' ' || r = '\t' || r = '\n' || r = '\r' || r.toNat = 11 || r.toNat = 12,
    fun r => r.isAlpha, fun r => r.isDigit⟩

/-- What `plainName` says of the runes of a name. -/
structure NameRunes (u : Unicode) (r : Char) (rs : List Char) : Prop where
  head : u.IsLetter r = true
  all : ∀ c ∈ r :: rs, (u.IsLetter c || u.IsDigit c) = true
  word : valueWords.contains (String.mk (r :: rs)) = false
  notNot : "not".data.isPrefixOf (r :: rs) = false

/-! ## The cells of the constants among the blocks -/

/-- The number of blocks labelled `c<v>`. -/
def cellCount (v : Int) (asm : Assembly) : Nat :=
  asm.blocks.countP fun b => b.label = "c" ++ toString v

/-- The blocks labelled `c<v>` are as many as the pool says: one when `v` is
recorded, none otherwise. -/
def Tally (v : Int) (asm : Assembly) : Prop :=
  cellCount v asm = if v ∈ asm.constants then 1 else 0

/-- A step from `a` to `b` that keeps the tally of the cells `c<v>`. -/
def Tallies (v : Int) (a b : Assembly) : Prop :=
  Tally v a → Tally v b

/-- An operand whose two lowering modes, whatever they return, keep the tally
of the cells `c<v>`. -/
def Operand.Tallying (v : Int) (o : Operand) : Prop :=
  (∀ asm cur r, o.compileValue asm cur = some r → Tallies v asm r.asm) ∧
    ∀ asm cur t f r, o.compileCondition asm cur t f = some r → Tallies v asm r.asm

/-- A statement whose lowering, whatever it returns, keeps the tally of the
cells `c<v>`. -/
def Lowering.Tallying (v : Int) (f : Lowering) : Prop :=
  ∀ asm cur scope errors r, f asm cur scope errors = some r → Tallies v asm r.asm

mutual
/-- The names that the declarations of a statement declare. -/
def Statement.declared : Statement → List String
  | .Declare _ _ name _ _ => [name]
  | .Assign _ _ _ _ => []
  | .BlockScope _ _ statements => programDeclared statements
  | .If _ _ _ ifTrue none => ifTrue.declared
  | .If _ _ _ ifTrue (some s) => ifTrue.declared ++ s.declared
  | .While _ _ _ loop => loop.declared
  | .Output _ _ _ => []
/-- The names that the declarations of a statement list declare. -/
def programDeclared : List Statement → List String
  | [] => []
  | statement :: rest => statement.declared ++ programDeclared rest
end

/-! ## Theorems -/

/-! ### The block list under `emitInstruction` and `newBlock` -/

theorem emitAt_eq_appendInsts (bs : List Block) (i : Nat) (opcode operand : String) :
    emitAt bs i opcode operand = appendInsts bs i [⟨opcode, operand⟩] := by
  induction bs generalizing i with
  | nil => rfl
  | cons b bs ih =>
    cases i with
    | zero => rfl
    | succ n => simp [emitAt, appendInsts, ih]

theorem appendInsts_appendInsts (bs : List Block) (i : Nat) (xs ys : List Instruction) :
    appendInsts (appendInsts bs i xs) i ys = appendInsts bs i (xs ++ ys) := by
  induction bs generalizing i with
  | nil => rfl
  | cons b bs ih =>
    cases i with
    | zero => simp [appendInsts]
    | succ n => simp [appendInsts, ih]

theorem length_appendInsts (bs : List Block) (i : Nat) (xs : List Instruction) :
    (appendInsts bs i xs).length = bs.length := by
  induction bs generalizing i with
  | nil => rfl
  | cons b bs ih =>
    cases i with
    | zero => simp [appendInsts]
    | succ n => simp [appendInsts, ih]

theorem map_label_appendInsts (bs : List Block) (i : Nat) (xs : List Instruction) :
    (appendInsts bs i xs).map Block.label = bs.map Block.label := by
  induction bs generalizing i with
  | nil => rfl
  | cons b bs ih =>
    cases i with
    | zero => simp [appendInsts]
    | succ n => simp [appendInsts, ih]

theorem getElem?_appendInsts (bs : List Block) (i j : Nat) (xs : List Instruction) :
    (appendInsts bs i xs)[j]? =
      if j = i then (bs[j]?).map (fun b => ⟨b.label, b.insts ++ xs⟩) else bs[j]? := by
  induction bs generalizing i j with
  | nil => simp [appendInsts]
  | cons b bs ih =>
    cases i with
    | zero => cases j <;> simp [appendInsts]
    | succ n => cases j <;> simp [appendInsts, ih]

theorem appendInsts_append_of_lt (bs cs : List Block) (i : Nat) (xs : List Instruction)
    (h : i < bs.length) : appendInsts (bs ++ cs) i xs = appendInsts bs i xs ++ cs := by
  induction bs generalizing i with
  | nil => simp at h
  | cons b bs ih =>
    cases i with
    | zero => simp [appendInsts]
    | succ n =>
      have hn : n < bs.length := by simpa using h
      simp [appendInsts, ih n hn]

theorem appendInsts_append_length (bs cs : List Block) (c : Block) (i : Nat)
    (xs : List Instruction) (h : i = bs.length) :
    appendInsts (bs ++ c :: cs) i xs = bs ++ ⟨c.label, c.insts ++ xs⟩ :: cs := by
  subst h
  induction bs with
  | nil => simp [appendInsts]
  | cons b bs ih => simp [appendInsts, ih]

theorem label_emitInstruction (asm : Assembly) (i j : Nat) (opcode operand : String) :
    (asm.emitInstruction i opcode operand).label j = asm.label j := by
  simp only [Assembly.label, Assembly.emitInstruction, emitAt_eq_appendInsts,
    getElem?_appendInsts]
  split_ifs with h
  · cases asm.blocks[j]? <;> simp
  · rfl

theorem label_popTemp (asm : Assembly) (j : Nat) : asm.popTemp.label j = asm.label j := rfl

theorem label_newUniqueBlock_of_lt (asm : Assembly) (j : Nat) (h : j < asm.blocks.length) :
    asm.newUniqueBlock.1.label j = asm.label j := by
  simp [Assembly.label, Assembly.newUniqueBlock, Assembly.newBlock,
    List.getElem?_append_left h]

theorem label_newUniqueBlock_self (asm : Assembly) (j : Nat) (h : j = asm.blocks.length) :
    asm.newUniqueBlock.1.label j = "b" ++ toString asm.currentBlock := by
  subst h
  simp [Assembly.label, Assembly.newUniqueBlock, Assembly.newBlock]

/-! ### Claims settled by evaluation -/


/-- C1 (spill-temp stack balance), evaluated at `out 1 + 2`: the program is
lowered without error and the builder is left with `currentTemp = -1`, not 0.
The right operand `2` is in the cell `c2`, so `storeToTemp` pushes nothing, and
the deferred `popTemp` still decrements because its test is `!val.acc`. -/
theorem currentTemp_after_out_sum :
    (lowerProgram progOutSum).map (fun r => (r.errors, r.asm.currentTemp)) =
      some ([], -1) := by
  decide!

/-- C2 (label uniqueness), evaluated at `{ x:int } { x:int }` and at
`start : int`: each program is lowered without error; the first gives two
blocks labelled `x`, the second a cell labelled `start` next to the block
`start`. -/
theorem labels_of_sibling_scopes :
    ((lowerProgram progSiblingScopes).map (fun r => r.errors) = some [] ∧
        blockLabels progSiblingScopes = some ["start", "x", "x"] ∧
        ¬ ["start", "x", "x"].Nodup) ∧
      (lowerProgram progStartName).map (fun r => r.errors) = some [] ∧
      blockLabels progStartName = some ["start", "start"] ∧
      ¬ ["start", "start"].Nodup := by
  decide!

/-- C3 (every referenced cell exists), evaluated at `out 1 + 2  out 1 + in`:
the program is lowered without error, the start block stores to and adds from
`temp-1`, and no block is labelled `temp-1`. -/
theorem spill_label_without_cell :
    (lowerProgram progOutSumThenInput).map (fun r => r.errors) = some [] ∧
      (lowerProgram progOutSumThenInput).map (fun r => r.asm.blocks) =
        some [⟨"start", [⟨"LDA", "c1"⟩, ⟨"ADD", "c2"⟩, ⟨"OUT", ""⟩, ⟨"INP", ""⟩,
                ⟨"STA", "temp-1"⟩, ⟨"LDA", "c1"⟩, ⟨"ADD", "temp-1"⟩, ⟨"OUT", ""⟩,
                ⟨"HLT", ""⟩]⟩,
              ⟨"c2", [⟨"DAT", "2"⟩]⟩, ⟨"c1", [⟨"DAT", "1"⟩]⟩] ∧
      "temp-1" ∉ ["start", "c2", "c1"] := by
  decide!

/-- What `getConstant` does by itself: the first call for a value appends the
cell `c<v>` holding `DAT v`, and a call for a value already in the pool changes
nothing; so a second call for the same value creates no block. -/
theorem getConstant_interns (asm : Assembly) (v : Int) :
    (v ∉ asm.constants →
        (asm.getConstant v).1.blocks =
          asm.blocks ++ [⟨"c" ++ toString v, [⟨"DAT", toString v⟩]⟩]) ∧
      (v ∈ asm.constants → (asm.getConstant v).1 = asm) ∧
      (asm.getConstant v).1.getConstant v = ((asm.getConstant v).1, "c" ++ toString v) := by
  refine ⟨fun h => ?_, fun h => ?_, ?_⟩
  · simp [Assembly.getConstant, h, Assembly.createVariable, Assembly.newBlock,
      Assembly.emitInstruction, emitAt_eq_appendInsts, appendInsts_append_length]
  · simp [Assembly.getConstant, h]
  · by_cases h : v ∈ asm.constants
    · simp [Assembly.getConstant, h]
    · simp [Assembly.getConstant, h]

/-- C10 (condition inversion idempotence): in condition mode `not not e` leaves
the same state and result as `e`, for every expression, state and targets. -/
theorem not_not_condition (e : Expr) (asm : Assembly) (block ifTrue ifFalse : Nat)
    (scope : Scope) (pos1 pos2 : Position) (length1 length2 : Int) :
    (Expr.Unary pos1 length1 .not (Expr.Unary pos2 length2 .not e)).compileCondition
        asm block ifTrue ifFalse scope =
      e.compileCondition asm block ifTrue ifFalse scope := by
  simp [Expr.compileCondition, compileUnaryCondition]

/-- C7 (relational lowering table): for identifiers `a`, `b` bound with type
`Int` to the cells `la`, `lb`, condition-mode lowering of `a >= b`, `a < b`,
`a <= b`, `a > b` returns no error, leaves the cursor where it was and appends
to the current block exactly the four instructions of the table; the block
list keeps its length and its labels. (`currentTemp` is one less afterwards.) -/
theorem relational_lowering_table (asm : Assembly) (block ifTrue ifFalse : Nat)
    (scope : Scope) (a b la lb : String) (pos pa pb : Position) (n na nb : Int)
    (ha : scope.get a = (la, Ty.Int, true)) (hb : scope.get b = (lb, Ty.Int, true)) :
    (Expr.Binary pos n .ge (.Ident pa na a) (.Ident pb nb b)).compileCondition asm block
          ifTrue ifFalse scope =
        some ⟨{ asm with
                blocks := appendInsts asm.blocks block
                  [⟨"LDA", la⟩, ⟨"SUB", lb⟩, ⟨"BRP", asm.label ifTrue⟩,
                    ⟨"BRA", asm.label ifFalse⟩],
                currentTemp := asm.currentTemp - 1 }, block, none⟩ ∧
      (Expr.Binary pos n .lt (.Ident pa na a) (.Ident pb nb b)).compileCondition asm block
          ifTrue ifFalse scope =
        some ⟨{ asm with
                blocks := appendInsts asm.blocks block
                  [⟨"LDA", la⟩, ⟨"SUB", lb⟩, ⟨"BRP", asm.label ifFalse⟩,
                    ⟨"BRA", asm.label ifTrue⟩],
                currentTemp := asm.currentTemp - 1 }, block, none⟩ ∧
      (Expr.Binary pos n .le (.Ident pa na a) (.Ident pb nb b)).compileCondition asm block
          ifTrue ifFalse scope =
        some ⟨{ asm with
                blocks := appendInsts asm.blocks block
                  [⟨"LDA", lb⟩, ⟨"SUB", la⟩, ⟨"BRP", asm.label ifTrue⟩,
                    ⟨"BRA", asm.label ifFalse⟩],
                currentTemp := asm.currentTemp - 1 }, block, none⟩ ∧
      (Expr.Binary pos n .gt (.Ident pa na a) (.Ident pb nb b)).compileCondition asm block
          ifTrue ifFalse scope =
        some ⟨{ asm with
                blocks := appendInsts asm.blocks block
                  [⟨"LDA", lb⟩, ⟨"SUB", la⟩, ⟨"BRP", asm.label ifFalse⟩,
                    ⟨"BRA", asm.label ifTrue⟩],
                currentTemp := asm.currentTemp - 1 }, block, none⟩ ∧
      ∀ insts : List Instruction,
        (appendInsts asm.blocks block insts).length = asm.blocks.length ∧
          (appendInsts asm.blocks block insts).map Block.label =
            asm.blocks.map Block.label := by
  refine ⟨?_, ?_, ?_, ?_, fun insts =>
    ⟨length_appendInsts _ _ _, map_label_appendInsts _ _ _⟩⟩ <;>
  · simp [Expr.compileCondition, compileBinaryCondition, compilePostiveBranch,
      compileCompare, compileAndExpect, Expr.compileValue, ha, hb, Expr.pos, storeToTemp,
      loadToAcc, popTemp, label_emitInstruction, label_popTemp]
    simp [Assembly.emitInstruction, emitAt_eq_appendInsts, appendInsts_appendInsts,
      Assembly.popTemp]

/-- Witness of C7: `a >= b` with `a`, `b` of type `Int`, lowered in the block
`start` with the targets `b0` and `b1`. -/
theorem relational_lowering_table_witness :
    scopeIntAB.get "a" = ("a", Ty.Int, true) ∧ scopeIntAB.get "b" = ("b", Ty.Int, true) ∧
      (Expr.Binary pos0 1 .ge (.Ident pos0 1 "a") (.Ident pos0 1 "b")).compileCondition
          asmThree 0 1 2 scopeIntAB =
        some ⟨{ asmThree with
                blocks := appendInsts asmThree.blocks 0
                  [⟨"LDA", "a"⟩, ⟨"SUB", "b"⟩, ⟨"BRP", asmThree.label 1⟩,
                    ⟨"BRA", asmThree.label 2⟩],
                currentTemp := asmThree.currentTemp - 1 }, 0, none⟩ :=
  ⟨by decide, by decide,
    (relational_lowering_table asmThree 0 1 2 scopeIntAB "a" "b" "a" "b" pos0 pos0 pos0 1 1 1
      (by decide) (by decide)).1⟩

/-- C9 (short-circuit wiring): for identifiers `a`, `b` bound with type `Bool`
to the cells `la`, `lb`, and a cursor and targets that point to existing
blocks, condition-mode lowering of `a and b` creates the one block
`N = b<currentBlock>`, appends `LDA la, BRZ ifFalse, BRA N` to the current
block and `LDA lb, BRZ ifFalse, BRA ifTrue` to `N`; `a or b` appends
`LDA la, BRZ N, BRA ifTrue` to the current block and the same three
instructions to `N`.  For arbitrary operands `l`, `r` the left one is lowered
at the cursor with the targets `(N, ifFalse)` resp. `(ifTrue, N)` and the right
one once, starting in `N`, with the targets `(ifTrue, ifFalse)`. -/
theorem short_circuit_wiring (asm : Assembly) (block ifTrue ifFalse : Nat) (scope : Scope)
    (a b la lb : String) (pos pa pb : Position) (n na nb : Int) (l r : Expr)
    (hblock : block < asm.blocks.length) (hTrue : ifTrue < asm.blocks.length)
    (hFalse : ifFalse < asm.blocks.length)
    (ha : scope.get a = (la, Ty.Bool, true)) (hb : scope.get b = (lb, Ty.Bool, true)) :
    (Expr.Binary pos n .and (.Ident pa na a) (.Ident pb nb b)).compileCondition asm block
          ifTrue ifFalse scope =
        some ⟨{ asm with
                blocks := appendInsts asm.blocks block
                    [⟨"LDA", la⟩, ⟨"BRZ", asm.label ifFalse⟩,
                      ⟨"BRA", "b" ++ toString asm.currentBlock⟩] ++
                  [⟨"b" ++ toString asm.currentBlock,
                    [⟨"LDA", lb⟩, ⟨"BRZ", asm.label ifFalse⟩, ⟨"BRA", asm.label ifTrue⟩]⟩],
                currentBlock := asm.currentBlock + 1 }, block, none⟩ ∧
      (Expr.Binary pos n .or (.Ident pa na a) (.Ident pb nb b)).compileCondition asm block
          ifTrue ifFalse scope =
        some ⟨{ asm with
                blocks := appendInsts asm.blocks block
                    [⟨"LDA", la⟩, ⟨"BRZ", "b" ++ toString asm.currentBlock⟩,
                      ⟨"BRA", asm.label ifTrue⟩] ++
                  [⟨"b" ++ toString asm.currentBlock,
                    [⟨"LDA", lb⟩, ⟨"BRZ", asm.label ifFalse⟩, ⟨"BRA", asm.label ifTrue⟩]⟩],
                currentBlock := asm.currentBlock + 1 }, block, none⟩ ∧
      (Expr.Binary pos n .and l r).compileCondition asm block ifTrue ifFalse scope =
        (match l.compileCondition asm.newUniqueBlock.1 block asm.blocks.length ifFalse
            scope with
          | none => none
          | some lr =>
            match lr.err with
            | some err => some ⟨lr.asm, lr.block, some err⟩
            | none =>
              match r.compileCondition lr.asm asm.blocks.length ifTrue ifFalse scope with
              | none => none
              | some rr => some ⟨rr.asm, lr.block, rr.err⟩) ∧
      (Expr.Binary pos n .or l r).compileCondition asm block ifTrue ifFalse scope =
        (match l.compileCondition asm.newUniqueBlock.1 block ifTrue asm.blocks.length
            scope with
          | none => none
          | some lr =>
            match lr.err with
            | some err => some ⟨lr.asm, lr.block, some err⟩
            | none =>
              match r.compileCondition lr.asm asm.blocks.length ifTrue ifFalse scope with
              | none => none
              | some rr => some ⟨rr.asm, lr.block, rr.err⟩) := by
  refine ⟨?_, ?_, rfl, rfl⟩
  all_goals
    simp [Expr.compileCondition, compileBinaryCondition, ha, hb, label_emitInstruction,
      label_newUniqueBlock_of_lt, label_newUniqueBlock_self, hTrue, hFalse]
    simp [Assembly.emitInstruction, emitAt_eq_appendInsts, appendInsts_appendInsts,
      Assembly.newUniqueBlock, Assembly.newBlock, appendInsts_append_of_lt, hblock,
      appendInsts_append_length, length_appendInsts, Assembly.label]

/-- Witness of C9: `a and b` with `a`, `b` of type `Bool`, lowered in the block
`start` with the targets `b0` and `b1`; the new block is `b2`. -/
theorem short_circuit_wiring_witness :
    (Expr.Binary pos0 1 .and (.Ident pos0 1 "a") (.Ident pos0 1 "b")).compileCondition
        asmThree 0 1 2 scopeBoolAB =
      some ⟨{ asmThree with
              blocks := appendInsts asmThree.blocks 0
                  [⟨"LDA", "a"⟩, ⟨"BRZ", asmThree.label 2⟩,
                    ⟨"BRA", "b" ++ toString asmThree.currentBlock⟩] ++
                [⟨"b" ++ toString asmThree.currentBlock,
                  [⟨"LDA", "b"⟩, ⟨"BRZ", asmThree.label 2⟩, ⟨"BRA", asmThree.label 1⟩]⟩],
              currentBlock := asmThree.currentBlock + 1 }, 0, none⟩ :=
  (short_circuit_wiring asmThree 0 1 2 scopeBoolAB "a" "b" "a" "b" pos0 pos0 pos0 1 1 1
    (lit 0) (lit 0) (by decide) (by decide) (by decide) (by decide) (by decide)).1

/-! ### Scope -/

theorem mapGet_mapDelete (m : List (String × Variable)) (k name : String) :
    mapGet (mapDelete m k) name = if name = k then none else mapGet m name := by
  induction m with
  | nil => simp [mapDelete, mapGet]
  | cons e rest ih =>
    obtain ⟨k', v⟩ := e
    by_cases h : k' = k
    · subst h
      simp only [mapDelete, if_true, ih, mapGet]
      by_cases h2 : name = k'
      · simp [h2]
      · have h3 : ¬ k' = name := fun h => h2 h.symm
        simp [h2, h3]
    · simp only [mapDelete, h, if_false, mapGet, ih]
      by_cases h2 : k' = name
      · have h3 : ¬ name = k := by
          intro h4
          exact h (h2.trans h4)
        simp [h2, h3]
      · simp [h2]

theorem mapGet_mapSet (m : List (String × Variable)) (k name : String) (v : Variable) :
    mapGet (mapSet m k v) name = if name = k then some v else mapGet m name := by
  by_cases h : name = k
  · simp [mapSet, mapGet, h]
  · have h' : ¬ k = name := fun e => h e.symm
    simp [mapSet, mapGet, h, h', mapGet_mapDelete]

theorem sameMap_refl (m : List (String × Variable)) : SameMap m m := fun _ => rfl

theorem sameMap_trans {a b c : List (String × Variable)} (h1 : SameMap a b)
    (h2 : SameMap b c) : SameMap a c := fun n => (h1 n).trans (h2 n)

theorem sameResult_refl (r : Option (List (String × Variable) × Option Variable)) :
    SameResult r r := by
  cases r with
  | none => trivial
  | some a => exact ⟨sameMap_refl _, rfl⟩

theorem popLoop_congr (d : Int) :
    ∀ (v : Variable) (m m' : List (String × Variable)), SameMap m m' →
      SameResult (popLoop d v m) (popLoop d v m')
  | .mk name label kind prevName prevDecl depth, m, m', h => by
    unfold popLoop
    by_cases hd : depth > d
    · simp only [hd, if_true]
      rw [← h name]
      cases hg : mapGet m name with
      | none => trivial
      | some var =>
        have hm : SameMap
            (match var.prevName with
              | some p => mapSet m name p
              | none => mapDelete m name)
            (match var.prevName with
              | some p => mapSet m' name p
              | none => mapDelete m' name) := by
          intro n
          cases var.prevName with
          | none => simp only [mapGet_mapDelete, h n]
          | some p => simp only [mapGet_mapSet, h n]
        cases prevDecl with
        | none => exact ⟨hm, rfl⟩
        | some next => exact popLoop_congr d next _ _ hm
    · simp only [hd, if_false]
      exact ⟨h, rfl⟩

theorem popChain_congr (d : Int) (c : Option Variable) (m m' : List (String × Variable))
    (h : SameMap m m') : SameResult (popChain d c m) (popChain d c m') := by
  cases c with
  | none => exact ⟨h, rfl⟩
  | some v => exact popLoop_congr d v m m' h

theorem popLoop_compose (d0 d1 : Int) (hd : d0 ≤ d1) :
    ∀ (v : Variable) (m : List (String × Variable)),
      popLoop d0 v m =
        match popLoop d1 v m with
        | none => none
        | some r => popChain d0 r.2 r.1
  | .mk name label kind prevName prevDecl depth, m => by
    by_cases h1 : depth > d1
    · have h0 : depth > d0 := by omega
      rw [popLoop, popLoop]
      simp only [h1, h0, if_true]
      cases hg : mapGet m name with
      | none => rfl
      | some var =>
        cases prevDecl with
        | none => rfl
        | some next => exact popLoop_compose d0 d1 hd next _
    · conv_rhs => rw [popLoop]
      simp only [h1, if_false]
      rfl

theorem popChain_compose (d0 d1 : Int) (hd : d0 ≤ d1) (c : Option Variable)
    (m : List (String × Variable)) :
    popChain d0 c m =
      match popChain d1 c m with
      | none => none
      | some r => popChain d0 r.2 r.1 := by
  cases c with
  | none => rfl
  | some v => exact popLoop_compose d0 d1 hd v m

theorem popScope_eq_popChain (s : Scope) :
    s.popScope =
      match popChain (s.currentDepth - 1) s.lastDecl s.hashmap with
      | none => none
      | some r => some ⟨r.1, r.2, s.currentDepth - 1⟩ := by
  unfold Scope.popScope popChain
  cases s.lastDecl <;> rfl

theorem popLoop_head (d : Int) :
    ∀ (v : Variable) (m r), popLoop d v m = some r → ∀ w, r.2 = some w → w.depth ≤ d
  | .mk name label kind prevName prevDecl depth, m, r, h, w, hw => by
    rw [popLoop] at h
    by_cases hd : depth > d
    · simp only [hd, if_true] at h
      cases hg : mapGet m name with
      | none => simp [hg] at h
      | some var =>
        simp only [hg] at h
        cases prevDecl with
        | none =>
          simp only [Option.some.injEq] at h
          subst h
          simp at hw
        | some next => exact popLoop_head d next _ r h w hw
    · simp only [hd, if_false, Option.some.injEq] at h
      subst h
      simp only [Option.some.injEq] at hw
      subst hw
      simp only [Variable.depth]
      omega

theorem popChain_of_headOk (s : Scope) (h : HeadOk s) :
    popChain s.currentDepth s.lastDecl s.hashmap = some (s.hashmap, s.lastDecl) := by
  unfold popChain
  cases hl : s.lastDecl with
  | none => rfl
  | some v =>
    have hv := h v hl
    obtain ⟨name, label, kind, prevName, prevDecl, depth⟩ := v
    simp only [Variable.depth] at hv
    have hd : ¬ depth > s.currentDepth := by omega
    simp [popLoop, hd]

theorem headOk_init : HeadOk InitScope := by
  intro v h
  simp [InitScope] at h

theorem headOk_declare (s : Scope) (name : String) (kind : Ty) :
    HeadOk (s.declare name kind).1 := by
  intro v h
  unfold Scope.declare at h ⊢
  cases hg : mapGet s.hashmap name <;>
  · simp only [hg, Option.some.injEq] at h ⊢
    subst h
    simp [Variable.depth]

theorem headOk_pushScope (s : Scope) (h : HeadOk s) : HeadOk s.pushScope := by
  intro v hv
  have := h v hv
  simp only [Scope.pushScope]
  omega

theorem headOk_popScope (s s' : Scope) (h : s.popScope = some s') : HeadOk s' := by
  intro w hw
  unfold Scope.popScope at h
  cases hl : s.lastDecl with
  | none =>
    simp only [hl, Option.some.injEq] at h
    subst h
    simp at hw
  | some v =>
    simp only [hl] at h
    cases hp : popLoop (s.currentDepth - 1) v s.hashmap with
    | none => simp [hp] at h
    | some r =>
      simp only [hp, Option.some.injEq] at h
      subst h
      exact popLoop_head _ v _ r hp w hw

theorem headOk_runOps :
    ∀ (ops : List ScopeOp) (s s' : Scope), HeadOk s → runOps ops s = some s' → HeadOk s'
  | [], s, s', h, hr => by
    simp only [runOps, Option.some.injEq] at hr
    subst hr
    exact h
  | .declare name kind :: rest, s, s', _, hr =>
    headOk_runOps rest _ s' (headOk_declare s name kind) (by simpa [runOps] using hr)
  | .pushScope :: rest, s, s', h, hr =>
    headOk_runOps rest _ s' (headOk_pushScope s h) (by simpa [runOps] using hr)
  | .popScope :: rest, s, s', _, hr => by
    simp only [runOps] at hr
    cases hp : s.popScope with
    | none => simp [hp] at hr
    | some s1 =>
      simp only [hp] at hr
      exact headOk_runOps rest s1 s' (headOk_popScope s s1 hp) hr

theorem runOps_append :
    ∀ (a b : List ScopeOp) (s : Scope),
      runOps (a ++ b) s =
        match runOps a s with
        | none => none
        | some s1 => runOps b s1
  | [], b, s => rfl
  | .declare name kind :: rest, b, s => by
    simpa [runOps] using runOps_append rest b _
  | .pushScope :: rest, b, s => by
    simpa [runOps] using runOps_append rest b _
  | .popScope :: rest, b, s => by
    simp only [List.cons_append, runOps]
    cases s.popScope with
    | none => rfl
    | some s1 => exact runOps_append rest b s1

theorem sameMap_delete_set (m : List (String × Variable)) (name : String) (v : Variable)
    (hg : mapGet m name = none) : SameMap (mapDelete (mapSet m name v) name) m := by
  intro n
  simp only [mapGet_mapDelete, mapGet_mapSet]
  by_cases hn : n = name
  · simp [hn, hg]
  · simp [hn]

theorem sameMap_set_set (m : List (String × Variable)) (name : String) (v prev : Variable)
    (hg : mapGet m name = some prev) : SameMap (mapSet (mapSet m name v) name prev) m := by
  intro n
  simp only [mapGet_mapSet]
  by_cases hn : n = name
  · simp [hn, hg]
  · simp [hn]

/-- A declaration made above the depth `d0` does not change what unwinding to
`d0` leaves. -/
theorem popChain_declare (d0 : Int) (s : Scope) (name : String) (kind : Ty)
    (hd : d0 < s.currentDepth) :
    SameResult
      (popChain d0 (s.declare name kind).1.lastDecl (s.declare name kind).1.hashmap)
      (popChain d0 s.lastDecl s.hashmap) := by
  obtain ⟨m, lastDecl, depth⟩ := s
  simp only at hd
  simp only [Scope.declare, popChain]
  cases hg : mapGet m name with
  | none =>
    simp only [popLoop, gt_iff_lt, hd, if_true, mapGet_mapSet, Variable.prevName]
    cases lastDecl with
    | none => exact ⟨sameMap_delete_set m name _ hg, rfl⟩
    | some next => exact popLoop_congr d0 next _ _ (sameMap_delete_set m name _ hg)
  | some prev =>
    simp only [popLoop, gt_iff_lt, hd, if_true, mapGet_mapSet, Variable.prevName]
    cases lastDecl with
    | none => exact ⟨sameMap_set_set m name _ prev hg, rfl⟩
    | some next => exact popLoop_congr d0 next _ _ (sameMap_set_set m name _ prev hg)

theorem sameResult_some_left {a : Option (List (String × Variable) × Option Variable)}
    {b : List (String × Variable) × Option Variable} (h : SameResult a (some b)) :
    ∃ a', a = some a' ∧ SameMap a'.1 b.1 ∧ a'.2 = b.2 := by
  cases a with
  | none => exact h.elim
  | some a' => exact ⟨a', rfl, h.1, h.2⟩

/-- Calls made inside scopes opened above the depth `d0` do not change what
unwinding to `d0` leaves, and no `popScope` among them panics. -/
theorem runOps_above (d0 : Int) :
    ∀ (body : List ScopeOp) (j j' : Nat) (s : Scope)
      (r0 : List (String × Variable) × Option Variable),
      nesting body j = some j' → s.currentDepth = d0 + 1 + j →
      popChain d0 s.lastDecl s.hashmap = some r0 →
      ∃ s' r', runOps body s = some s' ∧ s'.currentDepth = d0 + 1 + j' ∧
        popChain d0 s'.lastDecl s'.hashmap = some r' ∧ SameMap r'.1 r0.1 ∧ r'.2 = r0.2
  | [], j, j', s, r0, hn, hs, hp => by
    simp only [nesting, Option.some.injEq] at hn
    subst hn
    exact ⟨s, r0, rfl, hs, hp, sameMap_refl _, rfl⟩
  | .declare name kind :: rest, j, j', s, r0, hn, hs, hp => by
    have hd : d0 < s.currentDepth := by omega
    have h1 := popChain_declare d0 s name kind hd
    rw [hp] at h1
    obtain ⟨r1, hr1, hm1, hc1⟩ := sameResult_some_left h1
    have hs1 : (s.declare name kind).1.currentDepth = d0 + 1 + j := by
      simpa [Scope.declare] using hs
    obtain ⟨s', r', hrun, hdep, hpop, hm, hc⟩ :=
      runOps_above d0 rest j j' _ r1 (by simpa [nesting] using hn) hs1 hr1
    exact ⟨s', r', by simpa [runOps] using hrun, hdep, hpop, sameMap_trans hm hm1, hc.trans hc1⟩
  | .pushScope :: rest, j, j', s, r0, hn, hs, hp => by
    have hs1 : s.pushScope.currentDepth = d0 + 1 + ((j + 1 : Nat) : Int) := by
      simp only [Scope.pushScope, hs]
      push_cast
      ring
    obtain ⟨s', r', hrun, hdep, hpop, hm, hc⟩ :=
      runOps_above d0 rest (j + 1) j' s.pushScope r0 (by simpa [nesting] using hn) hs1
        (by simpa [Scope.pushScope] using hp)
    exact ⟨s', r', by simpa [runOps] using hrun, hdep, hpop, hm, hc⟩
  | .popScope :: rest, 0, j', s, r0, hn, hs, hp => by
    simp [nesting] at hn
  | .popScope :: rest, j + 1, j', s, r0, hn, hs, hp => by
    have hle : d0 ≤ s.currentDepth - 1 := by
      rw [hs]
      push_cast
      omega
    have hc := popChain_compose d0 (s.currentDepth - 1) hle s.lastDecl s.hashmap
    rw [hp] at hc
    cases h1 : popChain (s.currentDepth - 1) s.lastDecl s.hashmap with
    | none => simp [h1] at hc
    | some r1 =>
      simp only [h1] at hc
      have hpop : s.popScope = some ⟨r1.1, r1.2, s.currentDepth - 1⟩ := by
        rw [popScope_eq_popChain, h1]
      have hs1 : (⟨r1.1, r1.2, s.currentDepth - 1⟩ : Scope).currentDepth = d0 + 1 + j := by
        simp only [hs]
        push_cast
        ring
      obtain ⟨s', r', hrun, hdep, hpop', hm, hc'⟩ :=
        runOps_above d0 rest j j' ⟨r1.1, r1.2, s.currentDepth - 1⟩ r0
          (by simpa [nesting] using hn) hs1 hc.symm
      exact ⟨s', r', by simp only [runOps, hpop, hrun], hdep, hpop', hm, hc'⟩

/-- C6 (shadowing round trip): from every scope reached from `InitScope` by
`declare`, `pushScope` and `popScope` calls, the calls `pushScope`, then any
sequence of calls in which every `popScope` closes a scope the sequence opened
and none stays open, then `popScope`, end without a panic in a scope where
`get` returns for every name what it returned before and `currentDepth` is
what it was. -/
theorem shadowing_round_trip (before body : List ScopeOp) (scope : Scope)
    (hrun : runOps before InitScope = some scope) (hbody : nesting body 0 = some 0) :
    ∃ after, runOps (ScopeOp.pushScope :: body ++ [ScopeOp.popScope]) scope = some after ∧
      (∀ name, after.get name = scope.get name) ∧
      after.currentDepth = scope.currentDepth := by
  have hok : HeadOk scope := headOk_runOps before InitScope scope headOk_init hrun
  have h0 := popChain_of_headOk scope hok
  obtain ⟨s2, r2, hrun2, hdep2, hpop2, hm2, hc2⟩ :=
    runOps_above scope.currentDepth body 0 0 scope.pushScope (scope.hashmap, scope.lastDecl)
      hbody (by simp [Scope.pushScope]) (by simpa [Scope.pushScope] using h0)
  have hd : s2.currentDepth - 1 = scope.currentDepth := by
    rw [hdep2]
    simp
  have hpop : s2.popScope = some ⟨r2.1, r2.2, scope.currentDepth⟩ := by
    rw [popScope_eq_popChain, hd, hpop2]
  refine ⟨⟨r2.1, r2.2, scope.currentDepth⟩, ?_, ?_, rfl⟩
  · have happ := runOps_append body [ScopeOp.popScope] scope.pushScope
    simp only [hrun2] at happ
    show runOps (body ++ [ScopeOp.popScope]) scope.pushScope = _
    rw [happ]
    simp only [runOps, hpop]
  · intro name
    simp only [Scope.get]
    rw [hm2 name]

/-- Witness of C6: after `x : int` the calls `pushScope`, `x : int`, `pushScope`,
`x : bool`, `popScope`, `popScope` give back the binding of `x`; and in
`{ x:int=1 { x:int=2 out x } out x }` the inner `out` loads `x_` and the outer
one `x`. -/
theorem shadowing_round_trip_witness :
    (∃ after,
      runOps (ScopeOp.pushScope ::
          [ScopeOp.declare "x" Ty.Int, ScopeOp.pushScope, ScopeOp.declare "x" Ty.Bool,
            ScopeOp.popScope] ++ [ScopeOp.popScope])
          (InitScope.declare "x" Ty.Int).1 = some after ∧
        (∀ name, after.get name = (InitScope.declare "x" Ty.Int).1.get name) ∧
        after.currentDepth = (InitScope.declare "x" Ty.Int).1.currentDepth) ∧
      (lowerProgram progShadow).map (fun r => (r.errors, r.asm.blocks.head?)) =
        some ([], some ⟨"start",
          [⟨"LDA", "c1"⟩, ⟨"STA", "x"⟩, ⟨"LDA", "c2"⟩, ⟨"STA", "x_"⟩, ⟨"LDA", "x_"⟩,
            ⟨"OUT", ""⟩, ⟨"LDA", "x"⟩, ⟨"OUT", ""⟩, ⟨"HLT", ""⟩]⟩) :=
  ⟨shadowing_round_trip [ScopeOp.declare "x" Ty.Int]
      [ScopeOp.declare "x" Ty.Int, ScopeOp.pushScope, ScopeOp.declare "x" Ty.Bool,
        ScopeOp.popScope] (InitScope.declare "x" Ty.Int).1 rfl (by decide),
    by decide!⟩

/-! ### Every block ends in a transfer -/

theorem ok_mono {bs : List Block} {p q : Set Nat} (hsub : p ⊆ q) (h : Ok bs p) : Ok bs q :=
  fun i b hb hi => h i b hb (fun hp => hi (hsub hp))

theorem ok_appendInsts {bs : List Block} {p : Set Nat} (j : Nat) (xs : List Instruction)
    (h : Ok bs p) : Ok (appendInsts bs j xs) (insert j p) := by
  intro i b hb hi
  rw [getElem?_appendInsts] at hb
  have hij : i ≠ j := fun e => hi (by simp [e])
  simp only [hij, if_false] at hb
  exact h i b hb (fun hp => hi (Set.mem_insert_of_mem _ hp))

theorem closed_emit_transfer (b : Block) (opcode operand : String)
    (ht : (Instruction.mk opcode operand).isTransfer = true) :
    (Block.mk b.label (b.insts ++ [⟨opcode, operand⟩])).Closed := by
  right
  simp [Block.endsInTransfer, ht]

theorem isTransfer_bra (operand : String) :
    (Instruction.mk "BRA" operand).isTransfer = true := by
  simp [Instruction.isTransfer]

theorem isTransfer_hlt (operand : String) :
    (Instruction.mk "HLT" operand).isTransfer = true := by
  simp [Instruction.isTransfer]

theorem ok_emit_transfer {bs : List Block} {p : Set Nat} (j : Nat) (opcode operand : String)
    (ht : (Instruction.mk opcode operand).isTransfer = true) (h : Ok bs p) :
    Ok (emitAt bs j opcode operand) (p \ {j}) := by
  intro i b hb hi
  rw [emitAt_eq_appendInsts, getElem?_appendInsts] at hb
  by_cases hij : i = j
  · simp only [hij, if_true] at hb
    cases hj : bs[j]? with
    | none => simp [hj] at hb
    | some b0 =>
      simp only [hj, Option.map_some', Option.some.injEq] at hb
      subst hb
      exact closed_emit_transfer b0 opcode operand ht
  · simp only [hij, if_false] at hb
    exact h i b hb (fun hp => hi ⟨hp, by simpa using hij⟩)

theorem ok_emit {asm : Assembly} {p : Set Nat} (j : Nat) (opcode operand : String)
    (h : Ok asm.blocks p) : Ok (asm.emitInstruction j opcode operand).blocks (insert j p) := by
  simp only [Assembly.emitInstruction, emitAt_eq_appendInsts]
  exact ok_appendInsts j _ h

theorem ok_emit_closing {asm : Assembly} {p : Set Nat} (j : Nat) (opcode operand : String)
    (ht : (Instruction.mk opcode operand).isTransfer = true) (h : Ok asm.blocks p) :
    Ok (asm.emitInstruction j opcode operand).blocks (p \ {j}) :=
  ok_emit_transfer j opcode operand ht h

theorem ok_newUniqueBlock {asm : Assembly} {p : Set Nat} (h : Ok asm.blocks p) :
    Ok asm.newUniqueBlock.1.blocks (insert asm.blocks.length p) := by
  intro i b hb hi
  simp only [Assembly.newUniqueBlock, Assembly.newBlock] at hb
  have hne : i ≠ asm.blocks.length := fun e => hi (by simp [e])
  rcases Nat.lt_or_ge i asm.blocks.length with hlt | hge
  · rw [List.getElem?_append_left hlt] at hb
    exact h i b hb (fun hp => hi (Set.mem_insert_of_mem _ hp))
  · have : asm.blocks.length < i := by omega
    rw [List.getElem?_eq_none (by simp; omega)] at hb
    cases hb

theorem ok_createVariable {asm : Assembly} {p : Set Nat} (label : String) (value : Int)
    (h : Ok asm.blocks p) : Ok (asm.createVariable label value).blocks p := by
  intro i b hb hi
  simp only [Assembly.createVariable, Assembly.newBlock, Assembly.emitInstruction,
    emitAt_eq_appendInsts] at hb
  rw [appendInsts_append_length _ _ _ _ _ rfl] at hb
  rcases Nat.lt_or_ge i asm.blocks.length with hlt | hge
  · rw [List.getElem?_append_left hlt] at hb
    exact h i b hb hi
  · rw [List.getElem?_append_right hge] at hb
    cases hk : i - asm.blocks.length with
    | zero =>
      simp only [hk, List.getElem?_cons_zero, Option.some.injEq] at hb
      subst hb
      left
      simp [Block.isData]
    | succ k => simp [hk] at hb

theorem length_emitInstruction (asm : Assembly) (j : Nat) (opcode operand : String) :
    (asm.emitInstruction j opcode operand).blocks.length = asm.blocks.length := by
  simp [Assembly.emitInstruction, emitAt_eq_appendInsts, length_appendInsts]

theorem length_newUniqueBlock (asm : Assembly) :
    asm.newUniqueBlock.1.blocks.length = asm.blocks.length + 1 := by
  simp [Assembly.newUniqueBlock, Assembly.newBlock]

theorem snd_newUniqueBlock (asm : Assembly) : asm.newUniqueBlock.2 = asm.blocks.length := rfl

theorem length_createVariable (asm : Assembly) (label : String) (value : Int) :
    (asm.createVariable label value).blocks.length = asm.blocks.length + 1 := by
  simp [Assembly.createVariable, Assembly.newBlock, length_emitInstruction]

theorem length_getConstant (asm : Assembly) (value : Int) :
    asm.blocks.length ≤ (asm.getConstant value).1.blocks.length := by
  unfold Assembly.getConstant
  split_ifs
  · exact le_refl _
  · simp [length_createVariable]

theorem ok_getConstant {asm : Assembly} {p : Set Nat} (value : Int) (h : Ok asm.blocks p) :
    Ok (asm.getConstant value).1.blocks p := by
  unfold Assembly.getConstant
  split_ifs
  · exact h
  · exact ok_createVariable _ _ h

theorem length_pushTemp (asm : Assembly) :
    asm.blocks.length ≤ asm.pushTemp.1.blocks.length := by
  unfold Assembly.pushTemp
  split_ifs
  · simp [length_createVariable]
  · exact le_refl _

theorem ok_pushTemp {asm : Assembly} {p : Set Nat} (h : Ok asm.blocks p) :
    Ok asm.pushTemp.1.blocks p := by
  unfold Assembly.pushTemp
  split_ifs
  · exact @ok_createVariable { asm with maxTemp := asm.maxTemp + 1 } p _ _ h
  · exact h

theorem length_storeToTemp (val : Value) (asm : Assembly) (block : Nat) :
    asm.blocks.length ≤ (storeToTemp val asm block).1.blocks.length := by
  unfold storeToTemp
  split_ifs
  · simp only [length_emitInstruction]
    exact length_pushTemp asm
  · exact le_refl _

theorem ok_storeToTemp {asm : Assembly} {p : Set Nat} (val : Value) (block : Nat)
    (h : Ok asm.blocks p) : Ok (storeToTemp val asm block).1.blocks (insert block p) := by
  unfold storeToTemp
  split_ifs
  · exact ok_emit _ _ _ (ok_pushTemp h)
  · exact ok_mono (Set.subset_insert _ _) h

theorem length_loadToAcc (val : Value) (asm : Assembly) (block : Nat) :
    (loadToAcc val asm block).blocks.length = asm.blocks.length := by
  unfold loadToAcc
  split_ifs
  · exact length_emitInstruction _ _ _ _
  · rfl

theorem ok_loadToAcc {asm : Assembly} {p : Set Nat} (val : Value) (block : Nat)
    (h : Ok asm.blocks p) : Ok (loadToAcc val asm block).blocks (insert block p) := by
  unfold loadToAcc
  split_ifs
  · exact ok_emit _ _ _ h
  · exact ok_mono (Set.subset_insert _ _) h

theorem blocks_popTemp (val : Value) (asm : Assembly) :
    (popTemp val asm).blocks = asm.blocks := by
  unfold popTemp
  split_ifs <;> rfl

theorem compileAndExpect_post (o : Operand) (ho : o.Sound) (asm : Assembly) (cur : Nat)
    (ty : Ty) (r : ValueResult) (h : compileAndExpect o asm cur ty = some r)
    (herr : r.err = none) : ValuePost asm cur r := by
  unfold compileAndExpect at h
  cases hv : o.compileValue asm cur with
  | none => simp [hv] at h
  | some v =>
    simp only [hv] at h
    cases he : v.err with
    | some e =>
      simp only [he, Option.some.injEq] at h
      subst h
      simp at herr
    | none =>
      simp only [he] at h
      split_ifs at h with hty
      · simp only [Option.some.injEq] at h
        subst h
        simp at herr
      · simp only [Option.some.injEq] at h
        subst h
        exact ho.1 asm cur v hv he

theorem compileAndExpect_ty (o : Operand) (asm : Assembly) (cur : Nat)
    (ty : Ty) (r : ValueResult) (h : compileAndExpect o asm cur ty = some r)
    (herr : r.err = none) : r.val.ty = ty := by
  unfold compileAndExpect at h
  cases hv : o.compileValue asm cur with
  | none => simp [hv] at h
  | some v =>
    simp only [hv] at h
    cases he : v.err with
    | some e =>
      simp only [he, Option.some.injEq] at h
      subst h
      simp at herr
    | none =>
      simp only [he] at h
      split_ifs at h with hty
      · simp only [Option.some.injEq] at h
        subst h
        simp at herr
      · simp only [Option.some.injEq] at h
        subst h
        simpa using hty

/-- The part that `compileArithmetic`, `compileCompare` and the `-` arm of
`Unary.compileValue` share: an operand expected to be `Int` is lowered at the
cursor and kept for later by `storeToTemp`. -/
theorem spill_post (o : Operand) (ho : o.Sound) (asm : Assembly) (cur : Nat)
    (r1 : ValueResult) (h1 : compileAndExpect o asm cur Ty.Int = some r1)
    (he1 : r1.err = none) :
    r1.block = cur ∧
      asm.blocks.length ≤ (storeToTemp r1.val r1.asm r1.block).1.blocks.length ∧
      ∀ pending, Ok asm.blocks pending →
        Ok (storeToTemp r1.val r1.asm r1.block).1.blocks (insert cur pending) := by
  have p1 := compileAndExpect_post o ho asm cur Ty.Int r1 h1 he1
  have hb : r1.block = cur := p1.2.2.1 (compileAndExpect_ty o asm cur Ty.Int r1 h1 he1)
  refine ⟨hb, le_trans p1.1 (length_storeToTemp _ _ _), fun pending hp => ?_⟩
  have k := ok_storeToTemp r1.val r1.block (p1.2.2.2 pending hp)
  rw [hb] at k ⊢
  refine ok_mono ?_ k
  intro i hi
  simp only [Set.mem_insert_iff, Set.mem_diff, Set.mem_singleton_iff] at hi ⊢
  tauto

/-- Both operands of `compileArithmetic` and `compileCompare` lowered, the left
one loaded: the cursor is where it was and only its block may have lost its
final transfer. -/
theorem operands_post (left right : Operand) (hl : left.Sound) (hr : right.Sound)
    (asm : Assembly) (cur : Nat) (r1 r2 : ValueResult)
    (h1 : compileAndExpect right asm cur Ty.Int = some r1) (he1 : r1.err = none)
    (h2 : compileAndExpect left (storeToTemp r1.val r1.asm r1.block).1 r1.block Ty.Int =
      some r2) (he2 : r2.err = none) :
    r2.block = cur ∧
      asm.blocks.length ≤ (loadToAcc r2.val r2.asm r2.block).blocks.length ∧
      ∀ pending, Ok asm.blocks pending →
        Ok (loadToAcc r2.val r2.asm r2.block).blocks (insert cur pending) := by
  obtain ⟨hb1, hlen1, hok1⟩ := spill_post right hr asm cur r1 h1 he1
  have p2 := compileAndExpect_post left hl _ r1.block Ty.Int r2 h2 he2
  have hb2 : r2.block = cur :=
    (p2.2.2.1 (compileAndExpect_ty left _ _ Ty.Int r2 h2 he2)).trans hb1
  refine ⟨hb2, ?_, fun pending hp => ?_⟩
  · rw [length_loadToAcc]
    exact le_trans hlen1 p2.1
  · have k := ok_loadToAcc r2.val r2.block (p2.2.2.2 _ (hok1 pending hp))
    rw [hb1, hb2] at k
    rw [hb2]
    refine ok_mono ?_ k
    intro i hi
    simp only [Set.mem_insert_iff, Set.mem_diff, Set.mem_singleton_iff] at hi ⊢
    tauto

theorem value_post_of_cursor (asm asm' : Assembly) (cur : Nat) (val : Value)
    (hlen : asm.blocks.length ≤ asm'.blocks.length)
    (hok : ∀ pending, Ok asm.blocks pending → Ok asm'.blocks (insert cur pending)) :
    ValuePost asm cur ⟨asm', cur, val, none⟩ := by
  refine ⟨hlen, fun hc => lt_of_lt_of_le hc hlen, fun _ => rfl, fun pending hp => ?_⟩
  refine ok_mono ?_ (hok pending hp)
  intro i hi
  simp only [Set.mem_insert_iff, Set.mem_diff, Set.mem_singleton_iff] at hi ⊢
  tauto

theorem compileArithmetic_post (asm : Assembly) (cur : Nat) (symbol : BinarySymbol)
    (left right : Operand) (hl : left.Sound) (hr : right.Sound) (r : ValueResult)
    (h : compileArithmetic asm cur symbol left right = some r) (herr : r.err = none) :
    ValuePost asm cur r := by
  unfold compileArithmetic at h
  cases h1 : compileAndExpect right asm cur Ty.Int with
  | none => simp [h1] at h
  | some r1 =>
    simp only [h1] at h
    cases he1 : r1.err with
    | some e =>
      simp only [he1, Option.some.injEq] at h
      subst h
      simp at herr
    | none =>
      simp only [he1] at h
      cases h2 : compileAndExpect left (storeToTemp r1.val r1.asm r1.block).1 r1.block
          Ty.Int with
      | none => simp [h2] at h
      | some r2 =>
        simp only [h2] at h
        cases he2 : r2.err with
        | some e =>
          simp only [he2, Option.some.injEq] at h
          subst h
          simp at herr
        | none =>
          simp only [he2, Option.some.injEq] at h
          obtain ⟨hb, hlen, hok⟩ := operands_post left right hl hr asm cur r1 r2 h1 he1 h2 he2
          subst h
          rw [hb] at hlen hok ⊢
          apply value_post_of_cursor
          · rw [blocks_popTemp]
            cases symbol <;> simp only [length_emitInstruction] <;> exact hlen
          · intro pending hp
            rw [blocks_popTemp]
            cases symbol <;>
              first
              | exact ok_mono (by simp) (ok_emit cur _ _ (hok pending hp))
              | exact hok pending hp

/-- After a successful `compileCompare` the cursor is where it was and only its
block may have lost its final transfer. -/
theorem compileCompare_post (left right : Operand) (hl : left.Sound) (hr : right.Sound)
    (asm : Assembly) (cur : Nat) (r : CondResult)
    (h : compileCompare left right asm cur = some r) (herr : r.err = none) :
    r.block = cur ∧ asm.blocks.length ≤ r.asm.blocks.length ∧
      ∀ pending, Ok asm.blocks pending → Ok r.asm.blocks (insert cur pending) := by
  unfold compileCompare at h
  cases h1 : compileAndExpect right asm cur Ty.Int with
  | none => simp [h1] at h
  | some r1 =>
    simp only [h1] at h
    cases he1 : r1.err with
    | some e =>
      simp only [he1, Option.some.injEq] at h
      subst h
      simp at herr
    | none =>
      simp only [he1] at h
      cases h2 : compileAndExpect left (storeToTemp r1.val r1.asm r1.block).1 r1.block
          Ty.Int with
      | none => simp [h2] at h
      | some r2 =>
        simp only [h2] at h
        cases he2 : r2.err with
        | some e =>
          simp only [he2, Option.some.injEq] at h
          subst h
          simp at herr
        | none =>
          simp only [he2, Option.some.injEq] at h
          obtain ⟨hb, hlen, hok⟩ := operands_post left right hl hr asm cur r1 r2 h1 he1 h2 he2
          subst h
          rw [hb] at hlen hok ⊢
          refine ⟨rfl, ?_, fun pending hp => ?_⟩
          · rw [blocks_popTemp, length_emitInstruction]
            exact hlen
          · rw [blocks_popTemp]
            exact ok_mono (by simp) (ok_emit cur _ _ (hok pending hp))

/-- The two branches emitted after `compileCompare`. -/
theorem branch_post (asm : Assembly) (cur : Nat) (c : CondResult) (x y : String)
    (hb : c.block = cur) (hlen : asm.blocks.length ≤ c.asm.blocks.length)
    (hok : ∀ pending, Ok asm.blocks pending → Ok c.asm.blocks (insert cur pending)) :
    CondPost asm cur
      ⟨(c.asm.emitInstruction c.block "BRP" x).emitInstruction c.block "BRA" y, c.block,
        none⟩ := by
  rw [hb]
  refine ⟨?_, rfl, fun pending hp => ?_⟩
  · simpa only [length_emitInstruction] using hlen
  · have k := ok_emit_closing cur "BRA" y (isTransfer_bra y)
      (ok_emit cur "BRP" x (hok pending hp))
    refine ok_mono ?_ k
    intro i hi
    simp only [Set.mem_insert_iff, Set.mem_diff, Set.mem_singleton_iff] at hi ⊢
    tauto

theorem compilePostiveBranch_post (left right : Operand) (hl : left.Sound)
    (hr : right.Sound) (asm : Assembly) (cur t f : Nat) (r : CondResult)
    (h : compilePostiveBranch left right asm cur t f = some r) (herr : r.err = none) :
    CondPost asm cur r := by
  unfold compilePostiveBranch at h
  cases h1 : compileCompare left right asm cur with
  | none => simp [h1] at h
  | some c =>
    simp only [h1] at h
    cases he : c.err with
    | some e =>
      simp only [he, Option.some.injEq] at h
      subst h
      simp at herr
    | none =>
      simp only [he, Option.some.injEq] at h
      obtain ⟨hb, hlen, hok⟩ := compileCompare_post left right hl hr asm cur c h1 he
      subst h
      exact branch_post asm cur c _ _ hb hlen hok

theorem compileZeroBranch_post (left right : Operand) (hl : left.Sound)
    (hr : right.Sound) (asm : Assembly) (cur t f : Nat) (r : CondResult)
    (h : compileZeroBranch left right asm cur t f = some r) (herr : r.err = none) :
    CondPost asm cur r :=
  compilePostiveBranch_post left right hl hr asm cur t f r h herr

/-- The `and` and `or` arms of `compileBinaryCondition`: the left operand at the
cursor, the right operand in the new block. -/
theorem logical_post (left right : Operand) (hl : left.Sound) (hr : right.Sound)
    (asm : Assembly) (cur t1 f1 t2 f2 : Nat) (r : CondResult)
    (h : (match left.compileCondition asm.newUniqueBlock.1 cur t1 f1 with
          | none => none
          | some l =>
            match l.err with
            | some err => some ⟨l.asm, l.block, some err⟩
            | none =>
              match right.compileCondition l.asm asm.newUniqueBlock.2 t2 f2 with
              | none => none
              | some r => some (CondResult.mk r.asm l.block r.err)) = some r)
    (herr : r.err = none) : CondPost asm cur r := by
  cases h1 : left.compileCondition asm.newUniqueBlock.1 cur t1 f1 with
  | none => simp [h1] at h
  | some l =>
    simp only [h1] at h
    cases he : l.err with
    | some e =>
      simp only [he, Option.some.injEq] at h
      subst h
      simp at herr
    | none =>
      simp only [he] at h
      cases h2 : right.compileCondition l.asm asm.newUniqueBlock.2 t2 f2 with
      | none => simp [h2] at h
      | some rr =>
        simp only [h2, Option.some.injEq] at h
        subst h
        simp only at herr
        have p1 := hl.2 _ cur t1 f1 l h1 he
        have p2 := hr.2 _ _ t2 f2 rr h2 herr
        refine ⟨?_, p1.2.1, fun pending hp => ?_⟩
        · have := length_newUniqueBlock asm
          have := p1.1
          have := p2.1
          simp only
          omega
        · have k := p2.2.2 _ (p1.2.2 _ (ok_newUniqueBlock hp))
          refine ok_mono ?_ k
          intro i hi
          simp only [snd_newUniqueBlock, Set.mem_insert_iff, Set.mem_diff,
            Set.mem_singleton_iff] at hi ⊢
          tauto

theorem compileBinaryCondition_post (symbol : BinarySymbol) (left right : Operand)
    (hl : left.Sound) (hr : right.Sound) (asm : Assembly) (cur t f : Nat) (r : CondResult)
    (h : compileBinaryCondition symbol left right asm cur t f = some r)
    (herr : r.err = none) : CondPost asm cur r := by
  cases symbol with
  | add => simp [compileBinaryCondition] at h
  | sub => simp [compileBinaryCondition] at h
  | eq => exact compileZeroBranch_post left right hl hr asm cur t f r h herr
  | ne => exact compileZeroBranch_post left right hl hr asm cur f t r h herr
  | gt => exact compilePostiveBranch_post right left hr hl asm cur f t r h herr
  | lt => exact compilePostiveBranch_post left right hl hr asm cur f t r h herr
  | ge => exact compilePostiveBranch_post left right hl hr asm cur t f r h herr
  | le => exact compilePostiveBranch_post right left hr hl asm cur t f r h herr
  | and => exact logical_post left right hl hr asm cur _ _ _ _ r h herr
  | or => exact logical_post left right hl hr asm cur _ _ _ _ r h herr

theorem compileUnaryCondition_post (symbol : UnarySymbol) (e : Operand) (he : e.Sound)
    (asm : Assembly) (cur t f : Nat) (pos : Position) (r : CondResult)
    (h : compileUnaryCondition symbol e asm cur t f pos = some r) (herr : r.err = none) :
    CondPost asm cur r := by
  cases symbol with
  | neg =>
    simp only [compileUnaryCondition, Option.some.injEq] at h
    subst h
    simp at herr
  | not => exact he.2 asm cur f t r h herr

/-- The three blocks of a materialised boolean: the true and the false block
end in `BRA`, the exit block is left pending. -/
theorem materialise_post (asm : Assembly) :
    (materialise asm).2.2.2 < (materialise asm).1.blocks.length ∧
      asm.blocks.length ≤ (materialise asm).1.blocks.length ∧
      ∀ pending, Ok asm.blocks pending →
        Ok (materialise asm).1.blocks (insert (materialise asm).2.2.2 pending) := by
  unfold materialise
  simp only [snd_newUniqueBlock, length_emitInstruction]
  have h1 := length_newUniqueBlock asm
  have h2 := length_newUniqueBlock asm.newUniqueBlock.1
  have h3 := length_newUniqueBlock asm.newUniqueBlock.1.newUniqueBlock.1
  have h4 := length_getConstant asm.newUniqueBlock.1.newUniqueBlock.1.newUniqueBlock.1 0
  have h5 := length_getConstant
    (((asm.newUniqueBlock.1.newUniqueBlock.1.newUniqueBlock.1.getConstant 0).1.emitInstruction
      asm.newUniqueBlock.1.blocks.length "LDA"
      (asm.newUniqueBlock.1.newUniqueBlock.1.newUniqueBlock.1.getConstant 0).2)) 1
  rw [length_emitInstruction] at h5
  refine ⟨by omega, by omega, fun pending hp => ?_⟩
  refine ok_mono ?_
    (ok_emit_closing _ _ _ (isTransfer_bra _)
      (ok_emit_closing _ _ _ (isTransfer_bra _)
        (ok_emit _ _ _ (ok_getConstant _ (ok_emit _ _ _ (ok_getConstant _
          (ok_newUniqueBlock (ok_newUniqueBlock (ok_newUniqueBlock hp)))))))))
  intro i hi
  simp only [Set.mem_insert_iff, Set.mem_diff, Set.mem_singleton_iff] at hi ⊢
  tauto

theorem materialised_post (asm : Assembly) (cur : Nat) (c : Option CondResult)
    (hc : ∀ r, c = some r → r.err = none → CondPost (materialise asm).1 cur r)
    (r : ValueResult) (h : materialised (materialise asm).2.2.2 c = some r)
    (herr : r.err = none) : ValuePost asm cur r := by
  cases c with
  | none => simp [materialised] at h
  | some cr =>
    simp only [materialised] at h
    cases he : cr.err with
    | some e =>
      simp only [he, Option.some.injEq] at h
      subst h
      simp at herr
    | none =>
      simp only [he, Option.some.injEq] at h
      subst h
      have p := hc cr rfl he
      obtain ⟨hE, hlen, hok⟩ := materialise_post asm
      refine ⟨le_trans hlen p.1, fun _ => lt_of_lt_of_le hE p.1, fun hty => ?_,
        fun pending hp => ?_⟩
      · simp at hty
      · refine ok_mono ?_ (p.2.2 _ (hok pending hp))
        intro i hi
        simp only [Set.mem_insert_iff, Set.mem_diff, Set.mem_singleton_iff] at hi ⊢
        tauto

theorem pending_subset_insert (pending : Set Nat) (cur : Nat) :
    pending ⊆ insert cur (pending \ {cur}) := by
  intro i hi
  simp only [Set.mem_insert_iff, Set.mem_diff, Set.mem_singleton_iff]
  tauto

/-- Every expression, seen as an operand, is sound. -/
theorem operand_sound (scope : Scope) : ∀ e : Expr, (e.operand scope).Sound := by
  intro e
  induction e with
  | IntLiteral pos length value =>
    refine ⟨fun asm cur r h herr => ?_, fun asm cur t f r h herr => ?_⟩
    · simp only [Expr.operand, Expr.compileValue, Option.some.injEq] at h
      subst h
      exact value_post_of_cursor _ _ _ _ (length_getConstant _ _)
        (fun pending hp => ok_mono (Set.subset_insert _ _) (ok_getConstant _ hp))
    · simp only [Expr.operand, Expr.compileCondition, Option.some.injEq] at h
      subst h
      simp at herr
  | BoolLiteral pos length value =>
    refine ⟨fun asm cur r h herr => ?_, fun asm cur t f r h herr => ?_⟩
    · simp only [Expr.operand, Expr.compileValue, Option.some.injEq] at h
      subst h
      exact value_post_of_cursor _ _ _ _ (length_getConstant _ _)
        (fun pending hp => ok_mono (Set.subset_insert _ _) (ok_getConstant _ hp))
    · simp only [Expr.operand, Expr.compileCondition] at h
      split_ifs at h <;>
      · simp only [Option.some.injEq] at h
        subst h
        exact ⟨by simp [length_emitInstruction], rfl,
          fun pending hp => ok_emit_closing cur "BRA" _ (isTransfer_bra _) hp⟩
  | Input pos length =>
    refine ⟨fun asm cur r h herr => ?_, fun asm cur t f r h herr => ?_⟩
    · simp only [Expr.operand, Expr.compileValue, Option.some.injEq] at h
      subst h
      exact value_post_of_cursor _ _ _ _ (by simp [length_emitInstruction])
        (fun pending hp => ok_emit cur _ _ hp)
    · simp only [Expr.operand, Expr.compileCondition, Option.some.injEq] at h
      subst h
      simp at herr
  | Ident pos length name =>
    refine ⟨fun asm cur r h herr => ?_, fun asm cur t f r h herr => ?_⟩
    · simp only [Expr.operand, Expr.compileValue] at h
      split_ifs at h
      · simp only [Option.some.injEq] at h
        subst h
        simp at herr
      · simp only [Option.some.injEq] at h
        subst h
        exact value_post_of_cursor _ _ _ _ (le_refl _)
          (fun pending hp => ok_mono (Set.subset_insert _ _) hp)
    · simp only [Expr.operand, Expr.compileCondition] at h
      split_ifs at h
      · simp only [Option.some.injEq] at h
        subst h
        simp at herr
      · simp only [Option.some.injEq] at h
        subst h
        simp at herr
      · simp only [Option.some.injEq] at h
        subst h
        refine ⟨by simp [length_emitInstruction], rfl, fun pending hp => ?_⟩
        refine ok_mono ?_
          (ok_emit_closing _ _ _ (isTransfer_bra _) (ok_emit _ _ _ (ok_emit _ _ _ hp)))
        intro i hi
        simp only [Set.mem_insert_iff, Set.mem_diff, Set.mem_singleton_iff] at hi ⊢
        tauto
  | Binary pos length symbol left right ihl ihr =>
    refine ⟨fun asm cur r h herr => ?_, fun asm cur t f r h herr => ?_⟩
    · simp only [Expr.operand, Expr.compileValue] at h
      cases symbol with
      | add => exact compileArithmetic_post asm cur _ _ _ ihl ihr r h herr
      | sub => exact compileArithmetic_post asm cur _ _ _ ihl ihr r h herr
      | eq =>
        exact materialised_post asm cur _
          (fun c hc he => compileBinaryCondition_post _ _ _ ihl ihr _ cur _ _ c hc he) r h herr
      | ne =>
        exact materialised_post asm cur _
          (fun c hc he => compileBinaryCondition_post _ _ _ ihl ihr _ cur _ _ c hc he) r h herr
      | gt =>
        exact materialised_post asm cur _
          (fun c hc he => compileBinaryCondition_post _ _ _ ihl ihr _ cur _ _ c hc he) r h herr
      | lt =>
        exact materialised_post asm cur _
          (fun c hc he => compileBinaryCondition_post _ _ _ ihl ihr _ cur _ _ c hc he) r h herr
      | ge =>
        exact materialised_post asm cur _
          (fun c hc he => compileBinaryCondition_post _ _ _ ihl ihr _ cur _ _ c hc he) r h herr
      | le =>
        exact materialised_post asm cur _
          (fun c hc he => compileBinaryCondition_post _ _ _ ihl ihr _ cur _ _ c hc he) r h herr
      | and =>
        exact materialised_post asm cur _
          (fun c hc he => compileBinaryCondition_post _ _ _ ihl ihr _ cur _ _ c hc he) r h herr
      | or =>
        exact materialised_post asm cur _
          (fun c hc he => compileBinaryCondition_post _ _ _ ihl ihr _ cur _ _ c hc he) r h herr
    · simp only [Expr.operand, Expr.compileCondition] at h
      exact compileBinaryCondition_post symbol _ _ ihl ihr asm cur t f r h herr
  | Unary pos length symbol expr ih =>
    refine ⟨fun asm cur r h herr => ?_, fun asm cur t f r h herr => ?_⟩
    · simp only [Expr.operand, Expr.compileValue] at h
      cases symbol with
      | neg =>
        simp only at h
        cases h1 : compileAndExpect (expr.operand scope) asm cur Ty.Int with
        | none =>
          simp only [Expr.operand] at h1
          simp [h1] at h
        | some v =>
          have h1' := h1
          simp only [Expr.operand] at h1'
          simp only [h1'] at h
          cases he : v.err with
          | some e =>
            simp only [he, Option.some.injEq] at h
            subst h
            simp at herr
          | none =>
            simp only [he, Option.some.injEq] at h
            obtain ⟨hb, hlen, hok⟩ := spill_post _ ih asm cur v h1 he
            subst h
            rw [hb] at hlen hok ⊢
            apply value_post_of_cursor
            · rw [blocks_popTemp]
              simp only [length_emitInstruction]
              exact le_trans hlen (length_getConstant _ _)
            · intro pending hp
              rw [blocks_popTemp]
              exact ok_mono (by simp)
                (ok_emit cur _ _ (ok_emit cur _ _ (ok_getConstant 0 (hok pending hp))))
      | not =>
        exact materialised_post asm cur _
          (fun c hc he => compileUnaryCondition_post _ _ ih _ cur _ _ pos c hc he) r h herr
    · simp only [Expr.operand, Expr.compileCondition] at h
      exact compileUnaryCondition_post symbol _ ih asm cur t f pos r h herr

theorem assign_sound (name : String) (expr : Expr) (pos : Position) :
    (Assign.compile name expr pos).Sound := by
  intro asm cur scope errors r h hr
  simp only [Assign.compile] at h
  split_ifs at h with hprs
  · simp only [Option.some.injEq] at h
    subst h
    simp at hr
  · cases h1 : compileAndExpect (expr.operand scope) asm cur (scope.get name).2.1 with
    | none => simp [h1] at h
    | some v =>
      simp only [h1] at h
      cases he : v.err with
      | some e =>
        simp only [he, Option.some.injEq] at h
        subst h
        simp at hr
      | none =>
        simp only [he, Option.some.injEq] at h
        subst h
        have p := compileAndExpect_post _ (operand_sound scope expr) asm cur _ v h1 he
        refine ⟨hr, ?_, ?_, fun pending hp => ?_⟩
        · simp only [length_emitInstruction, length_loadToAcc]
          exact p.1
        · intro hc
          simp only [length_emitInstruction, length_loadToAcc]
          exact p.2.1 hc
        · refine ok_mono ?_ (ok_emit _ _ _ (ok_loadToAcc _ _ (p.2.2.2 pending hp)))
          intro i hi
          simp only [Set.mem_insert_iff, Set.mem_diff, Set.mem_singleton_iff] at hi ⊢
          tauto

theorem output_sound (expr : Expr) : (Output.compile expr).Sound := by
  intro asm cur scope errors r h hr
  simp only [Output.compile] at h
  cases h1 : compileAndExpect (expr.operand scope) asm cur Ty.Int with
  | none => simp [h1] at h
  | some v =>
    simp only [h1] at h
    cases he : v.err with
    | some e =>
      simp only [he, Option.some.injEq] at h
      subst h
      simp at hr
    | none =>
      simp only [he, Option.some.injEq] at h
      subst h
      have p := compileAndExpect_post _ (operand_sound scope expr) asm cur _ v h1 he
      refine ⟨hr, ?_, ?_, fun pending hp => ?_⟩
      · simp only [length_emitInstruction, length_loadToAcc]
        exact p.1
      · intro hc
        simp only [length_emitInstruction, length_loadToAcc]
        exact p.2.1 hc
      · refine ok_mono ?_ (ok_emit _ _ _ (ok_loadToAcc _ _ (p.2.2.2 pending hp)))
        intro i hi
        simp only [Set.mem_insert_iff, Set.mem_diff, Set.mem_singleton_iff] at hi ⊢
        tauto

theorem declare_sound (name : String) (expr : Option Expr) (ty : Ty) (pos : Position) :
    (Declare.compile name expr ty pos).Sound := by
  intro asm cur scope errors r h hr
  cases expr with
  | none =>
    simp only [Declare.compile, Option.some.injEq] at h
    subst h
    refine ⟨hr, ?_, ?_, fun pending hp => ?_⟩
    · simp [length_createVariable]
    · intro hc
      simp only [length_createVariable]
      omega
    · exact ok_mono (pending_subset_insert _ _) (ok_createVariable _ _ hp)
  | some e =>
    simp only [Declare.compile] at h
    cases h1 : e.compileValue asm cur scope with
    | none => simp [h1] at h
    | some v =>
      simp only [h1] at h
      cases he : v.err with
      | some e =>
        simp only [he, Option.some.injEq] at h
        subst h
        simp at hr
      | none =>
        simp only [he] at h
        split_ifs at h with hty
        · simp only [Option.some.injEq] at h
          subst h
          simp at hr
        · simp only [Option.some.injEq] at h
          subst h
          have p := (operand_sound scope e).1 asm cur v h1 he
          refine ⟨hr, ?_, ?_, fun pending hp => ?_⟩
          · simp only [length_emitInstruction, length_loadToAcc, length_createVariable]
            exact le_trans p.1 (Nat.le_succ _)
          · intro hc
            simp only [length_emitInstruction, length_loadToAcc, length_createVariable]
            exact lt_of_lt_of_le (p.2.1 hc) (Nat.le_succ _)
          · refine ok_mono ?_ (ok_emit _ _ _ (ok_loadToAcc _ _
              (ok_createVariable _ _ (p.2.2.2 pending hp))))
            intro i hi
            simp only [Set.mem_insert_iff, Set.mem_diff, Set.mem_singleton_iff] at hi ⊢
            tauto

theorem blockScope_sound (statements : Lowering) (hs : statements.Sound) :
    (BlockScope.compile statements).Sound := by
  intro asm cur scope errors r h hr
  simp only [BlockScope.compile] at h
  cases h1 : statements asm cur scope.pushScope errors with
  | none => simp [h1] at h
  | some r1 =>
    simp only [h1] at h
    cases h2 : r1.scope.popScope with
    | none => simp [h2] at h
    | some sc =>
      simp only [h2, Option.some.injEq] at h
      subst h
      exact hs asm cur _ errors r1 h1 hr

theorem errors_eq_nil_of_length {errors : List CompileError} (h : ¬ errors.length > 0) :
    errors = [] := by
  cases errors with
  | nil => rfl
  | cons e rest => simp at h

theorem while_sound (cond : Expr) (loop : Lowering) (hl : loop.Sound) :
    (While.compile cond loop).Sound := by
  intro asm cur scope errors r h hr
  simp only [While.compile] at h
  cases h1 : cond.compileCondition
      (asm.newUniqueBlock.1.newUniqueBlock.1.newUniqueBlock.1.emitInstruction cur "BRA"
        (asm.newUniqueBlock.1.newUniqueBlock.1.newUniqueBlock.1.label asm.newUniqueBlock.2))
      asm.newUniqueBlock.2 asm.newUniqueBlock.1.newUniqueBlock.2
      asm.newUniqueBlock.1.newUniqueBlock.1.newUniqueBlock.2 scope with
  | none => simp [h1] at h
  | some cr =>
    simp only [h1] at h
    cases he : cr.err with
    | some e =>
      simp only [he, Option.some.injEq] at h
      subst h
      simp at hr
    | none =>
      simp only [he] at h
      cases h2 : loop cr.asm asm.newUniqueBlock.1.newUniqueBlock.2 scope errors with
      | none => simp [h2] at h
      | some r2 =>
        simp only [h2, Option.some.injEq] at h
        subst h
        simp only at hr
        have pc := (operand_sound scope cond).2 _ _ _ _ cr h1 he
        obtain ⟨herrs, hlen2, -, hok2⟩ := hl _ _ _ _ r2 h2 hr
        have l1 := length_newUniqueBlock asm
        have l2 := length_newUniqueBlock asm.newUniqueBlock.1
        have l3 := length_newUniqueBlock asm.newUniqueBlock.1.newUniqueBlock.1
        have l4 := pc.1
        rw [length_emitInstruction] at l4
        refine ⟨herrs, ?_, ?_, fun pending hp => ?_⟩
        · simp only [length_emitInstruction]
          omega
        · intro _
          simp only [length_emitInstruction, snd_newUniqueBlock]
          omega
        · refine ok_mono ?_ (ok_emit_closing _ _ _ (isTransfer_bra _)
            (hok2 _ (pc.2.2 _ (ok_emit_closing cur _ _ (isTransfer_bra _)
              (ok_newUniqueBlock (ok_newUniqueBlock (ok_newUniqueBlock hp)))))))
          intro i hi
          simp only [snd_newUniqueBlock, Set.mem_insert_iff, Set.mem_diff,
            Set.mem_singleton_iff] at hi ⊢
          tauto

theorem if_sound (cond : Expr) (ifTrue : Lowering) (ifFalse : Option Lowering)
    (ht : ifTrue.Sound) (hf : ∀ s2, ifFalse = some s2 → s2.Sound) :
    (If.compile cond ifTrue ifFalse).Sound := by
  intro asm cur scope errors r h hr
  simp only [If.compile] at h
  cases h1 : cond.compileCondition asm.newUniqueBlock.1.newUniqueBlock.1 cur
      asm.newUniqueBlock.2 asm.newUniqueBlock.1.newUniqueBlock.2 scope with
  | none => simp [h1] at h
  | some c =>
    simp only [h1] at h
    cases he : c.err with
    | some e =>
      simp only [he, Option.some.injEq] at h
      subst h
      simp at hr
    | none =>
      simp only [he] at h
      cases h2 : ifTrue c.asm asm.newUniqueBlock.2 scope errors with
      | none => simp [h2] at h
      | some r1 =>
        simp only [h2] at h
        have pc := (operand_sound scope cond).2 _ _ _ _ c h1 he
        have l1 := length_newUniqueBlock asm
        have l2 := length_newUniqueBlock asm.newUniqueBlock.1
        have l3 := pc.1
        split_ifs at h with hlen1
        · simp only [Option.some.injEq] at h
          subst h
          simp only at hr
          rw [hr] at hlen1
          simp at hlen1
        · have hr1 := errors_eq_nil_of_length hlen1
          obtain ⟨herrs, hlen2, hval2, hok2⟩ := ht _ _ _ _ r1 h2 hr1
          cases ifFalse with
          | none =>
            simp only [Option.some.injEq] at h
            subst h
            refine ⟨herrs, ?_, ?_, fun pending hp => ?_⟩
            · simp only [length_emitInstruction]
              omega
            · intro _
              simp only [length_emitInstruction, snd_newUniqueBlock]
              omega
            · refine ok_mono ?_ (ok_emit_closing _ _ _ (isTransfer_bra _)
                (hok2 _ (pc.2.2 _ (ok_newUniqueBlock (ok_newUniqueBlock hp)))))
              intro i hi
              simp only [snd_newUniqueBlock, Set.mem_insert_iff, Set.mem_diff,
                Set.mem_singleton_iff] at hi ⊢
              tauto
          | some s2 =>
            simp only at h
            cases h3 : s2 r1.asm.newUniqueBlock.1 asm.newUniqueBlock.1.newUniqueBlock.2
                r1.scope r1.errors with
            | none => simp [h3] at h
            | some r2 =>
              simp only [h3] at h
              split_ifs at h with hlen3
              · simp only [Option.some.injEq] at h
                subst h
                simp only at hr
                rw [hr] at hlen3
                simp at hlen3
              · have hr2 := errors_eq_nil_of_length hlen3
                obtain ⟨-, hlen4, -, hok4⟩ := hf s2 rfl _ _ _ _ r2 h3 hr2
                have l5 := length_newUniqueBlock r1.asm
                simp only [Option.some.injEq] at h
                subst h
                refine ⟨herrs, ?_, ?_, fun pending hp => ?_⟩
                · simp only [length_emitInstruction]
                  omega
                · intro _
                  simp only [length_emitInstruction, snd_newUniqueBlock]
                  omega
                · refine ok_mono ?_ (ok_emit_closing _ _ _ (isTransfer_bra _)
                    (ok_emit_closing _ _ _ (isTransfer_bra _)
                      (hok4 _ (ok_newUniqueBlock (hok2 _ (pc.2.2 _
                        (ok_newUniqueBlock (ok_newUniqueBlock hp))))))))
                  intro i hi
                  simp only [snd_newUniqueBlock, Set.mem_insert_iff, Set.mem_diff,
                    Set.mem_singleton_iff] at hi ⊢
                  tauto

mutual
theorem statement_sound : ∀ s : Statement, s.compile.Sound
  | .Declare pos _ name expr ty => by
    simp only [Statement.compile]
    exact declare_sound name expr ty pos
  | .Assign pos _ name expr => by
    simp only [Statement.compile]
    exact assign_sound name expr pos
  | .BlockScope _ _ statements => by
    simp only [Statement.compile]
    exact blockScope_sound _ (statements_sound statements)
  | .If _ _ cond ifTrue none => by
    show (If.compile cond ifTrue.compile none).Sound
    exact if_sound cond _ _ (statement_sound ifTrue) (fun s2 hs2 => by simp at hs2)
  | .If _ _ cond ifTrue (some s) => by
    show (If.compile cond ifTrue.compile (some s.compile)).Sound
    refine if_sound cond _ _ (statement_sound ifTrue) ?_
    intro s2 hs2
    simp only [Option.some.injEq] at hs2
    subst hs2
    exact statement_sound s
  | .While _ _ cond loop => by
    simp only [Statement.compile]
    exact while_sound cond _ (statement_sound loop)
  | .Output _ _ expr => by
    simp only [Statement.compile]
    exact output_sound expr
theorem statements_sound : ∀ ss : List Statement, (compileStatements ss).Sound
  | [] => by
    intro asm cur scope errors r h hr
    simp only [compileStatements, Option.some.injEq] at h
    subst h
    exact ⟨hr, le_refl _, fun hc => hc,
      fun pending hp => ok_mono (pending_subset_insert _ _) hp⟩
  | s :: rest => by
    intro asm cur scope errors r h hr
    simp only [compileStatements] at h
    cases h1 : s.compile asm cur scope errors with
    | none => simp [h1] at h
    | some r1 =>
      simp only [h1] at h
      obtain ⟨he2, hlen2, hval2, hok2⟩ := statements_sound rest _ _ _ _ r h hr
      obtain ⟨he1, hlen1, hval1, hok1⟩ := statement_sound s _ _ _ _ r1 h1 he2
      refine ⟨he1, le_trans hlen1 hlen2, fun hc => hval2 (hval1 hc), fun pending hp => ?_⟩
      refine ok_mono ?_ (hok2 _ (hok1 pending hp))
      intro i hi
      simp only [Set.mem_insert_iff, Set.mem_diff, Set.mem_singleton_iff] at hi ⊢
      tauto
end

theorem transfer_of_endsInTransfer (b : Block) (h : b.endsInTransfer = true) :
    ∃ inst, b.insts.getLast? = some inst ∧ inst.opcode ∈ ["BRA", "BRZ", "BRP", "HLT"] := by
  unfold Block.endsInTransfer at h
  cases hl : b.insts.getLast? with
  | none => simp [hl] at h
  | some inst =>
    simp only [hl, Instruction.isTransfer, Bool.or_eq_true, beq_iff_eq] at h
    refine ⟨inst, rfl, ?_⟩
    simp only [List.mem_cons, List.mem_singleton, List.not_mem_nil, or_false]
    tauto

/-! ### The builder only grows -/

theorem evolves_refl (a : Assembly) : Evolves a a :=
  ⟨fun i blk h => ⟨[], by simpa using h⟩, fun _ h => h, fun _ _ h _ => h, fun _ h => h,
    fun h => h, fun h => h⟩

theorem evolves_trans {a b c : Assembly} (h1 : Evolves a b) (h2 : Evolves b c) :
    Evolves a c := by
  refine ⟨fun i blk h => ?_, fun i h => h2.2.1 i (h1.2.1 i h), fun i blk h hd => ?_,
    fun v h => h2.2.2.2.1 v (h1.2.2.2.1 v h), fun h => h2.2.2.2.2.1 (h1.2.2.2.2.1 h),
    fun h => h2.2.2.2.2.2 (h1.2.2.2.2.2 h)⟩
  · obtain ⟨e1, he1⟩ := h1.1 i blk h
    obtain ⟨e2, he2⟩ := h2.1 i _ he1
    exact ⟨e1 ++ e2, by simpa using he2⟩
  · exact h2.2.2.1 i blk (h1.2.2.1 i blk h hd) hd

theorem noDat_append (b : Block) (opcode operand : String) (h : b.NoDat)
    (hop : opcode ≠ "DAT") : (Block.mk b.label (b.insts ++ [⟨opcode, operand⟩])).NoDat := by
  intro inst hi
  simp only [List.mem_append, List.mem_singleton] at hi
  rcases hi with hi | hi
  · exact h inst hi
  · subst hi
    exact hop

theorem evolves_emit (a : Assembly) (j : Nat) (opcode operand : String) (hj : CodeAt a j)
    (hop : opcode ≠ "DAT") : Evolves a (a.emitInstruction j opcode operand) := by
  have hget : ∀ i, (a.emitInstruction j opcode operand).blocks[i]? =
      if i = j then (a.blocks[i]?).map (fun b => ⟨b.label, b.insts ++ [⟨opcode, operand⟩]⟩)
      else a.blocks[i]? := by
    intro i
    simp only [Assembly.emitInstruction, emitAt_eq_appendInsts, getElem?_appendInsts]
  have hcells : ∀ (i : Nat) (blk : Block), a.blocks[i]? = some blk → ¬ blk.NoDat →
      (a.emitInstruction j opcode operand).blocks[i]? = some blk := by
    intro i blk h hd
    rw [hget]
    by_cases hij : i = j
    · subst hij
      obtain ⟨b, hb, hn⟩ := hj
      rw [h] at hb
      cases hb
      exact absurd hn hd
    · simp [hij, h]
  refine ⟨fun i blk h => ?_, fun i hi => ?_, hcells, fun v h => h, fun hp => ⟨hp.1, ?_⟩,
    fun hs blk hblk => ?_⟩
  rotate_left 3
  · obtain ⟨i, hi⟩ := List.mem_iff_getElem?.mp hblk
    rw [hget] at hi
    by_cases hij : i = j
    · subst hij
      obtain ⟨b, hb, hn⟩ := hj
      simp only [if_true, hb, Option.map_some', Option.some.injEq] at hi
      subst hi
      exact Or.inr (noDat_append b opcode operand hn hop)
    · simp only [hij, if_false] at hi
      exact hs blk (List.mem_iff_getElem?.mpr ⟨i, hi⟩)
  · rw [hget]
    by_cases hij : i = j
    · subst hij
      exact ⟨[⟨opcode, operand⟩], by simp [h]⟩
    · exact ⟨[], by simp [hij, h]⟩
  · obtain ⟨b, hb, hn⟩ := hi
    by_cases hij : i = j
    · subst hij
      exact ⟨⟨b.label, b.insts ++ [⟨opcode, operand⟩]⟩, by rw [hget]; simp [hb],
        noDat_append b opcode operand hn hop⟩
    · exact ⟨b, by rw [hget]; simp [hij, hb], hn⟩
  · intro v hv
    obtain ⟨i, hi⟩ := List.mem_iff_getElem?.mp (hp.2 v hv)
    refine List.mem_iff_getElem?.mpr ⟨i, hcells i _ hi ?_⟩
    intro hn
    exact hn ⟨"DAT", toString v⟩ (by simp [constantCell]) rfl

/-- A builder that differs from `a` by blocks appended at the end and by its
counters, with the same constants, comes from `a`. -/
theorem evolves_append (a b : Assembly) (extra : List Block)
    (hb : b.blocks = a.blocks ++ extra) (hc : b.constants = a.constants)
    (hx : ∀ x ∈ extra, x.isData = true ∨ x.NoDat) : Evolves a b := by
  have hget : ∀ (i : Nat) (blk : Block), a.blocks[i]? = some blk →
      b.blocks[i]? = some blk := by
    intro i blk h
    have hlt : i < a.blocks.length := (List.getElem?_eq_some.mp h).1
    rw [hb, List.getElem?_append_left hlt]
    exact h
  refine ⟨fun i blk h => ⟨[], by simpa using hget i blk h⟩,
    fun i ⟨blk, h, hn⟩ => ⟨blk, hget i blk h, hn⟩, fun i blk h _ => hget i blk h,
    fun v h => hc ▸ h, fun hp => ⟨hc ▸ hp.1, fun v hv => ?_⟩, fun hs blk hblk => ?_⟩
  · rw [hb]
    exact List.mem_append_left _ (hp.2 v (hc ▸ hv))
  · rw [hb] at hblk
    rcases List.mem_append.mp hblk with hblk | hblk
    · exact hs blk hblk
    · exact hx blk hblk

theorem blocks_createVariable (a : Assembly) (label : String) (value : Int) :
    (a.createVariable label value).blocks =
      a.blocks ++ [⟨label, [⟨"DAT", toString value⟩]⟩] := by
  simp [Assembly.createVariable, Assembly.newBlock, Assembly.emitInstruction,
    emitAt_eq_appendInsts, appendInsts_append_length]

theorem sorted_cell (label value : String) (x : Block)
    (hx : x ∈ [Block.mk label [⟨"DAT", value⟩]]) : x.isData = true ∨ x.NoDat := by
  simp only [List.mem_singleton] at hx
  subst hx
  left
  simp [Block.isData]

theorem evolves_newUniqueBlock (a : Assembly) : Evolves a a.newUniqueBlock.1 :=
  evolves_append a _ [⟨"b" ++ toString a.currentBlock, []⟩] rfl rfl (fun x hx => by
    simp only [List.mem_singleton] at hx
    subst hx
    right
    intro inst hi
    simp at hi)

theorem evolves_createVariable (a : Assembly) (label : String) (value : Int) :
    Evolves a (a.createVariable label value) :=
  evolves_append a _ _ (blocks_createVariable a label value) rfl (sorted_cell _ _)

theorem evolves_getConstant (a : Assembly) (v : Int) : Evolves a (a.getConstant v).1 := by
  unfold Assembly.getConstant
  split_ifs with h
  · exact evolves_refl a
  · have hb : ({ a.createVariable ("c" ++ toString v) v with
        constants := v :: (a.createVariable ("c" ++ toString v) v).constants } :
          Assembly).blocks = a.blocks ++ [constantCell v] :=
      blocks_createVariable a _ v
    have hget : ∀ (i : Nat) (blk : Block), a.blocks[i]? = some blk →
        (a.blocks ++ [constantCell v])[i]? = some blk := by
      intro i blk h
      have hlt : i < a.blocks.length := (List.getElem?_eq_some.mp h).1
      rw [List.getElem?_append_left hlt]
      exact h
    refine ⟨fun i blk h => ⟨[], ?_⟩, fun i ⟨blk, h, hn⟩ => ⟨blk, ?_, hn⟩,
      fun i blk h _ => ?_, fun x hx => List.mem_cons_of_mem _ hx, fun hp => ⟨?_, ?_⟩,
      fun hs blk hblk => ?_⟩
    rotate_left 5
    · rw [hb] at hblk
      rcases List.mem_append.mp hblk with hblk | hblk
      · exact hs blk hblk
      · exact sorted_cell _ _ blk hblk
    · rw [hb]
      simpa using hget i blk h
    · rw [hb]
      exact hget i blk h
    · rw [hb]
      exact hget i blk h
    · exact List.nodup_cons.mpr ⟨h, hp.1⟩
    · intro x hx
      rw [hb]
      rcases List.mem_cons.mp hx with hx | hx
      · subst hx
        simp
      · exact List.mem_append_left _ (hp.2 x hx)

theorem evolves_pushTemp (a : Assembly) : Evolves a a.pushTemp.1 := by
  unfold Assembly.pushTemp
  split_ifs
  · exact evolves_append a _ _ (blocks_createVariable _ _ _) rfl (sorted_cell _ _)
  · exact evolves_append a _ [] (by simp) rfl (fun x hx => by simp at hx)

theorem evolves_popTemp (val : Value) (a : Assembly) : Evolves a (popTemp val a) := by
  unfold popTemp
  split_ifs
  · exact evolves_append a _ [] (by simp [Assembly.popTemp]) rfl (fun x hx => by simp at hx)
  · exact evolves_refl a

theorem evolves_storeToTemp (val : Value) (a : Assembly) (j : Nat) (hj : CodeAt a j) :
    Evolves a (storeToTemp val a j).1 := by
  unfold storeToTemp
  split_ifs
  · exact evolves_trans (evolves_pushTemp a)
      (evolves_emit _ j _ _ ((evolves_pushTemp a).2.1 j hj) (by decide))
  · exact evolves_refl a

theorem evolves_loadToAcc (val : Value) (a : Assembly) (j : Nat) (hj : CodeAt a j) :
    Evolves a (loadToAcc val a j) := by
  unfold loadToAcc
  split_ifs
  · exact evolves_emit a j _ _ hj (by decide)
  · exact evolves_refl a

theorem codeAt_newUniqueBlock (a : Assembly) : CodeAt a.newUniqueBlock.1 a.newUniqueBlock.2 := by
  refine ⟨⟨"b" ++ toString a.currentBlock, []⟩, ?_, ?_⟩
  · simp [Assembly.newUniqueBlock, Assembly.newBlock]
  · intro inst hi
    simp at hi

theorem codeAt_emit_iff (a : Assembly) (i j : Nat) (opcode operand : String)
    (hop : opcode ≠ "DAT") :
    CodeAt (a.emitInstruction j opcode operand) i ↔ CodeAt a i := by
  constructor
  · rintro ⟨b, hb, hn⟩
    simp only [Assembly.emitInstruction, emitAt_eq_appendInsts, getElem?_appendInsts] at hb
    by_cases hij : i = j
    · simp only [hij, if_true] at hb
      cases h0 : a.blocks[j]? with
      | none => simp [h0] at hb
      | some b0 =>
        simp only [h0, Option.map_some', Option.some.injEq] at hb
        subst hb
        refine ⟨b0, hij ▸ h0, fun inst hi => hn inst ?_⟩
        simp [hi]
    · simp only [hij, if_false] at hb
      exact ⟨b, hb, hn⟩
  · intro h
    by_cases hij : i = j
    · subst hij
      exact (evolves_emit a i opcode operand h hop).2.1 i h
    · obtain ⟨b, hb, hn⟩ := h
      refine ⟨b, ?_, hn⟩
      simp [Assembly.emitInstruction, emitAt_eq_appendInsts, getElem?_appendInsts, hij, hb]

theorem codeAt_append_iff (a b : Assembly) (extra : List Block)
    (hb : b.blocks = a.blocks ++ extra) (hx : ∀ x ∈ extra, ¬ x.NoDat) (i : Nat) :
    CodeAt b i ↔ CodeAt a i := by
  constructor
  · rintro ⟨blk, h, hn⟩
    rw [hb] at h
    rcases Nat.lt_or_ge i a.blocks.length with hlt | hge
    · rw [List.getElem?_append_left hlt] at h
      exact ⟨blk, h, hn⟩
    · rw [List.getElem?_append_right hge] at h
      exact absurd hn (hx blk (List.mem_iff_getElem?.mpr ⟨_, h⟩))
  · rintro ⟨blk, h, hn⟩
    have hlt : i < a.blocks.length := (List.getElem?_eq_some.mp h).1
    exact ⟨blk, by rw [hb, List.getElem?_append_left hlt]; exact h, hn⟩

theorem not_noDat_cell (label value : String) : ¬ (Block.mk label [⟨"DAT", value⟩]).NoDat :=
  fun h => h ⟨"DAT", value⟩ (by simp) rfl

theorem codeAt_createVariable_iff (a : Assembly) (label : String) (value : Int) (i : Nat) :
    CodeAt (a.createVariable label value) i ↔ CodeAt a i :=
  codeAt_append_iff a _ _ (blocks_createVariable a label value)
    (fun x hx => by
      simp only [List.mem_singleton] at hx
      subst hx
      exact not_noDat_cell _ _) i

theorem codeAt_getConstant_iff (a : Assembly) (v : Int) (i : Nat) :
    CodeAt (a.getConstant v).1 i ↔ CodeAt a i := by
  unfold Assembly.getConstant
  split_ifs
  · exact Iff.rfl
  · exact codeAt_createVariable_iff a _ v i

theorem codeAt_pushTemp_iff (a : Assembly) (i : Nat) : CodeAt a.pushTemp.1 i ↔ CodeAt a i := by
  unfold Assembly.pushTemp
  split_ifs
  · exact codeAt_createVariable_iff { a with maxTemp := a.maxTemp + 1 } _ 0 i
  · exact Iff.rfl

theorem codeAt_popTemp_iff (val : Value) (a : Assembly) (i : Nat) :
    CodeAt (popTemp val a) i ↔ CodeAt a i := by
  unfold popTemp
  split_ifs <;> exact Iff.rfl

theorem codeAt_storeToTemp_iff (val : Value) (a : Assembly) (j i : Nat) :
    CodeAt (storeToTemp val a j).1 i ↔ CodeAt a i := by
  unfold storeToTemp
  split_ifs
  · rw [codeAt_emit_iff _ _ _ _ _ (by decide), codeAt_pushTemp_iff]
  · exact Iff.rfl

theorem codeAt_loadToAcc_iff (val : Value) (a : Assembly) (j i : Nat) :
    CodeAt (loadToAcc val a j) i ↔ CodeAt a i := by
  unfold loadToAcc
  split_ifs
  · rw [codeAt_emit_iff _ _ _ _ _ (by decide)]
  · exact Iff.rfl

theorem codeAt_newUniqueBlock_iff (a : Assembly) (i : Nat) :
    CodeAt a.newUniqueBlock.1 i ↔ CodeAt a i ∨ i = a.blocks.length := by
  constructor
  · rintro ⟨blk, h, hn⟩
    simp only [Assembly.newUniqueBlock, Assembly.newBlock] at h
    rcases Nat.lt_or_ge i a.blocks.length with hlt | hge
    · rw [List.getElem?_append_left hlt] at h
      exact Or.inl ⟨blk, h, hn⟩
    · right
      have := (List.getElem?_eq_some.mp h).1
      simp at this
      omega
  · rintro (h | h)
    · exact (evolves_newUniqueBlock a).2.1 i h
    · subst h
      exact codeAt_newUniqueBlock a

theorem run_compileAndExpect (o : Operand) (ho : o.Evolving) (asm : Assembly) (cur : Nat)
    (ty : Ty) (r : ValueResult) (h : compileAndExpect o asm cur ty = some r)
    (hc : CodeAt asm cur) : Run asm r.asm r.block := by
  unfold compileAndExpect at h
  cases hv : o.compileValue asm cur with
  | none => simp [hv] at h
  | some v =>
    have p := ho.1 asm cur v hv hc
    simp only [hv] at h
    cases he : v.err with
    | some e =>
      simp only [he, Option.some.injEq] at h
      subst h
      exact p
    | none =>
      simp only [he] at h
      split_ifs at h with hty <;>
      · simp only [Option.some.injEq] at h
        subst h
        exact p

/-- Both operands of `compileArithmetic` and `compileCompare` lowered and the
left one loaded: the builder has only grown and the cursor is on code. -/
theorem run_operands (left right : Operand) (hl : left.Evolving) (hr : right.Evolving)
    (asm : Assembly) (cur : Nat) (r1 : ValueResult)
    (h1 : compileAndExpect right asm cur Ty.Int = some r1) (hc : CodeAt asm cur) :
    Run asm (storeToTemp r1.val r1.asm r1.block).1 r1.block ∧
      ∀ r2, compileAndExpect left (storeToTemp r1.val r1.asm r1.block).1 r1.block Ty.Int =
          some r2 →
        Run asm r2.asm r2.block ∧ Run asm (loadToAcc r2.val r2.asm r2.block) r2.block := by
  have p1 := run_compileAndExpect right hr asm cur Ty.Int r1 h1 hc
  have p2 : Run asm (storeToTemp r1.val r1.asm r1.block).1 r1.block :=
    ⟨evolves_trans p1.1 (evolves_storeToTemp _ _ _ p1.2),
      (codeAt_storeToTemp_iff _ _ _ _).mpr p1.2⟩
  refine ⟨p2, fun r2 h2 => ?_⟩
  have p3 := run_compileAndExpect left hl _ _ Ty.Int r2 h2 p2.2
  exact ⟨⟨evolves_trans p2.1 p3.1, p3.2⟩,
    ⟨evolves_trans p2.1 (evolves_trans p3.1 (evolves_loadToAcc _ _ _ p3.2)),
      (codeAt_loadToAcc_iff _ _ _ _).mpr p3.2⟩⟩

theorem run_emit {a b : Assembly} {cur : Nat} (h : Run a b cur) (opcode operand : String)
    (hop : opcode ≠ "DAT") : Run a (b.emitInstruction cur opcode operand) cur :=
  ⟨evolves_trans h.1 (evolves_emit b cur opcode operand h.2 hop),
    (codeAt_emit_iff _ _ _ _ _ hop).mpr h.2⟩

theorem run_popTemp {a b : Assembly} {cur : Nat} (h : Run a b cur) (val : Value) :
    Run a (popTemp val b) cur :=
  ⟨evolves_trans h.1 (evolves_popTemp val b), (codeAt_popTemp_iff _ _ _).mpr h.2⟩

theorem run_getConstant {a b : Assembly} {cur : Nat} (h : Run a b cur) (v : Int) :
    Run a (b.getConstant v).1 cur :=
  ⟨evolves_trans h.1 (evolves_getConstant b v), (codeAt_getConstant_iff _ _ _).mpr h.2⟩

theorem run_compileArithmetic (asm : Assembly) (cur : Nat) (symbol : BinarySymbol)
    (left right : Operand) (hl : left.Evolving) (hr : right.Evolving) (r : ValueResult)
    (h : compileArithmetic asm cur symbol left right = some r) (hc : CodeAt asm cur) :
    Run asm r.asm r.block := by
  unfold compileArithmetic at h
  cases h1 : compileAndExpect right asm cur Ty.Int with
  | none => simp [h1] at h
  | some r1 =>
    simp only [h1] at h
    cases he1 : r1.err with
    | some e =>
      simp only [he1, Option.some.injEq] at h
      subst h
      exact run_compileAndExpect right hr asm cur Ty.Int r1 h1 hc
    | none =>
      simp only [he1] at h
      obtain ⟨-, hk⟩ := run_operands left right hl hr asm cur r1 h1 hc
      cases h2 : compileAndExpect left (storeToTemp r1.val r1.asm r1.block).1 r1.block
          Ty.Int with
      | none => simp [h2] at h
      | some r2 =>
        simp only [h2] at h
        obtain ⟨k1, k2⟩ := hk r2 h2
        cases he2 : r2.err with
        | some e =>
          simp only [he2, Option.some.injEq] at h
          subst h
          exact run_popTemp k1 _
        | none =>
          simp only [he2, Option.some.injEq] at h
          subst h
          cases symbol <;>
            first
            | exact run_popTemp (run_emit k2 _ _ (by decide)) _
            | exact run_popTemp k2 _

theorem run_compileCompare (left right : Operand) (hl : left.Evolving) (hr : right.Evolving)
    (asm : Assembly) (cur : Nat) (r : CondResult)
    (h : compileCompare left right asm cur = some r) (hc : CodeAt asm cur) :
    Run asm r.asm r.block := by
  unfold compileCompare at h
  cases h1 : compileAndExpect right asm cur Ty.Int with
  | none => simp [h1] at h
  | some r1 =>
    simp only [h1] at h
    cases he1 : r1.err with
    | some e =>
      simp only [he1, Option.some.injEq] at h
      subst h
      exact run_compileAndExpect right hr asm cur Ty.Int r1 h1 hc
    | none =>
      simp only [he1] at h
      obtain ⟨-, hk⟩ := run_operands left right hl hr asm cur r1 h1 hc
      cases h2 : compileAndExpect left (storeToTemp r1.val r1.asm r1.block).1 r1.block
          Ty.Int with
      | none => simp [h2] at h
      | some r2 =>
        simp only [h2] at h
        obtain ⟨k1, k2⟩ := hk r2 h2
        cases he2 : r2.err with
        | some e =>
          simp only [he2, Option.some.injEq] at h
          subst h
          exact run_popTemp k1 _
        | none =>
          simp only [he2, Option.some.injEq] at h
          subst h
          exact run_popTemp (run_emit k2 _ _ (by decide)) _

theorem run_compilePostiveBranch (left right : Operand) (hl : left.Evolving)
    (hr : right.Evolving) (asm : Assembly) (cur t f : Nat) (r : CondResult)
    (h : compilePostiveBranch left right asm cur t f = some r) (hc : CodeAt asm cur) :
    Run asm r.asm r.block := by
  unfold compilePostiveBranch at h
  cases h1 : compileCompare left right asm cur with
  | none => simp [h1] at h
  | some c =>
    have p := run_compileCompare left right hl hr asm cur c h1 hc
    simp only [h1] at h
    cases he : c.err with
    | some e =>
      simp only [he, Option.some.injEq] at h
      subst h
      exact p
    | none =>
      simp only [he, Option.some.injEq] at h
      subst h
      exact run_emit (run_emit p _ _ (by decide)) _ _ (by decide)

/-- The `and` and `or` arms of `compileBinaryCondition`. -/
theorem run_logical (left right : Operand) (hl : left.Evolving) (hr : right.Evolving)
    (asm : Assembly) (cur t1 f1 t2 f2 : Nat) (r : CondResult)
    (h : (match left.compileCondition asm.newUniqueBlock.1 cur t1 f1 with
          | none => none
          | some l =>
            match l.err with
            | some err => some ⟨l.asm, l.block, some err⟩
            | none =>
              match right.compileCondition l.asm asm.newUniqueBlock.2 t2 f2 with
              | none => none
              | some r => some (CondResult.mk r.asm l.block r.err)) = some r)
    (hc : CodeAt asm cur) : Run asm r.asm r.block := by
  have h0 : CodeAt asm.newUniqueBlock.1 cur := (evolves_newUniqueBlock asm).2.1 cur hc
  cases h1 : left.compileCondition asm.newUniqueBlock.1 cur t1 f1 with
  | none => simp [h1] at h
  | some l =>
    have p1 := hl.2 _ cur t1 f1 l h1 h0
    simp only [h1] at h
    cases he : l.err with
    | some e =>
      simp only [he, Option.some.injEq] at h
      subst h
      exact ⟨evolves_trans (evolves_newUniqueBlock asm) p1.1, p1.2⟩
    | none =>
      simp only [he] at h
      cases h2 : right.compileCondition l.asm asm.newUniqueBlock.2 t2 f2 with
      | none => simp [h2] at h
      | some rr =>
        simp only [h2, Option.some.injEq] at h
        subst h
        have p2 := hr.2 _ _ t2 f2 rr h2 (p1.1.2.1 _ (codeAt_newUniqueBlock asm))
        exact ⟨evolves_trans (evolves_newUniqueBlock asm) (evolves_trans p1.1 p2.1),
          p2.1.2.1 _ p1.2⟩

theorem run_compileBinaryCondition (symbol : BinarySymbol) (left right : Operand)
    (hl : left.Evolving) (hr : right.Evolving) (asm : Assembly) (cur t f : Nat)
    (r : CondResult) (h : compileBinaryCondition symbol left right asm cur t f = some r)
    (hc : CodeAt asm cur) : Run asm r.asm r.block := by
  cases symbol with
  | add => simp [compileBinaryCondition] at h
  | sub => simp [compileBinaryCondition] at h
  | eq => exact run_compilePostiveBranch left right hl hr asm cur t f r h hc
  | ne => exact run_compilePostiveBranch left right hl hr asm cur f t r h hc
  | gt => exact run_compilePostiveBranch right left hr hl asm cur f t r h hc
  | lt => exact run_compilePostiveBranch left right hl hr asm cur f t r h hc
  | ge => exact run_compilePostiveBranch left right hl hr asm cur t f r h hc
  | le => exact run_compilePostiveBranch right left hr hl asm cur t f r h hc
  | and => exact run_logical left right hl hr asm cur _ _ _ _ r h hc
  | or => exact run_logical left right hl hr asm cur _ _ _ _ r h hc

theorem run_compileUnaryCondition (symbol : UnarySymbol) (e : Operand) (he : e.Evolving)
    (asm : Assembly) (cur t f : Nat) (pos : Position) (r : CondResult)
    (h : compileUnaryCondition symbol e asm cur t f pos = some r) (hc : CodeAt asm cur) :
    Run asm r.asm r.block := by
  cases symbol with
  | neg =>
    simp only [compileUnaryCondition, Option.some.injEq] at h
    subst h
    exact ⟨evolves_refl asm, hc⟩
  | not => exact he.2 asm cur f t r h hc

theorem run_materialise (asm : Assembly) (cur : Nat) (hc : CodeAt asm cur) :
    Run asm (materialise asm).1 cur ∧
      CodeAt (materialise asm).1 (materialise asm).2.2.2 := by
  unfold materialise
  simp only [snd_newUniqueBlock]
  refine ⟨⟨?_, ?_⟩, ?_⟩
  · refine evolves_trans (evolves_trans (evolves_trans (evolves_trans (evolves_trans
      (evolves_trans (evolves_trans (evolves_trans (evolves_newUniqueBlock _)
        (evolves_newUniqueBlock _)) (evolves_newUniqueBlock _)) (evolves_getConstant _ _))
        (evolves_emit _ _ _ _ ?_ (by decide))) (evolves_getConstant _ _))
        (evolves_emit _ _ _ _ ?_ (by decide))) (evolves_emit _ _ _ _ ?_ (by decide)))
        (evolves_emit _ _ _ _ ?_ (by decide)) <;>
      simp [codeAt_emit_iff, codeAt_getConstant_iff, codeAt_newUniqueBlock_iff,
        length_newUniqueBlock]
  · simp [codeAt_emit_iff, codeAt_getConstant_iff, codeAt_newUniqueBlock_iff,
      length_newUniqueBlock, hc]
  · simp [codeAt_emit_iff, codeAt_getConstant_iff, codeAt_newUniqueBlock_iff,
      length_newUniqueBlock]

theorem run_materialised (asm : Assembly) (cur : Nat) (c : Option CondResult)
    (hcond : ∀ r, c = some r → Run (materialise asm).1 r.asm r.block)
    (hc : CodeAt asm cur) (r : ValueResult)
    (h : materialised (materialise asm).2.2.2 c = some r) : Run asm r.asm r.block := by
  obtain ⟨hm, hE⟩ := run_materialise asm cur hc
  cases c with
  | none => simp [materialised] at h
  | some cr =>
    have p := hcond cr rfl
    simp only [materialised] at h
    cases he : cr.err with
    | some e =>
      simp only [he, Option.some.injEq] at h
      subst h
      exact ⟨evolves_trans hm.1 p.1, p.2⟩
    | none =>
      simp only [he, Option.some.injEq] at h
      subst h
      exact ⟨evolves_trans hm.1 p.1, p.1.2.1 _ hE⟩

/-- Every expression, seen as an operand, only makes the builder grow. -/
theorem operand_evolving (scope : Scope) : ∀ e : Expr, (e.operand scope).Evolving := by
  intro e
  induction e with
  | IntLiteral pos length value =>
    refine ⟨fun asm cur r h hc => ?_, fun asm cur t f r h hc => ?_⟩
    · simp only [Expr.operand, Expr.compileValue, Option.some.injEq] at h
      subst h
      exact run_getConstant ⟨evolves_refl asm, hc⟩ _
    · simp only [Expr.operand, Expr.compileCondition, Option.some.injEq] at h
      subst h
      exact ⟨evolves_refl asm, hc⟩
  | BoolLiteral pos length value =>
    refine ⟨fun asm cur r h hc => ?_, fun asm cur t f r h hc => ?_⟩
    · simp only [Expr.operand, Expr.compileValue, Option.some.injEq] at h
      subst h
      exact run_getConstant ⟨evolves_refl asm, hc⟩ _
    · simp only [Expr.operand, Expr.compileCondition] at h
      split_ifs at h <;>
      · simp only [Option.some.injEq] at h
        subst h
        exact run_emit ⟨evolves_refl asm, hc⟩ _ _ (by decide)
  | Input pos length =>
    refine ⟨fun asm cur r h hc => ?_, fun asm cur t f r h hc => ?_⟩
    · simp only [Expr.operand, Expr.compileValue, Option.some.injEq] at h
      subst h
      exact run_emit ⟨evolves_refl asm, hc⟩ _ _ (by decide)
    · simp only [Expr.operand, Expr.compileCondition, Option.some.injEq] at h
      subst h
      exact ⟨evolves_refl asm, hc⟩
  | Ident pos length name =>
    refine ⟨fun asm cur r h hc => ?_, fun asm cur t f r h hc => ?_⟩
    · simp only [Expr.operand, Expr.compileValue] at h
      split_ifs at h <;>
      · simp only [Option.some.injEq] at h
        subst h
        exact ⟨evolves_refl asm, hc⟩
    · simp only [Expr.operand, Expr.compileCondition] at h
      split_ifs at h
      · simp only [Option.some.injEq] at h
        subst h
        exact ⟨evolves_refl asm, hc⟩
      · simp only [Option.some.injEq] at h
        subst h
        exact ⟨evolves_refl asm, hc⟩
      · simp only [Option.some.injEq] at h
        subst h
        exact run_emit (run_emit (run_emit ⟨evolves_refl asm, hc⟩ _ _ (by decide)) _ _
          (by decide)) _ _ (by decide)
  | Binary pos length symbol left right ihl ihr =>
    refine ⟨fun asm cur r h hc => ?_, fun asm cur t f r h hc => ?_⟩
    · simp only [Expr.operand, Expr.compileValue] at h
      have hm := (run_materialise asm cur hc).1.2
      cases symbol with
      | add => exact run_compileArithmetic asm cur _ _ _ ihl ihr r h hc
      | sub => exact run_compileArithmetic asm cur _ _ _ ihl ihr r h hc
      | eq =>
        exact run_materialised asm cur _
          (fun c hcc => run_compileBinaryCondition _ _ _ ihl ihr _ cur _ _ c hcc hm) hc r h
      | ne =>
        exact run_materialised asm cur _
          (fun c hcc => run_compileBinaryCondition _ _ _ ihl ihr _ cur _ _ c hcc hm) hc r h
      | gt =>
        exact run_materialised asm cur _
          (fun c hcc => run_compileBinaryCondition _ _ _ ihl ihr _ cur _ _ c hcc hm) hc r h
      | lt =>
        exact run_materialised asm cur _
          (fun c hcc => run_compileBinaryCondition _ _ _ ihl ihr _ cur _ _ c hcc hm) hc r h
      | ge =>
        exact run_materialised asm cur _
          (fun c hcc => run_compileBinaryCondition _ _ _ ihl ihr _ cur _ _ c hcc hm) hc r h
      | le =>
        exact run_materialised asm cur _
          (fun c hcc => run_compileBinaryCondition _ _ _ ihl ihr _ cur _ _ c hcc hm) hc r h
      | and =>
        exact run_materialised asm cur _
          (fun c hcc => run_compileBinaryCondition _ _ _ ihl ihr _ cur _ _ c hcc hm) hc r h
      | or =>
        exact run_materialised asm cur _
          (fun c hcc => run_compileBinaryCondition _ _ _ ihl ihr _ cur _ _ c hcc hm) hc r h
    · simp only [Expr.operand, Expr.compileCondition] at h
      exact run_compileBinaryCondition symbol _ _ ihl ihr asm cur t f r h hc
  | Unary pos length symbol expr ih =>
    refine ⟨fun asm cur r h hc => ?_, fun asm cur t f r h hc => ?_⟩
    · simp only [Expr.operand, Expr.compileValue] at h
      cases symbol with
      | neg =>
        simp only at h
        cases h1 : compileAndExpect (expr.operand scope) asm cur Ty.Int with
        | none =>
          simp only [Expr.operand] at h1
          simp [h1] at h
        | some v =>
          have p := run_compileAndExpect _ ih asm cur Ty.Int v h1 hc
          simp only [Expr.operand] at h1
          simp only [h1] at h
          cases he : v.err with
          | some e =>
            simp only [he, Option.some.injEq] at h
            subst h
            exact p
          | none =>
            simp only [he, Option.some.injEq] at h
            subst h
            have p2 : Run asm (storeToTemp v.val v.asm v.block).1 v.block :=
              ⟨evolves_trans p.1 (evolves_storeToTemp _ _ _ p.2),
                (codeAt_storeToTemp_iff _ _ _ _).mpr p.2⟩
            exact run_popTemp (run_emit (run_emit (run_getConstant p2 0) _ _ (by decide))
              _ _ (by decide)) _
      | not =>
        exact run_materialised asm cur _
          (fun c hcc => run_compileUnaryCondition _ _ ih _ cur _ _ pos c hcc
            (run_materialise asm cur hc).1.2) hc r h
    · simp only [Expr.operand, Expr.compileCondition] at h
      exact run_compileUnaryCondition symbol _ ih asm cur t f pos r h hc

theorem run_loadToAcc {a b : Assembly} {cur : Nat} (h : Run a b cur) (val : Value) :
    Run a (loadToAcc val b cur) cur :=
  ⟨evolves_trans h.1 (evolves_loadToAcc val b cur h.2),
    (codeAt_loadToAcc_iff _ _ _ _).mpr h.2⟩

theorem run_createVariable {a b : Assembly} {cur : Nat} (h : Run a b cur) (label : String)
    (value : Int) : Run a (b.createVariable label value) cur :=
  ⟨evolves_trans h.1 (evolves_createVariable b label value),
    (codeAt_createVariable_iff _ _ _ _).mpr h.2⟩

theorem assign_evolving (name : String) (expr : Expr) (pos : Position) :
    (Assign.compile name expr pos).Evolving := by
  intro asm cur scope errors r h hc
  simp only [Assign.compile] at h
  split_ifs at h with hprs
  · simp only [Option.some.injEq] at h
    subst h
    exact ⟨evolves_refl asm, hc⟩
  · cases h1 : compileAndExpect (expr.operand scope) asm cur (scope.get name).2.1 with
    | none => simp [h1] at h
    | some v =>
      have p := run_compileAndExpect _ (operand_evolving scope expr) asm cur _ v h1 hc
      simp only [h1] at h
      cases he : v.err with
      | some e =>
        simp only [he, Option.some.injEq] at h
        subst h
        exact p
      | none =>
        simp only [he, Option.some.injEq] at h
        subst h
        exact run_emit (run_loadToAcc p _) _ _ (by decide)

theorem output_evolving (expr : Expr) : (Output.compile expr).Evolving := by
  intro asm cur scope errors r h hc
  simp only [Output.compile] at h
  cases h1 : compileAndExpect (expr.operand scope) asm cur Ty.Int with
  | none => simp [h1] at h
  | some v =>
    have p := run_compileAndExpect _ (operand_evolving scope expr) asm cur _ v h1 hc
    simp only [h1] at h
    cases he : v.err with
    | some e =>
      simp only [he, Option.some.injEq] at h
      subst h
      exact p
    | none =>
      simp only [he, Option.some.injEq] at h
      subst h
      exact run_emit (run_loadToAcc p _) _ _ (by decide)

theorem declare_evolving (name : String) (expr : Option Expr) (ty : Ty) (pos : Position) :
    (Declare.compile name expr ty pos).Evolving := by
  intro asm cur scope errors r h hc
  cases expr with
  | none =>
    simp only [Declare.compile, Option.some.injEq] at h
    subst h
    exact run_createVariable ⟨evolves_refl asm, hc⟩ _ _
  | some e =>
    simp only [Declare.compile] at h
    cases h1 : e.compileValue asm cur scope with
    | none => simp [h1] at h
    | some v =>
      have p := (operand_evolving scope e).1 asm cur v h1 hc
      simp only [h1] at h
      cases he : v.err with
      | some e =>
        simp only [he, Option.some.injEq] at h
        subst h
        exact p
      | none =>
        simp only [he] at h
        split_ifs at h with hty
        · simp only [Option.some.injEq] at h
          subst h
          exact p
        · simp only [Option.some.injEq] at h
          subst h
          exact run_emit (run_loadToAcc (run_createVariable p _ _) _) _ _ (by decide)

theorem blockScope_evolving (statements : Lowering) (hs : statements.Evolving) :
    (BlockScope.compile statements).Evolving := by
  intro asm cur scope errors r h hc
  simp only [BlockScope.compile] at h
  cases h1 : statements asm cur scope.pushScope errors with
  | none => simp [h1] at h
  | some r1 =>
    simp only [h1] at h
    cases h2 : r1.scope.popScope with
    | none => simp [h2] at h
    | some sc =>
      simp only [h2, Option.some.injEq] at h
      subst h
      exact hs asm cur _ errors r1 h1 hc

theorem while_evolving (cond : Expr) (loop : Lowering) (hl : loop.Evolving) :
    (While.compile cond loop).Evolving := by
  intro asm cur scope errors r h hc
  simp only [While.compile] at h
  have e3 : Evolves asm asm.newUniqueBlock.1.newUniqueBlock.1.newUniqueBlock.1 :=
    evolves_trans (evolves_trans (evolves_newUniqueBlock _) (evolves_newUniqueBlock _))
      (evolves_newUniqueBlock _)
  have e4 := evolves_trans e3 (evolves_emit _ cur "BRA"
    (asm.newUniqueBlock.1.newUniqueBlock.1.newUniqueBlock.1.label asm.newUniqueBlock.2)
    (e3.2.1 cur hc) (by decide))
  have hC : CodeAt (asm.newUniqueBlock.1.newUniqueBlock.1.newUniqueBlock.1.emitInstruction cur
      "BRA" (asm.newUniqueBlock.1.newUniqueBlock.1.newUniqueBlock.1.label
        asm.newUniqueBlock.2)) asm.newUniqueBlock.2 := by
    simp [codeAt_emit_iff, codeAt_newUniqueBlock_iff, snd_newUniqueBlock,
      length_newUniqueBlock]
  have hL : CodeAt (asm.newUniqueBlock.1.newUniqueBlock.1.newUniqueBlock.1.emitInstruction cur
      "BRA" (asm.newUniqueBlock.1.newUniqueBlock.1.newUniqueBlock.1.label
        asm.newUniqueBlock.2)) asm.newUniqueBlock.1.newUniqueBlock.2 := by
    simp [codeAt_emit_iff, codeAt_newUniqueBlock_iff, snd_newUniqueBlock,
      length_newUniqueBlock]
  have hX : CodeAt (asm.newUniqueBlock.1.newUniqueBlock.1.newUniqueBlock.1.emitInstruction cur
      "BRA" (asm.newUniqueBlock.1.newUniqueBlock.1.newUniqueBlock.1.label
        asm.newUniqueBlock.2)) asm.newUniqueBlock.1.newUniqueBlock.1.newUniqueBlock.2 := by
    simp [codeAt_emit_iff, codeAt_newUniqueBlock_iff, snd_newUniqueBlock,
      length_newUniqueBlock]
  have hcur := e4.2.1 cur hc
  cases h1 : cond.compileCondition
      (asm.newUniqueBlock.1.newUniqueBlock.1.newUniqueBlock.1.emitInstruction cur "BRA"
        (asm.newUniqueBlock.1.newUniqueBlock.1.newUniqueBlock.1.label asm.newUniqueBlock.2))
      asm.newUniqueBlock.2 asm.newUniqueBlock.1.newUniqueBlock.2
      asm.newUniqueBlock.1.newUniqueBlock.1.newUniqueBlock.2 scope with
  | none => simp [h1] at h
  | some cr =>
    have pc := (operand_evolving scope cond).2 _ _ _ _ cr h1 hC
    simp only [h1] at h
    cases he : cr.err with
    | some e =>
      simp only [he, Option.some.injEq] at h
      subst h
      exact ⟨evolves_trans e4 pc.1, pc.1.2.1 cur hcur⟩
    | none =>
      simp only [he] at h
      cases h2 : loop cr.asm asm.newUniqueBlock.1.newUniqueBlock.2 scope errors with
      | none => simp [h2] at h
      | some r2 =>
        simp only [h2, Option.some.injEq] at h
        subst h
        have pl := hl _ _ _ _ r2 h2 (pc.1.2.1 _ hL)
        refine ⟨evolves_trans e4 (evolves_trans pc.1 (evolves_trans pl.1
          (evolves_emit _ _ _ _ pl.2 (by decide)))), ?_⟩
        rw [codeAt_emit_iff _ _ _ _ _ (by decide)]
        exact pl.1.2.1 _ (pc.1.2.1 _ hX)

theorem if_evolving (cond : Expr) (ifTrue : Lowering) (ifFalse : Option Lowering)
    (ht : ifTrue.Evolving) (hf : ∀ s2, ifFalse = some s2 → s2.Evolving) :
    (If.compile cond ifTrue ifFalse).Evolving := by
  intro asm cur scope errors r h hc
  simp only [If.compile] at h
  have e2 : Evolves asm asm.newUniqueBlock.1.newUniqueBlock.1 :=
    evolves_trans (evolves_newUniqueBlock _) (evolves_newUniqueBlock _)
  have hT : CodeAt asm.newUniqueBlock.1.newUniqueBlock.1 asm.newUniqueBlock.2 := by
    simp [codeAt_newUniqueBlock_iff, snd_newUniqueBlock, length_newUniqueBlock]
  have hF : CodeAt asm.newUniqueBlock.1.newUniqueBlock.1
      asm.newUniqueBlock.1.newUniqueBlock.2 := by
    simp [codeAt_newUniqueBlock_iff, snd_newUniqueBlock, length_newUniqueBlock]
  cases h1 : cond.compileCondition asm.newUniqueBlock.1.newUniqueBlock.1 cur
      asm.newUniqueBlock.2 asm.newUniqueBlock.1.newUniqueBlock.2 scope with
  | none => simp [h1] at h
  | some c =>
    have pc := (operand_evolving scope cond).2 _ _ _ _ c h1 (e2.2.1 cur hc)
    simp only [h1] at h
    cases he : c.err with
    | some e =>
      simp only [he, Option.some.injEq] at h
      subst h
      exact ⟨evolves_trans e2 pc.1, pc.2⟩
    | none =>
      simp only [he] at h
      cases h2 : ifTrue c.asm asm.newUniqueBlock.2 scope errors with
      | none => simp [h2] at h
      | some r1 =>
        have p1 := ht _ _ _ _ r1 h2 (pc.1.2.1 _ hT)
        have e1 : Evolves asm r1.asm := evolves_trans e2 (evolves_trans pc.1 p1.1)
        simp only [h2] at h
        split_ifs at h with hlen1
        · simp only [Option.some.injEq] at h
          subst h
          exact ⟨e1, p1.1.2.1 _ pc.2⟩
        · cases ifFalse with
          | none =>
            simp only [Option.some.injEq] at h
            subst h
            refine ⟨evolves_trans e1 (evolves_emit _ _ _ _ p1.2 (by decide)), ?_⟩
            rw [codeAt_emit_iff _ _ _ _ _ (by decide)]
            exact p1.1.2.1 _ (pc.1.2.1 _ hF)
          | some s2 =>
            simp only at h
            cases h3 : s2 r1.asm.newUniqueBlock.1 asm.newUniqueBlock.1.newUniqueBlock.2
                r1.scope r1.errors with
            | none => simp [h3] at h
            | some r2 =>
              have eE := evolves_newUniqueBlock r1.asm
              have p2 := hf s2 rfl _ _ _ _ r2 h3 (eE.2.1 _ (p1.1.2.1 _ (pc.1.2.1 _ hF)))
              have e3 : Evolves asm r2.asm := evolves_trans e1 (evolves_trans eE p2.1)
              simp only [h3] at h
              split_ifs at h with hlen3
              · simp only [Option.some.injEq] at h
                subst h
                exact ⟨e3, p2.1.2.1 _ (eE.2.1 _ (p1.1.2.1 _ pc.2))⟩
              · simp only [Option.some.injEq] at h
                subst h
                have k1 : CodeAt r2.asm r1.block := p2.1.2.1 _ (eE.2.1 _ p1.2)
                have k2 : CodeAt (r2.asm.emitInstruction r1.block "BRA"
                    (r2.asm.label r1.asm.newUniqueBlock.2)) r2.block :=
                  (codeAt_emit_iff _ _ _ _ _ (by decide)).mpr p2.2
                refine ⟨evolves_trans e3 (evolves_trans
                  (evolves_emit _ _ _ _ k1 (by decide))
                  (evolves_emit _ _ _ _ k2 (by decide))), ?_⟩
                rw [codeAt_emit_iff _ _ _ _ _ (by decide),
                  codeAt_emit_iff _ _ _ _ _ (by decide)]
                exact p2.1.2.1 _ (codeAt_newUniqueBlock r1.asm)

mutual
theorem statement_evolving : ∀ s : Statement, s.compile.Evolving
  | .Declare pos _ name expr ty => by
    simp only [Statement.compile]
    exact declare_evolving name expr ty pos
  | .Assign pos _ name expr => by
    simp only [Statement.compile]
    exact assign_evolving name expr pos
  | .BlockScope _ _ statements => by
    simp only [Statement.compile]
    exact blockScope_evolving _ (statements_evolving statements)
  | .If _ _ cond ifTrue none => by
    show (If.compile cond ifTrue.compile none).Evolving
    exact if_evolving cond _ _ (statement_evolving ifTrue) (fun s2 hs2 => by simp at hs2)
  | .If _ _ cond ifTrue (some s) => by
    show (If.compile cond ifTrue.compile (some s.compile)).Evolving
    refine if_evolving cond _ _ (statement_evolving ifTrue) ?_
    intro s2 hs2
    simp only [Option.some.injEq] at hs2
    subst hs2
    exact statement_evolving s
  | .While _ _ cond loop => by
    simp only [Statement.compile]
    exact while_evolving cond _ (statement_evolving loop)
  | .Output _ _ expr => by
    simp only [Statement.compile]
    exact output_evolving expr
theorem statements_evolving : ∀ ss : List Statement, (compileStatements ss).Evolving
  | [] => by
    intro asm cur scope errors r h hc
    simp only [compileStatements, Option.some.injEq] at h
    subst h
    exact ⟨evolves_refl asm, hc⟩
  | s :: rest => by
    intro asm cur scope errors r h hc
    simp only [compileStatements] at h
    cases h1 : s.compile asm cur scope errors with
    | none => simp [h1] at h
    | some r1 =>
      simp only [h1] at h
      have p1 := statement_evolving s _ _ _ _ r1 h1 hc
      have p2 := statements_evolving rest _ _ _ _ r h p1.2
      exact ⟨evolves_trans p1.1 p2.1, p2.2⟩
end

/-- C4 (every block ends in a transfer): when a statement list is lowered
without error, every block of the block list is either a data cell (its
instruction list is one `DAT`) or a block without any `DAT` that has a last
instruction, and that instruction is `BRA`, `BRZ`, `BRP` or `HLT`; and the
current block at the end is a block of the list whose last instruction is
`HLT`. -/
theorem every_block_ends_in_transfer (statements : List Statement) (r : StmtResult)
    (h : lowerProgram statements = some r) (herr : r.errors = []) :
    (∀ b ∈ r.asm.blocks, b.isData = true ∨
        (b.NoDat ∧ ∃ inst, b.insts.getLast? = some inst ∧
          inst.opcode ∈ ["BRA", "BRZ", "BRP", "HLT"])) ∧
      ∃ b, r.asm.blocks[r.block]? = some b ∧ b.insts.getLast? = some ⟨"HLT", ""⟩ := by
  unfold lowerProgram at h
  cases h0 : compileStatements statements (InitAssembly.newBlock "start").1
      (InitAssembly.newBlock "start").2 InitScope [] with
  | none => simp [h0] at h
  | some r0 =>
    simp only [h0, Option.some.injEq] at h
    subst h
    simp only at herr
    obtain ⟨-, -, hval, hok⟩ := statements_sound statements _ _ _ _ r0 h0 herr
    have hstart : Ok (InitAssembly.newBlock "start").1.blocks {0} := by
      intro i b hb hi
      cases i with
      | zero => simp at hi
      | succ n => simp [InitAssembly, Assembly.newBlock] at hb
    have hall := ok_emit_closing r0.block "HLT" "" (isTransfer_hlt _) (hok _ hstart)
    have hcode : CodeAt (InitAssembly.newBlock "start").1 (InitAssembly.newBlock "start").2 :=
      ⟨⟨"start", []⟩, by simp [InitAssembly, Assembly.newBlock], fun inst hi => by simp at hi⟩
    have hrun := run_emit (statements_evolving statements _ _ _ _ r0 h0 hcode) "HLT" ""
      (by decide)
    have hsorted : Sorted (r0.asm.emitInstruction r0.block "HLT" "") := by
      refine hrun.1.2.2.2.2.2 (fun b hb => ?_)
      simp only [InitAssembly, Assembly.newBlock, List.nil_append, List.mem_singleton] at hb
      subst hb
      right
      intro inst hi
      simp at hi
    constructor
    · intro b hb
      obtain ⟨i, hi⟩ := List.mem_iff_getElem?.mp hb
      have hc := hall i b hi (by
        simp only [InitAssembly, Assembly.newBlock, Set.mem_diff, Set.mem_insert_iff,
          Set.mem_singleton_iff]
        tauto)
      rcases hsorted b hb with hd | hn
      · exact Or.inl hd
      · rcases hc with hd | ht
        · exact Or.inl hd
        · exact Or.inr ⟨hn, transfer_of_endsInTransfer b ht⟩
    · have hlt : r0.block < r0.asm.blocks.length :=
        hval (by simp [InitAssembly, Assembly.newBlock])
      simp only [Assembly.emitInstruction, emitAt_eq_appendInsts, getElem?_appendInsts,
        if_true]
      rw [List.getElem?_eq_getElem hlt]
      exact ⟨_, rfl, by simp⟩

/-- Witness of C4: `while true if true out 1` is lowered without error, so each
of its blocks is a data cell or ends in a transfer and the last current block
ends in `HLT`. -/
theorem every_block_ends_in_transfer_witness :
    lowerProgram progWhileIf = some (loweredState progWhileIf) ∧
      (loweredState progWhileIf).errors = [] ∧
      (∀ b ∈ (loweredState progWhileIf).asm.blocks, b.isData = true ∨
        (b.NoDat ∧ ∃ inst, b.insts.getLast? = some inst ∧
          inst.opcode ∈ ["BRA", "BRZ", "BRP", "HLT"])) ∧
      ∃ b, (loweredState progWhileIf).asm.blocks[(loweredState progWhileIf).block]? =
          some b ∧ b.insts.getLast? = some ⟨"HLT", ""⟩ := by
  have he : (lowerProgram progWhileIf).map (fun r => r.errors) = some [] := by decide!
  have hs : lowerProgram progWhileIf = some (loweredState progWhileIf) := by
    unfold loweredState
    cases h : lowerProgram progWhileIf with
    | none => simp [h] at he
    | some r => rfl
  have hn : (loweredState progWhileIf).errors = [] := by
    simpa [hs] using he
  exact ⟨hs, hn, every_block_ends_in_transfer progWhileIf (loweredState progWhileIf) hs hn⟩

/-! ### The constants a program asks for are interned -/

theorem constants_pushTemp (a : Assembly) : a.pushTemp.1.constants = a.constants := by
  unfold Assembly.pushTemp
  split_ifs <;> rfl

theorem constants_popTemp (val : Value) (a : Assembly) :
    (popTemp val a).constants = a.constants := by
  unfold popTemp
  split_ifs <;> rfl

theorem constants_storeToTemp (val : Value) (a : Assembly) (j : Nat) :
    (storeToTemp val a j).1.constants = a.constants := by
  unfold storeToTemp
  split_ifs
  · exact constants_pushTemp a
  · rfl

theorem constants_loadToAcc (val : Value) (a : Assembly) (j : Nat) :
    (loadToAcc val a j).constants = a.constants := by
  unfold loadToAcc
  split_ifs <;> rfl

theorem constants_emitInstruction (a : Assembly) (j : Nat) (opcode operand : String) :
    (a.emitInstruction j opcode operand).constants = a.constants := rfl

theorem constants_newUniqueBlock (a : Assembly) :
    a.newUniqueBlock.1.constants = a.constants := rfl

theorem constants_createVariable (a : Assembly) (label : String) (value : Int) :
    (a.createVariable label value).constants = a.constants := rfl

theorem mem_constants_getConstant (a : Assembly) (v x : Int) :
    x ∈ (a.getConstant v).1.constants ↔ x = v ∨ x ∈ a.constants := by
  unfold Assembly.getConstant
  split_ifs with h
  · constructor
    · exact Or.inr
    · rintro (h1 | h1)
      · exact h1 ▸ h
      · exact h1
  · simp [constants_createVariable]

theorem mem_constants_materialise (a : Assembly) (x : Int) :
    x ∈ (materialise a).1.constants ↔ x = 1 ∨ x = 0 ∨ x ∈ a.constants := by
  simp only [materialise, constants_emitInstruction, mem_constants_getConstant,
    constants_newUniqueBlock]

theorem interns_compileAndExpect (o : Operand) (vs cs : List Int) (ho : o.Interns vs cs)
    (asm : Assembly) (cur : Nat) (ty : Ty) (r : ValueResult)
    (h : compileAndExpect o asm cur ty = some r) (herr : r.err = none) :
    (∀ v ∈ asm.constants, v ∈ r.asm.constants) ∧ ∀ v ∈ vs, v ∈ r.asm.constants := by
  unfold compileAndExpect at h
  cases hv : o.compileValue asm cur with
  | none => simp [hv] at h
  | some v =>
    simp only [hv] at h
    cases he : v.err with
    | some e =>
      simp only [he, Option.some.injEq] at h
      subst h
      simp at herr
    | none =>
      simp only [he] at h
      split_ifs at h with hty
      · simp only [Option.some.injEq] at h
        subst h
        simp at herr
      · simp only [Option.some.injEq] at h
        subst h
        exact ho.1 asm cur v hv he

/-- Both operands of `compileArithmetic` and `compileCompare` lowered with
success: their constants are interned. -/
theorem interns_operands (left right : Operand) (vl cl vr cr : List Int)
    (hl : left.Interns vl cl) (hr : right.Interns vr cr) (asm : Assembly) (cur : Nat)
    (r1 r2 : ValueResult) (h1 : compileAndExpect right asm cur Ty.Int = some r1)
    (he1 : r1.err = none)
    (h2 : compileAndExpect left (storeToTemp r1.val r1.asm r1.block).1 r1.block Ty.Int =
      some r2) (he2 : r2.err = none) :
    (∀ v ∈ asm.constants, v ∈ r2.asm.constants) ∧ ∀ v ∈ vl ++ vr, v ∈ r2.asm.constants := by
  obtain ⟨m1, i1⟩ := interns_compileAndExpect right vr cr hr asm cur Ty.Int r1 h1 he1
  obtain ⟨m2, i2⟩ := interns_compileAndExpect left vl cl hl _ _ Ty.Int r2 h2 he2
  simp only [constants_storeToTemp] at m2
  refine ⟨fun v hv => m2 v (m1 v hv), fun v hv => ?_⟩
  rcases List.mem_append.mp hv with hv | hv
  · exact i2 v hv
  · exact m2 v (i1 v hv)

theorem interns_compileArithmetic (asm : Assembly) (cur : Nat) (symbol : BinarySymbol)
    (left right : Operand) (vl cl vr cr : List Int) (hl : left.Interns vl cl)
    (hr : right.Interns vr cr) (r : ValueResult)
    (h : compileArithmetic asm cur symbol left right = some r) (herr : r.err = none) :
    (∀ v ∈ asm.constants, v ∈ r.asm.constants) ∧ ∀ v ∈ vl ++ vr, v ∈ r.asm.constants := by
  unfold compileArithmetic at h
  cases h1 : compileAndExpect right asm cur Ty.Int with
  | none => simp [h1] at h
  | some r1 =>
    simp only [h1] at h
    cases he1 : r1.err with
    | some e =>
      simp only [he1, Option.some.injEq] at h
      subst h
      simp at herr
    | none =>
      simp only [he1] at h
      cases h2 : compileAndExpect left (storeToTemp r1.val r1.asm r1.block).1 r1.block
          Ty.Int with
      | none => simp [h2] at h
      | some r2 =>
        simp only [h2] at h
        cases he2 : r2.err with
        | some e =>
          simp only [he2, Option.some.injEq] at h
          subst h
          simp at herr
        | none =>
          simp only [he2, Option.some.injEq] at h
          have k := interns_operands left right vl cl vr cr hl hr asm cur r1 r2 h1 he1 h2 he2
          subst h
          cases symbol <;>
            simpa only [constants_popTemp, constants_emitInstruction, constants_loadToAcc]
              using k

theorem interns_compileCompare (left right : Operand) (vl cl vr cr : List Int)
    (hl : left.Interns vl cl) (hr : right.Interns vr cr) (asm : Assembly) (cur : Nat)
    (r : CondResult) (h : compileCompare left right asm cur = some r) (herr : r.err = none) :
    (∀ v ∈ asm.constants, v ∈ r.asm.constants) ∧ ∀ v ∈ vl ++ vr, v ∈ r.asm.constants := by
  unfold compileCompare at h
  cases h1 : compileAndExpect right asm cur Ty.Int with
  | none => simp [h1] at h
  | some r1 =>
    simp only [h1] at h
    cases he1 : r1.err with
    | some e =>
      simp only [he1, Option.some.injEq] at h
      subst h
      simp at herr
    | none =>
      simp only [he1] at h
      cases h2 : compileAndExpect left (storeToTemp r1.val r1.asm r1.block).1 r1.block
          Ty.Int with
      | none => simp [h2] at h
      | some r2 =>
        simp only [h2] at h
        cases he2 : r2.err with
        | some e =>
          simp only [he2, Option.some.injEq] at h
          subst h
          simp at herr
        | none =>
          simp only [he2, Option.some.injEq] at h
          have k := interns_operands left right vl cl vr cr hl hr asm cur r1 r2 h1 he1 h2 he2
          subst h
          simpa only [constants_popTemp, constants_emitInstruction, constants_loadToAcc]
            using k

theorem interns_compilePostiveBranch (left right : Operand) (vl cl vr cr : List Int)
    (hl : left.Interns vl cl) (hr : right.Interns vr cr) (asm : Assembly) (cur t f : Nat)
    (r : CondResult) (h : compilePostiveBranch left right asm cur t f = some r)
    (herr : r.err = none) :
    (∀ v ∈ asm.constants, v ∈ r.asm.constants) ∧ ∀ v ∈ vl ++ vr, v ∈ r.asm.constants := by
  unfold compilePostiveBranch at h
  cases h1 : compileCompare left right asm cur with
  | none => simp [h1] at h
  | some c =>
    simp only [h1] at h
    cases he : c.err with
    | some e =>
      simp only [he, Option.some.injEq] at h
      subst h
      simp at herr
    | none =>
      simp only [he, Option.some.injEq] at h
      have k := interns_compileCompare left right vl cl vr cr hl hr asm cur c h1 he
      subst h
      simpa only [constants_emitInstruction] using k

/-- The `and` and `or` arms of `compileBinaryCondition`. -/
theorem interns_logical (left right : Operand) (vl cl vr cr : List Int)
    (hl : left.Interns vl cl) (hr : right.Interns vr cr)
    (asm : Assembly) (cur t1 f1 t2 f2 : Nat) (r : CondResult)
    (h : (match left.compileCondition asm.newUniqueBlock.1 cur t1 f1 with
          | none => none
          | some l =>
            match l.err with
            | some err => some ⟨l.asm, l.block, some err⟩
            | none =>
              match right.compileCondition l.asm asm.newUniqueBlock.2 t2 f2 with
              | none => none
              | some r => some (CondResult.mk r.asm l.block r.err)) = some r)
    (herr : r.err = none) :
    (∀ v ∈ asm.constants, v ∈ r.asm.constants) ∧ ∀ v ∈ cl ++ cr, v ∈ r.asm.constants := by
  cases h1 : left.compileCondition asm.newUniqueBlock.1 cur t1 f1 with
  | none => simp [h1] at h
  | some l =>
    simp only [h1] at h
    cases he : l.err with
    | some e =>
      simp only [he, Option.some.injEq] at h
      subst h
      simp at herr
    | none =>
      simp only [he] at h
      cases h2 : right.compileCondition l.asm asm.newUniqueBlock.2 t2 f2 with
      | none => simp [h2] at h
      | some rr =>
        simp only [h2, Option.some.injEq] at h
        subst h
        simp only at herr
        obtain ⟨m1, i1⟩ := hl.2 _ cur t1 f1 l h1 he
        obtain ⟨m2, i2⟩ := hr.2 _ _ t2 f2 rr h2 herr
        simp only [constants_newUniqueBlock] at m1
        refine ⟨fun v hv => m2 v (m1 v hv), fun v hv => ?_⟩
        rcases List.mem_append.mp hv with hv | hv
        · exact m2 v (i1 v hv)
        · exact i2 v hv

theorem interns_compileBinaryCondition (symbol : BinarySymbol) (left right : Operand)
    (vl cl vr cr : List Int) (hl : left.Interns vl cl) (hr : right.Interns vr cr)
    (asm : Assembly) (cur t f : Nat) (r : CondResult)
    (h : compileBinaryCondition symbol left right asm cur t f = some r)
    (herr : r.err = none) :
    (∀ v ∈ asm.constants, v ∈ r.asm.constants) ∧
      ∀ v ∈ (match symbol with
              | .and => cl ++ cr
              | .or => cl ++ cr
              | _ => vl ++ vr), v ∈ r.asm.constants := by
  have swap : ∀ {c : List Int},
      ((∀ v ∈ asm.constants, v ∈ c) ∧ ∀ v ∈ vr ++ vl, v ∈ c) →
        (∀ v ∈ asm.constants, v ∈ c) ∧ ∀ v ∈ vl ++ vr, v ∈ c := by
    intro c hyp
    refine ⟨hyp.1, fun v hv => hyp.2 v ?_⟩
    rcases List.mem_append.mp hv with hv | hv
    · exact List.mem_append_right _ hv
    · exact List.mem_append_left _ hv
  cases symbol with
  | add => simp [compileBinaryCondition] at h
  | sub => simp [compileBinaryCondition] at h
  | eq => exact interns_compilePostiveBranch left right vl cl vr cr hl hr asm cur t f r h herr
  | ne => exact interns_compilePostiveBranch left right vl cl vr cr hl hr asm cur f t r h herr
  | gt =>
    exact swap (interns_compilePostiveBranch right left vr cr vl cl hr hl asm cur f t r h herr)
  | lt => exact interns_compilePostiveBranch left right vl cl vr cr hl hr asm cur f t r h herr
  | ge => exact interns_compilePostiveBranch left right vl cl vr cr hl hr asm cur t f r h herr
  | le =>
    exact swap (interns_compilePostiveBranch right left vr cr vl cl hr hl asm cur t f r h herr)
  | and => exact interns_logical left right vl cl vr cr hl hr asm cur _ _ _ _ r h herr
  | or => exact interns_logical left right vl cl vr cr hl hr asm cur _ _ _ _ r h herr

theorem interns_materialised (asm : Assembly) (c : Option CondResult) (cs : List Int)
    (hc : ∀ r, c = some r → r.err = none →
      (∀ v ∈ (materialise asm).1.constants, v ∈ r.asm.constants) ∧
        ∀ v ∈ cs, v ∈ r.asm.constants)
    (r : ValueResult) (h : materialised (materialise asm).2.2.2 c = some r)
    (herr : r.err = none) :
    (∀ v ∈ asm.constants, v ∈ r.asm.constants) ∧ ∀ v ∈ 0 :: 1 :: cs, v ∈ r.asm.constants := by
  cases c with
  | none => simp [materialised] at h
  | some cr =>
    simp only [materialised] at h
    cases he : cr.err with
    | some e =>
      simp only [he, Option.some.injEq] at h
      subst h
      simp at herr
    | none =>
      simp only [he, Option.some.injEq] at h
      subst h
      obtain ⟨m, i⟩ := hc cr rfl he
      refine ⟨fun v hv => m v ((mem_constants_materialise asm v).mpr (Or.inr (Or.inr hv))),
        fun v hv => ?_⟩
      simp only [List.mem_cons] at hv
      rcases hv with hv | hv | hv
      · exact m v ((mem_constants_materialise asm v).mpr (Or.inr (Or.inl hv)))
      · exact m v ((mem_constants_materialise asm v).mpr (Or.inl hv))
      · exact i v hv

/-- Every expression, seen as an operand, interns its constants. -/
theorem operand_interns (scope : Scope) :
    ∀ e : Expr, (e.operand scope).Interns e.valueConstants e.conditionConstants := by
  intro e
  induction e with
  | IntLiteral pos length value =>
    refine ⟨fun asm cur r h herr => ?_, fun asm cur t f r h herr => ?_⟩
    · simp only [Expr.operand, Expr.compileValue, Option.some.injEq] at h
      subst h
      simp only [Expr.valueConstants, mem_constants_getConstant, List.mem_singleton]
      exact ⟨fun v hv => Or.inr hv, fun v hv => Or.inl hv⟩
    · simp only [Expr.operand, Expr.compileCondition, Option.some.injEq] at h
      subst h
      simp at herr
  | BoolLiteral pos length value =>
    refine ⟨fun asm cur r h herr => ?_, fun asm cur t f r h herr => ?_⟩
    · simp only [Expr.operand, Expr.compileValue, Option.some.injEq] at h
      subst h
      simp only [Expr.valueConstants, mem_constants_getConstant, List.mem_singleton]
      exact ⟨fun v hv => Or.inr hv, fun v hv => Or.inl hv⟩
    · simp only [Expr.operand, Expr.compileCondition] at h
      split_ifs at h <;>
      · simp only [Option.some.injEq] at h
        subst h
        simp [Expr.conditionConstants, constants_emitInstruction]
  | Input pos length =>
    refine ⟨fun asm cur r h herr => ?_, fun asm cur t f r h herr => ?_⟩
    · simp only [Expr.operand, Expr.compileValue, Option.some.injEq] at h
      subst h
      simp [Expr.valueConstants, constants_emitInstruction]
    · simp only [Expr.operand, Expr.compileCondition, Option.some.injEq] at h
      subst h
      simp at herr
  | Ident pos length name =>
    refine ⟨fun asm cur r h herr => ?_, fun asm cur t f r h herr => ?_⟩
    · simp only [Expr.operand, Expr.compileValue] at h
      split_ifs at h
      · simp only [Option.some.injEq] at h
        subst h
        simp at herr
      · simp only [Option.some.injEq] at h
        subst h
        simp [Expr.valueConstants]
    · simp only [Expr.operand, Expr.compileCondition] at h
      split_ifs at h
      · simp only [Option.some.injEq] at h
        subst h
        simp at herr
      · simp only [Option.some.injEq] at h
        subst h
        simp at herr
      · simp only [Option.some.injEq] at h
        subst h
        simp [Expr.conditionConstants, constants_emitInstruction]
  | Binary pos length symbol left right ihl ihr =>
    refine ⟨fun asm cur r h herr => ?_, fun asm cur t f r h herr => ?_⟩
    · simp only [Expr.operand, Expr.compileValue] at h
      cases symbol with
      | add => exact interns_compileArithmetic asm cur _ _ _ _ _ _ _ ihl ihr r h herr
      | sub => exact interns_compileArithmetic asm cur _ _ _ _ _ _ _ ihl ihr r h herr
      | eq =>
        exact interns_materialised asm _ _
          (fun c hc he =>
            interns_compileBinaryCondition .eq _ _ _ _ _ _ ihl ihr _ cur _ _ c hc he) r h herr
      | ne =>
        exact interns_materialised asm _ _
          (fun c hc he =>
            interns_compileBinaryCondition .ne _ _ _ _ _ _ ihl ihr _ cur _ _ c hc he) r h herr
      | gt =>
        exact interns_materialised asm _ _
          (fun c hc he =>
            interns_compileBinaryCondition .gt _ _ _ _ _ _ ihl ihr _ cur _ _ c hc he) r h herr
      | lt =>
        exact interns_materialised asm _ _
          (fun c hc he =>
            interns_compileBinaryCondition .lt _ _ _ _ _ _ ihl ihr _ cur _ _ c hc he) r h herr
      | ge =>
        exact interns_materialised asm _ _
          (fun c hc he =>
            interns_compileBinaryCondition .ge _ _ _ _ _ _ ihl ihr _ cur _ _ c hc he) r h herr
      | le =>
        exact interns_materialised asm _ _
          (fun c hc he =>
            interns_compileBinaryCondition .le _ _ _ _ _ _ ihl ihr _ cur _ _ c hc he) r h herr
      | and =>
        exact interns_materialised asm _ _
          (fun c hc he =>
            interns_compileBinaryCondition .and _ _ _ _ _ _ ihl ihr _ cur _ _ c hc he) r h herr
      | or =>
        exact interns_materialised asm _ _
          (fun c hc he =>
            interns_compileBinaryCondition .or _ _ _ _ _ _ ihl ihr _ cur _ _ c hc he) r h herr
    · simp only [Expr.operand, Expr.compileCondition] at h
      have k := interns_compileBinaryCondition symbol _ _ _ _ _ _ ihl ihr asm cur t f r h herr
      cases symbol <;> exact k
  | Unary pos length symbol expr ih =>
    refine ⟨fun asm cur r h herr => ?_, fun asm cur t f r h herr => ?_⟩
    · simp only [Expr.operand, Expr.compileValue] at h
      cases symbol with
      | neg =>
        simp only at h
        cases h1 : compileAndExpect (expr.operand scope) asm cur Ty.Int with
        | none =>
          simp only [Expr.operand] at h1
          simp [h1] at h
        | some v =>
          have h1' := h1
          simp only [Expr.operand] at h1'
          simp only [h1'] at h
          cases he : v.err with
          | some e =>
            simp only [he, Option.some.injEq] at h
            subst h
            simp at herr
          | none =>
            simp only [he, Option.some.injEq] at h
            obtain ⟨m, i⟩ := interns_compileAndExpect _ _ _ ih asm cur Ty.Int v h1 he
            subst h
            simp only [constants_popTemp, constants_emitInstruction,
              mem_constants_getConstant, constants_storeToTemp, Expr.valueConstants,
              List.mem_cons]
            exact ⟨fun x hx => Or.inr (m x hx), fun x hx => hx.imp id (i x)⟩
      | not =>
        exact interns_materialised asm _ _
          (fun c hc he => ih.2 _ cur _ _ c hc he) r h herr
    · simp only [Expr.operand, Expr.compileCondition] at h
      cases symbol with
      | neg =>
        simp only [compileUnaryCondition, Option.some.injEq] at h
        subst h
        simp at herr
      | not => exact ih.2 asm cur f t r h herr

theorem assign_interns (name : String) (expr : Expr) (pos : Position) :
    (Assign.compile name expr pos).Interns expr.valueConstants := by
  intro asm cur scope errors r h hr
  simp only [Assign.compile] at h
  split_ifs at h with hprs
  · simp only [Option.some.injEq] at h
    subst h
    simp at hr
  · cases h1 : compileAndExpect (expr.operand scope) asm cur (scope.get name).2.1 with
    | none => simp [h1] at h
    | some v =>
      simp only [h1] at h
      cases he : v.err with
      | some e =>
        simp only [he, Option.some.injEq] at h
        subst h
        simp at hr
      | none =>
        simp only [he, Option.some.injEq] at h
        have k := interns_compileAndExpect _ _ _ (operand_interns scope expr) asm cur _ v h1 he
        subst h
        simpa only [constants_emitInstruction, constants_loadToAcc] using k

theorem output_interns (expr : Expr) : (Output.compile expr).Interns expr.valueConstants := by
  intro asm cur scope errors r h hr
  simp only [Output.compile] at h
  cases h1 : compileAndExpect (expr.operand scope) asm cur Ty.Int with
  | none => simp [h1] at h
  | some v =>
    simp only [h1] at h
    cases he : v.err with
    | some e =>
      simp only [he, Option.some.injEq] at h
      subst h
      simp at hr
    | none =>
      simp only [he, Option.some.injEq] at h
      have k := interns_compileAndExpect _ _ _ (operand_interns scope expr) asm cur _ v h1 he
      subst h
      simpa only [constants_emitInstruction, constants_loadToAcc] using k

theorem declare_interns_none (name : String) (ty : Ty) (pos : Position) :
    (Declare.compile name none ty pos).Interns [] := by
  intro asm cur scope errors r h hr
  simp only [Declare.compile, Option.some.injEq] at h
  subst h
  simp [constants_createVariable]

theorem declare_interns_some (name : String) (e : Expr) (ty : Ty) (pos : Position) :
    (Declare.compile name (some e) ty pos).Interns e.valueConstants := by
  intro asm cur scope errors r h hr
  simp only [Declare.compile] at h
  cases h1 : e.compileValue asm cur scope with
  | none => simp [h1] at h
  | some v =>
    simp only [h1] at h
    cases he : v.err with
    | some e =>
      simp only [he, Option.some.injEq] at h
      subst h
      simp at hr
    | none =>
      simp only [he] at h
      split_ifs at h with hty
      · simp only [Option.some.injEq] at h
        subst h
        simp at hr
      · simp only [Option.some.injEq] at h
        have k := (operand_interns scope e).1 asm cur v h1 he
        subst h
        simpa only [constants_emitInstruction, constants_loadToAcc,
          constants_createVariable] using k

theorem blockScope_interns (statements : Lowering) (vs : List Int)
    (hs : statements.Interns vs) : (BlockScope.compile statements).Interns vs := by
  intro asm cur scope errors r h hr
  simp only [BlockScope.compile] at h
  cases h1 : statements asm cur scope.pushScope errors with
  | none => simp [h1] at h
  | some r1 =>
    simp only [h1] at h
    cases h2 : r1.scope.popScope with
    | none => simp [h2] at h
    | some sc =>
      simp only [h2, Option.some.injEq] at h
      subst h
      exact hs asm cur _ errors r1 h1 hr

theorem while_interns (cond : Expr) (loop : Lowering) (vs : List Int)
    (hl : loop.Interns vs) :
    (While.compile cond loop).Interns (cond.conditionConstants ++ vs) := by
  intro asm cur scope errors r h hr
  simp only [While.compile] at h
  cases h1 : cond.compileCondition
      (asm.newUniqueBlock.1.newUniqueBlock.1.newUniqueBlock.1.emitInstruction cur "BRA"
        (asm.newUniqueBlock.1.newUniqueBlock.1.newUniqueBlock.1.label asm.newUniqueBlock.2))
      asm.newUniqueBlock.2 asm.newUniqueBlock.1.newUniqueBlock.2
      asm.newUniqueBlock.1.newUniqueBlock.1.newUniqueBlock.2 scope with
  | none => simp [h1] at h
  | some cr =>
    simp only [h1] at h
    cases he : cr.err with
    | some e =>
      simp only [he, Option.some.injEq] at h
      subst h
      simp at hr
    | none =>
      simp only [he] at h
      cases h2 : loop cr.asm asm.newUniqueBlock.1.newUniqueBlock.2 scope errors with
      | none => simp [h2] at h
      | some r2 =>
        simp only [h2, Option.some.injEq] at h
        subst h
        simp only at hr
        obtain ⟨m1, i1⟩ := (operand_interns scope cond).2 _ _ _ _ cr h1 he
        obtain ⟨m2, i2⟩ := hl _ _ _ _ r2 h2 hr
        simp only [constants_emitInstruction, constants_newUniqueBlock] at m1 ⊢
        refine ⟨fun v hv => m2 v (m1 v hv), fun v hv => ?_⟩
        rcases List.mem_append.mp hv with hv | hv
        · exact m2 v (i1 v hv)
        · exact i2 v hv

theorem if_interns_none (cond : Expr) (ifTrue : Lowering) (vt : List Int)
    (ht : ifTrue.Interns vt) :
    (If.compile cond ifTrue none).Interns (cond.conditionConstants ++ vt) := by
  intro asm cur scope errors r h hr
  simp only [If.compile] at h
  cases h1 : cond.compileCondition asm.newUniqueBlock.1.newUniqueBlock.1 cur
      asm.newUniqueBlock.2 asm.newUniqueBlock.1.newUniqueBlock.2 scope with
  | none => simp [h1] at h
  | some c =>
    simp only [h1] at h
    cases he : c.err with
    | some e =>
      simp only [he, Option.some.injEq] at h
      subst h
      simp at hr
    | none =>
      simp only [he] at h
      cases h2 : ifTrue c.asm asm.newUniqueBlock.2 scope errors with
      | none => simp [h2] at h
      | some r1 =>
        simp only [h2] at h
        split_ifs at h with hlen1
        · simp only [Option.some.injEq] at h
          subst h
          simp only at hr
          rw [hr] at hlen1
          simp at hlen1
        · simp only [Option.some.injEq] at h
          subst h
          obtain ⟨m1, i1⟩ := (operand_interns scope cond).2 _ _ _ _ c h1 he
          obtain ⟨m2, i2⟩ := ht _ _ _ _ r1 h2 (errors_eq_nil_of_length hlen1)
          simp only [constants_emitInstruction, constants_newUniqueBlock] at m1 ⊢
          refine ⟨fun v hv => m2 v (m1 v hv), fun v hv => ?_⟩
          rcases List.mem_append.mp hv with hv | hv
          · exact m2 v (i1 v hv)
          · exact i2 v hv

theorem if_interns_some (cond : Expr) (ifTrue ifFalse : Lowering) (vt vf : List Int)
    (ht : ifTrue.Interns vt) (hf : ifFalse.Interns vf) :
    (If.compile cond ifTrue (some ifFalse)).Interns
      (cond.conditionConstants ++ (vt ++ vf)) := by
  intro asm cur scope errors r h hr
  simp only [If.compile] at h
  cases h1 : cond.compileCondition asm.newUniqueBlock.1.newUniqueBlock.1 cur
      asm.newUniqueBlock.2 asm.newUniqueBlock.1.newUniqueBlock.2 scope with
  | none => simp [h1] at h
  | some c =>
    simp only [h1] at h
    cases he : c.err with
    | some e =>
      simp only [he, Option.some.injEq] at h
      subst h
      simp at hr
    | none =>
      simp only [he] at h
      cases h2 : ifTrue c.asm asm.newUniqueBlock.2 scope errors with
      | none => simp [h2] at h
      | some r1 =>
        simp only [h2] at h
        split_ifs at h with hlen1
        · simp only [Option.some.injEq] at h
          subst h
          simp only at hr
          rw [hr] at hlen1
          simp at hlen1
        · cases h3 : ifFalse r1.asm.newUniqueBlock.1 asm.newUniqueBlock.1.newUniqueBlock.2
              r1.scope r1.errors with
          | none => simp [h3] at h
          | some r2 =>
            simp only [h3] at h
            split_ifs at h with hlen3
            · simp only [Option.some.injEq] at h
              subst h
              simp only at hr
              rw [hr] at hlen3
              simp at hlen3
            · simp only [Option.some.injEq] at h
              subst h
              obtain ⟨m1, i1⟩ := (operand_interns scope cond).2 _ _ _ _ c h1 he
              obtain ⟨m2, i2⟩ := ht _ _ _ _ r1 h2 (errors_eq_nil_of_length hlen1)
              obtain ⟨m3, i3⟩ := hf _ _ _ _ r2 h3 (errors_eq_nil_of_length hlen3)
              simp only [constants_emitInstruction, constants_newUniqueBlock] at m1 m3 ⊢
              refine ⟨fun v hv => m3 v (m2 v (m1 v hv)), fun v hv => ?_⟩
              rcases List.mem_append.mp hv with hv | hv
              · exact m3 v (m2 v (i1 v hv))
              · rcases List.mem_append.mp hv with hv | hv
                · exact m3 v (i2 v hv)
                · exact i3 v hv

mutual
theorem statement_interns : ∀ s : Statement, s.compile.Interns s.constants
  | .Declare pos _ name (some e) ty => by
    simp only [Statement.compile, Statement.constants]
    exact declare_interns_some name e ty pos
  | .Declare pos _ name none ty => by
    simp only [Statement.compile, Statement.constants]
    exact declare_interns_none name ty pos
  | .Assign pos _ name expr => by
    simp only [Statement.compile, Statement.constants]
    exact assign_interns name expr pos
  | .BlockScope _ _ statements => by
    simp only [Statement.compile, Statement.constants]
    exact blockScope_interns _ _ (statements_interns statements)
  | .If _ _ cond ifTrue none => by
    show (If.compile cond ifTrue.compile none).Interns
      (cond.conditionConstants ++ ifTrue.constants)
    exact if_interns_none cond _ _ (statement_interns ifTrue)
  | .If _ _ cond ifTrue (some s) => by
    show (If.compile cond ifTrue.compile (some s.compile)).Interns
      (cond.conditionConstants ++ (ifTrue.constants ++ s.constants))
    exact if_interns_some cond _ _ _ _ (statement_interns ifTrue) (statement_interns s)
  | .While _ _ cond loop => by
    simp only [Statement.compile, Statement.constants]
    exact while_interns cond _ _ (statement_interns loop)
  | .Output _ _ expr => by
    simp only [Statement.compile, Statement.constants]
    exact output_interns expr
theorem statements_interns :
    ∀ ss : List Statement, (compileStatements ss).Interns (programConstants ss)
  | [] => by
    intro asm cur scope errors r h hr
    simp only [compileStatements, Option.some.injEq] at h
    subst h
    simp [programConstants]
  | s :: rest => by
    intro asm cur scope errors r h hr
    simp only [compileStatements] at h
    cases h1 : s.compile asm cur scope errors with
    | none => simp [h1] at h
    | some r1 =>
      simp only [h1] at h
      have hr1 : r1.errors = [] := (statements_sound rest _ _ _ _ r h hr).1
      obtain ⟨m1, i1⟩ := statement_interns s _ _ _ _ r1 h1 hr1
      obtain ⟨m2, i2⟩ := statements_interns rest _ _ _ _ r h hr
      refine ⟨fun v hv => m2 v (m1 v hv), fun v hv => ?_⟩
      simp only [programConstants] at hv
      rcases List.mem_append.mp hv with hv | hv
      · exact m2 v (i1 v hv)
      · exact i2 v hv
end

/-- C5 (constant interning) as stated fails at two inputs.  `if true out 5` is
lowered without error, the boolean literal `true` stands for 1, and the block
list `start, b0, b1, c5` holds no block labelled `c1`.  `c0 : int = 0` is
lowered without error and its block list holds two blocks labelled `c0` whose
instruction list is `[DAT 0]`, the constant and the cell of the variable. -/
theorem constant_cell_not_exactly_one :
    ((lowerProgram progIfTrue).map (fun r => r.errors) = some [] ∧
        blockLabels progIfTrue = some ["start", "b0", "b1", "c5"] ∧
        "c1" ∉ ["start", "b0", "b1", "c5"]) ∧
      (lowerProgram progConstantName).map (fun r => r.errors) = some [] ∧
      (lowerProgram progConstantName).map (fun r => r.asm.blocks) =
        some [⟨"start", [⟨"LDA", "c0"⟩, ⟨"STA", "c0"⟩, ⟨"HLT", ""⟩]⟩,
              ⟨"c0", [⟨"DAT", "0"⟩]⟩, ⟨"c0", [⟨"DAT", "0"⟩]⟩] := by
  decide!

/-! ### The back edge of `while` -/

theorem stmtState_of_isSome (o : Option StmtResult) (h : o.isSome = true) :
    o = some (stmtState o) := by
  cases o with
  | none => simp at h
  | some r => rfl

theorem label_of_getElem? (a : Assembly) (i : Nat) (b : Block) (h : a.blocks[i]? = some b) :
    a.label i = b.label := by
  simp [Assembly.label, h]

theorem label_of_evolves {a b : Assembly} (h : Evolves a b) (i : Nat)
    (hi : i < a.blocks.length) : b.label i = a.label i := by
  obtain ⟨extra, he⟩ := h.1 i a.blocks[i] (List.getElem?_eq_getElem hi)
  rw [label_of_getElem? _ _ _ he, label_of_getElem? _ _ _ (List.getElem?_eq_getElem hi)]

/-- C11 (while back-edge placement) as stated fails at
`while true if true out 1`: the program is lowered without error, the loop
block `L = b1` holds only the `BRA b3` of the inner condition, and the back
edge `BRA b0` is the last instruction of `b4`, the block in which the body
ended. -/
theorem back_edge_in_tail_not_loop_block :
    (lowerProgram progWhileIf).map (fun r => (r.errors, r.asm.blocks)) =
      some ([], [⟨"start", [⟨"BRA", "b0"⟩]⟩, ⟨"b0", [⟨"BRA", "b1"⟩]⟩,
        ⟨"b1", [⟨"BRA", "b3"⟩]⟩, ⟨"b2", [⟨"HLT", ""⟩]⟩,
        ⟨"b3", [⟨"LDA", "c1"⟩, ⟨"OUT", ""⟩, ⟨"BRA", "b4"⟩]⟩, ⟨"b4", [⟨"BRA", "b0"⟩]⟩,
        ⟨"c1", [⟨"DAT", "1"⟩]⟩]) := by
  decide!

/-- C11 (while back-edge placement), amended: let `C`, `L`, `X` be the blocks
that `While.compile` creates, at the indices `n`, `n + 1`, `n + 2` of the block
list with `n` its length before, `C` labelled `b<currentBlock>`.  When the
condition is lowered without error to `cr` and the body, started in `L`, is
lowered to `r`, the `while` returns the state of `r` with the one instruction
`BRA b<currentBlock>` appended to the block `r.block` in which the body ended,
the cursor on `X` and the errors of `r`; when the body ended in another block
than `L`, the block `L` gets no instruction. -/
theorem back_edge_at_body_tail (cond : Expr) (body : Statement) (pos : Position)
    (length : Int) (asm : Assembly) (block : Nat) (scope : Scope)
    (errors : List CompileError) (cr : CondResult) (r : StmtResult)
    (hc : cond.compileCondition (whileEntry asm block) asm.blocks.length
      (asm.blocks.length + 1) (asm.blocks.length + 2) scope = some cr)
    (hok : cr.err = none)
    (hb : body.compile cr.asm (asm.blocks.length + 1) scope errors = some r) :
    (Statement.While pos length cond body).compile asm block scope errors =
        some ⟨{ r.asm with
                blocks := appendInsts r.asm.blocks r.block
                  [⟨"BRA", "b" ++ toString asm.currentBlock⟩] },
              asm.blocks.length + 2, r.scope, r.errors⟩ ∧
      (whileEntry asm block).label asm.blocks.length = "b" ++ toString asm.currentBlock ∧
      (r.block ≠ asm.blocks.length + 1 →
        (appendInsts r.asm.blocks r.block [⟨"BRA", "b" ++ toString asm.currentBlock⟩])[
            asm.blocks.length + 1]? = r.asm.blocks[asm.blocks.length + 1]?) := by
  have hlab : (whileEntry asm block).label asm.blocks.length =
      "b" ++ toString asm.currentBlock := by
    simp only [whileEntry, label_emitInstruction]
    rw [label_newUniqueBlock_of_lt _ _ (by simp only [length_newUniqueBlock]; omega),
      label_newUniqueBlock_of_lt _ _ (by simp only [length_newUniqueBlock]; omega),
      label_newUniqueBlock_self _ _ rfl]
  have hC : CodeAt (whileEntry asm block) asm.blocks.length := by
    simp [whileEntry, codeAt_emit_iff, codeAt_newUniqueBlock_iff, snd_newUniqueBlock,
      length_newUniqueBlock]
  have hL : CodeAt (whileEntry asm block) (asm.blocks.length + 1) := by
    simp [whileEntry, codeAt_emit_iff, codeAt_newUniqueBlock_iff, snd_newUniqueBlock,
      length_newUniqueBlock]
  have hlen : asm.blocks.length < (whileEntry asm block).blocks.length := by
    simp only [whileEntry, length_emitInstruction, length_newUniqueBlock]
    omega
  have pc := (operand_evolving scope cond).2 _ _ _ _ cr hc hC
  have pb := statement_evolving body _ _ _ _ r hb (pc.1.2.1 _ hL)
  have hblock : cr.block = asm.blocks.length :=
    ((operand_sound scope cond).2 _ _ _ _ cr hc hok).2.1
  have hfin : r.asm.label cr.block = "b" ++ toString asm.currentBlock := by
    rw [hblock, ← hlab]
    exact label_of_evolves (evolves_trans pc.1 pb.1) _ hlen
  refine ⟨?_, hlab, fun hne => ?_⟩
  · have hc2 : cond.compileCondition
        (asm.newUniqueBlock.1.newUniqueBlock.1.newUniqueBlock.1.emitInstruction block "BRA"
          (asm.newUniqueBlock.1.newUniqueBlock.1.newUniqueBlock.1.label asm.newUniqueBlock.2))
        asm.newUniqueBlock.2 asm.newUniqueBlock.1.newUniqueBlock.2
        asm.newUniqueBlock.1.newUniqueBlock.1.newUniqueBlock.2 scope = some cr := by
      simpa [whileEntry, snd_newUniqueBlock, length_newUniqueBlock] using hc
    have hb2 : body.compile cr.asm asm.newUniqueBlock.1.newUniqueBlock.2 scope errors =
        some r := by
      simpa [snd_newUniqueBlock, length_newUniqueBlock] using hb
    simp only [Statement.compile, While.compile, hc2, hok, hb2, hfin]
    simp [Assembly.emitInstruction, emitAt_eq_appendInsts, snd_newUniqueBlock,
      length_newUniqueBlock]
  · rw [getElem?_appendInsts, if_neg (fun h => hne h.symm)]

/-- Witness of C11: `while true if true out 1` lowered in the block `start`.
The body `if true out 1` starts in `L`, the block 2, and ends in the block 5;
the `while` appends `BRA b0` to the block 5 and leaves the block 2 as the body
left it. -/
theorem back_edge_at_body_tail_witness :
    (stmtState (stmtIfTrueOut.compile
        (condState ((Expr.BoolLiteral pos0 1 true).compileCondition
          (whileEntry asmStart 0) 1 2 3 InitScope)).asm 2 InitScope [])).block = 5 ∧
      (Statement.While pos0 1 (.BoolLiteral pos0 1 true) stmtIfTrueOut).compile asmStart 0
          InitScope [] =
        some ⟨{ (stmtState (stmtIfTrueOut.compile
                  (condState ((Expr.BoolLiteral pos0 1 true).compileCondition
                    (whileEntry asmStart 0) 1 2 3 InitScope)).asm 2 InitScope [])).asm with
                blocks := appendInsts
                  (stmtState (stmtIfTrueOut.compile
                    (condState ((Expr.BoolLiteral pos0 1 true).compileCondition
                      (whileEntry asmStart 0) 1 2 3 InitScope)).asm 2 InitScope [])).asm.blocks
                  5 [⟨"BRA", "b0"⟩] },
              3,
              (stmtState (stmtIfTrueOut.compile
                (condState ((Expr.BoolLiteral pos0 1 true).compileCondition
                  (whileEntry asmStart 0) 1 2 3 InitScope)).asm 2 InitScope [])).scope,
              (stmtState (stmtIfTrueOut.compile
                (condState ((Expr.BoolLiteral pos0 1 true).compileCondition
                  (whileEntry asmStart 0) 1 2 3 InitScope)).asm 2 InitScope [])).errors⟩ := by
  have hblock : (stmtState (stmtIfTrueOut.compile
        (condState ((Expr.BoolLiteral pos0 1 true).compileCondition
          (whileEntry asmStart 0) 1 2 3 InitScope)).asm 2 InitScope [])).block = 5 := by
    decide!
  have h := (back_edge_at_body_tail (.BoolLiteral pos0 1 true) stmtIfTrueOut pos0 1 asmStart 0
    InitScope []
    (condState ((Expr.BoolLiteral pos0 1 true).compileCondition
      (whileEntry asmStart 0) 1 2 3 InitScope))
    (stmtState (stmtIfTrueOut.compile
      (condState ((Expr.BoolLiteral pos0 1 true).compileCondition
        (whileEntry asmStart 0) 1 2 3 InitScope)).asm 2 InitScope []))
    (by decide!) (by decide!)
    (stmtState_of_isSome _ (by decide!))).1
  rw [hblock] at h
  exact ⟨hblock, h⟩

/-! ### The order in which operands are lowered -/

theorem compileAndExpect_some (o : Operand) (asm : Assembly) (cur : Nat) (ty : Ty)
    (r : ValueResult) (h : compileAndExpect o asm cur ty = some r) :
    ∃ v, o.compileValue asm cur = some v ∧ r.asm = v.asm ∧ r.block = v.block ∧
      (v.err = none → v.val.ty = ty → r.err = none ∧ r.val = v.val) := by
  unfold compileAndExpect at h
  cases hv : o.compileValue asm cur with
  | none => simp [hv] at h
  | some v =>
    simp only [hv] at h
    refine ⟨v, rfl, ?_⟩
    cases he : v.err with
    | some e =>
      simp only [he, Option.some.injEq] at h
      subst h
      simp
    | none =>
      simp only [he] at h
      split_ifs at h with hty
      · simp only [Option.some.injEq] at h
        subst h
        exact ⟨rfl, rfl, fun _ h2 => absurd h2 hty⟩
      · simp only [Option.some.injEq] at h
        subst h
        exact ⟨rfl, rfl, fun _ _ => ⟨rfl, rfl⟩⟩

/-- The two operands of `compileArithmetic` and `compileCompare`: the one
passed as `right` is lowered before the one passed as `left`. -/
theorem before_operands (left right : Operand) (hl : left.Evolving) (hr : right.Evolving)
    (asm : Assembly) (cur : Nat) (hc : CodeAt asm cur) (final : Assembly)
    (r1 : ValueResult) (h1 : compileAndExpect right asm cur Ty.Int = some r1)
    (hfin : Evolves r1.asm final)
    (hnext : r1.err = none →
      ∃ r2, compileAndExpect left (storeToTemp r1.val r1.asm r1.block).1 r1.block Ty.Int =
          some r2 ∧ Evolves r2.asm final) :
    right.Before left asm cur final := by
  obtain ⟨v, hv, ha, hb, hok⟩ := compileAndExpect_some right asm cur Ty.Int r1 h1
  have p1 := hr.1 asm cur v hv hc
  refine ⟨v, hv, p1.1, ha ▸ hfin, fun he hty => ?_⟩
  obtain ⟨he1, hval⟩ := hok he hty
  obtain ⟨r2, h2, hf2⟩ := hnext he1
  rw [hval, ha, hb] at h2
  obtain ⟨w, hw, wa, -, -⟩ := compileAndExpect_some left _ _ Ty.Int r2 h2
  have hs : CodeAt (storeToTemp v.val v.asm v.block).1 v.block :=
    (codeAt_storeToTemp_iff _ _ _ _).mpr p1.2
  exact ⟨w, hw, evolves_storeToTemp _ _ _ p1.2, (hl.1 _ _ w hw hs).1, wa ▸ hf2⟩

theorem before_compileCompare (left right : Operand) (hl : left.Evolving)
    (hr : right.Evolving) (asm : Assembly) (cur : Nat) (r : CondResult)
    (h : compileCompare left right asm cur = some r) (hc : CodeAt asm cur)
    (final : Assembly) (hfin : Evolves r.asm final) :
    right.Before left asm cur final := by
  unfold compileCompare at h
  cases h1 : compileAndExpect right asm cur Ty.Int with
  | none => simp [h1] at h
  | some r1 =>
    simp only [h1] at h
    cases he1 : r1.err with
    | some e =>
      simp only [he1, Option.some.injEq] at h
      subst h
      exact before_operands left right hl hr asm cur hc final r1 h1 hfin
        (fun he => by simp [he1] at he)
    | none =>
      simp only [he1] at h
      obtain ⟨-, hk⟩ := run_operands left right hl hr asm cur r1 h1 hc
      cases h2 : compileAndExpect left (storeToTemp r1.val r1.asm r1.block).1 r1.block
          Ty.Int with
      | none => simp [h2] at h
      | some r2 =>
        simp only [h2] at h
        obtain ⟨k1, k2⟩ := hk r2 h2
        have p1 := run_compileAndExpect right hr asm cur Ty.Int r1 h1 hc
        have p2 := run_compileAndExpect left hl _ _ Ty.Int r2 h2
          ((codeAt_storeToTemp_iff _ _ _ _).mpr p1.2)
        have hmid : Evolves r1.asm r2.asm :=
          evolves_trans (evolves_storeToTemp _ _ _ p1.2) p2.1
        cases he2 : r2.err with
        | some e =>
          simp only [he2, Option.some.injEq] at h
          subst h
          have e2 : Evolves r2.asm final := evolves_trans (evolves_popTemp _ _) hfin
          exact before_operands left right hl hr asm cur hc final r1 h1
            (evolves_trans hmid e2) (fun _ => ⟨r2, h2, e2⟩)
        | none =>
          simp only [he2, Option.some.injEq] at h
          subst h
          have e2 : Evolves r2.asm final :=
            evolves_trans (evolves_loadToAcc _ _ _ p2.2)
              (evolves_trans (evolves_emit _ _ _ _
                ((codeAt_loadToAcc_iff _ _ _ _).mpr p2.2) (by decide))
                (evolves_trans (evolves_popTemp _ _) hfin))
          exact before_operands left right hl hr asm cur hc final r1 h1
            (evolves_trans hmid e2) (fun _ => ⟨r2, h2, e2⟩)

theorem before_compilePostiveBranch (left right : Operand) (hl : left.Evolving)
    (hr : right.Evolving) (asm : Assembly) (cur t f : Nat) (r : CondResult)
    (h : compilePostiveBranch left right asm cur t f = some r) (hc : CodeAt asm cur) :
    right.Before left asm cur r.asm := by
  unfold compilePostiveBranch at h
  cases h1 : compileCompare left right asm cur with
  | none => simp [h1] at h
  | some c =>
    have p := run_compileCompare left right hl hr asm cur c h1 hc
    simp only [h1] at h
    cases he : c.err with
    | some e =>
      simp only [he, Option.some.injEq] at h
      subst h
      exact before_compileCompare left right hl hr asm cur c h1 hc _ (evolves_refl _)
    | none =>
      simp only [he, Option.some.injEq] at h
      subst h
      exact before_compileCompare left right hl hr asm cur c h1 hc _
        (evolves_trans (evolves_emit _ _ _ _ p.2 (by decide))
          (evolves_emit _ _ _ _ ((codeAt_emit_iff _ _ _ _ _ (by decide)).mpr p.2) (by decide)))

theorem before_compileArithmetic (asm : Assembly) (cur : Nat) (symbol : BinarySymbol)
    (left right : Operand) (hl : left.Evolving) (hr : right.Evolving) (r : ValueResult)
    (h : compileArithmetic asm cur symbol left right = some r) (hc : CodeAt asm cur) :
    right.Before left asm cur r.asm := by
  unfold compileArithmetic at h
  cases h1 : compileAndExpect right asm cur Ty.Int with
  | none => simp [h1] at h
  | some r1 =>
    simp only [h1] at h
    cases he1 : r1.err with
    | some e =>
      simp only [he1, Option.some.injEq] at h
      subst h
      exact before_operands left right hl hr asm cur hc _ r1 h1 (evolves_refl _)
        (fun he => by simp [he1] at he)
    | none =>
      simp only [he1] at h
      cases h2 : compileAndExpect left (storeToTemp r1.val r1.asm r1.block).1 r1.block
          Ty.Int with
      | none => simp [h2] at h
      | some r2 =>
        simp only [h2] at h
        have p1 := run_compileAndExpect right hr asm cur Ty.Int r1 h1 hc
        have p2 := run_compileAndExpect left hl _ _ Ty.Int r2 h2
          ((codeAt_storeToTemp_iff _ _ _ _).mpr p1.2)
        have hmid : Evolves r1.asm r2.asm :=
          evolves_trans (evolves_storeToTemp _ _ _ p1.2) p2.1
        have hload := (codeAt_loadToAcc_iff r2.val r2.asm r2.block r2.block).mpr p2.2
        cases he2 : r2.err with
        | some e =>
          simp only [he2, Option.some.injEq] at h
          subst h
          exact before_operands left right hl hr asm cur hc _ r1 h1
            (evolves_trans hmid (evolves_popTemp _ _)) (fun _ => ⟨r2, h2, evolves_popTemp _ _⟩)
        | none =>
          simp only [he2, Option.some.injEq] at h
          subst h
          have e2 : Evolves r2.asm (popTemp r1.val
              (match symbol with
                | .add => (loadToAcc r2.val r2.asm r2.block).emitInstruction r2.block "ADD"
                    (storeToTemp r1.val r1.asm r1.block).2
                | .sub => (loadToAcc r2.val r2.asm r2.block).emitInstruction r2.block "SUB"
                    (storeToTemp r1.val r1.asm r1.block).2
                | _ => loadToAcc r2.val r2.asm r2.block)) := by
            refine evolves_trans (evolves_loadToAcc r2.val _ _ p2.2) ?_
            cases symbol <;>
              first
              | exact evolves_trans (evolves_emit _ _ _ _ hload (by decide)) (evolves_popTemp _ _)
              | exact evolves_popTemp _ _
          exact before_operands left right hl hr asm cur hc _ r1 h1
            (evolves_trans hmid e2) (fun _ => ⟨r2, h2, e2⟩)

theorem materialised_asm (exitBlock : Nat) (c : Option CondResult) (r : ValueResult)
    (h : materialised exitBlock c = some r) : ∃ cr, c = some cr ∧ r.asm = cr.asm := by
  cases c with
  | none => simp [materialised] at h
  | some cr =>
    refine ⟨cr, rfl, ?_⟩
    simp only [materialised] at h
    cases he : cr.err with
    | some e =>
      simp only [he, Option.some.injEq] at h
      subst h
      rfl
    | none =>
      simp only [he, Option.some.injEq] at h
      subst h
      rfl

/-- C12 (evaluation order) as stated fails at `if 1 <= 2 out 0`: the cell `c1`
of the source left operand is created before the cell `c2` of the source right
operand.  (In `out 1 - 2` the cell `c2` of the right operand comes first.) -/
theorem left_operand_first_for_le :
    blockLabels progIfLe = some ["start", "b0", "b1", "c1", "c2", "c0"] ∧
      blockLabels progOutDiff = some ["start", "c2", "c1"] := by
  decide!

/-- C12 (evaluation order), amended: from a cursor on a code block, lowering a
binary expression with the symbol `+` or `-` (in value mode) or `==`, `!=`,
`<`, `>=` (in condition mode, and in value mode after the three blocks of the
materialisation are built) lowers the source right operand before the source
left operand; with the symbol `<=` or `>` it lowers the source left operand
before the source right operand.  `Operand.Before` says what "before" is: the
first operand is lowered from the state the binary started in, the second from
the state the first and its spill left, and each builder comes from the one
before it. -/
theorem operand_order (left right : Expr) (pos : Position) (length : Int)
    (asm : Assembly) (block : Nat) (scope : Scope) (hcode : CodeAt asm block) :
    (∀ symbol res, symbol = BinarySymbol.add ∨ symbol = BinarySymbol.sub →
        (Expr.Binary pos length symbol left right).compileValue asm block scope = some res →
        (right.operand scope).Before (left.operand scope) asm block res.asm) ∧
      (∀ symbol t f res, symbol ∈ [BinarySymbol.eq, .ne, .lt, .ge] →
        (Expr.Binary pos length symbol left right).compileCondition asm block t f scope =
          some res →
        (right.operand scope).Before (left.operand scope) asm block res.asm) ∧
      (∀ symbol t f res, symbol ∈ [BinarySymbol.le, .gt] →
        (Expr.Binary pos length symbol left right).compileCondition asm block t f scope =
          some res →
        (left.operand scope).Before (right.operand scope) asm block res.asm) ∧
      (∀ symbol res, symbol ∈ [BinarySymbol.eq, .ne, .lt, .ge] →
        (Expr.Binary pos length symbol left right).compileValue asm block scope = some res →
        (right.operand scope).Before (left.operand scope) (materialise asm).1 block res.asm) ∧
      (∀ symbol res, symbol ∈ [BinarySymbol.le, .gt] →
        (Expr.Binary pos length symbol left right).compileValue asm block scope = some res →
        (left.operand scope).Before (right.operand scope) (materialise asm).1 block res.asm) := by
  have hl := operand_evolving scope left
  have hr := operand_evolving scope right
  have hm := (run_materialise asm block hcode).1.2
  refine ⟨fun symbol res hs h => ?_, fun symbol t f res hs h => ?_,
    fun symbol t f res hs h => ?_, fun symbol res hs h => ?_, fun symbol res hs h => ?_⟩
  · rcases hs with rfl | rfl
    · exact before_compileArithmetic asm block .add _ _ hl hr res h hcode
    · exact before_compileArithmetic asm block .sub _ _ hl hr res h hcode
  · simp only [List.mem_cons, List.mem_singleton, List.not_mem_nil, or_false] at hs
    rcases hs with rfl | rfl | rfl | rfl <;>
      exact before_compilePostiveBranch _ _ hl hr asm block _ _ res h hcode
  · simp only [List.mem_cons, List.mem_singleton, List.not_mem_nil, or_false] at hs
    rcases hs with rfl | rfl <;>
      exact before_compilePostiveBranch _ _ hr hl asm block _ _ res h hcode
  · simp only [List.mem_cons, List.mem_singleton, List.not_mem_nil, or_false] at hs
    rcases hs with rfl | rfl | rfl | rfl <;>
    · obtain ⟨cr, hcr, ha⟩ := materialised_asm _ _ res h
      rw [ha]
      exact before_compilePostiveBranch _ _ hl hr _ block _ _ cr hcr hm
  · simp only [List.mem_cons, List.mem_singleton, List.not_mem_nil, or_false] at hs
    rcases hs with rfl | rfl <;>
    · obtain ⟨cr, hcr, ha⟩ := materialised_asm _ _ res h
      rw [ha]
      exact before_compilePostiveBranch _ _ hr hl _ block _ _ cr hcr hm

/-- Witness of C12: `1 - 2` in value mode and `1 <= 2` in condition mode,
lowered in the block `start`; the first lowers `2` before `1`, the second `1`
before `2`. -/
theorem operand_order_witness :
    CodeAt asmStart 0 ∧
      ((lit 2).operand InitScope).Before ((lit 1).operand InitScope) asmStart 0
        (valueState ((binary .sub (lit 1) (lit 2)).compileValue asmStart 0 InitScope)).asm ∧
      ((lit 1).operand InitScope).Before ((lit 2).operand InitScope) asmThree 0
        (condState ((binary .le (lit 1) (lit 2)).compileCondition asmThree 0 1 2
          InitScope)).asm :=
  ⟨⟨⟨"start", []⟩, rfl, fun _ hi => by simp at hi⟩,
    (operand_order (lit 1) (lit 2) pos0 1 asmStart 0 InitScope
      ⟨⟨"start", []⟩, rfl, fun _ hi => by simp at hi⟩).1 .sub _ (Or.inr rfl) (by decide!),
    (operand_order (lit 1) (lit 2) pos0 1 asmThree 0 InitScope
      ⟨⟨"start", []⟩, rfl, fun _ hi => by simp at hi⟩).2.2.1 .le 1 2 _ (by decide)
      (by decide!)⟩

/-! ### The spill helpers -/

/-- C13 (spill rule pairing), evaluated for every value descriptor `v` and
every builder: `popTemp v` decrements `currentTemp` exactly when `v.acc` is
false, `storeToTemp v` pushes a temp exactly when `v.acc` is true, so
`storeToTemp v` followed by `popTemp v` leaves `currentTemp` one higher when
`v.acc` is true and one lower when it is false, never unchanged. -/
theorem spill_pairing_inverted (v : Value) (asm : Assembly) (block : Nat) :
    ((popTemp v asm).currentTemp = asm.currentTemp - 1 ↔ v.acc = false) ∧
      ((storeToTemp v asm block).1.currentTemp = asm.currentTemp + 1 ↔ v.acc = true) ∧
      (popTemp v (storeToTemp v asm block).1).currentTemp =
        (if v.acc then asm.currentTemp + 1 else asm.currentTemp - 1) ∧
      (popTemp v (storeToTemp v asm block).1).currentTemp ≠ asm.currentTemp := by
  have hpush : asm.pushTemp.1.currentTemp = asm.currentTemp + 1 := by
    unfold Assembly.pushTemp
    split_ifs <;> rfl
  cases hacc : v.acc <;>
    simp [popTemp, storeToTemp, hacc, Assembly.popTemp, Assembly.emitInstruction, hpush]
  omega

/-! ### The text of the output -/

/-- C14 (E1 and the output format): for every integer `v` the one statement
`out v` compiles without error to the text
`start\tLDA c<v>\n\tOUT \n\tHLT \nc<v>\tDAT <v>\n`; at `v = 42` that is
`start\tLDA c42\n\tOUT \n\tHLT \nc42\tDAT 42\n`. -/
theorem out_literal_text (v : Int) (pos p : Position) (length l : Int) :
    Compile [.Output pos length (.IntLiteral p l v)] =
        some ("start\tLDA c" ++ toString v ++ "\n\tOUT \n\tHLT \nc" ++ toString v ++ "\tDAT "
          ++ toString v ++ "\n", []) ∧
      Compile [.Output pos0 1 (lit 42)] =
        some ("start\tLDA c42\n\tOUT \n\tHLT \nc42\tDAT 42\n", []) := by
  refine ⟨?_, by decide!⟩
  simp [Compile, lowerProgram, compileStatements, Statement.compile, Output.compile,
    compileAndExpect, Expr.operand, Expr.compileValue, InitAssembly, Assembly.getConstant,
    Assembly.createVariable, Assembly.newBlock, Assembly.emitInstruction, emitAt, loadToAcc,
    Block.emitInstruction, Assembly.assemble, Block.assemble, Instruction.assemble]
  apply String.ext
  simp only [String.data_append, List.append_assoc]
  rfl

/-! ### The end-to-end scenarios E3 and E2 -/

/-- C15 (E3) as stated fails: in `if in < 10 out 1 else out 2` the start block
is `INP, SUB c10, BRP b1, BRA b0`; it holds no `STA` and no `LDA c10`, no temp
is ever pushed (`maxTemp` stays 0) and no block `temp0` exists. -/
theorem input_compare_without_spill :
    (lowerProgram progInputCompare).map (fun r => (r.errors, r.asm.blocks[0]?)) =
        some ([], some ⟨"start", [⟨"INP", ""⟩, ⟨"SUB", "c10"⟩, ⟨"BRP", "b1"⟩,
          ⟨"BRA", "b0"⟩]⟩) ∧
      (lowerProgram progInputCompare).map (fun r => r.asm.maxTemp) = some 0 ∧
      blockLabels progInputCompare = some ["start", "b0", "b1", "c10", "c1", "b2", "c2"] := by
  decide!

/-- C15 (E3), amended: `if in < 10 out 1 else out 2` compiles without error;
the start block emits `INP, SUB c10, BRP b1, BRA b0` (the right operand `10` is
lowered first into the cell `c10`, the input stays in the accumulator, nothing
is spilled); the true block `b0` is `LDA c1, OUT, BRA b2`, the false block `b1`
is `LDA c2, OUT, BRA b2`, and the join block `b2`, the last current block, is
`HLT`; the block list is start, b0, b1, c10, c1, b2, c2. -/
theorem input_compare_blocks :
    (lowerProgram progInputCompare).map (fun r => (r.errors, r.block, r.asm.blocks)) =
        some ([], 5,
          [⟨"start", [⟨"INP", ""⟩, ⟨"SUB", "c10"⟩, ⟨"BRP", "b1"⟩, ⟨"BRA", "b0"⟩]⟩,
           ⟨"b0", [⟨"LDA", "c1"⟩, ⟨"OUT", ""⟩, ⟨"BRA", "b2"⟩]⟩,
           ⟨"b1", [⟨"LDA", "c2"⟩, ⟨"OUT", ""⟩, ⟨"BRA", "b2"⟩]⟩,
           ⟨"c10", [⟨"DAT", "10"⟩]⟩, ⟨"c1", [⟨"DAT", "1"⟩]⟩,
           ⟨"b2", [⟨"HLT", ""⟩]⟩, ⟨"c2", [⟨"DAT", "2"⟩]⟩]) ∧
      Compile progInputCompare =
        some ("start\tINP \n\tSUB c10\n\tBRP b1\n\tBRA b0\nb0\tLDA c1\n\tOUT \n\tBRA b2\n"
          ++ "b1\tLDA c2\n\tOUT \n\tBRA b2\nc10\tDAT 10\nc1\tDAT 1\nb2\tHLT \nc2\tDAT 2\n",
          []) := by
  decide!

/-- C16 (E2, no spill for a cell-resident right operand):
`x : int = 5  x = x + 3  out x` is lowered without error to the blocks start,
c5, x, c3 with `x` the cell `[DAT 0]` and the start block `LDA c5, STA x,
LDA x, ADD c3, STA x, LDA x, OUT, HLT`; no temp is pushed.  In general, when
the right operand of `l + r` or `l - r` lowers to an `Int` value with
`acc = false`, `storeToTemp` leaves the builder as it is and returns the label
of the value, and the binary returns the state the left operand left with only
the load of the left value (when it is in a cell) and `ADD`/`SUB <label of r>`
appended to the current block. (`currentTemp` is one less afterwards.) -/
theorem no_spill_for_cell_operand :
    (lowerProgram progIncrement).map (fun r => (r.errors, r.asm.maxTemp, r.asm.blocks)) =
        some ([], 0,
          [⟨"start", [⟨"LDA", "c5"⟩, ⟨"STA", "x"⟩, ⟨"LDA", "x"⟩, ⟨"ADD", "c3"⟩,
              ⟨"STA", "x"⟩, ⟨"LDA", "x"⟩, ⟨"OUT", ""⟩, ⟨"HLT", ""⟩]⟩,
           ⟨"c5", [⟨"DAT", "5"⟩]⟩, ⟨"x", [⟨"DAT", "0"⟩]⟩, ⟨"c3", [⟨"DAT", "3"⟩]⟩]) ∧
      ∀ (l r : Expr) (symbol : BinarySymbol) (pos : Position) (length : Int) (asm : Assembly)
        (block : Nat) (scope : Scope) (rv lv : ValueResult),
        symbol = .add ∨ symbol = .sub →
        r.compileValue asm block scope = some rv → rv.err = none → rv.val.ty = Ty.Int →
        rv.val.acc = false →
        l.compileValue rv.asm rv.block scope = some lv → lv.err = none →
        lv.val.ty = Ty.Int →
        storeToTemp rv.val rv.asm rv.block = (rv.asm, rv.val.label) ∧
          (Expr.Binary pos length symbol l r).compileValue asm block scope =
            some ⟨{ lv.asm with
                    blocks := appendInsts lv.asm.blocks lv.block
                      ((if lv.val.acc then [] else [⟨"LDA", lv.val.label⟩]) ++
                        [⟨if symbol = .add then "ADD" else "SUB", rv.val.label⟩]),
                    currentTemp := lv.asm.currentTemp - 1 },
                  lv.block, ⟨Ty.Int, true, ""⟩, none⟩ := by
  refine ⟨by decide!, ?_⟩
  intro l r symbol pos length asm block scope rv lv hs hr her hrt hacc hl hel hlt
  have hst : storeToTemp rv.val rv.asm rv.block = (rv.asm, rv.val.label) := by
    simp [storeToTemp, hacc]
  refine ⟨hst, ?_⟩
  have hcr : compileAndExpect ⟨r.pos, fun a b => r.compileValue a b scope,
      fun a b t f => r.compileCondition a b t f scope⟩ asm block Ty.Int =
      some ⟨rv.asm, rv.block, rv.val, none⟩ := by
    simp [compileAndExpect, hr, her, hrt]
  have hcl : compileAndExpect ⟨l.pos, fun a b => l.compileValue a b scope,
      fun a b t f => l.compileCondition a b t f scope⟩ rv.asm rv.block Ty.Int =
      some ⟨lv.asm, lv.block, lv.val, none⟩ := by
    simp [compileAndExpect, hl, hel, hlt]
  rcases hs with rfl | rfl <;>
  · simp only [Expr.compileValue, compileArithmetic, hcr, hst, hcl]
    cases hla : lv.val.acc <;>
      simp [loadToAcc, popTemp, hacc, hla, Assembly.emitInstruction, emitAt_eq_appendInsts,
        appendInsts_appendInsts, Assembly.popTemp]

/-- Witness of C16: `x + 3` lowered after `x : int = 5`. -/
theorem no_spill_for_cell_operand_witness :
    storeToTemp cellOperand.val cellOperand.asm cellOperand.block =
        (cellOperand.asm, cellOperand.val.label) ∧
      (binary .add (ident "x") (lit 3)).compileValue stateAfterDeclare.asm 0
          stateAfterDeclare.scope =
        some ⟨{ leftOperand.asm with
                blocks := appendInsts leftOperand.asm.blocks leftOperand.block
                  ((if leftOperand.val.acc then [] else [⟨"LDA", leftOperand.val.label⟩]) ++
                    [⟨"ADD", cellOperand.val.label⟩]),
                currentTemp := leftOperand.asm.currentTemp - 1 },
              leftOperand.block, ⟨Ty.Int, true, ""⟩, none⟩ ∧
      cellOperand.val.label = "c3" ∧ leftOperand.val = ⟨Ty.Int, false, "x"⟩ ∧
      leftOperand.asm.blocks = cellOperand.asm.blocks :=
  ⟨(no_spill_for_cell_operand.2 (ident "x") (lit 3) .add pos0 1 stateAfterDeclare.asm 0
      stateAfterDeclare.scope cellOperand leftOperand (Or.inl rfl) (by decide!) (by decide!)
      (by decide!) (by decide!) (by decide!) (by decide!) (by decide!)).1,
    (no_spill_for_cell_operand.2 (ident "x") (lit 3) .add pos0 1 stateAfterDeclare.asm 0
      stateAfterDeclare.scope cellOperand leftOperand (Or.inl rfl) (by decide!) (by decide!)
      (by decide!) (by decide!) (by decide!) (by decide!) (by decide!)).2,
    by decide!, by decide!, by decide!⟩

/-! ### Errors -/

theorem length_foldl_append {α : Type} (f : α → String) (xs : List α) (init : String) :
    init.length ≤ (xs.foldl (fun w x => w ++ f x) init).length := by
  induction xs generalizing init with
  | nil => simp
  | cons x xs ih =>
    simp only [List.foldl_cons]
    exact le_trans (by simp [String.length_append]) (ih _)

theorem length_label_le_assemble (b : Block) : b.label.length ≤ b.assemble.length :=
  length_foldl_append _ _ _

theorem length_assemble_of_head (asm : Assembly) (b : Block) (h : asm.blocks[0]? = some b) :
    b.label.length ≤ asm.assemble.length := by
  unfold Assembly.assemble
  cases hb : asm.blocks with
  | nil => simp [hb] at h
  | cons x xs =>
    simp only [hb, List.getElem?_cons_zero, Option.some.injEq] at h
    subst h
    simp only [List.foldl_cons]
    refine le_trans ?_ (length_foldl_append _ _ _)
    simp only [String.length_append]
    have := length_label_le_assemble x
    omega

/-- C17 (E6, assignment to an undeclared name): for every name `n` and
expression `e`, `Compile` of the one statement `n = e` returns the empty text
and the one error `cannot assign to undefined variable '<n>' at <pos>`, and the
builder it leaves is the block `start` with `HLT`: nothing was lowered for `e`.
For every statement list, when `Compile` returns, the text is empty exactly
when the error list is not. -/
theorem assign_undeclared (statements : List Statement) :
    (∀ (pos : Position) (length : Int) (n : String) (e : Expr),
        Compile [.Assign pos length n e] =
            some ("", [⟨"cannot assign to undefined variable '" ++ n ++ "' at "
              ++ pos.String⟩]) ∧
          (lowerProgram [.Assign pos length n e]).map (fun r => r.asm) =
            some (asmStart.emitInstruction 0 "HLT" "")) ∧
      ∀ out errs, Compile statements = some (out, errs) → (out = "" ↔ errs ≠ []) := by
  constructor
  · intro pos length n e
    simp [Compile, lowerProgram, compileStatements, Statement.compile, Assign.compile,
      Scope.get, InitScope, mapGet, asmStart]
    rfl
  · intro out errs h
    unfold Compile at h
    cases hl : lowerProgram statements with
    | none => simp [hl] at h
    | some r =>
      simp only [hl] at h
      split_ifs at h with herr
      · simp only [Option.some.injEq, Prod.mk.injEq] at h
        obtain ⟨rfl, rfl⟩ := h
        simp only [true_iff]
        intro hn
        simp [hn] at herr
      · simp only [Option.some.injEq, Prod.mk.injEq] at h
        obtain ⟨rfl, rfl⟩ := h
        simp only [ne_eq, not_true_eq_false, iff_false]
        unfold lowerProgram at hl
        cases h0 : compileStatements statements (InitAssembly.newBlock "start").1
            (InitAssembly.newBlock "start").2 InitScope [] with
        | none => simp [h0] at hl
        | some r0 =>
          simp only [h0, Option.some.injEq] at hl
          subst hl
          have hcode : CodeAt (InitAssembly.newBlock "start").1
              (InitAssembly.newBlock "start").2 :=
            ⟨⟨"start", []⟩, by simp [InitAssembly, Assembly.newBlock],
              fun inst hi => by simp at hi⟩
          have hrun := run_emit (statements_evolving statements _ _ _ _ r0 h0 hcode) "HLT" ""
            (by decide)
          obtain ⟨extra, hx⟩ := hrun.1.1 0 ⟨"start", []⟩
            (by simp [InitAssembly, Assembly.newBlock])
          have hlen := length_assemble_of_head _ _ hx
          intro hempty
          rw [hempty] at hlen
          simp at hlen
          revert hlen
          decide

/-- Witness of C17: `x = 1`. -/
theorem assign_undeclared_witness :
    Compile [.Assign pos0 1 "x" (lit 1)] =
        some ("", [⟨"cannot assign to undefined variable 'x' at (1, 1)"⟩]) ∧
      (("" : String) = "" ↔
        [(⟨"cannot assign to undefined variable 'x' at (1, 1)"⟩ : CompileError)] ≠ []) :=
  ⟨by decide!,
    (assign_undeclared [.Assign pos0 1 "x" (lit 1)]).2 ""
      [⟨"cannot assign to undefined variable 'x' at (1, 1)"⟩] (by decide!)⟩

/-- C18 (errors accumulate across siblings), evaluated at
`x = 1  if true out 1 else y = 2`: lowered alone, the `if` returns the error of
`y = 2`; lowered with the error of `x = 1` in the incoming list, it returns
that list unchanged, so the program with two failing statements reports one
error.  After the then-branch `If.compile` tests `len(errors) > 0` on the whole
list and returns before the else-branch is lowered.  With the failing
assignment in the then-branch, `x = 1  if true y = 2 else out 1`, both errors
are reported. -/
theorem else_branch_skipped_after_earlier_error :
    Compile [stmtIfElseAssign] =
        some ("", [⟨"cannot assign to undefined variable 'y' at (1, 1)"⟩]) ∧
      Compile progTwoFailures =
        some ("", [⟨"cannot assign to undefined variable 'x' at (1, 1)"⟩]) ∧
      (stmtIfElseAssign.compile asmStart 0 InitScope []).map (fun r => r.errors) =
        some [⟨"cannot assign to undefined variable 'y' at (1, 1)"⟩] ∧
      (stmtIfElseAssign.compile asmStart 0 InitScope [⟨"earlier"⟩]).map (fun r => r.errors) =
        some [⟨"earlier"⟩] ∧
      Compile progTwoFailuresThen =
        some ("", [⟨"cannot assign to undefined variable 'x' at (1, 1)"⟩,
          ⟨"cannot assign to undefined variable 'y' at (1, 1)"⟩]) := by
  decide!

/-! ### Variables of type `Undefined` -/

/-- C20 (untyped declaration) as stated fails at two uses of `x` after `x :`:
`x = x` compiles without error to `LDA x, STA x`, and `if x out 1` compiles
without error to `LDA x, BRZ b1, BRA b0`. -/
theorem untyped_variable_accepted :
    Compile [declUntyped, .Assign pos0 1 "x" (ident "x")] =
        some ("start\tLDA x\n\tSTA x\n\tHLT \nx\tDAT 0\n", []) ∧
      Compile [declUntyped, .If pos0 1 (ident "x") (.Output pos0 1 (lit 1)) none] =
        some ("start\tLDA x\n\tBRZ b1\n\tBRA b0\nx\tDAT 0\nb0\tLDA c1\n\tOUT \n\tBRA b1\n"
          ++ "b1\tHLT \nc1\tDAT 1\n", []) := by
  decide!

theorem compileArithmetic_left_error (asm : Assembly) (block : Nat) (symbol : BinarySymbol)
    (left right : Operand) (res : ValueResult)
    (hleft : ∀ a b, ∃ err, compileAndExpect left a b Ty.Int =
      some ⟨a, b, Value.zero, some err⟩)
    (h : compileArithmetic asm block symbol left right = some res) : res.err ≠ none := by
  unfold compileArithmetic at h
  cases h1 : compileAndExpect right asm block Ty.Int with
  | none => simp [h1] at h
  | some r1 =>
    simp only [h1] at h
    cases he1 : r1.err with
    | some err =>
      simp only [he1, Option.some.injEq] at h
      subst h
      simp
    | none =>
      obtain ⟨err, hl⟩ := hleft (storeToTemp r1.val r1.asm r1.block).1 r1.block
      simp only [he1, hl, Option.some.injEq] at h
      subst h
      simp

/-- C20 (untyped declaration), amended: a `Declare` with neither an annotation
nor an initialiser is lowered without a new error, creates the cell and binds
the name with type `Undefined`.  In a scope where `x` is bound to the cell
`label` with type `Undefined`: `out x` returns the error `expected a int
instead got undefined`; `e + x` and `e - x` return that error without lowering
`e`, and `x + e`, `x - e` return an error whenever they return; `x = e` returns
the error `expected a undefined instead got <type>` when `e` lowers to a value
of type `Int` or `Bool`; `y = x` returns an error when `y` has type `Int` or
`Bool`.  But `x = x` returns no error and appends `LDA label, STA label`. -/
theorem untyped_declaration (x label : String) (scope : Scope) (asm : Assembly) (block : Nat)
    (errors : List CompileError) (pos p : Position) (length l : Int)
    (hx : scope.get x = (label, Ty.Undefined, true)) :
    (∀ (sc : Scope) (name : String),
        (Statement.Declare pos length name none Ty.Undefined).compile asm block sc errors =
            some ⟨asm.createVariable (sc.declare name Ty.Undefined).2 0, block,
              (sc.declare name Ty.Undefined).1, errors⟩ ∧
          (sc.declare name Ty.Undefined).1.get name =
            ((sc.declare name Ty.Undefined).2, Ty.Undefined, true)) ∧
      (Statement.Output pos length (.Ident p l x)).compile asm block scope errors =
        some ⟨asm, block, scope,
          errors ++ [⟨"expected a int instead got undefined at " ++ p.String⟩]⟩ ∧
      (∀ symbol e, symbol = BinarySymbol.add ∨ symbol = BinarySymbol.sub →
        (Expr.Binary pos length symbol e (.Ident p l x)).compileValue asm block scope =
          some ⟨asm, block, Value.zero,
            some ⟨"expected a int instead got undefined at " ++ p.String⟩⟩) ∧
      (∀ symbol e res, symbol = BinarySymbol.add ∨ symbol = BinarySymbol.sub →
        (Expr.Binary pos length symbol (.Ident p l x) e).compileValue asm block scope =
          some res → res.err ≠ none) ∧
      (∀ e v, e.compileValue asm block scope = some v → v.err = none →
        v.val.ty ≠ Ty.Undefined →
        (Statement.Assign pos length x e).compile asm block scope errors =
          some ⟨v.asm, v.block, scope,
            errors ++ [⟨"expected a undefined instead got " ++ v.val.ty.String ++ " at "
              ++ e.pos.String⟩]⟩) ∧
      (∀ y ly ty, scope.get y = (ly, ty, true) → ty ≠ Ty.Undefined →
        (Statement.Assign pos length y (.Ident p l x)).compile asm block scope errors =
          some ⟨asm, block, scope,
            errors ++ [⟨"expected a " ++ ty.String ++ " instead got " ++ Ty.Undefined.String
              ++ " at " ++ p.String⟩]⟩) ∧
      (Statement.Assign pos length x (.Ident p l x)).compile asm block scope errors =
        some ⟨{ asm with
                blocks := appendInsts asm.blocks block [⟨"LDA", label⟩, ⟨"STA", label⟩] },
              block, scope, errors⟩ := by
  have hval : ∀ a b, (Expr.Ident p l x).compileValue a b scope =
      some ⟨a, b, ⟨Ty.Undefined, false, label⟩, none⟩ := by
    intro a b
    simp [Expr.compileValue, hx]
  refine ⟨fun sc name => ⟨?_, ?_⟩, ?_, fun symbol e hs => ?_, fun symbol e res hs h => ?_,
    fun e v hv he hty => ?_, fun y ly ty hy hty => ?_, ?_⟩
  · simp [Statement.compile, Declare.compile]
  · simp [Scope.declare, Scope.get, mapGet_mapSet]
    cases mapGet sc.hashmap name <;> simp [Variable.label, Variable.kind]
  · simp [Statement.compile, Output.compile, compileAndExpect, Expr.operand, hval, Ty.String,
      Expr.pos]
  · rcases hs with rfl | rfl <;>
      simp [Expr.compileValue, compileArithmetic, compileAndExpect, hx, Ty.String, Expr.pos]
  · have hce : ∀ a b, compileAndExpect ((Expr.Ident p l x).operand scope) a b Ty.Int =
        some ⟨a, b, Value.zero,
          some ⟨"expected a int instead got undefined at " ++ p.String⟩⟩ := by
      intro a b
      simp [compileAndExpect, Expr.operand, hval, Ty.String, Expr.pos]
    rcases hs with rfl | rfl
    · exact compileArithmetic_left_error asm block .add _ (e.operand scope) res
        (fun a b => ⟨_, hce a b⟩) h
    · exact compileArithmetic_left_error asm block .sub _ (e.operand scope) res
        (fun a b => ⟨_, hce a b⟩) h
  · simp [Statement.compile, Assign.compile, hx, compileAndExpect, Expr.operand, hv, he,
      Ty.String, hty]
  · simp [Statement.compile, Assign.compile, hy, compileAndExpect, Expr.operand, hval,
      Expr.pos, Ne.symm hty]
  · simp [Statement.compile, Assign.compile, hx, compileAndExpect, Expr.operand, hval,
      loadToAcc, Assembly.emitInstruction, emitAt_eq_appendInsts, appendInsts_appendInsts]

/-- Witness of C20: in the scope after `x :`, `out x` returns an error and
`x = x` returns none. -/
theorem untyped_declaration_witness :
    scopeUntyped.get "x" = ("x", Ty.Undefined, true) ∧
      (Statement.Output pos0 1 (ident "x")).compile asmStart 0 scopeUntyped [] =
        some ⟨asmStart, 0, scopeUntyped,
          [] ++ [⟨"expected a int instead got undefined at " ++ pos0.String⟩]⟩ ∧
      (Statement.Assign pos0 1 "x" (ident "x")).compile asmStart 0 scopeUntyped [] =
        some ⟨{ asmStart with
                blocks := appendInsts asmStart.blocks 0 [⟨"LDA", "x"⟩, ⟨"STA", "x"⟩] },
              0, scopeUntyped, []⟩ :=
  ⟨by decide!,
    (untyped_declaration "x" "x" scopeUntyped asmStart 0 [] pos0 pos0 1 1 (by decide!)).2.1,
    (untyped_declaration "x" "x" scopeUntyped asmStart 0 [] pos0 pos0 1 1
      (by decide!)).2.2.2.2.2.2⟩

/-! ### The label of a shadowing declaration -/

theorem declChain_mk (name label : String) (kind : Ty) (pn pd : Option Variable) (depth : Int) :
    declChain (.mk name label kind pn pd depth) = (name, depth) :: declChainOpt pd := by
  cases pd <;> simp [declChain, declChainOpt]

theorem firstNamed_mk (n name label : String) (kind : Ty) (pn pd : Option Variable)
    (depth : Int) :
    firstNamed n (.mk name label kind pn pd depth) =
      if name = n then some (.mk name label kind pn pd depth) else firstNamedOpt n pd := by
  cases pd <;> simp [firstNamed, firstNamedOpt]

theorem linked_mk (name label : String) (kind : Ty) (pn pd : Option Variable) (depth : Int) :
    Linked (.mk name label kind pn pd depth) ↔
      label = underscored name (((declChainOpt pd).map Prod.fst).count name) ∧
        pn = firstNamedOpt name pd ∧ LinkedOpt pd := by
  cases pd <;> simp [Linked, LinkedOpt]

theorem underscored_succ (name : String) (k : Nat) :
    underscored name k ++ "_" = underscored name (k + 1) := by
  apply String.ext
  simp [underscored, String.data_append, List.replicate_succ']

theorem underscored_zero (name : String) : underscored name 0 = name := by
  simp [underscored]

/-- The first binding of a name on a linked chain: there is none exactly when
the name does not occur on the chain, and otherwise it has that name and its
label has one underscore less than the name has bindings on the chain. -/
theorem firstNamed_spec (n : String) :
    ∀ v : Variable, Linked v →
      match firstNamed n v with
      | none => ((declChain v).map Prod.fst).count n = 0
      | some q => q.name = n ∧ 0 < ((declChain v).map Prod.fst).count n ∧
          q.label ++ "_" = underscored n (((declChain v).map Prod.fst).count n)
  | .mk name label kind pn pd depth, h => by
    rw [linked_mk] at h
    obtain ⟨hlabel, -, hrest⟩ := h
    rw [firstNamed_mk, declChain_mk]
    by_cases hn : name = n
    · subst hn
      simp only [if_true, List.map_cons, List.count_cons_self]
      refine ⟨rfl, Nat.succ_pos _, ?_⟩
      show label ++ "_" = _
      rw [hlabel, underscored_succ]
    · simp only [hn, if_false, List.map_cons]
      rw [List.count_cons_of_ne (fun h => hn h.symm)]
      cases pd with
      | none => simp [firstNamedOpt, declChainOpt]
      | some p => exact firstNamed_spec n p hrest

theorem firstNamedOpt_spec (n : String) (c : Option Variable) (h : LinkedOpt c) :
    match firstNamedOpt n c with
    | none => ((declChainOpt c).map Prod.fst).count n = 0
    | some q => q.name = n ∧ 0 < ((declChainOpt c).map Prod.fst).count n ∧
        q.label ++ "_" = underscored n (((declChainOpt c).map Prod.fst).count n) := by
  cases c with
  | none => simp [firstNamedOpt, declChainOpt]
  | some v => exact firstNamed_spec n v h

theorem map_fst_tagged (frames : List (List String)) :
    (tagged frames).map Prod.fst = frames.flatten := by
  induction frames with
  | nil => rfl
  | cons f frames ih => simp [tagged, ih, Function.comp_def]

theorem tagged_depth (frames : List (List String)) :
    ∀ x ∈ tagged frames, x.2 < (frames.length : Int) := by
  induction frames with
  | nil => simp [tagged]
  | cons f frames ih =>
    intro x hx
    simp only [tagged, List.mem_append, List.mem_map] at hx
    simp only [List.length_cons, Nat.cast_add, Nat.cast_one]
    rcases hx with ⟨n, -, rfl⟩ | hx
    · simp
    · have := ih x hx
      omega

theorem rep_init : Rep InitScope [[]] := by
  refine ⟨by simp [InitScope], by simp [InitScope, declChainOpt, tagged], trivial, fun n => ?_⟩
  simp [InitScope, mapGet, firstNamedOpt]

theorem rep_pushScope (scope : Scope) (frames : List (List String)) (h : Rep scope frames) :
    Rep scope.pushScope ([] :: frames) := by
  obtain ⟨hd, hc, hl, hm⟩ := h
  refine ⟨?_, ?_, hl, hm⟩
  · simp only [Scope.pushScope, List.length_cons, Nat.cast_add, Nat.cast_one]
    omega
  · simpa [Scope.pushScope, tagged] using hc

theorem rep_declare (scope : Scope) (f : List String) (frames : List (List String))
    (name : String) (kind : Ty) (h : Rep scope (f :: frames)) :
    Rep (scope.declare name kind).1 ((name :: f) :: frames) ∧
      (scope.declare name kind).2 = underscored name (liveCount (f :: frames) name) := by
  obtain ⟨hd, hc, hl, hm⟩ := h
  have hspec := firstNamedOpt_spec name scope.lastDecl hl
  have hcount : ((declChainOpt scope.lastDecl).map Prod.fst).count name =
      liveCount (f :: frames) name := by
    rw [hc, map_fst_tagged, liveCount]
  have hdepth : scope.currentDepth = (frames.length : Int) := by
    simp only [List.length_cons, Nat.cast_add, Nat.cast_one] at hd
    omega
  rw [← hm name] at hspec
  have hlabel : (scope.declare name kind).2 =
      underscored name (((declChainOpt scope.lastDecl).map Prod.fst).count name) := by
    unfold Scope.declare
    cases hg : mapGet scope.hashmap name with
    | none =>
      simp only [hg] at hspec
      show name = _
      rw [hspec, underscored_zero]
    | some prev =>
      simp only [hg] at hspec
      show prev.label ++ "_" = _
      exact hspec.2.2
  refine ⟨⟨?_, ?_, ?_, fun n => ?_⟩, hcount ▸ hlabel⟩
  · simpa [Scope.declare] using hd
  · unfold Scope.declare
    cases hg : mapGet scope.hashmap name <;>
    · show declChain (Variable.mk _ _ _ _ _ _) = _
      rw [declChain_mk, hc]
      simp [tagged, hdepth]
  · unfold Scope.declare at hlabel ⊢
    cases hg : mapGet scope.hashmap name with
    | none =>
      simp only [hg, Variable.label] at hlabel
      simp only [LinkedOpt, linked_mk]
      exact ⟨hlabel, by rw [← hm name, hg], hl⟩
    | some prev =>
      simp only [hg, Variable.label] at hlabel
      simp only [LinkedOpt, linked_mk]
      exact ⟨hlabel, by rw [← hm name, hg], hl⟩
  · unfold Scope.declare
    cases hg : mapGet scope.hashmap name <;>
    · show mapGet (mapSet _ _ _) n = firstNamed n (Variable.mk _ _ _ _ _ _)
      rw [mapGet_mapSet, firstNamed_mk]
      by_cases hn : n = name
      · simp [hn]
      · have hn' : ¬ name = n := fun e => hn e.symm
        simp [hn, hn', hm n]

theorem popLoop_eq_popChain (d : Int) (name label : String) (kind : Ty)
    (pn pd : Option Variable) (depth : Int) (m : List (String × Variable))
    (hd : depth > d)
    (hg : mapGet m name = some (.mk name label kind pn pd depth)) :
    popLoop d (.mk name label kind pn pd depth) m =
      popChain d pd (restoreShadowed m name pn) := by
  rw [popLoop]
  simp only [hd, if_true, hg, Variable.prevName]
  cases pd <;> cases pn <;> rfl

/-- The loop of `popScope` on a scope that holds the bindings of open scopes:
it removes the bindings of the scope that is closed, latest first, and stops
at the first binding of an enclosing scope. -/
theorem popChain_frame (d : Int) :
    ∀ (f : List String) (c : Option Variable) (m : List (String × Variable))
      (rest : List (String × Int)),
      declChainOpt c = f.map (fun n => (n, d + 1)) ++ rest → (∀ x ∈ rest, x.2 ≤ d) →
      LinkedOpt c → (∀ n, mapGet m n = firstNamedOpt n c) →
      ∃ m' c', popChain d c m = some (m', c') ∧ declChainOpt c' = rest ∧ LinkedOpt c' ∧
        ∀ n, mapGet m' n = firstNamedOpt n c'
  | [], c, m, rest, hc, hrest, hl, hm => by
    simp only [List.map_nil, List.nil_append] at hc
    cases c with
    | none => exact ⟨m, none, rfl, hc, hl, hm⟩
    | some v =>
      obtain ⟨name, label, kind, pn, pd, depth⟩ := v
      have hmem : (name, depth) ∈ rest := by
        rw [← hc]
        show (name, depth) ∈ declChain _
        rw [declChain_mk]
        exact List.mem_cons_self _ _
      have hle : ¬ depth > d := by
        have := hrest _ hmem
        simp only at this
        omega
      refine ⟨m, some (.mk name label kind pn pd depth), ?_, hc, hl, hm⟩
      show popLoop d _ m = _
      rw [popLoop]
      simp only [hle, if_false]
  | a :: f, c, m, rest, hc, hrest, hl, hm => by
    cases c with
    | none => simp [declChainOpt] at hc
    | some v =>
      obtain ⟨name, label, kind, pn, pd, depth⟩ := v
      have hc2 : declChain (.mk name label kind pn pd depth) =
          (a, d + 1) :: (f.map (fun n => (n, d + 1)) ++ rest) := hc
      rw [declChain_mk] at hc2
      simp only [List.cons.injEq, Prod.mk.injEq] at hc2
      obtain ⟨⟨rfl, rfl⟩, hc3⟩ := hc2
      have hl2 : Linked (.mk name label kind pn pd (d + 1)) := hl
      rw [linked_mk] at hl2
      obtain ⟨-, hpn, hl3⟩ := hl2
      have hg : mapGet m name = some (.mk name label kind pn pd (d + 1)) := by
        rw [hm name]
        show firstNamed name _ = _
        rw [firstNamed_mk]
        simp
      have hm2 : ∀ n, mapGet (restoreShadowed m name pn) n = firstNamedOpt n pd := by
        intro n
        have hmn := hm n
        rw [show firstNamedOpt n (some (Variable.mk name label kind pn pd (d + 1))) =
          firstNamed n (Variable.mk name label kind pn pd (d + 1)) from rfl,
          firstNamed_mk] at hmn
        by_cases hn : n = name
        · subst hn
          rw [← hpn]
          cases pn <;> simp [restoreShadowed, mapGet_mapSet, mapGet_mapDelete]
        · have hn' : ¬ name = n := fun e => hn e.symm
          simp only [hn', if_false] at hmn
          cases pn <;> simp [restoreShadowed, mapGet_mapSet, mapGet_mapDelete, hn, hmn]
      obtain ⟨m', c', h1, h2, h3, h4⟩ := popChain_frame d f pd _ rest hc3 hrest hl3 hm2
      refine ⟨m', c', ?_, h2, h3, h4⟩
      show popLoop d _ m = _
      rw [popLoop_eq_popChain d name label kind pn pd (d + 1) m (by omega) hg]
      exact h1

theorem rep_popScope (scope : Scope) (f g : List String) (frames : List (List String))
    (h : Rep scope (f :: g :: frames)) :
    ∃ s, scope.popScope = some s ∧ Rep s (g :: frames) := by
  obtain ⟨hd, hc, hl, hm⟩ := h
  have hdepth : scope.currentDepth - 1 = (frames.length : Int) := by
    simp only [List.length_cons, Nat.cast_add, Nat.cast_one] at hd
    omega
  have hc2 : declChainOpt scope.lastDecl =
      f.map (fun n => (n, scope.currentDepth - 1 + 1)) ++ tagged (g :: frames) := by
    rw [hc, hdepth]
    simp [tagged]
  have hrest : ∀ x ∈ tagged (g :: frames), x.2 ≤ scope.currentDepth - 1 := by
    intro x hx
    have := tagged_depth (g :: frames) x hx
    simp only [List.length_cons, Nat.cast_add, Nat.cast_one] at this
    omega
  obtain ⟨m', c', h1, h2, h3, h4⟩ :=
    popChain_frame (scope.currentDepth - 1) f scope.lastDecl scope.hashmap _ hc2 hrest hl hm
  refine ⟨⟨m', c', scope.currentDepth - 1⟩, ?_, ?_, h2, h3, h4⟩
  · rw [popScope_eq_popChain, h1]
  · simp only [List.length_cons, Nat.cast_add, Nat.cast_one]
    omega

/-- Every sequence of calls whose `popScope` calls each close a scope opened by
a `pushScope` runs without panic and keeps the scope in step with the open
scopes. -/
theorem runOps_rep :
    ∀ (ops : List ScopeOp) (scope : Scope) (frames frames' : List (List String)),
      Rep scope frames → liveNames ops frames = some frames' →
      ∃ s, runOps ops scope = some s ∧ Rep s frames'
  | [], scope, frames, frames', h, hl => by
    simp only [liveNames, Option.some.injEq] at hl
    subst hl
    exact ⟨scope, rfl, h⟩
  | .declare name kind :: rest, scope, [], frames', h, hl => by
    simp [liveNames] at hl
  | .declare name kind :: rest, scope, f :: frames, frames', h, hl => by
    simp only [liveNames] at hl
    simp only [runOps]
    exact runOps_rep rest _ _ frames' (rep_declare scope f frames name kind h).1 hl
  | .pushScope :: rest, scope, frames, frames', h, hl => by
    simp only [liveNames] at hl
    simp only [runOps]
    exact runOps_rep rest _ _ frames' (rep_pushScope scope frames h) hl
  | .popScope :: rest, scope, [], frames', h, hl => by
    simp [liveNames] at hl
  | .popScope :: rest, scope, [_], frames', h, hl => by
    simp [liveNames] at hl
  | .popScope :: rest, scope, f :: g :: frames, frames', h, hl => by
    simp only [liveNames] at hl
    obtain ⟨s, hs, hr⟩ := rep_popScope scope f g frames h
    simp only [runOps, hs]
    exact runOps_rep rest s _ frames' hr hl

theorem liveNames_ne_nil :
    ∀ (ops : List ScopeOp) (frames frames' : List (List String)),
      liveNames ops frames = some frames' → frames ≠ [] → frames' ≠ []
  | [], frames, frames', h, hne => by
    simp only [liveNames, Option.some.injEq] at h
    exact h ▸ hne
  | .declare name kind :: rest, [], frames', h, hne => by simp [liveNames] at h
  | .declare name kind :: rest, f :: frames, frames', h, hne => by
    simp only [liveNames] at h
    exact liveNames_ne_nil rest _ frames' h (by simp)
  | .pushScope :: rest, frames, frames', h, hne => by
    simp only [liveNames] at h
    exact liveNames_ne_nil rest _ frames' h (by simp)
  | .popScope :: rest, [], frames', h, hne => by simp [liveNames] at h
  | .popScope :: rest, [_], frames', h, hne => by simp [liveNames] at h
  | .popScope :: rest, f :: g :: frames, frames', h, hne => by
    simp only [liveNames] at h
    exact liveNames_ne_nil rest _ frames' h (by simp)

/-- C19 (shadow label rule): after every sequence of `declare`, `pushScope`
and `popScope` calls from `InitScope` in which no `popScope` exceeds the
`pushScope` calls, the calls ran without panic and for every name `n` with `k`
live bindings (declarations in scopes still open) and every type `t`: `get(n)`
finds nothing exactly when `k = 0`; `declare(n, t)` returns `n` when `k = 0`
and the label of the innermost binding with one underscore appended when
`k > 0`; it returns `n` followed by `k` underscores; and `get(n)` afterwards
returns that label, `t` and true. -/
theorem shadow_label_rule (ops : List ScopeOp) (frames : List (List String))
    (hlive : liveNames ops [[]] = some frames) :
    ∃ scope, runOps ops InitScope = some scope ∧
      ∀ (n : String) (t : Ty),
        (scope.get n = ("", Ty.Int, false) ↔ liveCount frames n = 0) ∧
          (liveCount frames n = 0 → (scope.declare n t).2 = n) ∧
          (0 < liveCount frames n →
            (scope.get n).2.2 = true ∧ (scope.declare n t).2 = (scope.get n).1 ++ "_") ∧
          (scope.declare n t).2 = underscored n (liveCount frames n) ∧
          (scope.declare n t).1.get n = ((scope.declare n t).2, t, true) := by
  obtain ⟨scope, hrun, hrep⟩ := runOps_rep ops InitScope [[]] frames rep_init hlive
  refine ⟨scope, hrun, fun n t => ?_⟩
  have hne := liveNames_ne_nil ops [[]] frames hlive (by simp)
  obtain ⟨f, fs, rfl⟩ := List.exists_cons_of_ne_nil hne
  have hlabel := (rep_declare scope f fs n t hrep).2
  have hspec := firstNamedOpt_spec n scope.lastDecl hrep.2.2.1
  rw [← hrep.2.2.2 n, hrep.2.1, map_fst_tagged] at hspec
  have hget : (scope.declare n t).1.get n = ((scope.declare n t).2, t, true) := by
    unfold Scope.declare Scope.get
    cases mapGet scope.hashmap n <;> simp [mapGet_mapSet, Variable.label, Variable.kind]
  cases hg : mapGet scope.hashmap n with
  | none =>
    simp only [hg] at hspec
    have h0 : liveCount (f :: fs) n = 0 := hspec
    refine ⟨?_, fun _ => ?_, fun hpos => ?_, hlabel, hget⟩
    · simp [Scope.get, hg, h0]
    · rw [hlabel, h0, underscored_zero]
    · omega
  | some prev =>
    simp only [hg] at hspec
    have hpos : 0 < liveCount (f :: fs) n := hspec.2.1
    refine ⟨?_, fun h0 => ?_, fun _ => ?_, hlabel, hget⟩
    · simp only [Scope.get, hg]
      constructor
      · intro h
        simp at h
      · intro h0
        omega
    · omega
    · simp only [Scope.get, hg]
      refine ⟨trivial, ?_⟩
      unfold Scope.declare
      simp [hg, Variable.label]

/-- Witness of C19: after `declare x`, `pushScope`, `declare x` the name `x`
has two live bindings and a third `declare x` returns `x__`. -/
theorem shadow_label_rule_witness :
    liveNames opsTwoX [[]] = some [["x"], ["x"]] ∧
      (scopeTwoX.declare "x" Ty.Bool).2 = underscored "x" (liveCount [["x"], ["x"]] "x") ∧
      underscored "x" (liveCount [["x"], ["x"]] "x") = "x__" := by
  obtain ⟨scope, hrun, h⟩ := shadow_label_rule opsTwoX [["x"], ["x"]] (by decide!)
  have hs : runOps opsTwoX InitScope = some scopeTwoX := rfl
  rw [hs] at hrun
  have he : scopeTwoX = scope := Option.some.inj hrun
  subst he
  exact ⟨by decide!, (h "x" Ty.Bool).2.2.2.1, by decide!⟩

/-! ### Conditions that are rejected, declarations, and the cursor -/

/-- C22 (rejected conditions are atomic): condition-mode lowering of an integer
literal, of `in`, of a unary `-` expression, of an identifier with no live
binding and of an identifier bound with type `Int` returns its error and the
builder and the cursor it was given: nothing is emitted or created.  (The
scope is only read by expression lowering.) -/
theorem rejected_conditions_atomic (asm : Assembly) (block ifTrue ifFalse : Nat)
    (scope : Scope) (pos : Position) (length : Int) :
    (∀ value, (Expr.IntLiteral pos length value).compileCondition asm block ifTrue ifFalse
        scope = some ⟨asm, block, some ⟨"int used as a condition at " ++ pos.String⟩⟩) ∧
      (Expr.Input pos length).compileCondition asm block ifTrue ifFalse scope =
        some ⟨asm, block, some ⟨"cannot use input as condition at " ++ pos.String⟩⟩ ∧
      (∀ e, (Expr.Unary pos length .neg e).compileCondition asm block ifTrue ifFalse scope =
        some ⟨asm, block,
          some ⟨"cannot use '-' operator in condition at " ++ pos.String⟩⟩) ∧
      (∀ name, (scope.get name).2.2 = false →
        (Expr.Ident pos length name).compileCondition asm block ifTrue ifFalse scope =
          some ⟨asm, block,
            some ⟨"undefined variable '" ++ name ++ "' at " ++ pos.String⟩⟩) ∧
      (∀ name label, scope.get name = (label, Ty.Int, true) →
        (Expr.Ident pos length name).compileCondition asm block ifTrue ifFalse scope =
          some ⟨asm, block,
            some ⟨"variable '" ++ name ++ "' at " ++ pos.String ++ " has type " ++
              Ty.Int.String ++ " but is being used in condition so should be bool"⟩⟩) := by
  refine ⟨fun value => ?_, ?_, fun e => ?_, fun name h => ?_, fun name label h => ?_⟩
  · simp [Expr.compileCondition]
  · simp [Expr.compileCondition]
  · simp [Expr.compileCondition, compileUnaryCondition]
  · simp [Expr.compileCondition, h]
  · simp [Expr.compileCondition, h]

/-- Witness of C22: with `a` bound with type `Int` and `z` not bound, `a` and
`z` as conditions return their errors and the builder unchanged. -/
theorem rejected_conditions_atomic_witness :
    (Expr.Ident pos0 1 "a").compileCondition asmThree 0 1 2 scopeIntAB =
        some ⟨asmThree, 0,
          some ⟨"variable '" ++ "a" ++ "' at " ++ pos0.String ++ " has type " ++
            Ty.Int.String ++ " but is being used in condition so should be bool"⟩⟩ ∧
      (Expr.Ident pos0 1 "z").compileCondition asmThree 0 1 2 scopeIntAB =
        some ⟨asmThree, 0, some ⟨"undefined variable '" ++ "z" ++ "' at " ++ pos0.String⟩⟩ :=
  ⟨(rejected_conditions_atomic asmThree 0 1 2 scopeIntAB pos0 1).2.2.2.2 "a" "a"
      (by decide!),
    (rejected_conditions_atomic asmThree 0 1 2 scopeIntAB pos0 1).2.2.2.1 "z"
      (by decide!)⟩

/-- C23 (declaration type check): let the initialiser `e` of
`Declare(name, ty, e)` lower without error to the value `v`.  When `ty` is
`Undefined` or the type of `v`, no error is added, the name is bound with the
type of `v`, the cell `label: DAT 0` of the binding is appended to the block
list and the current block gets the load of `v` (when `v` is in a cell) and
`STA label`.  When `ty` is neither, the one error `expression at ... has type
... but declaration at ... has type ...` is appended, and the scope and the
builder are those the initialiser left: the name is not bound and no cell is
created for it. -/
theorem declaration_type_check (name : String) (e : Expr) (ty : Ty) (pos : Position)
    (length : Int) (asm : Assembly) (block : Nat) (scope : Scope)
    (errors : List CompileError) (v : ValueResult)
    (hv : e.compileValue asm block scope = some v) (herr : v.err = none) :
    ((ty = Ty.Undefined ∨ ty = v.val.ty) →
        (Statement.Declare pos length name (some e) ty).compile asm block scope errors =
            some ⟨{ v.asm with
                    blocks := appendInsts
                      (v.asm.blocks ++ [⟨(scope.declare name v.val.ty).2, [⟨"DAT", "0"⟩]⟩])
                      v.block
                      ((if v.val.acc then [] else [⟨"LDA", v.val.label⟩]) ++
                        [⟨"STA", (scope.declare name v.val.ty).2⟩]) },
                  v.block, (scope.declare name v.val.ty).1, errors⟩ ∧
          (scope.declare name v.val.ty).1.get name =
            ((scope.declare name v.val.ty).2, v.val.ty, true)) ∧
      (ty ≠ Ty.Undefined ∧ ty ≠ v.val.ty →
        (Statement.Declare pos length name (some e) ty).compile asm block scope errors =
          some ⟨v.asm, v.block, scope,
            errors ++ [⟨"expression at " ++ e.pos.String ++ " has type " ++ v.val.ty.String
              ++ " but declaration at " ++ pos.String ++ " has type " ++ ty.String⟩]⟩) := by
  constructor
  · intro hty
    have hc : ¬ (ty ≠ v.val.ty ∧ ty ≠ Ty.Undefined) := by
      rintro ⟨h1, h2⟩
      rcases hty with h | h
      · exact h2 h
      · exact h1 h
    constructor
    · simp only [Statement.compile, Declare.compile, hv, herr, hc, if_false]
      have h0 : toString (0 : Int) = "0" := by decide
      cases hacc : v.val.acc <;>
        simp [loadToAcc, hacc, h0, Assembly.createVariable, Assembly.newBlock,
          Assembly.emitInstruction, emitAt_eq_appendInsts, appendInsts_appendInsts,
          appendInsts_append_length]
    · unfold Scope.declare Scope.get
      cases mapGet scope.hashmap name <;> simp [mapGet_mapSet, Variable.label, Variable.kind]
  · rintro ⟨h1, h2⟩
    simp [Statement.compile, Declare.compile, hv, herr, h1, h2]

/-- Witness of C23: `x : int = 5` and `x : bool = 5` lowered in the block
`start`. -/
theorem declaration_type_check_witness :
    (Statement.Declare pos0 1 "x" (some (lit 5)) Ty.Int).compile asmStart 0 InitScope [] =
        some ⟨{ valueOfFive.asm with
                blocks := appendInsts
                  (valueOfFive.asm.blocks ++
                    [⟨(InitScope.declare "x" valueOfFive.val.ty).2, [⟨"DAT", "0"⟩]⟩])
                  valueOfFive.block
                  ((if valueOfFive.val.acc then [] else [⟨"LDA", valueOfFive.val.label⟩]) ++
                    [⟨"STA", (InitScope.declare "x" valueOfFive.val.ty).2⟩]) },
              valueOfFive.block, (InitScope.declare "x" valueOfFive.val.ty).1, []⟩ ∧
      (Statement.Declare pos0 1 "x" (some (lit 5)) Ty.Bool).compile asmStart 0 InitScope [] =
        some ⟨valueOfFive.asm, valueOfFive.block, InitScope,
          [] ++ [⟨"expression at " ++ (lit 5).pos.String ++ " has type "
            ++ valueOfFive.val.ty.String ++ " but declaration at " ++ pos0.String
            ++ " has type " ++ Ty.Bool.String⟩]⟩ :=
  ⟨((declaration_type_check "x" (lit 5) Ty.Int pos0 1 asmStart 0 InitScope [] valueOfFive
      (by decide!) (by decide!)).1 (Or.inr (by decide!))).1,
    (declaration_type_check "x" (lit 5) Ty.Bool pos0 1 asmStart 0 InitScope [] valueOfFive
      (by decide!) (by decide!)).2 ⟨by decide, by decide!⟩⟩

theorem materialised_block (exitBlock : Nat) (c : Option CondResult) (r : ValueResult)
    (h : materialised exitBlock c = some r) (herr : r.err = none) :
    r.block = exitBlock ∧ r.val.ty = Ty.Bool := by
  cases c with
  | none => simp [materialised] at h
  | some cr =>
    simp only [materialised] at h
    cases he : cr.err with
    | some e =>
      simp only [he, Option.some.injEq] at h
      subst h
      simp at herr
    | none =>
      simp only [he, Option.some.injEq] at h
      subst h
      exact ⟨rfl, rfl⟩

theorem exit_of_materialise (asm : Assembly) : (materialise asm).2.2.2 = asm.blocks.length + 2 := by
  simp [materialise, snd_newUniqueBlock, length_newUniqueBlock]

theorem compileArithmetic_ty (asm : Assembly) (block : Nat) (symbol : BinarySymbol)
    (left right : Operand) (r : ValueResult)
    (h : compileArithmetic asm block symbol left right = some r) : r.val.ty = Ty.Int := by
  unfold compileArithmetic at h
  cases h1 : compileAndExpect right asm block Ty.Int with
  | none => simp [h1] at h
  | some r1 =>
    simp only [h1] at h
    cases he1 : r1.err with
    | some err =>
      simp only [he1, Option.some.injEq] at h
      subst h
      rfl
    | none =>
      simp only [he1] at h
      cases h2 : compileAndExpect left (storeToTemp r1.val r1.asm r1.block).1 r1.block
          Ty.Int with
      | none => simp [h2] at h
      | some r2 =>
        simp only [h2] at h
        cases he2 : r2.err with
        | some err =>
          simp only [he2, Option.some.injEq] at h
          subst h
          rfl
        | none =>
          simp only [he2, Option.some.injEq] at h
          subst h
          rfl

theorem negation_ty (pos : Position) (length : Int) (expr : Expr) (asm : Assembly)
    (block : Nat) (scope : Scope) (r : ValueResult)
    (h : (Expr.Unary pos length .neg expr).compileValue asm block scope = some r) :
    r.val.ty = Ty.Int := by
  simp only [Expr.compileValue] at h
  cases h1 : compileAndExpect ⟨expr.pos, fun a b => expr.compileValue a b scope,
      fun a b t f => expr.compileCondition a b t f scope⟩ asm block Ty.Int with
  | none => simp [h1] at h
  | some v =>
    simp only [h1] at h
    cases he : v.err with
    | some err =>
      simp only [he, Option.some.injEq] at h
      subst h
      rfl
    | none =>
      simp only [he, Option.some.injEq] at h
      subst h
      rfl

/-- The label that `While.compile` gives the back edge: the condition is
lowered through `&condBlock`, a successful condition leaves that cursor where
it was, and no later step relabels the block. -/
theorem while_condition_label (cond : Expr) (body : Statement) (asm : Assembly) (block : Nat)
    (scope : Scope) (errors : List CompileError) (cr : CondResult) (r : StmtResult)
    (hc : cond.compileCondition (whileEntry asm block) asm.blocks.length
      (asm.blocks.length + 1) (asm.blocks.length + 2) scope = some cr)
    (hok : cr.err = none)
    (hb : body.compile cr.asm (asm.blocks.length + 1) scope errors = some r) :
    cr.block = asm.blocks.length ∧
      r.asm.label cr.block = "b" ++ toString asm.currentBlock ∧
      (whileEntry asm block).label asm.blocks.length = "b" ++ toString asm.currentBlock ∧
      While.compile cond body.compile asm block scope errors =
        some ⟨r.asm.emitInstruction r.block "BRA" ("b" ++ toString asm.currentBlock),
          asm.blocks.length + 2, r.scope, r.errors⟩ := by
  have hlab : (whileEntry asm block).label asm.blocks.length =
      "b" ++ toString asm.currentBlock := by
    simp only [whileEntry, label_emitInstruction]
    rw [label_newUniqueBlock_of_lt _ _ (by simp only [length_newUniqueBlock]; omega),
      label_newUniqueBlock_of_lt _ _ (by simp only [length_newUniqueBlock]; omega),
      label_newUniqueBlock_self _ _ rfl]
  have hC : CodeAt (whileEntry asm block) asm.blocks.length := by
    simp [whileEntry, codeAt_emit_iff, codeAt_newUniqueBlock_iff, snd_newUniqueBlock,
      length_newUniqueBlock]
  have hL : CodeAt (whileEntry asm block) (asm.blocks.length + 1) := by
    simp [whileEntry, codeAt_emit_iff, codeAt_newUniqueBlock_iff, snd_newUniqueBlock,
      length_newUniqueBlock]
  have hlen : asm.blocks.length < (whileEntry asm block).blocks.length := by
    simp only [whileEntry, length_emitInstruction, length_newUniqueBlock]
    omega
  have pc := (operand_evolving scope cond).2 _ _ _ _ cr hc hC
  have pb := statement_evolving body _ _ _ _ r hb (pc.1.2.1 _ hL)
  have hblock : cr.block = asm.blocks.length :=
    ((operand_sound scope cond).2 _ _ _ _ cr hc hok).2.1
  have hfin : r.asm.label cr.block = "b" ++ toString asm.currentBlock := by
    rw [hblock, ← hlab]
    exact label_of_evolves (evolves_trans pc.1 pb.1) _ hlen
  refine ⟨hblock, hfin, hlab, ?_⟩
  have hc2 : cond.compileCondition
      (asm.newUniqueBlock.1.newUniqueBlock.1.newUniqueBlock.1.emitInstruction block "BRA"
        (asm.newUniqueBlock.1.newUniqueBlock.1.newUniqueBlock.1.label asm.newUniqueBlock.2))
      asm.newUniqueBlock.2 asm.newUniqueBlock.1.newUniqueBlock.2
      asm.newUniqueBlock.1.newUniqueBlock.1.newUniqueBlock.2 scope = some cr := by
    simpa [whileEntry, snd_newUniqueBlock, length_newUniqueBlock] using hc
  have hb2 : body.compile cr.asm asm.newUniqueBlock.1.newUniqueBlock.2 scope errors =
      some r := by
    simpa [snd_newUniqueBlock, length_newUniqueBlock] using hb
  simp only [While.compile, hc2, hok, hb2, hfin]
  simp [snd_newUniqueBlock, length_newUniqueBlock]

/-- C25 (the cursor is stable under conditions): when condition-mode lowering
of an expression returns without error the cursor is the one it was given;
when value-mode lowering returns without error a value of type `Int` the
cursor is the one it was given; a successful value-mode lowering moves the
cursor exactly when the expression is a relational or logical binary or a
`not`, to the exit block (the third block it creates), with a value of type
`Bool`.  Hence in `While.compile`, after a successful condition, `condBlock`
is still the block `C` created at the start and the back edge is `BRA` with
the label `b<currentBlock>` given to `C`. -/
theorem cursor_stable (e : Expr) (asm : Assembly) (block : Nat) (scope : Scope) :
    (∀ t f r, e.compileCondition asm block t f scope = some r → r.err = none →
        r.block = block) ∧
      (∀ r, e.compileValue asm block scope = some r → r.err = none → r.val.ty = Ty.Int →
        r.block = block) ∧
      (∀ r, e.compileValue asm block scope = some r → r.err = none →
        if e.materialises then r.val.ty = Ty.Bool ∧ r.block = asm.blocks.length + 2
        else r.block = block) ∧
      ∀ (body : Statement) (errors : List CompileError) (cr : CondResult) (r : StmtResult),
        e.compileCondition (whileEntry asm block) asm.blocks.length (asm.blocks.length + 1)
          (asm.blocks.length + 2) scope = some cr → cr.err = none →
        body.compile cr.asm (asm.blocks.length + 1) scope errors = some r →
        cr.block = asm.blocks.length ∧
          r.asm.label cr.block = "b" ++ toString asm.currentBlock ∧
          (whileEntry asm block).label asm.blocks.length =
            "b" ++ toString asm.currentBlock ∧
          While.compile e body.compile asm block scope errors =
            some ⟨r.asm.emitInstruction r.block "BRA" ("b" ++ toString asm.currentBlock),
              asm.blocks.length + 2, r.scope, r.errors⟩ := by
  have hs := operand_sound scope e
  refine ⟨fun t f r h he => (hs.2 asm block t f r h he).2.1,
    fun r h he hty => (hs.1 asm block r h he).2.2.1 hty, fun r h he => ?_,
    fun body errors cr r hc hok hb => ?_⟩
  · cases e with
    | IntLiteral pos length value =>
      simp only [Expr.compileValue, Option.some.injEq] at h
      subst h
      simp [Expr.materialises]
    | BoolLiteral pos length value =>
      simp only [Expr.compileValue, Option.some.injEq] at h
      subst h
      simp [Expr.materialises]
    | Input pos length =>
      simp only [Expr.compileValue, Option.some.injEq] at h
      subst h
      simp [Expr.materialises]
    | Ident pos length name =>
      simp only [Expr.compileValue] at h
      split_ifs at h <;>
      · simp only [Option.some.injEq] at h
        subst h
        simp [Expr.materialises]
    | Binary pos length symbol left right =>
      cases symbol with
      | add =>
        exact (hs.1 asm block r h he).2.2.1
          (compileArithmetic_ty asm block .add (left.operand scope) (right.operand scope) r h)
      | sub =>
        exact (hs.1 asm block r h he).2.2.1
          (compileArithmetic_ty asm block .sub (left.operand scope) (right.operand scope) r h)
      | eq =>
        obtain ⟨h1, h2⟩ := materialised_block _ _ r h he
        exact ⟨h2, h1.trans (exit_of_materialise asm)⟩
      | ne =>
        obtain ⟨h1, h2⟩ := materialised_block _ _ r h he
        exact ⟨h2, h1.trans (exit_of_materialise asm)⟩
      | gt =>
        obtain ⟨h1, h2⟩ := materialised_block _ _ r h he
        exact ⟨h2, h1.trans (exit_of_materialise asm)⟩
      | lt =>
        obtain ⟨h1, h2⟩ := materialised_block _ _ r h he
        exact ⟨h2, h1.trans (exit_of_materialise asm)⟩
      | ge =>
        obtain ⟨h1, h2⟩ := materialised_block _ _ r h he
        exact ⟨h2, h1.trans (exit_of_materialise asm)⟩
      | le =>
        obtain ⟨h1, h2⟩ := materialised_block _ _ r h he
        exact ⟨h2, h1.trans (exit_of_materialise asm)⟩
      | and =>
        obtain ⟨h1, h2⟩ := materialised_block _ _ r h he
        exact ⟨h2, h1.trans (exit_of_materialise asm)⟩
      | or =>
        obtain ⟨h1, h2⟩ := materialised_block _ _ r h he
        exact ⟨h2, h1.trans (exit_of_materialise asm)⟩
    | Unary pos length symbol expr =>
      cases symbol with
      | neg => exact (hs.1 asm block r h he).2.2.1 (negation_ty pos length expr asm block scope r h)
      | not =>
        obtain ⟨h1, h2⟩ := materialised_block _ _ r h he
        exact ⟨h2, h1.trans (exit_of_materialise asm)⟩
  · exact while_condition_label e body asm block scope errors cr r hc hok hb

/-- Witness of C25: `1 < 2` as a condition and `1 + 2` as a value leave the
cursor on the block 0; `1 < 2` as a value moves it to the exit block. -/
theorem cursor_stable_witness :
    (condState ((binary .lt (lit 1) (lit 2)).compileCondition asmThree 0 1 2
        InitScope)).block = 0 ∧
      (valueState ((binary .add (lit 1) (lit 2)).compileValue asmThree 0 InitScope)).block =
        0 ∧
      (if (binary .lt (lit 1) (lit 2)).materialises then
        (valueState ((binary .lt (lit 1) (lit 2)).compileValue asmThree 0 InitScope)).val.ty =
            Ty.Bool ∧
          (valueState ((binary .lt (lit 1) (lit 2)).compileValue asmThree 0 InitScope)).block =
            asmThree.blocks.length + 2
      else
        (valueState ((binary .lt (lit 1) (lit 2)).compileValue asmThree 0 InitScope)).block =
          0) :=
  ⟨(cursor_stable (binary .lt (lit 1) (lit 2)) asmThree 0 InitScope).1 1 2 _ (by decide!)
      (by decide!),
    (cursor_stable (binary .add (lit 1) (lit 2)) asmThree 0 InitScope).2.1 _ (by decide!)
      (by decide!) (by decide!),
    (cursor_stable (binary .lt (lit 1) (lit 2)) asmThree 0 InitScope).2.2.1 _ (by decide!)
      (by decide!)⟩

/-! ### Blocks are append-only -/

theorem grows_refl (a : Assembly) : Grows a a :=
  fun i blk h => ⟨[], by simpa using h⟩

theorem grows_trans {a b c : Assembly} (h1 : Grows a b) (h2 : Grows b c) : Grows a c := by
  intro i blk h
  obtain ⟨x, hx⟩ := h1 i blk h
  obtain ⟨y, hy⟩ := h2 i _ hx
  exact ⟨x ++ y, by simpa [List.append_assoc] using hy⟩

theorem grows_emit (a : Assembly) (j : Nat) (opcode operand : String) :
    Grows a (a.emitInstruction j opcode operand) := by
  intro i blk h
  simp only [Assembly.emitInstruction, emitAt_eq_appendInsts, getElem?_appendInsts, h]
  by_cases hij : i = j
  · exact ⟨[⟨opcode, operand⟩], by simp [hij]⟩
  · exact ⟨[], by simp [hij]⟩

theorem grows_append (a b : Assembly) (extra : List Block)
    (hb : b.blocks = a.blocks ++ extra) : Grows a b := by
  intro i blk h
  refine ⟨[], ?_⟩
  have hi : i < a.blocks.length := (List.getElem?_eq_some_iff.mp h).1
  rw [hb, List.getElem?_append_left hi, h]
  simp

theorem grows_newUniqueBlock (a : Assembly) : Grows a a.newUniqueBlock.1 :=
  grows_append a _ [⟨"b" ++ toString a.currentBlock, []⟩] rfl

theorem grows_createVariable (a : Assembly) (label : String) (value : Int) :
    Grows a (a.createVariable label value) :=
  grows_append a _ _ (blocks_createVariable a label value)

theorem grows_getConstant (a : Assembly) (v : Int) : Grows a (a.getConstant v).1 := by
  unfold Assembly.getConstant
  split_ifs
  · exact grows_refl a
  · exact grows_append a _ _ (blocks_createVariable a _ v)

theorem grows_pushTemp (a : Assembly) : Grows a a.pushTemp.1 := by
  unfold Assembly.pushTemp
  split_ifs
  · exact grows_append a _ _ (blocks_createVariable _ _ 0)
  · exact grows_refl a

theorem grows_popTemp (val : Value) (a : Assembly) : Grows a (popTemp val a) := by
  unfold popTemp
  split_ifs
  · exact grows_refl a
  · exact grows_refl a

theorem grows_storeToTemp (val : Value) (a : Assembly) (j : Nat) :
    Grows a (storeToTemp val a j).1 := by
  unfold storeToTemp
  split_ifs
  · exact grows_trans (grows_pushTemp a) (grows_emit _ _ _ _)
  · exact grows_refl a

theorem grows_loadToAcc (val : Value) (a : Assembly) (j : Nat) :
    Grows a (loadToAcc val a j) := by
  unfold loadToAcc
  split_ifs
  · exact grows_emit _ _ _ _
  · exact grows_refl a

theorem grows_compileAndExpect (o : Operand) (ho : o.Growing) (asm : Assembly) (cur : Nat)
    (ty : Ty) (r : ValueResult) (h : compileAndExpect o asm cur ty = some r) :
    Grows asm r.asm := by
  obtain ⟨v, hv, ha, -, -⟩ := compileAndExpect_some o asm cur ty r h
  rw [ha]
  exact ho.1 asm cur v hv

theorem grows_compileArithmetic (asm : Assembly) (cur : Nat) (symbol : BinarySymbol)
    (left right : Operand) (hl : left.Growing) (hr : right.Growing) (r : ValueResult)
    (h : compileArithmetic asm cur symbol left right = some r) : Grows asm r.asm := by
  unfold compileArithmetic at h
  cases h1 : compileAndExpect right asm cur Ty.Int with
  | none => simp [h1] at h
  | some r1 =>
    have p1 := grows_compileAndExpect right hr asm cur Ty.Int r1 h1
    simp only [h1] at h
    cases he1 : r1.err with
    | some e =>
      simp only [he1, Option.some.injEq] at h
      subst h
      exact p1
    | none =>
      simp only [he1] at h
      cases h2 : compileAndExpect left (storeToTemp r1.val r1.asm r1.block).1 r1.block
          Ty.Int with
      | none => simp [h2] at h
      | some r2 =>
        have p2 := grows_trans p1 (grows_trans (grows_storeToTemp _ _ _)
          (grows_compileAndExpect left hl _ _ Ty.Int r2 h2))
        simp only [h2] at h
        cases he2 : r2.err with
        | some e =>
          simp only [he2, Option.some.injEq] at h
          subst h
          exact grows_trans p2 (grows_popTemp _ _)
        | none =>
          simp only [he2, Option.some.injEq] at h
          subst h
          refine grows_trans p2 (grows_trans (grows_loadToAcc r2.val _ r2.block) ?_)
          cases symbol <;>
            first
            | exact grows_trans (grows_emit _ _ _ _) (grows_popTemp _ _)
            | exact grows_popTemp _ _

theorem grows_compileCompare (left right : Operand) (hl : left.Growing) (hr : right.Growing)
    (asm : Assembly) (cur : Nat) (r : CondResult)
    (h : compileCompare left right asm cur = some r) : Grows asm r.asm := by
  unfold compileCompare at h
  cases h1 : compileAndExpect right asm cur Ty.Int with
  | none => simp [h1] at h
  | some r1 =>
    have p1 := grows_compileAndExpect right hr asm cur Ty.Int r1 h1
    simp only [h1] at h
    cases he1 : r1.err with
    | some e =>
      simp only [he1, Option.some.injEq] at h
      subst h
      exact p1
    | none =>
      simp only [he1] at h
      cases h2 : compileAndExpect left (storeToTemp r1.val r1.asm r1.block).1 r1.block
          Ty.Int with
      | none => simp [h2] at h
      | some r2 =>
        have p2 := grows_trans p1 (grows_trans (grows_storeToTemp _ _ _)
          (grows_compileAndExpect left hl _ _ Ty.Int r2 h2))
        simp only [h2] at h
        cases he2 : r2.err with
        | some e =>
          simp only [he2, Option.some.injEq] at h
          subst h
          exact grows_trans p2 (grows_popTemp _ _)
        | none =>
          simp only [he2, Option.some.injEq] at h
          subst h
          exact grows_trans p2 (grows_trans (grows_loadToAcc r2.val _ _)
            (grows_trans (grows_emit _ _ _ _) (grows_popTemp _ _)))

theorem grows_compilePostiveBranch (left right : Operand) (hl : left.Growing)
    (hr : right.Growing) (asm : Assembly) (cur t f : Nat) (r : CondResult)
    (h : compilePostiveBranch left right asm cur t f = some r) : Grows asm r.asm := by
  unfold compilePostiveBranch at h
  cases h1 : compileCompare left right asm cur with
  | none => simp [h1] at h
  | some c =>
    have p := grows_compileCompare left right hl hr asm cur c h1
    simp only [h1] at h
    cases he : c.err with
    | some e =>
      simp only [he, Option.some.injEq] at h
      subst h
      exact p
    | none =>
      simp only [he, Option.some.injEq] at h
      subst h
      exact grows_trans p (grows_trans (grows_emit _ _ _ _) (grows_emit _ _ _ _))

/-- The `and` and `or` arms of `compileBinaryCondition`. -/
theorem grows_logical (left right : Operand) (hl : left.Growing) (hr : right.Growing)
    (asm : Assembly) (cur t1 f1 t2 f2 : Nat) (r : CondResult)
    (h : (match left.compileCondition asm.newUniqueBlock.1 cur t1 f1 with
          | none => none
          | some l =>
            match l.err with
            | some err => some ⟨l.asm, l.block, some err⟩
            | none =>
              match right.compileCondition l.asm asm.newUniqueBlock.2 t2 f2 with
              | none => none
              | some r => some (CondResult.mk r.asm l.block r.err)) = some r) :
    Grows asm r.asm := by
  cases h1 : left.compileCondition asm.newUniqueBlock.1 cur t1 f1 with
  | none => simp [h1] at h
  | some l =>
    have p1 := grows_trans (grows_newUniqueBlock asm) (hl.2 _ cur t1 f1 l h1)
    simp only [h1] at h
    cases he : l.err with
    | some e =>
      simp only [he, Option.some.injEq] at h
      subst h
      exact p1
    | none =>
      simp only [he] at h
      cases h2 : right.compileCondition l.asm asm.newUniqueBlock.2 t2 f2 with
      | none => simp [h2] at h
      | some rr =>
        simp only [h2, Option.some.injEq] at h
        subst h
        exact grows_trans p1 (hr.2 _ _ t2 f2 rr h2)

theorem grows_compileBinaryCondition (symbol : BinarySymbol) (left right : Operand)
    (hl : left.Growing) (hr : right.Growing) (asm : Assembly) (cur t f : Nat)
    (r : CondResult) (h : compileBinaryCondition symbol left right asm cur t f = some r) :
    Grows asm r.asm := by
  cases symbol with
  | add => simp [compileBinaryCondition] at h
  | sub => simp [compileBinaryCondition] at h
  | eq => exact grows_compilePostiveBranch left right hl hr asm cur t f r h
  | ne => exact grows_compilePostiveBranch left right hl hr asm cur f t r h
  | gt => exact grows_compilePostiveBranch right left hr hl asm cur f t r h
  | lt => exact grows_compilePostiveBranch left right hl hr asm cur f t r h
  | ge => exact grows_compilePostiveBranch left right hl hr asm cur t f r h
  | le => exact grows_compilePostiveBranch right left hr hl asm cur t f r h
  | and => exact grows_logical left right hl hr asm cur _ _ _ _ r h
  | or => exact grows_logical left right hl hr asm cur _ _ _ _ r h

theorem grows_compileUnaryCondition (symbol : UnarySymbol) (e : Operand) (he : e.Growing)
    (asm : Assembly) (cur t f : Nat) (pos : Position) (r : CondResult)
    (h : compileUnaryCondition symbol e asm cur t f pos = some r) : Grows asm r.asm := by
  cases symbol with
  | neg =>
    simp only [compileUnaryCondition, Option.some.injEq] at h
    subst h
    exact grows_refl asm
  | not => exact he.2 asm cur f t r h

theorem grows_materialise (asm : Assembly) : Grows asm (materialise asm).1 := by
  unfold materialise
  exact grows_trans (grows_newUniqueBlock _) (grows_trans (grows_newUniqueBlock _)
    (grows_trans (grows_newUniqueBlock _) (grows_trans (grows_getConstant _ _)
      (grows_trans (grows_emit _ _ _ _) (grows_trans (grows_getConstant _ _)
        (grows_trans (grows_emit _ _ _ _) (grows_trans (grows_emit _ _ _ _)
          (grows_emit _ _ _ _))))))))

theorem grows_materialised (asm : Assembly) (exitBlock : Nat) (c : Option CondResult)
    (hcond : ∀ r, c = some r → Grows (materialise asm).1 r.asm) (r : ValueResult)
    (h : materialised exitBlock c = some r) : Grows asm r.asm := by
  obtain ⟨cr, hcr, ha⟩ := materialised_asm exitBlock c r h
  rw [ha]
  exact grows_trans (grows_materialise asm) (hcond cr hcr)

/-- Every expression, seen as an operand, keeps the blocks it is given. -/
theorem operand_growing (scope : Scope) : ∀ e : Expr, (e.operand scope).Growing := by
  intro e
  induction e with
  | IntLiteral pos length value =>
    refine ⟨fun asm cur r h => ?_, fun asm cur t f r h => ?_⟩
    · simp only [Expr.operand, Expr.compileValue, Option.some.injEq] at h
      subst h
      exact grows_getConstant _ _
    · simp only [Expr.operand, Expr.compileCondition, Option.some.injEq] at h
      subst h
      exact grows_refl asm
  | BoolLiteral pos length value =>
    refine ⟨fun asm cur r h => ?_, fun asm cur t f r h => ?_⟩
    · simp only [Expr.operand, Expr.compileValue, Option.some.injEq] at h
      subst h
      exact grows_getConstant _ _
    · simp only [Expr.operand, Expr.compileCondition] at h
      split_ifs at h <;>
      · simp only [Option.some.injEq] at h
        subst h
        exact grows_emit _ _ _ _
  | Input pos length =>
    refine ⟨fun asm cur r h => ?_, fun asm cur t f r h => ?_⟩
    · simp only [Expr.operand, Expr.compileValue, Option.some.injEq] at h
      subst h
      exact grows_emit _ _ _ _
    · simp only [Expr.operand, Expr.compileCondition, Option.some.injEq] at h
      subst h
      exact grows_refl asm
  | Ident pos length name =>
    refine ⟨fun asm cur r h => ?_, fun asm cur t f r h => ?_⟩
    · simp only [Expr.operand, Expr.compileValue] at h
      split_ifs at h <;>
      · simp only [Option.some.injEq] at h
        subst h
        exact grows_refl asm
    · simp only [Expr.operand, Expr.compileCondition] at h
      split_ifs at h
      · simp only [Option.some.injEq] at h
        subst h
        exact grows_refl asm
      · simp only [Option.some.injEq] at h
        subst h
        exact grows_refl asm
      · simp only [Option.some.injEq] at h
        subst h
        exact grows_trans (grows_emit _ _ _ _) (grows_trans (grows_emit _ _ _ _)
          (grows_emit _ _ _ _))
  | Binary pos length symbol left right ihl ihr =>
    refine ⟨fun asm cur r h => ?_, fun asm cur t f r h => ?_⟩
    · simp only [Expr.operand, Expr.compileValue] at h
      cases symbol with
      | add => exact grows_compileArithmetic asm cur _ _ _ ihl ihr r h
      | sub => exact grows_compileArithmetic asm cur _ _ _ ihl ihr r h
      | eq =>
        exact grows_materialised asm _ _
          (fun c hcc => grows_compileBinaryCondition _ _ _ ihl ihr _ cur _ _ c hcc) r h
      | ne =>
        exact grows_materialised asm _ _
          (fun c hcc => grows_compileBinaryCondition _ _ _ ihl ihr _ cur _ _ c hcc) r h
      | gt =>
        exact grows_materialised asm _ _
          (fun c hcc => grows_compileBinaryCondition _ _ _ ihl ihr _ cur _ _ c hcc) r h
      | lt =>
        exact grows_materialised asm _ _
          (fun c hcc => grows_compileBinaryCondition _ _ _ ihl ihr _ cur _ _ c hcc) r h
      | ge =>
        exact grows_materialised asm _ _
          (fun c hcc => grows_compileBinaryCondition _ _ _ ihl ihr _ cur _ _ c hcc) r h
      | le =>
        exact grows_materialised asm _ _
          (fun c hcc => grows_compileBinaryCondition _ _ _ ihl ihr _ cur _ _ c hcc) r h
      | and =>
        exact grows_materialised asm _ _
          (fun c hcc => grows_compileBinaryCondition _ _ _ ihl ihr _ cur _ _ c hcc) r h
      | or =>
        exact grows_materialised asm _ _
          (fun c hcc => grows_compileBinaryCondition _ _ _ ihl ihr _ cur _ _ c hcc) r h
    · simp only [Expr.operand, Expr.compileCondition] at h
      exact grows_compileBinaryCondition symbol _ _ ihl ihr asm cur t f r h
  | Unary pos length symbol expr ih =>
    refine ⟨fun asm cur r h => ?_, fun asm cur t f r h => ?_⟩
    · simp only [Expr.operand, Expr.compileValue] at h
      cases symbol with
      | neg =>
        simp only at h
        cases h1 : compileAndExpect (expr.operand scope) asm cur Ty.Int with
        | none =>
          simp only [Expr.operand] at h1
          simp [h1] at h
        | some v =>
          have p := grows_compileAndExpect _ ih asm cur Ty.Int v h1
          simp only [Expr.operand] at h1
          simp only [h1] at h
          cases he : v.err with
          | some e =>
            simp only [he, Option.some.injEq] at h
            subst h
            exact p
          | none =>
            simp only [he, Option.some.injEq] at h
            subst h
            exact grows_trans p (grows_trans (grows_storeToTemp _ _ _)
              (grows_trans (grows_getConstant _ _) (grows_trans (grows_emit _ _ _ _)
                (grows_trans (grows_emit _ _ _ _) (grows_popTemp _ _)))))
      | not =>
        exact grows_materialised asm _ _
          (fun c hcc => grows_compileUnaryCondition _ _ ih _ cur _ _ pos c hcc) r h
    · simp only [Expr.operand, Expr.compileCondition] at h
      exact grows_compileUnaryCondition symbol _ ih asm cur t f pos r h

theorem assign_growing (name : String) (expr : Expr) (pos : Position) :
    (Assign.compile name expr pos).Growing := by
  intro asm cur scope errors r h
  simp only [Assign.compile] at h
  split_ifs at h with hprs
  · simp only [Option.some.injEq] at h
    subst h
    exact grows_refl asm
  · cases h1 : compileAndExpect (expr.operand scope) asm cur (scope.get name).2.1 with
    | none => simp [h1] at h
    | some v =>
      have p := grows_compileAndExpect _ (operand_growing scope expr) asm cur _ v h1
      simp only [h1] at h
      cases he : v.err with
      | some e =>
        simp only [he, Option.some.injEq] at h
        subst h
        exact p
      | none =>
        simp only [he, Option.some.injEq] at h
        subst h
        exact grows_trans p (grows_trans (grows_loadToAcc _ _ _) (grows_emit _ _ _ _))

theorem output_growing (expr : Expr) : (Output.compile expr).Growing := by
  intro asm cur scope errors r h
  simp only [Output.compile] at h
  cases h1 : compileAndExpect (expr.operand scope) asm cur Ty.Int with
  | none => simp [h1] at h
  | some v =>
    have p := grows_compileAndExpect _ (operand_growing scope expr) asm cur _ v h1
    simp only [h1] at h
    cases he : v.err with
    | some e =>
      simp only [he, Option.some.injEq] at h
      subst h
      exact p
    | none =>
      simp only [he, Option.some.injEq] at h
      subst h
      exact grows_trans p (grows_trans (grows_loadToAcc _ _ _) (grows_emit _ _ _ _))

theorem declare_growing (name : String) (expr : Option Expr) (ty : Ty) (pos : Position) :
    (Declare.compile name expr ty pos).Growing := by
  intro asm cur scope errors r h
  cases expr with
  | none =>
    simp only [Declare.compile, Option.some.injEq] at h
    subst h
    exact grows_createVariable _ _ _
  | some e =>
    simp only [Declare.compile] at h
    cases h1 : e.compileValue asm cur scope with
    | none => simp [h1] at h
    | some v =>
      have p := (operand_growing scope e).1 asm cur v h1
      simp only [h1] at h
      cases he : v.err with
      | some e =>
        simp only [he, Option.some.injEq] at h
        subst h
        exact p
      | none =>
        simp only [he] at h
        split_ifs at h with hty
        · simp only [Option.some.injEq] at h
          subst h
          exact p
        · simp only [Option.some.injEq] at h
          subst h
          exact grows_trans p (grows_trans (grows_createVariable _ _ _)
            (grows_trans (grows_loadToAcc _ _ _) (grows_emit _ _ _ _)))

theorem blockScope_growing (statements : Lowering) (hs : statements.Growing) :
    (BlockScope.compile statements).Growing := by
  intro asm cur scope errors r h
  simp only [BlockScope.compile] at h
  cases h1 : statements asm cur scope.pushScope errors with
  | none => simp [h1] at h
  | some r1 =>
    simp only [h1] at h
    cases h2 : r1.scope.popScope with
    | none => simp [h2] at h
    | some sc =>
      simp only [h2, Option.some.injEq] at h
      subst h
      exact hs asm cur _ errors r1 h1

theorem while_growing (cond : Expr) (loop : Lowering) (hl : loop.Growing) :
    (While.compile cond loop).Growing := by
  intro asm cur scope errors r h
  simp only [While.compile] at h
  have e4 : Grows asm (asm.newUniqueBlock.1.newUniqueBlock.1.newUniqueBlock.1.emitInstruction
      cur "BRA" (asm.newUniqueBlock.1.newUniqueBlock.1.newUniqueBlock.1.label
        asm.newUniqueBlock.2)) :=
    grows_trans (grows_newUniqueBlock _) (grows_trans (grows_newUniqueBlock _)
      (grows_trans (grows_newUniqueBlock _) (grows_emit _ _ _ _)))
  cases h1 : cond.compileCondition
      (asm.newUniqueBlock.1.newUniqueBlock.1.newUniqueBlock.1.emitInstruction cur "BRA"
        (asm.newUniqueBlock.1.newUniqueBlock.1.newUniqueBlock.1.label asm.newUniqueBlock.2))
      asm.newUniqueBlock.2 asm.newUniqueBlock.1.newUniqueBlock.2
      asm.newUniqueBlock.1.newUniqueBlock.1.newUniqueBlock.2 scope with
  | none => simp [h1] at h
  | some cr =>
    have pc := grows_trans e4 ((operand_growing scope cond).2 _ _ _ _ cr h1)
    simp only [h1] at h
    cases he : cr.err with
    | some e =>
      simp only [he, Option.some.injEq] at h
      subst h
      exact pc
    | none =>
      simp only [he] at h
      cases h2 : loop cr.asm asm.newUniqueBlock.1.newUniqueBlock.2 scope errors with
      | none => simp [h2] at h
      | some r2 =>
        simp only [h2, Option.some.injEq] at h
        subst h
        exact grows_trans pc (grows_trans (hl _ _ _ _ r2 h2) (grows_emit _ _ _ _))

theorem if_growing (cond : Expr) (ifTrue : Lowering) (ifFalse : Option Lowering)
    (ht : ifTrue.Growing) (hf : ∀ s2, ifFalse = some s2 → s2.Growing) :
    (If.compile cond ifTrue ifFalse).Growing := by
  intro asm cur scope errors r h
  simp only [If.compile] at h
  have e2 : Grows asm asm.newUniqueBlock.1.newUniqueBlock.1 :=
    grows_trans (grows_newUniqueBlock _) (grows_newUniqueBlock _)
  cases h1 : cond.compileCondition asm.newUniqueBlock.1.newUniqueBlock.1 cur
      asm.newUniqueBlock.2 asm.newUniqueBlock.1.newUniqueBlock.2 scope with
  | none => simp [h1] at h
  | some c =>
    have pc := grows_trans e2 ((operand_growing scope cond).2 _ _ _ _ c h1)
    simp only [h1] at h
    cases he : c.err with
    | some e =>
      simp only [he, Option.some.injEq] at h
      subst h
      exact pc
    | none =>
      simp only [he] at h
      cases h2 : ifTrue c.asm asm.newUniqueBlock.2 scope errors with
      | none => simp [h2] at h
      | some r1 =>
        have e1 : Grows asm r1.asm := grows_trans pc (ht _ _ _ _ r1 h2)
        simp only [h2] at h
        split_ifs at h with hlen1
        · simp only [Option.some.injEq] at h
          subst h
          exact e1
        · cases ifFalse with
          | none =>
            simp only [Option.some.injEq] at h
            subst h
            exact grows_trans e1 (grows_emit _ _ _ _)
          | some s2 =>
            simp only at h
            cases h3 : s2 r1.asm.newUniqueBlock.1 asm.newUniqueBlock.1.newUniqueBlock.2
                r1.scope r1.errors with
            | none => simp [h3] at h
            | some r2 =>
              have e3 : Grows asm r2.asm :=
                grows_trans e1 (grows_trans (grows_newUniqueBlock _)
                  (hf s2 rfl _ _ _ _ r2 h3))
              simp only [h3] at h
              split_ifs at h with hlen3
              · simp only [Option.some.injEq] at h
                subst h
                exact e3
              · simp only [Option.some.injEq] at h
                subst h
                exact grows_trans e3 (grows_trans (grows_emit _ _ _ _) (grows_emit _ _ _ _))

mutual
theorem statement_growing : ∀ s : Statement, s.compile.Growing
  | .Declare pos _ name expr ty => by
    simp only [Statement.compile]
    exact declare_growing name expr ty pos
  | .Assign pos _ name expr => by
    simp only [Statement.compile]
    exact assign_growing name expr pos
  | .BlockScope _ _ statements => by
    simp only [Statement.compile]
    exact blockScope_growing _ (statements_growing statements)
  | .If _ _ cond ifTrue none => by
    show (If.compile cond ifTrue.compile none).Growing
    exact if_growing cond _ _ (statement_growing ifTrue) (fun s2 hs2 => by simp at hs2)
  | .If _ _ cond ifTrue (some s) => by
    show (If.compile cond ifTrue.compile (some s.compile)).Growing
    refine if_growing cond _ _ (statement_growing ifTrue) ?_
    intro s2 hs2
    simp only [Option.some.injEq] at hs2
    subst hs2
    exact statement_growing s
  | .While _ _ cond loop => by
    simp only [Statement.compile]
    exact while_growing cond _ (statement_growing loop)
  | .Output _ _ expr => by
    simp only [Statement.compile]
    exact output_growing expr
theorem statements_growing : ∀ ss : List Statement, (compileStatements ss).Growing
  | [] => by
    intro asm cur scope errors r h
    simp only [compileStatements, Option.some.injEq] at h
    subst h
    exact grows_refl asm
  | s :: rest => by
    intro asm cur scope errors r h
    simp only [compileStatements] at h
    cases h1 : s.compile asm cur scope errors with
    | none => simp [h1] at h
    | some r1 =>
      simp only [h1] at h
      exact grows_trans (statement_growing s _ _ _ _ r1 h1)
        (statements_growing rest _ _ _ _ r h)
end

/-- What `Grows` says about the labels: the labels of `a`, in order, are the
first labels of `b`. -/
theorem labels_prefix_of_grows {a b : Assembly} (h : Grows a b) :
    a.blocks.map Block.label <+: b.blocks.map Block.label := by
  have hlen : a.blocks.length ≤ b.blocks.length := by
    by_contra hlt
    push_neg at hlt
    cases hb : a.blocks[b.blocks.length]? with
    | none =>
      rw [List.getElem?_eq_none_iff] at hb
      omega
    | some blk =>
      obtain ⟨extra, hx⟩ := h _ blk hb
      have := (List.getElem?_eq_some_iff.mp hx).1
      omega
  rw [List.prefix_iff_eq_take]
  apply List.ext_getElem?
  intro i
  simp only [List.getElem?_map, List.getElem?_take, List.length_map]
  by_cases hi : i < a.blocks.length
  · simp only [hi, if_true]
    obtain ⟨extra, hx⟩ := h i a.blocks[i] (List.getElem?_eq_getElem hi)
    rw [hx, List.getElem?_eq_getElem hi]
    rfl
  · simp only [hi, if_false]
    rw [List.getElem?_eq_none_iff.mpr (by omega)]
    rfl

/-- C24 (blocks are append-only): whenever the lowering of a statement, the
value-mode lowering of an expression or the condition-mode lowering of an
expression returns, with or without error, from any builder, cursor and scope,
the labels of the blocks before are, in order, the first labels of the blocks
after, and every block that existed before is at its index afterwards with its
label and with its instruction list as a prefix of the new one. -/
theorem blocks_append_only (asm : Assembly) (block : Nat) (scope : Scope) :
    (∀ (s : Statement) (errors : List CompileError) (r : StmtResult),
        s.compile asm block scope errors = some r →
        asm.blocks.map Block.label <+: r.asm.blocks.map Block.label ∧
          ∀ (i : Nat) (blk : Block), asm.blocks[i]? = some blk →
            ∃ extra, r.asm.blocks[i]? = some (Block.mk blk.label (blk.insts ++ extra))) ∧
      (∀ (e : Expr) (r : ValueResult), e.compileValue asm block scope = some r →
        asm.blocks.map Block.label <+: r.asm.blocks.map Block.label ∧
          ∀ (i : Nat) (blk : Block), asm.blocks[i]? = some blk →
            ∃ extra, r.asm.blocks[i]? = some (Block.mk blk.label (blk.insts ++ extra))) ∧
      ∀ (e : Expr) (ifTrue ifFalse : Nat) (r : CondResult),
        e.compileCondition asm block ifTrue ifFalse scope = some r →
        asm.blocks.map Block.label <+: r.asm.blocks.map Block.label ∧
          ∀ (i : Nat) (blk : Block), asm.blocks[i]? = some blk →
            ∃ extra, r.asm.blocks[i]? = some (Block.mk blk.label (blk.insts ++ extra)) := by
  refine ⟨fun s errors r h => ?_, fun e r h => ?_, fun e t f r h => ?_⟩
  · have g := statement_growing s asm block scope errors r h
    exact ⟨labels_prefix_of_grows g, g⟩
  · have g := (operand_growing scope e).1 asm block r h
    exact ⟨labels_prefix_of_grows g, g⟩
  · have g := (operand_growing scope e).2 asm block t f r h
    exact ⟨labels_prefix_of_grows g, g⟩

/-- Witness of C24: `if true out 1` lowered in the block `start`. -/
theorem blocks_append_only_witness :
    asmStart.blocks.map Block.label <+:
        (stmtState (stmtIfTrueOut.compile asmStart 0 InitScope [])).asm.blocks.map
          Block.label ∧
      ∀ (i : Nat) (blk : Block), asmStart.blocks[i]? = some blk →
        ∃ extra, (stmtState (stmtIfTrueOut.compile asmStart 0 InitScope [])).asm.blocks[i]? =
          some (Block.mk blk.label (blk.insts ++ extra)) :=
  (blocks_append_only asmStart 0 InitScope).1 stmtIfTrueOut []
    (stmtState (stmtIfTrueOut.compile asmStart 0 InitScope []))
    (stmtState_of_isSome _ (by decide!))

/-! ### The parser: precedence and associativity -/

/-- The position after reading the runes `xs`. -/
theorem nextWhile_append (test : Char → Bool) (xs rest : List Char) (pos : Position)
    (hxs : ∀ r ∈ xs, test r = true) (hrest : test (rest.headD RuneError) = false) :
    nextWhile test (xs ++ rest) pos = some (xs.foldl Position.advance pos, rest) := by
  induction xs generalizing pos with
  | nil =>
    cases rest with
    | nil => simpa [nextWhile] using hrest
    | cons r rest => simp only [List.headD_cons] at hrest; simp [nextWhile, hrest]
  | cons x xs ih =>
    have hx : test x = true := hxs x (List.mem_cons_self _ _)
    simp only [List.cons_append, nextWhile, hx, if_true, List.foldl_cons]
    exact ih _ (fun r hr => hxs r (List.mem_cons_of_mem _ hr))

theorem skipSpaces_stay (u : Unicode) (pos : Position) (src : List Char) (errs : List ParseError)
    (h : u.IsSpace (src.headD RuneError) = false) :
    Parser.skipSpaces u ⟨pos, src, errs⟩ = some ⟨pos, src, errs⟩ := by
  have := nextWhile_append u.IsSpace [] src pos (by simp) h
  simp only [List.nil_append, List.foldl_nil] at this
  simp only [Parser.skipSpaces, Parser.nextWhile, this]

theorem skipSpaces_blank (u : Unicode) (hu : u.Sound) (pos : Position) (src : List Char)
    (errs : List ParseError) (h : u.IsSpace (src.headD RuneError) = false) :
    Parser.skipSpaces u ⟨pos, ' ' :: src, errs⟩ = some ⟨pos.advance ' ', src, errs⟩ := by
  have := nextWhile_append u.IsSpace [' '] src pos (by simp [hu.blank]) h
  simp only [List.singleton_append, List.foldl_cons, List.foldl_nil] at this
  simp only [Parser.skipSpaces, Parser.nextWhile, this]

theorem parseSymbol_miss (pos : Position) (src : List Char) (errs : List ParseError)
    (symbol : String) (h : symbol.data.isPrefixOf src = false) :
    Parser.parseSymbol ⟨pos, src, errs⟩ symbol = (false, ⟨pos, src, errs⟩) := by
  simp [Parser.parseSymbol, h]

theorem parseSymbol_hit (pos : Position) (src : List Char) (errs : List ParseError)
    (symbol : String) (h : symbol.data.isPrefixOf src = true) :
    Parser.parseSymbol ⟨pos, src, errs⟩ symbol =
      (true, ⟨⟨pos.line, pos.column, pos.index + symbol.utf8ByteSize⟩,
        src.drop symbol.length, errs⟩) := by
  simp [Parser.parseSymbol, h]

/-- The runes of a name: a letter, then letters and digits. -/
theorem isIdent_data (u : Unicode) (name : String) (h : isIdent u name = true) :
    ∃ r rs, name = String.mk (r :: rs) ∧ u.IsLetter r = true ∧
      ∀ c ∈ r :: rs, (u.IsLetter c || u.IsDigit c) = true := by
  obtain ⟨data⟩ := name
  cases data with
  | nil => simp [isIdent] at h
  | cons r rs =>
    simp only [isIdent, Bool.and_eq_true, List.all_eq_true] at h
    refine ⟨r, rs, rfl, h.1, ?_⟩
    intro c hc
    rcases List.mem_cons.1 hc with rfl | hc
    · simp [h.1]
    · exact h.2 c hc

theorem parseIdent_name (u : Unicode) (pos : Position) (r : Char) (rs rest : List Char)
    (errs : List ParseError) (hr : u.IsLetter r = true)
    (hrs : ∀ c ∈ r :: rs, (u.IsLetter c || u.IsDigit c) = true)
    (hrest : (u.IsLetter (rest.headD RuneError) || u.IsDigit (rest.headD RuneError)) = false) :
    Parser.parseIdent u ⟨pos, r :: (rs ++ rest), errs⟩ =
      some (String.mk (r :: rs), true, ⟨(r :: rs).foldl Position.advance pos, rest, errs⟩) := by
  have := nextWhile_append (fun c => u.IsLetter c || u.IsDigit c) (r :: rs) rest pos hrs hrest
  simp only [List.cons_append] at this
  simp only [Parser.parseIdent, Parser.peek, hr, Bool.not_true, Parser.nextWhile, this,
    Parser.slice]
  have hlen : (r :: (rs ++ rest)).length - rest.length = (r :: rs).length := by
    simp only [List.length_cons, List.length_append]; omega
  have htake : (r :: (rs ++ rest)).take ((r :: (rs ++ rest)).length - rest.length) = r :: rs := by
    rw [hlen, ← List.cons_append]; exact List.take_left' rfl
  simp only [htake, cond_false, if_false]
  rfl

theorem not_valueWord (name : String) (h : valueWords.contains name = false) :
    name ≠ "true" ∧ name ≠ "false" ∧ name ≠ "in" := by
  simp only [valueWords, List.contains_eq_any_beq, List.any_cons, List.any_nil, Bool.or_false,
    Bool.or_eq_false_iff, beq_eq_false_iff_ne, ne_eq] at h
  exact h

theorem parseValue_name (u : Unicode) (hu : u.Sound) (pos : Position) (r : Char)
    (rs rest : List Char) (errs : List ParseError) (hr : u.IsLetter r = true)
    (hrs : ∀ c ∈ r :: rs, (u.IsLetter c || u.IsDigit c) = true)
    (hrest : (u.IsLetter (rest.headD RuneError) || u.IsDigit (rest.headD RuneError)) = false)
    (hw : valueWords.contains (String.mk (r :: rs)) = false) :
    Parser.parseValue u ⟨pos, r :: (rs ++ rest), errs⟩ =
      some (.Ident pos (Length pos ((r :: rs).foldl Position.advance pos)) (String.mk (r :: rs)),
        ⟨(r :: rs).foldl Position.advance pos, rest, errs⟩) := by
  obtain ⟨h1, h2, h3⟩ := not_valueWord _ hw
  have hd : u.IsDigit r = false := (hu.letter r hr).1
  simp only [Parser.parseValue, Parser.parseInt, Parser.peek, hd, Bool.not_false, if_true,
    parseIdent_name u pos r rs rest errs hr hrs hrest, h1, h2, h3, if_false]
  simp

theorem not_isPrefixOf_name (u : Unicode) (hu : u.Sound) (r : Char) (rs rest : List Char)
    (hrest : (u.IsLetter (rest.headD RuneError) || u.IsDigit (rest.headD RuneError)) = false)
    (hn : "not".data.isPrefixOf (r :: rs) = false) :
    "not".data.isPrefixOf (r :: (rs ++ rest)) = false := by
  have ho : u.IsLetter 'o' = true := hu.ascii 'o' (by decide)
  have ht : u.IsLetter 't' = true := hu.ascii 't' (by decide)
  have hd : "not".data = ['n', 'o', 't'] := rfl
  rw [hd] at hn ⊢
  cases rs with
  | nil =>
    cases rest with
    | nil => simp [List.isPrefixOf]
    | cons c rest =>
      by_cases hc : c = 'o'
      · subst hc; simp [ho] at hrest
      · have : ('o' == c) = false := by simpa using fun h => hc h.symm
        simp [List.isPrefixOf, this]
  | cons c1 rs =>
    cases rs with
    | nil =>
      cases rest with
      | nil => simp [List.isPrefixOf]
      | cons c rest =>
        by_cases hc : c = 't'
        · subst hc; simp [ht] at hrest
        · have : ('t' == c) = false := by simpa using fun h => hc h.symm
          simp [List.isPrefixOf, this]
    | cons c2 rs =>
      simp only [List.cons_append, List.isPrefixOf, Bool.and_true] at hn ⊢
      exact hn

theorem parseUnary_name (u : Unicode) (hu : u.Sound) (pe : ExprParser) (pos : Position)
    (r : Char) (rs rest : List Char) (errs : List ParseError) (hr : u.IsLetter r = true)
    (hrs : ∀ c ∈ r :: rs, (u.IsLetter c || u.IsDigit c) = true)
    (hrest : (u.IsLetter (rest.headD RuneError) || u.IsDigit (rest.headD RuneError)) = false)
    (hw : valueWords.contains (String.mk (r :: rs)) = false)
    (hn : "not".data.isPrefixOf (r :: rs) = false) :
    Parser.parseUnary u pe ⟨pos, r :: (rs ++ rest), errs⟩ =
      some (.Ident pos (Length pos ((r :: rs).foldl Position.advance pos)) (String.mk (r :: rs)),
        ⟨(r :: rs).foldl Position.advance pos, rest, errs⟩) := by
  have hm : "-".data.isPrefixOf (r :: (rs ++ rest)) = false := by
    have hd : "-".data = ['-'] := rfl
    have hne : ('-' == r) = false := by
      rw [beq_eq_false_iff_ne]
      intro h
      have := (hu.signs '-' (by simp)).1
      rw [h, hr] at this
      exact Bool.noConfusion this
    rw [hd]
    simp [List.isPrefixOf, hne]
  simp only [Parser.parseUnary, parseSymbol_miss _ _ _ _ hm,
    parseSymbol_miss _ _ _ _ (not_isPrefixOf_name u hu r rs rest hrest hn),
    parseValue_name u hu pos r rs rest errs hr hrs hrest hw]

/-- The entry of the table that the chain of `parseInfix` calls takes. -/
theorem parseInfixes_find (u : Unicode) (pe : ExprParser) (prec : Int)
    (table : List (BinarySymbol × Int)) (parser : Parser) (left : ParsedExpr) :
    Parser.parseInfixes u pe prec table parser left =
      match table.find? (fun e => decide (prec > e.2) &&
          e.1.text.data.isPrefixOf parser.source) with
      | none => some (false, left, parser)
      | some e =>
        match (parser.parseSymbol e.1.text).2.skipSpaces u with
        | none => none
        | some p2 =>
          match pe e.2 p2 with
          | none => none
          | some (right, p3) =>
            some (true, .Binary left.pos (Length left.pos p3.pos) e.1 left right, p3) := by
  induction table with
  | nil => rfl
  | cons e table ih =>
    obtain ⟨symbol, symbolPrec⟩ := e
    by_cases hp : prec > symbolPrec
    · cases hs : symbol.text.data.isPrefixOf parser.source with
      | false =>
        have : Parser.parseSymbol parser symbol.text = (false, parser) := by
          simp [Parser.parseSymbol, hs]
        simp only [Parser.parseInfixes, Parser.parseInfix, hp, if_true, this, List.find?, hs,
          decide_True, Bool.and_false]
        exact ih
      | true =>
        have : Parser.parseSymbol parser symbol.text =
            (true, (Parser.parseSymbol parser symbol.text).2) := by
          simp [Parser.parseSymbol, hs]
        simp only [Parser.parseInfixes, Parser.parseInfix, hp, if_true, List.find?, hs,
          decide_True, Bool.and_true]
        rw [this]
        simp only []
        cases (Parser.parseSymbol parser symbol.text).2.skipSpaces u with
        | none => rfl
        | some p2 =>
          simp only []
          cases pe symbolPrec p2 with
          | none => rfl
          | some v => rfl
    · simp only [Parser.parseInfixes, Parser.parseInfix, hp, if_false, List.find?,
        decide_False, Bool.false_and]
      exact ih

theorem exprLoop_take (u : Unicode) (pe : ExprParser) (prec : Int) (t : Nat) {p0 : Parser}
    {pos pos1 : Position} {src more : List Char} {errs : List ParseError} (left : ParsedExpr)
    {e : BinarySymbol × Int} {right : ParsedExpr} {p3 : Parser}
    (hskip : p0.skipSpaces u = some ⟨pos, src, errs⟩)
    (hfind : infixTable.find? (fun e => decide (prec > e.2) && e.1.text.data.isPrefixOf src) =
      some e)
    (hsym : (Parser.parseSymbol ⟨pos, src, errs⟩ e.1.text).2 = ⟨pos1, ' ' :: more, errs⟩)
    (hu : u.Sound) (hmore : u.IsSpace (more.headD RuneError) = false)
    (hpe : pe e.2 ⟨pos1.advance ' ', more, errs⟩ = some (right, p3)) :
    Parser.exprLoop u pe prec (t + 1) p0 left =
      Parser.exprLoop u pe prec t p3
        (.Binary left.pos (Length left.pos p3.pos) e.1 left right) := by
  simp only [Parser.exprLoop, hskip, parseInfixes_find, hfind, hsym,
    skipSpaces_blank u hu _ _ _ hmore, hpe]

theorem exprLoop_stop (u : Unicode) (pe : ExprParser) (prec : Int) (t : Nat) {p0 : Parser}
    {pos : Position} {src : List Char} {errs : List ParseError} (left : ParsedExpr)
    (hskip : p0.skipSpaces u = some ⟨pos, src, errs⟩)
    (hfind : infixTable.find? (fun e => decide (prec > e.2) && e.1.text.data.isPrefixOf src) =
      none) :
    Parser.exprLoop u pe prec (t + 1) p0 left = some (left, ⟨pos, src, errs⟩) := by
  simp only [Parser.exprLoop, hskip, parseInfixes_find, hfind]

theorem plainName_runes (u : Unicode) (name : String) (h : plainName u name = true) :
    ∃ r rs, name = String.mk (r :: rs) ∧ NameRunes u r rs := by
  simp only [plainName, Bool.and_eq_true, Bool.not_eq_true'] at h
  obtain ⟨r, rs, rfl, h1, h2⟩ := isIdent_data u name h.1.1
  exact ⟨r, rs, rfl, h1, h2, h.1.2, h.2⟩

theorem sound_blank (u : Unicode) (hu : u.Sound) (rest : List Char) :
    (u.IsLetter ((' ' :: rest).headD RuneError) ||
      u.IsDigit ((' ' :: rest).headD RuneError)) = false := by
  have := hu.signs ' ' (by simp)
  simp [this.1, this.2]

theorem sound_end (u : Unicode) (hu : u.Sound) :
    (u.IsLetter (([] : List Char).headD RuneError) ||
      u.IsDigit (([] : List Char).headD RuneError)) = false := by
  have := hu.signs RuneError (by simp)
  simp [this.1, this.2]

/-- An operand that is a name, followed by a blank and something the loop of
`parseExpr` does not take at this precedence. -/
theorem parseExpr_name (u : Unicode) (hu : u.Sound) (f : Nat) (prec : Int) (pos : Position)
    {r : Char} {rs : List Char} (tail : List Char) (errs : List ParseError)
    (hn : NameRunes u r rs) (htail : u.IsSpace (tail.headD RuneError) = false)
    (hfind : infixTable.find? (fun e => decide (prec > e.2) && e.1.text.data.isPrefixOf tail) =
      none) :
    Parser.parseExpr u (f + 1) prec ⟨pos, r :: (rs ++ ' ' :: tail), errs⟩ =
      some (.Ident pos (Length pos ((r :: rs).foldl Position.advance pos)) (String.mk (r :: rs)),
        ⟨((r :: rs).foldl Position.advance pos).advance ' ', tail, errs⟩) := by
  rw [Parser.parseExpr, parseUnary_name u hu _ pos r rs _ errs hn.head hn.all
    (sound_blank u hu tail) hn.word hn.notNot]
  exact exprLoop_stop u _ prec f _ (skipSpaces_blank u hu _ _ _ htail) hfind

/-- An operand that is a name, at the end of the source. -/
theorem parseExpr_last (u : Unicode) (hu : u.Sound) (f : Nat) (prec : Int) (pos : Position)
    {r : Char} {rs : List Char} (errs : List ParseError) (hn : NameRunes u r rs) :
    Parser.parseExpr u (f + 1) prec ⟨pos, r :: (rs ++ []), errs⟩ =
      some (.Ident pos (Length pos ((r :: rs).foldl Position.advance pos)) (String.mk (r :: rs)),
        ⟨(r :: rs).foldl Position.advance pos, [], errs⟩) := by
  rw [Parser.parseExpr, parseUnary_name u hu _ pos r rs _ errs hn.head hn.all
    (sound_end u hu) hn.word hn.notNot]
  refine exprLoop_stop u _ prec f _ (skipSpaces_stay u _ _ _ (hu.marks RuneError (by simp))) ?_
  rw [List.find?_eq_none]
  intro e _
  have : e.1.text.data.isPrefixOf [] = false := by
    obtain ⟨symbol, _⟩ := e
    cases symbol <;> rfl
  simp [this]

theorem parseStatement_out (u : Unicode) (hu : u.Sound) (f : Nat) (pos : Position)
    (more : List Char) (errs : List ParseError) (expr : ParsedExpr) (p : Parser)
    (hmore : u.IsSpace (more.headD RuneError) = false)
    (hexpr : Parser.parseExpr u f EXPR
      ⟨(Position.mk pos.line pos.column (pos.index + "out".utf8ByteSize)).advance ' ', more,
        errs⟩ = some (expr, p)) :
    Parser.parseStatement u (f + 1) ⟨pos, 'o' :: 'u' :: 't' :: ' ' :: more, errs⟩ =
      some (.Output pos (Length pos p.pos) expr, p) := by
  have h1 : Parser.parseSymbol ⟨pos, 'o' :: 'u' :: 't' :: ' ' :: more, errs⟩ "if" =
      (false, ⟨pos, 'o' :: 'u' :: 't' :: ' ' :: more, errs⟩) := rfl
  have h2 : Parser.parseSymbol ⟨pos, 'o' :: 'u' :: 't' :: ' ' :: more, errs⟩ "while" =
      (false, ⟨pos, 'o' :: 'u' :: 't' :: ' ' :: more, errs⟩) := rfl
  have h3 : Parser.parseSymbol ⟨pos, 'o' :: 'u' :: 't' :: ' ' :: more, errs⟩ "out" =
      (true, ⟨⟨pos.line, pos.column, pos.index + "out".utf8ByteSize⟩, ' ' :: more, errs⟩) := rfl
  rw [Parser.parseStatement]
  simp only [h1, h2, h3, skipSpaces_blank u hu _ _ _ hmore, hexpr]

/-- A source that is one `out` statement. -/
theorem parse_out (u : Unicode) (hu : u.Sound) (f : Nat) (source : String) (more : List Char)
    (expr : ParsedExpr) (pos : Position) (errs : List ParseError)
    (hsource : source.data = 'o' :: 'u' :: 't' :: ' ' :: more)
    (hmore : u.IsSpace (more.headD RuneError) = false)
    (hexpr : Parser.parseExpr u f EXPR
      ⟨(Position.mk 1 1 (0 + "out".utf8ByteSize)).advance ' ', more, []⟩ =
        some (expr, ⟨pos, [], errs⟩)) :
    parsedShape (Parse u (f + 1) source) =
      some ([.Output ⟨0, 0, 0⟩ 0 expr.shape], errs) := by
  have ho : u.IsSpace 'o' = false := (hu.letter 'o' (hu.ascii 'o' (by decide))).2
  have hend : u.IsSpace RuneError = false := hu.marks RuneError (by simp)
  have hst := parseStatement_out u hu f ⟨1, 1, 0⟩ more [] expr _ hmore hexpr
  simp only [Parse, Parser.parseStatements, Parser.statementsOf, hsource,
    skipSpaces_stay u _ _ _ (show u.IsSpace (('o' :: 'u' :: 't' :: ' ' :: more).headD RuneError)
      = false from ho)]
  rw [Parser.statementLoop]
  have hc : (!Parser.eof ⟨⟨1, 1, 0⟩, 'o' :: 'u' :: 't' :: ' ' :: more, []⟩ &&
      !(Parser.peek ⟨⟨1, 1, 0⟩, 'o' :: 'u' :: 't' :: ' ' :: more, []⟩ == '}') &&
      !(Parser.peek ⟨⟨1, 1, 0⟩, 'o' :: 'u' :: 't' :: ' ' :: more, []⟩ == ')')) = true := rfl
  simp only [hc, if_true, hst, ParsedStatement.isNil,
    skipSpaces_stay u _ _ _ (show u.IsSpace (([] : List Char).headD RuneError) = false from hend)]
  rw [Parser.statementLoop]
  simp [Parser.eof, parsedShape, shapes, ParsedStatement.shape]

theorem alpha_not_digit (r : Char) (h : r.isAlpha = true) : r.isDigit = false := by
  simp only [Char.isAlpha, Char.isUpper, Char.isLower, Char.isDigit, Bool.or_eq_true,
    Bool.and_eq_true, decide_eq_true_eq, Bool.and_eq_false_imp, decide_eq_false_iff_not,
    ge_iff_le, UInt32.le_def, BitVec.le_def] at h ⊢
  intro h1
  have e48 : (UInt32.toBitVec 48).toNat = 48 := rfl
  have e57 : (UInt32.toBitVec 57).toNat = 57 := rfl
  have e65 : (UInt32.toBitVec 65).toNat = 65 := rfl
  have e90 : (UInt32.toBitVec 90).toNat = 90 := rfl
  have e97 : (UInt32.toBitVec 97).toNat = 97 := rfl
  have e122 : (UInt32.toBitVec 122).toNat = 122 := rfl
  rw [e48] at h1
  rw [e57]
  rw [e65, e90, e97, e122] at h
  omega

theorem space_cases (r : Char) (h : asciiTables.IsSpace r = true) :
    r = ' ' ∨ r = '\t' ∨ r = '\n' ∨ r = '\r' ∨ r = Char.ofNat 11 ∨ r = Char.ofNat 12 := by
  simp only [asciiTables, Bool.or_eq_true, decide_eq_true_eq] at h
  rcases h with ((((h | h) | h) | h) | h) | h
  · exact Or.inl h
  · exact Or.inr (Or.inl h)
  · exact Or.inr (Or.inr (Or.inl h))
  · exact Or.inr (Or.inr (Or.inr (Or.inl h)))
  · refine Or.inr (Or.inr (Or.inr (Or.inr (Or.inl ?_))))
    rw [← h, Char.ofNat_toNat]
  · refine Or.inr (Or.inr (Or.inr (Or.inr (Or.inr ?_))))
    rw [← h, Char.ofNat_toNat]

theorem asciiTables_sound : asciiTables.Sound where
  blank := by decide
  ascii := fun _ h => h
  letter := by
    intro r h
    refine ⟨alpha_not_digit r h, ?_⟩
    cases hs : asciiTables.IsSpace r with
    | false => rfl
    | true =>
      exfalso
      have h2 : r.isAlpha = true := h
      rcases space_cases r hs with e | e | e | e | e | e <;> rw [e] at h2 <;> revert h2 <;> decide
  digit := by
    intro r h
    cases hs : asciiTables.IsSpace r with
    | false => rfl
    | true =>
      exfalso
      have h2 : r.isDigit = true := h
      rcases space_cases r hs with e | e | e | e | e | e <;> rw [e] at h2 <;> revert h2 <;> decide
  signs := by
    intro r hr
    simp only [List.mem_cons, List.mem_singleton, List.not_mem_nil, or_false] at hr
    rcases hr with e | e | e | e | e <;> subst e <;> decide
  marks := by
    intro r hr
    simp only [List.mem_cons, List.mem_singleton, List.not_mem_nil, or_false] at hr
    rcases hr with e | e | e | e <;> subst e <;> decide

theorem find_end (prec : Int) :
    infixTable.find? (fun e => decide (prec > e.2) && e.1.text.data.isPrefixOf []) = none := by
  rw [List.find?_eq_none]
  intro e _
  have : e.1.text.data.isPrefixOf [] = false := by
    obtain ⟨symbol, _⟩ := e
    cases symbol <;> rfl
  simp [this]

theorem letter_not_space (u : Unicode) (hu : u.Sound) {r : Char} {rs : List Char}
    (hn : NameRunes u r rs) (rest : List Char) :
    u.IsSpace ((r :: rest).headD RuneError) = false :=
  (hu.letter r hn.head).2

theorem sign_not_space (u : Unicode) (hu : u.Sound) (c : Char) (hc : c ∈ ['+', '-', '<', RuneError])
    (rest : List Char) : u.IsSpace ((c :: rest).headD RuneError) = false :=
  hu.marks c hc

theorem end_not_space (u : Unicode) (hu : u.Sound) :
    u.IsSpace (([] : List Char).headD RuneError) = false :=
  hu.marks RuneError (by simp)

/-- The expression `a - b - c`. -/
theorem parseExpr_sub_sub (u : Unicode) (hu : u.Sound) (k : Nat) (pos : Position)
    {ra rb rc : Char} {rsa rsb rsc : List Char} (ha : NameRunes u ra rsa)
    (hb : NameRunes u rb rsb) (hc : NameRunes u rc rsc) :
    ∃ e p, Parser.parseExpr u (k + 4) EXPR ⟨pos, ra :: (rsa ++ ' ' :: '-' :: ' ' ::
        rb :: (rsb ++ ' ' :: '-' :: ' ' :: rc :: (rsc ++ []))), []⟩ = some (e, ⟨p, [], []⟩) ∧
      e.shape = .Binary ⟨0, 0, 0⟩ 0 .sub
        (.Binary ⟨0, 0, 0⟩ 0 .sub (.Ident ⟨0, 0, 0⟩ 0 (String.mk (ra :: rsa)))
          (.Ident ⟨0, 0, 0⟩ 0 (String.mk (rb :: rsb))))
        (.Ident ⟨0, 0, 0⟩ 0 (String.mk (rc :: rsc))) := by
  rw [Parser.parseExpr, parseUnary_name u hu _ pos ra rsa _ [] ha.head ha.all
    (sound_blank u hu _) ha.word ha.notNot]
  simp only []
  rw [exprLoop_take u _ EXPR (k + 3) _
    (skipSpaces_blank u hu _ _ _ (sign_not_space u hu '-' (by simp) _))
    (by rfl) (by rfl) hu (letter_not_space u hu hb _)
    (parseExpr_name u hu (k + 2) SUM _ _ [] hb (sign_not_space u hu '-' (by simp) _) (by rfl))]
  rw [exprLoop_take u _ EXPR (k + 2) _
    (skipSpaces_stay u _ _ _ (sign_not_space u hu '-' (by simp) _))
    (by rfl) (by rfl) hu (letter_not_space u hu hc _)
    (parseExpr_last u hu (k + 2) SUM _ [] hc)]
  rw [exprLoop_stop u _ EXPR (k + 1) _
    (skipSpaces_stay u _ _ _ (end_not_space u hu)) (find_end EXPR)]
  exact ⟨_, _, rfl, by simp [ParsedExpr.shape]⟩

theorem ascii_not_space (u : Unicode) (hu : u.Sound) (c : Char) (hc : c.isAlpha = true)
    (rest : List Char) : u.IsSpace ((c :: rest).headD RuneError) = false :=
  (hu.letter c (hu.ascii c hc)).2

/-- The expression `a and b or c`. -/
theorem parseExpr_and_or (u : Unicode) (hu : u.Sound) (k : Nat) (pos : Position)
    {ra rb rc : Char} {rsa rsb rsc : List Char} (ha : NameRunes u ra rsa)
    (hb : NameRunes u rb rsb) (hc : NameRunes u rc rsc) :
    ∃ e p, Parser.parseExpr u (k + 4) EXPR ⟨pos, ra :: (rsa ++ ' ' :: 'a' :: 'n' :: 'd' :: ' ' ::
        rb :: (rsb ++ ' ' :: 'o' :: 'r' :: ' ' :: rc :: (rsc ++ []))), []⟩ =
          some (e, ⟨p, [], []⟩) ∧
      e.shape = .Binary ⟨0, 0, 0⟩ 0 .or
        (.Binary ⟨0, 0, 0⟩ 0 .and (.Ident ⟨0, 0, 0⟩ 0 (String.mk (ra :: rsa)))
          (.Ident ⟨0, 0, 0⟩ 0 (String.mk (rb :: rsb))))
        (.Ident ⟨0, 0, 0⟩ 0 (String.mk (rc :: rsc))) := by
  rw [Parser.parseExpr, parseUnary_name u hu _ pos ra rsa _ [] ha.head ha.all
    (sound_blank u hu _) ha.word ha.notNot]
  simp only []
  rw [exprLoop_take u _ EXPR (k + 3) _
    (skipSpaces_blank u hu _ _ _ (ascii_not_space u hu 'a' (by decide) _))
    (by rfl) (by rfl) hu (letter_not_space u hu hb _)
    (parseExpr_name u hu (k + 2) LOGIC _ _ [] hb (ascii_not_space u hu 'o' (by decide) _)
      (by rfl))]
  rw [exprLoop_take u _ EXPR (k + 2) _
    (skipSpaces_stay u _ _ _ (ascii_not_space u hu 'o' (by decide) _))
    (by rfl) (by rfl) hu (letter_not_space u hu hc _)
    (parseExpr_last u hu (k + 2) LOGIC _ [] hc)]
  rw [exprLoop_stop u _ EXPR (k + 1) _
    (skipSpaces_stay u _ _ _ (end_not_space u hu)) (find_end EXPR)]
  exact ⟨_, _, rfl, by simp [ParsedExpr.shape]⟩

/-- The expression `a + b < c and d`. -/
theorem parseExpr_add_lt_and (u : Unicode) (hu : u.Sound) (k : Nat) (pos : Position)
    {ra rb rc rd : Char} {rsa rsb rsc rsd : List Char} (ha : NameRunes u ra rsa)
    (hb : NameRunes u rb rsb) (hc : NameRunes u rc rsc) (hd : NameRunes u rd rsd) :
    ∃ e p, Parser.parseExpr u (k + 4) EXPR ⟨pos, ra :: (rsa ++ ' ' :: '+' :: ' ' ::
        rb :: (rsb ++ ' ' :: '<' :: ' ' :: rc :: (rsc ++ ' ' :: 'a' :: 'n' :: 'd' :: ' ' ::
          rd :: (rsd ++ [])))), []⟩ = some (e, ⟨p, [], []⟩) ∧
      e.shape = .Binary ⟨0, 0, 0⟩ 0 .and
        (.Binary ⟨0, 0, 0⟩ 0 .lt
          (.Binary ⟨0, 0, 0⟩ 0 .add (.Ident ⟨0, 0, 0⟩ 0 (String.mk (ra :: rsa)))
            (.Ident ⟨0, 0, 0⟩ 0 (String.mk (rb :: rsb))))
          (.Ident ⟨0, 0, 0⟩ 0 (String.mk (rc :: rsc))))
        (.Ident ⟨0, 0, 0⟩ 0 (String.mk (rd :: rsd))) := by
  rw [Parser.parseExpr, parseUnary_name u hu _ pos ra rsa _ [] ha.head ha.all
    (sound_blank u hu _) ha.word ha.notNot]
  simp only []
  rw [exprLoop_take u _ EXPR (k + 3) _
    (skipSpaces_blank u hu _ _ _ (sign_not_space u hu '+' (by simp) _))
    (by rfl) (by rfl) hu (letter_not_space u hu hb _)
    (parseExpr_name u hu (k + 2) SUM _ _ [] hb (sign_not_space u hu '<' (by simp) _)
      (by rfl))]
  rw [exprLoop_take u _ EXPR (k + 2) _
    (skipSpaces_stay u _ _ _ (sign_not_space u hu '<' (by simp) _))
    (by rfl) (by rfl) hu (letter_not_space u hu hc _)
    (parseExpr_name u hu (k + 2) COMPARISON _ _ [] hc
      (ascii_not_space u hu 'a' (by decide) _) (by rfl))]
  rw [exprLoop_take u _ EXPR (k + 1) _
    (skipSpaces_stay u _ _ _ (ascii_not_space u hu 'a' (by decide) _))
    (by rfl) (by rfl) hu (letter_not_space u hu hd _)
    (parseExpr_last u hu (k + 2) LOGIC _ [] hd)]
  rw [exprLoop_stop u _ EXPR k _
    (skipSpaces_stay u _ _ _ (end_not_space u hu)) (find_end EXPR)]
  exact ⟨_, _, rfl, by simp [ParsedExpr.shape]⟩

/-- Precedence and associativity where the parser gets them right: for names
`a`, `b`, `c`, `d` made of a letter and then letters and digits, none of them
`true`, `false` or `in` and none beginning with the letters `not`, and with
enough fuel, `Parse` of `out a - b - c` yields
`Output(Binary(-, Binary(-, a, b), c))`, `Parse` of `out a and b or c` yields
`Output(Binary(or, Binary(and, a, b), c))` and `Parse` of `out a + b < c and d`
yields `Output(Binary(and, Binary(<, Binary(+, a, b), c), d))`, each as the only
statement and with no parse errors. -/
theorem precedence_for_plain_names (u : Unicode) (hu : u.Sound) (a b c d : String) (k : Nat)
    (ha : plainName u a = true) (hb : plainName u b = true) (hc : plainName u c = true)
    (hd : plainName u d = true) :
    parsedShape (Parse u (k + 5) ("out " ++ a ++ " - " ++ b ++ " - " ++ c)) =
        some ([.Output ⟨0, 0, 0⟩ 0 (.Binary ⟨0, 0, 0⟩ 0 .sub
          (.Binary ⟨0, 0, 0⟩ 0 .sub (.Ident ⟨0, 0, 0⟩ 0 a) (.Ident ⟨0, 0, 0⟩ 0 b))
          (.Ident ⟨0, 0, 0⟩ 0 c))], []) ∧
      parsedShape (Parse u (k + 5) ("out " ++ a ++ " and " ++ b ++ " or " ++ c)) =
        some ([.Output ⟨0, 0, 0⟩ 0 (.Binary ⟨0, 0, 0⟩ 0 .or
          (.Binary ⟨0, 0, 0⟩ 0 .and (.Ident ⟨0, 0, 0⟩ 0 a) (.Ident ⟨0, 0, 0⟩ 0 b))
          (.Ident ⟨0, 0, 0⟩ 0 c))], []) ∧
      parsedShape (Parse u (k + 5) ("out " ++ a ++ " + " ++ b ++ " < " ++ c ++ " and " ++ d)) =
        some ([.Output ⟨0, 0, 0⟩ 0 (.Binary ⟨0, 0, 0⟩ 0 .and
          (.Binary ⟨0, 0, 0⟩ 0 .lt
            (.Binary ⟨0, 0, 0⟩ 0 .add (.Ident ⟨0, 0, 0⟩ 0 a) (.Ident ⟨0, 0, 0⟩ 0 b))
            (.Ident ⟨0, 0, 0⟩ 0 c))
          (.Ident ⟨0, 0, 0⟩ 0 d))], []) := by
  obtain ⟨ra, rsa, rfl, na⟩ := plainName_runes u a ha
  obtain ⟨rb, rsb, rfl, nb⟩ := plainName_runes u b hb
  obtain ⟨rc, rsc, rfl, nc⟩ := plainName_runes u c hc
  obtain ⟨rd, rsd, rfl, nd⟩ := plainName_runes u d hd
  have hout : ("out " : String).data = ['o', 'u', 't', ' '] := rfl
  have hsub : (" - " : String).data = [' ', '-', ' '] := rfl
  have hand : (" and " : String).data = [' ', 'a', 'n', 'd', ' '] := rfl
  have hor : (" or " : String).data = [' ', 'o', 'r', ' '] := rfl
  have hadd : (" + " : String).data = [' ', '+', ' '] := rfl
  have hlt : (" < " : String).data = [' ', '<', ' '] := rfl
  refine ⟨?_, ?_, ?_⟩
  · obtain ⟨e, p, he, hs⟩ := parseExpr_sub_sub u hu k
      ((Position.mk 1 1 (0 + "out".utf8ByteSize)).advance ' ') na nb nc
    have hsrc : ("out " ++ String.mk (ra :: rsa) ++ " - " ++ String.mk (rb :: rsb) ++ " - " ++
        String.mk (rc :: rsc)).data = 'o' :: 'u' :: 't' :: ' ' :: ra :: (rsa ++ ' ' :: '-' ::
          ' ' :: rb :: (rsb ++ ' ' :: '-' :: ' ' :: rc :: (rsc ++ []))) := by
      simp only [String.data_append, hout, hsub, List.append_assoc, List.cons_append,
        List.nil_append, List.append_nil]
    rw [parse_out u hu (k + 4) _ _ e p [] hsrc (letter_not_space u hu na _) he, hs]
  · obtain ⟨e, p, he, hs⟩ := parseExpr_and_or u hu k
      ((Position.mk 1 1 (0 + "out".utf8ByteSize)).advance ' ') na nb nc
    have hsrc : ("out " ++ String.mk (ra :: rsa) ++ " and " ++ String.mk (rb :: rsb) ++
        " or " ++ String.mk (rc :: rsc)).data = 'o' :: 'u' :: 't' :: ' ' :: ra :: (rsa ++ ' ' ::
          'a' :: 'n' :: 'd' :: ' ' :: rb :: (rsb ++ ' ' :: 'o' :: 'r' :: ' ' ::
            rc :: (rsc ++ []))) := by
      simp only [String.data_append, hout, hand, hor, List.append_assoc, List.cons_append,
        List.nil_append, List.append_nil]
    rw [parse_out u hu (k + 4) _ _ e p [] hsrc (letter_not_space u hu na _) he, hs]
  · obtain ⟨e, p, he, hs⟩ := parseExpr_add_lt_and u hu k
      ((Position.mk 1 1 (0 + "out".utf8ByteSize)).advance ' ') na nb nc nd
    have hsrc : ("out " ++ String.mk (ra :: rsa) ++ " + " ++ String.mk (rb :: rsb) ++ " < " ++
        String.mk (rc :: rsc) ++ " and " ++ String.mk (rd :: rsd)).data =
          'o' :: 'u' :: 't' :: ' ' :: ra :: (rsa ++ ' ' :: '+' :: ' ' :: rb :: (rsb ++ ' ' ::
            '<' :: ' ' :: rc :: (rsc ++ ' ' :: 'a' :: 'n' :: 'd' :: ' ' ::
              rd :: (rsd ++ [])))) := by
      simp only [String.data_append, hout, hadd, hlt, hand, List.append_assoc, List.cons_append,
        List.nil_append, List.append_nil]
    rw [parse_out u hu (k + 4) _ _ e p [] hsrc (letter_not_space u hu na _) he, hs]

theorem precedence_for_plain_names_witness :
    (plainName asciiTables "a" = true ∧ plainName asciiTables "b" = true ∧
      plainName asciiTables "c" = true ∧ plainName asciiTables "d" = true) ∧
      parsedShape (Parse asciiTables 5 ("out " ++ "a" ++ " - " ++ "b" ++ " - " ++ "c")) =
        some ([.Output ⟨0, 0, 0⟩ 0 (.Binary ⟨0, 0, 0⟩ 0 .sub
          (.Binary ⟨0, 0, 0⟩ 0 .sub (.Ident ⟨0, 0, 0⟩ 0 "a") (.Ident ⟨0, 0, 0⟩ 0 "b"))
          (.Ident ⟨0, 0, 0⟩ 0 "c"))], []) ∧
      parsedShape (Parse asciiTables 5 ("out " ++ "a" ++ " and " ++ "b" ++ " or " ++ "c")) =
        some ([.Output ⟨0, 0, 0⟩ 0 (.Binary ⟨0, 0, 0⟩ 0 .or
          (.Binary ⟨0, 0, 0⟩ 0 .and (.Ident ⟨0, 0, 0⟩ 0 "a") (.Ident ⟨0, 0, 0⟩ 0 "b"))
          (.Ident ⟨0, 0, 0⟩ 0 "c"))], []) ∧
      parsedShape (Parse asciiTables 5 ("out " ++ "a" ++ " + " ++ "b" ++ " < " ++ "c" ++
          " and " ++ "d")) =
        some ([.Output ⟨0, 0, 0⟩ 0 (.Binary ⟨0, 0, 0⟩ 0 .and
          (.Binary ⟨0, 0, 0⟩ 0 .lt
            (.Binary ⟨0, 0, 0⟩ 0 .add (.Ident ⟨0, 0, 0⟩ 0 "a") (.Ident ⟨0, 0, 0⟩ 0 "b"))
            (.Ident ⟨0, 0, 0⟩ 0 "c"))
          (.Ident ⟨0, 0, 0⟩ 0 "d"))], []) :=
  ⟨⟨by decide, by decide, by decide, by decide⟩,
    precedence_for_plain_names asciiTables asciiTables_sound "a" "b" "c" "d" 0
      (by decide) (by decide) (by decide) (by decide)⟩

/-- C21 (operator precedence and associativity), evaluated at
`out note - b - c`: `note` is an identifier and no keyword, and `Parse` yields
`Output(Unary(not, Binary(-, Binary(-, e, b), c)))` with no parse errors, not
`Output(Binary(-, Binary(-, note, b), c))`.  `parseUnary` tests the symbol
`not` as a prefix of the source, without looking at the rune that follows.
The words of `parseValue` are matched whole: `out inx - b - c` yields
`Output(Binary(-, Binary(-, inx, b), c))`. -/
theorem name_with_not_read_as_negation :
    isIdent asciiTables "note" = true ∧
      "note" ∉ ["if", "else", "while", "out", "int", "bool", "and", "or", "not", "true",
        "false", "in"] ∧
      parsedShape (Parse asciiTables 5 "out note - b - c") =
        some ([.Output ⟨0, 0, 0⟩ 0 (.Unary ⟨0, 0, 0⟩ 0 .not (.Binary ⟨0, 0, 0⟩ 0 .sub
          (.Binary ⟨0, 0, 0⟩ 0 .sub (.Ident ⟨0, 0, 0⟩ 0 "e") (.Ident ⟨0, 0, 0⟩ 0 "b"))
          (.Ident ⟨0, 0, 0⟩ 0 "c")))], []) ∧
      parsedShape (Parse asciiTables 5 "out note - b - c") ≠
        some ([.Output ⟨0, 0, 0⟩ 0 (.Binary ⟨0, 0, 0⟩ 0 .sub
          (.Binary ⟨0, 0, 0⟩ 0 .sub (.Ident ⟨0, 0, 0⟩ 0 "note") (.Ident ⟨0, 0, 0⟩ 0 "b"))
          (.Ident ⟨0, 0, 0⟩ 0 "c"))], []) ∧
      parsedShape (Parse asciiTables 5 "out inx - b - c") =
        some ([.Output ⟨0, 0, 0⟩ 0 (.Binary ⟨0, 0, 0⟩ 0 .sub
          (.Binary ⟨0, 0, 0⟩ 0 .sub (.Ident ⟨0, 0, 0⟩ 0 "inx") (.Ident ⟨0, 0, 0⟩ 0 "b"))
          (.Ident ⟨0, 0, 0⟩ 0 "c"))], []) := by
  have h : parsedShape (Parse asciiTables 5 "out note - b - c") =
      some ([.Output ⟨0, 0, 0⟩ 0 (.Unary ⟨0, 0, 0⟩ 0 .not (.Binary ⟨0, 0, 0⟩ 0 .sub
        (.Binary ⟨0, 0, 0⟩ 0 .sub (.Ident ⟨0, 0, 0⟩ 0 "e") (.Ident ⟨0, 0, 0⟩ 0 "b"))
        (.Ident ⟨0, 0, 0⟩ 0 "c")))], []) := by rfl
  refine ⟨by decide, by decide, h, ?_, by rfl⟩
  rw [h]
  simp

/-! ### Equality is lowered with `BRP` -/

/-- After a successful `compileCompare` the cursor has not moved and its block
ends in the `SUB`. -/
theorem compileCompare_tail (left right : Operand) (hl : left.Sound) (hr : right.Sound)
    (asm : Assembly) (cur : Nat) (c : CondResult)
    (h : compileCompare left right asm cur = some c) (herr : c.err = none)
    (hcur : cur < asm.blocks.length) :
    c.block = cur ∧ ∃ b front operand, c.asm.blocks[cur]? = some b ∧
      b.insts = front ++ [⟨"SUB", operand⟩] := by
  unfold compileCompare at h
  cases h1 : compileAndExpect right asm cur Ty.Int with
  | none => simp [h1] at h
  | some r1 =>
    simp only [h1] at h
    cases he1 : r1.err with
    | some e =>
      simp only [he1, Option.some.injEq] at h
      subst h
      simp at herr
    | none =>
      simp only [he1] at h
      have p1 := compileAndExpect_post right hr asm cur Ty.Int r1 h1 he1
      have b1 : r1.block = cur := p1.2.2.1 (compileAndExpect_ty right asm cur Ty.Int r1 h1 he1)
      cases h2 : compileAndExpect left (storeToTemp r1.val r1.asm r1.block).1 r1.block
          Ty.Int with
      | none => simp [h2] at h
      | some r2 =>
        simp only [h2] at h
        cases he2 : r2.err with
        | some e =>
          simp only [he2, Option.some.injEq] at h
          subst h
          simp at herr
        | none =>
          simp only [he2, Option.some.injEq] at h
          subst h
          have p2 := compileAndExpect_post left hl _ _ Ty.Int r2 h2 he2
          have b2 : r2.block = r1.block :=
            p2.2.2.1 (compileAndExpect_ty left _ _ Ty.Int r2 h2 he2)
          have hlen : cur < (loadToAcc r2.val r2.asm r2.block).blocks.length := by
            have l1 := p1.1
            have l2 := length_storeToTemp r1.val r1.asm r1.block
            have l3 := p2.1
            rw [length_loadToAcc]
            omega
          rw [b2, b1] at hlen
          obtain ⟨b0, hb0⟩ : ∃ b0, (loadToAcc r2.val r2.asm cur).blocks[cur]? = some b0 :=
            ⟨_, List.getElem?_eq_getElem hlen⟩
          refine ⟨by simp only [b2, b1], ?_⟩
          simp only [blocks_popTemp, Assembly.emitInstruction, emitAt_eq_appendInsts,
            getElem?_appendInsts, b2, b1, if_true, hb0, Option.map_some']
          exact ⟨_, b0.insts, _, rfl, rfl⟩

/-- After a successful `compileZeroBranch` the cursor has not moved and its
block ends in `SUB`, `BRP ifTrue`, `BRA ifFalse`. -/
theorem compileZeroBranch_tail (left right : Operand) (hl : left.Sound) (hr : right.Sound)
    (asm : Assembly) (cur t f : Nat) (c : CondResult)
    (h : compileZeroBranch left right asm cur t f = some c) (herr : c.err = none)
    (hcur : cur < asm.blocks.length) :
    c.block = cur ∧ ∃ b front operand, c.asm.blocks[cur]? = some b ∧
      b.insts = front ++
        [⟨"SUB", operand⟩, ⟨"BRP", c.asm.label t⟩, ⟨"BRA", c.asm.label f⟩] := by
  unfold compileZeroBranch at h
  cases h1 : compileCompare left right asm cur with
  | none => simp [h1] at h
  | some cc =>
    simp only [h1] at h
    cases he : cc.err with
    | some e =>
      simp only [he, Option.some.injEq] at h
      subst h
      simp at herr
    | none =>
      simp only [he, Option.some.injEq] at h
      subst h
      obtain ⟨hb, b, front, operand, hget, hins⟩ :=
        compileCompare_tail left right hl hr asm cur cc h1 he hcur
      refine ⟨hb, ⟨b.label, b.insts ++ [⟨"BRP", cc.asm.label t⟩] ++
        [⟨"BRA", cc.asm.label f⟩]⟩, front, operand, ?_, ?_⟩
      · simp only [label_emitInstruction]
        simp only [Assembly.emitInstruction, emitAt_eq_appendInsts, getElem?_appendInsts, hb,
          if_true, hget, Option.map_some']
      · simp only [label_emitInstruction, hins, List.append_assoc, List.cons_append,
          List.nil_append]

/-- C8 (equality is lowered with BRP exactly like ordering): in condition mode
`l == r` leaves the same state and result as `l >= r`, and `l != r` the same as
`l < r`, for all operands, states and targets.  When the lowering of `l == r`
succeeds from a cursor that points to a block, the cursor has not moved and
its block ends in `SUB <right operand>`, `BRP <label of ifTrue>`,
`BRA <label of ifFalse>`; for `l != r` it ends in `SUB <right operand>`,
`BRP <label of ifFalse>`, `BRA <label of ifTrue>`.  The test is `BRP` on
`l - r`, not `BRZ`. -/
theorem equality_lowered_as_ordering (l r : Expr) (asm : Assembly)
    (block ifTrue ifFalse : Nat) (scope : Scope) (pos : Position) (length : Int) :
    (Expr.Binary pos length .eq l r).compileCondition asm block ifTrue ifFalse scope =
        (Expr.Binary pos length .ge l r).compileCondition asm block ifTrue ifFalse scope ∧
      (Expr.Binary pos length .ne l r).compileCondition asm block ifTrue ifFalse scope =
        (Expr.Binary pos length .lt l r).compileCondition asm block ifTrue ifFalse scope ∧
      (∀ c : CondResult,
        (Expr.Binary pos length .eq l r).compileCondition asm block ifTrue ifFalse scope =
          some c → c.err = none → block < asm.blocks.length →
        c.block = block ∧ ∃ b front operand, c.asm.blocks[block]? = some b ∧
          b.insts = front ++ [⟨"SUB", operand⟩, ⟨"BRP", c.asm.label ifTrue⟩,
            ⟨"BRA", c.asm.label ifFalse⟩]) ∧
      ∀ c : CondResult,
        (Expr.Binary pos length .ne l r).compileCondition asm block ifTrue ifFalse scope =
          some c → c.err = none → block < asm.blocks.length →
        c.block = block ∧ ∃ b front operand, c.asm.blocks[block]? = some b ∧
          b.insts = front ++ [⟨"SUB", operand⟩, ⟨"BRP", c.asm.label ifFalse⟩,
            ⟨"BRA", c.asm.label ifTrue⟩] := by
  refine ⟨?_, ?_, fun c h herr hb => ?_, fun c h herr hb => ?_⟩
  · simp [Expr.compileCondition, compileBinaryCondition, compileZeroBranch,
      compilePostiveBranch]
  · simp [Expr.compileCondition, compileBinaryCondition, compileZeroBranch,
      compilePostiveBranch]
  · simp only [Expr.compileCondition, compileBinaryCondition] at h
    exact compileZeroBranch_tail _ _ (operand_sound scope l) (operand_sound scope r) asm block
      ifTrue ifFalse c h herr hb
  · simp only [Expr.compileCondition, compileBinaryCondition] at h
    exact compileZeroBranch_tail _ _ (operand_sound scope l) (operand_sound scope r) asm block
      ifFalse ifTrue c h herr hb

/-- Witness of C8: `a == b` on `Int` cells, lowered in the block `start` with
the targets `b0` and `b1`, leaves `start` with `LDA a`, `SUB b`, `BRP b0`,
`BRA b1`. -/
theorem equality_lowered_as_ordering_witness :
    (Expr.Binary pos0 1 .eq (ident "a") (ident "b")).compileCondition asmThree 0 1 2
        scopeIntAB =
      some ⟨{ asmThree with
              blocks := appendInsts asmThree.blocks 0
                [⟨"LDA", "a"⟩, ⟨"SUB", "b"⟩, ⟨"BRP", "b0"⟩, ⟨"BRA", "b1"⟩],
              currentTemp := asmThree.currentTemp - 1 }, 0, none⟩ ∧
      ∃ b front operand,
        (condState ((Expr.Binary pos0 1 .eq (ident "a") (ident "b")).compileCondition
          asmThree 0 1 2 scopeIntAB)).asm.blocks[0]? = some b ∧
        b.insts = front ++ [⟨"SUB", operand⟩,
          ⟨"BRP", (condState ((Expr.Binary pos0 1 .eq (ident "a") (ident "b")).compileCondition
            asmThree 0 1 2 scopeIntAB)).asm.label 1⟩,
          ⟨"BRA", (condState ((Expr.Binary pos0 1 .eq (ident "a") (ident "b")).compileCondition
            asmThree 0 1 2 scopeIntAB)).asm.label 2⟩] :=
  ⟨by decide!,
    ((equality_lowered_as_ordering (ident "a") (ident "b") asmThree 0 1 2 scopeIntAB pos0
      1).2.2.1 _ (by decide!) (by decide!) (by decide!)).2⟩

/-! ### Constant interning: one cell for a value -/

theorem digitChar_value :
    ∀ k < 10, (Nat.digitChar k).toNat - 48 = k ∧ (Nat.digitChar k).isDigit = true := by
  decide

theorem decode_toDigitsCore (fuel : Nat) : ∀ (n : Nat) (ds : List Char), n < fuel →
    (Nat.toDigitsCore 10 fuel n ds).foldl (fun a c => 10 * a + (c.toNat - 48)) 0 =
      ds.foldl (fun a c => 10 * a + (c.toNat - 48)) n := by
  induction fuel with
  | zero => intro n ds h; omega
  | succ fuel ih =>
    intro n ds h
    have hd := (digitChar_value (n % 10) (Nat.mod_lt _ (by decide))).1
    simp only [Nat.toDigitsCore]
    split_ifs with h0
    · simp only [List.foldl_cons, Nat.mul_zero, Nat.zero_add, hd]
      congr 1
      omega
    · rw [ih (n / 10) _ (by omega)]
      simp only [List.foldl_cons, hd]
      congr 1
      omega

theorem isDigit_toDigitsCore (fuel : Nat) : ∀ (n : Nat) (ds : List Char),
    ∀ c ∈ Nat.toDigitsCore 10 fuel n ds, c ∈ ds ∨ c.isDigit = true := by
  induction fuel with
  | zero => intro n ds c hc; exact Or.inl hc
  | succ fuel ih =>
    intro n ds c hc
    have hd := (digitChar_value (n % 10) (Nat.mod_lt _ (by decide))).2
    simp only [Nat.toDigitsCore] at hc
    split_ifs at hc with h0
    · rcases List.mem_cons.1 hc with rfl | hc
      · exact Or.inr hd
      · exact Or.inl hc
    · rcases ih _ _ c hc with hc | hc
      · rcases List.mem_cons.1 hc with rfl | hc
        · exact Or.inr hd
        · exact Or.inl hc
      · exact Or.inr hc

theorem toString_nat_data (n : Nat) : (toString n).data = Nat.toDigits 10 n := rfl

theorem toString_nat_injective (m n : Nat) (h : toString m = toString n) : m = n := by
  have h1 : Nat.toDigits 10 m = Nat.toDigits 10 n := by
    rw [← toString_nat_data, ← toString_nat_data, h]
  have hm := decode_toDigitsCore (m + 1) m [] (by omega)
  have hn := decode_toDigitsCore (n + 1) n [] (by omega)
  simp only [List.foldl_nil] at hm hn
  rw [← hm, ← hn]
  exact congrArg _ h1

theorem isDigit_toString_nat (n : Nat) : ∀ c ∈ (toString n).data, c.isDigit = true := by
  intro c hc
  rw [toString_nat_data] at hc
  rcases isDigit_toDigitsCore _ _ _ c hc with h | h
  · simp at h
  · exact h

theorem toString_int_ofNat (n : Nat) : toString (Int.ofNat n) = toString n := rfl

theorem toString_int_negSucc (n : Nat) :
    toString (Int.negSucc n) = "-" ++ toString (n + 1) := rfl

theorem toString_int_injective (a b : Int) (h : toString a = toString b) : a = b := by
  cases a with
  | ofNat m =>
    cases b with
    | ofNat n =>
      rw [toString_int_ofNat, toString_int_ofNat] at h
      rw [toString_nat_injective m n h]
    | negSucc n =>
      exfalso
      rw [toString_int_ofNat, toString_int_negSucc] at h
      have := isDigit_toString_nat m '-' (by rw [h]; simp [String.data_append])
      revert this
      decide
  | negSucc m =>
    cases b with
    | ofNat n =>
      exfalso
      rw [toString_int_ofNat, toString_int_negSucc] at h
      have := isDigit_toString_nat n '-' (by rw [← h]; simp [String.data_append])
      revert this
      decide
    | negSucc n =>
      rw [toString_int_negSucc, toString_int_negSucc] at h
      have h1 : toString (m + 1) = toString (n + 1) := by
        apply String.ext
        have := congrArg String.data h
        simpa [String.data_append] using this
      have := toString_nat_injective _ _ h1
      congr 1
      omega

/-- No underscore in the text of an integer. -/
theorem underscore_not_in_toString (v : Int) : '_' ∉ (toString v).data := by
  intro h
  cases v with
  | ofNat n =>
    rw [toString_int_ofNat] at h
    have := isDigit_toString_nat n '_' h
    revert this
    decide
  | negSucc n =>
    rw [toString_int_negSucc] at h
    simp only [String.data_append, List.mem_append] at h
    rcases h with h | h
    · revert h; decide
    · have := isDigit_toString_nat _ '_' h
      revert this
      decide


theorem cell_label_injective (a b : Int) (h : "c" ++ toString a = "c" ++ toString b) : a = b := by
  apply toString_int_injective
  apply String.ext
  have := congrArg String.data h
  simpa [String.data_append] using this

theorem label_ne_of_head (x y : Char) (s t : String) (hxy : x ≠ y) :
    String.mk (x :: s.data) ≠ String.mk (y :: t.data) := by
  intro h
  injection h with h
  injection h with h1 h2
  exact hxy h1

theorem block_label_ne (s : String) (v : Int) : "b" ++ s ≠ "c" ++ toString v := by
  intro h
  have := congrArg String.data h
  simp [String.data_append] at this

theorem temp_label_ne (s : String) (v : Int) : "temp" ++ s ≠ "c" ++ toString v := by
  intro h
  have := congrArg String.data h
  simp [String.data_append] at this

theorem start_label_ne (v : Int) : "start" ≠ "c" ++ toString v := by
  intro h
  have := congrArg String.data h
  simp [String.data_append] at this

theorem shadow_label_ne (prev : String) (v : Int) : prev ++ "_" ≠ "c" ++ toString v := by
  intro h
  have h1 : '_' ∈ ("c" ++ toString v).data := by
    rw [← h]
    simp [String.data_append]
  simp only [String.data_append, List.mem_append] at h1
  rcases h1 with h1 | h1
  · revert h1; decide
  · exact underscore_not_in_toString v h1

/-- The label that `declare` gives a name other than `c<v>` is not `c<v>`. -/
theorem declare_label_ne (scope : Scope) (name : String) (kind : Ty) (v : Int)
    (hn : name ≠ "c" ++ toString v) : (scope.declare name kind).2 ≠ "c" ++ toString v := by
  unfold Scope.declare
  cases mapGet scope.hashmap name with
  | none => exact hn
  | some prev => exact shadow_label_ne _ v

theorem tallies_refl {w : Int} (a : Assembly) : Tallies w a a := fun h => h

theorem tallies_trans {w : Int} {a b c : Assembly} (h1 : Tallies w a b) (h2 : Tallies w b c) :
    Tallies w a c := fun h => h2 (h1 h)

theorem tallies_of_labels {w : Int} (a b : Assembly)
    (hb : b.blocks.map Block.label = a.blocks.map Block.label)
    (hc : b.constants = a.constants) : Tallies w a b := by
  intro h
  unfold Tally cellCount at h ⊢
  rw [hc, ← h]
  have e : ∀ l : List Block, l.countP (fun b => b.label = "c" ++ toString w) =
      (l.map Block.label).countP (fun s => s = "c" ++ toString w) := by
    intro l
    rw [List.countP_map]
    rfl
  rw [e, e, hb]

theorem tallies_emit {w : Int} (a : Assembly) (j : Nat) (opcode operand : String) :
    Tallies w a (a.emitInstruction j opcode operand) :=
  tallies_of_labels a _
    (by simp only [Assembly.emitInstruction, emitAt_eq_appendInsts, map_label_appendInsts])
    rfl

theorem tallies_append {w : Int} (a b : Assembly) (label : String) (insts : List Instruction)
    (hb : b.blocks = a.blocks ++ [⟨label, insts⟩]) (hc : b.constants = a.constants)
    (hl : label ≠ "c" ++ toString w) : Tallies w a b := by
  intro h
  unfold Tally cellCount at h ⊢
  rw [hc, ← h, hb, List.countP_append]
  simp [hl]

theorem tallies_newUniqueBlock {w : Int} (a : Assembly) : Tallies w a a.newUniqueBlock.1 :=
  tallies_append a _ ("b" ++ toString a.currentBlock) [] rfl rfl (block_label_ne _ w)

theorem tallies_createVariable {w : Int} (a : Assembly) (label : String) (value : Int)
    (hl : label ≠ "c" ++ toString w) : Tallies w a (a.createVariable label value) :=
  tallies_append a _ label _ (blocks_createVariable a label value) rfl hl

theorem tallies_getConstant {w : Int} (a : Assembly) (v : Int) :
    Tallies w a (a.getConstant v).1 := by
  unfold Assembly.getConstant
  split_ifs with hv
  · exact tallies_refl a
  · by_cases hvw : v = w
    · subst hvw
      intro h
      unfold Tally cellCount at h ⊢
      simp only [hv, if_false] at h
      simp only [blocks_createVariable, List.countP_append, h, List.mem_cons, true_or, if_true]
      simp
    · intro h
      unfold Tally cellCount at h ⊢
      have hne : "c" ++ toString v ≠ "c" ++ toString w :=
        fun e => hvw (cell_label_injective v w e)
      have hmem : (w ∈ v :: a.constants) ↔ w ∈ a.constants := by
        simp only [List.mem_cons]
        exact ⟨fun x => x.resolve_left (fun e => hvw e.symm), Or.inr⟩
      simp only [blocks_createVariable, List.countP_append, constants_createVariable, hmem, ← h]
      simp [hne]

theorem tallies_pushTemp {w : Int} (a : Assembly) : Tallies w a a.pushTemp.1 := by
  unfold Assembly.pushTemp
  split_ifs
  · exact tallies_append a _ ("temp" ++ toString a.currentTemp) _
      (blocks_createVariable _ _ 0) rfl (temp_label_ne _ w)
  · exact tallies_of_labels a _ rfl rfl

theorem tallies_popTemp {w : Int} (val : Value) (a : Assembly) : Tallies w a (popTemp val a) := by
  unfold popTemp
  split_ifs
  · exact tallies_refl a
  · exact tallies_refl a

theorem tallies_storeToTemp {w : Int} (val : Value) (a : Assembly) (j : Nat) :
    Tallies w a (storeToTemp val a j).1 := by
  unfold storeToTemp
  split_ifs
  · exact tallies_trans (tallies_pushTemp a) (tallies_emit _ _ _ _)
  · exact tallies_refl a

theorem tallies_loadToAcc {w : Int} (val : Value) (a : Assembly) (j : Nat) :
    Tallies w a (loadToAcc val a j) := by
  unfold loadToAcc
  split_ifs
  · exact tallies_emit _ _ _ _
  · exact tallies_refl a

theorem tallies_compileAndExpect {w : Int} (o : Operand) (ho : o.Tallying w) (asm : Assembly)
    (cur : Nat)
    (ty : Ty) (r : ValueResult) (h : compileAndExpect o asm cur ty = some r) :
    Tallies w asm r.asm := by
  obtain ⟨v, hv, ha, -, -⟩ := compileAndExpect_some o asm cur ty r h
  rw [ha]
  exact ho.1 asm cur v hv

theorem tallies_compileArithmetic {w : Int} (asm : Assembly) (cur : Nat) (symbol : BinarySymbol)
    (left right : Operand) (hl : left.Tallying w) (hr : right.Tallying w) (r : ValueResult)
    (h : compileArithmetic asm cur symbol left right = some r) : Tallies w asm r.asm := by
  unfold compileArithmetic at h
  cases h1 : compileAndExpect right asm cur Ty.Int with
  | none => simp [h1] at h
  | some r1 =>
    have p1 : Tallies w _ _ := tallies_compileAndExpect right hr asm cur Ty.Int r1 h1
    simp only [h1] at h
    cases he1 : r1.err with
    | some e =>
      simp only [he1, Option.some.injEq] at h
      subst h
      exact p1
    | none =>
      simp only [he1] at h
      cases h2 : compileAndExpect left (storeToTemp r1.val r1.asm r1.block).1 r1.block
          Ty.Int with
      | none => simp [h2] at h
      | some r2 =>
        have p2 : Tallies w _ _ := tallies_trans p1 (tallies_trans (tallies_storeToTemp _ _ _)
          (tallies_compileAndExpect left hl _ _ Ty.Int r2 h2))
        simp only [h2] at h
        cases he2 : r2.err with
        | some e =>
          simp only [he2, Option.some.injEq] at h
          subst h
          exact tallies_trans p2 (tallies_popTemp _ _)
        | none =>
          simp only [he2, Option.some.injEq] at h
          subst h
          refine tallies_trans p2 (tallies_trans (tallies_loadToAcc r2.val _ r2.block) ?_)
          cases symbol <;>
            first
            | exact tallies_trans (tallies_emit _ _ _ _) (tallies_popTemp _ _)
            | exact tallies_popTemp _ _

theorem tallies_compileCompare {w : Int} (left right : Operand) (hl : left.Tallying w)
    (hr : right.Tallying w)
    (asm : Assembly) (cur : Nat) (r : CondResult)
    (h : compileCompare left right asm cur = some r) : Tallies w asm r.asm := by
  unfold compileCompare at h
  cases h1 : compileAndExpect right asm cur Ty.Int with
  | none => simp [h1] at h
  | some r1 =>
    have p1 : Tallies w _ _ := tallies_compileAndExpect right hr asm cur Ty.Int r1 h1
    simp only [h1] at h
    cases he1 : r1.err with
    | some e =>
      simp only [he1, Option.some.injEq] at h
      subst h
      exact p1
    | none =>
      simp only [he1] at h
      cases h2 : compileAndExpect left (storeToTemp r1.val r1.asm r1.block).1 r1.block
          Ty.Int with
      | none => simp [h2] at h
      | some r2 =>
        have p2 : Tallies w _ _ := tallies_trans p1 (tallies_trans (tallies_storeToTemp _ _ _)
          (tallies_compileAndExpect left hl _ _ Ty.Int r2 h2))
        simp only [h2] at h
        cases he2 : r2.err with
        | some e =>
          simp only [he2, Option.some.injEq] at h
          subst h
          exact tallies_trans p2 (tallies_popTemp _ _)
        | none =>
          simp only [he2, Option.some.injEq] at h
          subst h
          exact tallies_trans p2 (tallies_trans (tallies_loadToAcc r2.val _ _)
            (tallies_trans (tallies_emit _ _ _ _) (tallies_popTemp _ _)))

theorem tallies_compilePostiveBranch {w : Int} (left right : Operand) (hl : left.Tallying w)
    (hr : right.Tallying w) (asm : Assembly) (cur t f : Nat) (r : CondResult)
    (h : compilePostiveBranch left right asm cur t f = some r) : Tallies w asm r.asm := by
  unfold compilePostiveBranch at h
  cases h1 : compileCompare left right asm cur with
  | none => simp [h1] at h
  | some c =>
    have p : Tallies w _ _ := tallies_compileCompare left right hl hr asm cur c h1
    simp only [h1] at h
    cases he : c.err with
    | some e =>
      simp only [he, Option.some.injEq] at h
      subst h
      exact p
    | none =>
      simp only [he, Option.some.injEq] at h
      subst h
      exact tallies_trans p (tallies_trans (tallies_emit _ _ _ _) (tallies_emit _ _ _ _))

/-- The `and` and `or` arms of `compileBinaryCondition`. -/
theorem tallies_logical {w : Int} (left right : Operand) (hl : left.Tallying w)
    (hr : right.Tallying w)
    (asm : Assembly) (cur t1 f1 t2 f2 : Nat) (r : CondResult)
    (h : (match left.compileCondition asm.newUniqueBlock.1 cur t1 f1 with
          | none => none
          | some l =>
            match l.err with
            | some err => some ⟨l.asm, l.block, some err⟩
            | none =>
              match right.compileCondition l.asm asm.newUniqueBlock.2 t2 f2 with
              | none => none
              | some r => some (CondResult.mk r.asm l.block r.err)) = some r) :
    Tallies w asm r.asm := by
  cases h1 : left.compileCondition asm.newUniqueBlock.1 cur t1 f1 with
  | none => simp [h1] at h
  | some l =>
    have p1 : Tallies w _ _ := tallies_trans (tallies_newUniqueBlock asm) (hl.2 _ cur t1 f1 l h1)
    simp only [h1] at h
    cases he : l.err with
    | some e =>
      simp only [he, Option.some.injEq] at h
      subst h
      exact p1
    | none =>
      simp only [he] at h
      cases h2 : right.compileCondition l.asm asm.newUniqueBlock.2 t2 f2 with
      | none => simp [h2] at h
      | some rr =>
        simp only [h2, Option.some.injEq] at h
        subst h
        exact tallies_trans p1 (hr.2 _ _ t2 f2 rr h2)

theorem tallies_compileBinaryCondition {w : Int} (symbol : BinarySymbol) (left right : Operand)
    (hl : left.Tallying w) (hr : right.Tallying w) (asm : Assembly) (cur t f : Nat)
    (r : CondResult) (h : compileBinaryCondition symbol left right asm cur t f = some r) :
    Tallies w asm r.asm := by
  cases symbol with
  | add => simp [compileBinaryCondition] at h
  | sub => simp [compileBinaryCondition] at h
  | eq => exact tallies_compilePostiveBranch left right hl hr asm cur t f r h
  | ne => exact tallies_compilePostiveBranch left right hl hr asm cur f t r h
  | gt => exact tallies_compilePostiveBranch right left hr hl asm cur f t r h
  | lt => exact tallies_compilePostiveBranch left right hl hr asm cur f t r h
  | ge => exact tallies_compilePostiveBranch left right hl hr asm cur t f r h
  | le => exact tallies_compilePostiveBranch right left hr hl asm cur t f r h
  | and => exact tallies_logical left right hl hr asm cur _ _ _ _ r h
  | or => exact tallies_logical left right hl hr asm cur _ _ _ _ r h

theorem tallies_compileUnaryCondition {w : Int} (symbol : UnarySymbol) (e : Operand)
    (he : e.Tallying w)
    (asm : Assembly) (cur t f : Nat) (pos : Position) (r : CondResult)
    (h : compileUnaryCondition symbol e asm cur t f pos = some r) : Tallies w asm r.asm := by
  cases symbol with
  | neg =>
    simp only [compileUnaryCondition, Option.some.injEq] at h
    subst h
    exact tallies_refl asm
  | not => exact he.2 asm cur f t r h

theorem tallies_materialise {w : Int} (asm : Assembly) : Tallies w asm (materialise asm).1 := by
  unfold materialise
  exact tallies_trans (tallies_newUniqueBlock _) (tallies_trans (tallies_newUniqueBlock _)
    (tallies_trans (tallies_newUniqueBlock _) (tallies_trans (tallies_getConstant _ _)
      (tallies_trans (tallies_emit _ _ _ _) (tallies_trans (tallies_getConstant _ _)
        (tallies_trans (tallies_emit _ _ _ _) (tallies_trans (tallies_emit _ _ _ _)
          (tallies_emit _ _ _ _))))))))

theorem tallies_materialised {w : Int} (asm : Assembly) (exitBlock : Nat) (c : Option CondResult)
    (hcond : ∀ r, c = some r → Tallies w (materialise asm).1 r.asm) (r : ValueResult)
    (h : materialised exitBlock c = some r) : Tallies w asm r.asm := by
  obtain ⟨cr, hcr, ha⟩ := materialised_asm exitBlock c r h
  rw [ha]
  exact tallies_trans (tallies_materialise asm) (hcond cr hcr)

/-- Every expression, seen as an operand, keeps the tally of the cells `c<w>`. -/
theorem operand_tallying {w : Int} (scope : Scope) : ∀ e : Expr, (e.operand scope).Tallying w := by
  intro e
  induction e with
  | IntLiteral pos length value =>
    refine ⟨fun asm cur r h => ?_, fun asm cur t f r h => ?_⟩
    · simp only [Expr.operand, Expr.compileValue, Option.some.injEq] at h
      subst h
      exact tallies_getConstant _ _
    · simp only [Expr.operand, Expr.compileCondition, Option.some.injEq] at h
      subst h
      exact tallies_refl asm
  | BoolLiteral pos length value =>
    refine ⟨fun asm cur r h => ?_, fun asm cur t f r h => ?_⟩
    · simp only [Expr.operand, Expr.compileValue, Option.some.injEq] at h
      subst h
      exact tallies_getConstant _ _
    · simp only [Expr.operand, Expr.compileCondition] at h
      split_ifs at h <;>
      · simp only [Option.some.injEq] at h
        subst h
        exact tallies_emit _ _ _ _
  | Input pos length =>
    refine ⟨fun asm cur r h => ?_, fun asm cur t f r h => ?_⟩
    · simp only [Expr.operand, Expr.compileValue, Option.some.injEq] at h
      subst h
      exact tallies_emit _ _ _ _
    · simp only [Expr.operand, Expr.compileCondition, Option.some.injEq] at h
      subst h
      exact tallies_refl asm
  | Ident pos length name =>
    refine ⟨fun asm cur r h => ?_, fun asm cur t f r h => ?_⟩
    · simp only [Expr.operand, Expr.compileValue] at h
      split_ifs at h <;>
      · simp only [Option.some.injEq] at h
        subst h
        exact tallies_refl asm
    · simp only [Expr.operand, Expr.compileCondition] at h
      split_ifs at h
      · simp only [Option.some.injEq] at h
        subst h
        exact tallies_refl asm
      · simp only [Option.some.injEq] at h
        subst h
        exact tallies_refl asm
      · simp only [Option.some.injEq] at h
        subst h
        exact tallies_trans (tallies_emit _ _ _ _) (tallies_trans (tallies_emit _ _ _ _)
          (tallies_emit _ _ _ _))
  | Binary pos length symbol left right ihl ihr =>
    refine ⟨fun asm cur r h => ?_, fun asm cur t f r h => ?_⟩
    · simp only [Expr.operand, Expr.compileValue] at h
      cases symbol with
      | add => exact tallies_compileArithmetic asm cur _ _ _ ihl ihr r h
      | sub => exact tallies_compileArithmetic asm cur _ _ _ ihl ihr r h
      | eq =>
        exact tallies_materialised asm _ _
          (fun c hcc => tallies_compileBinaryCondition _ _ _ ihl ihr _ cur _ _ c hcc) r h
      | ne =>
        exact tallies_materialised asm _ _
          (fun c hcc => tallies_compileBinaryCondition _ _ _ ihl ihr _ cur _ _ c hcc) r h
      | gt =>
        exact tallies_materialised asm _ _
          (fun c hcc => tallies_compileBinaryCondition _ _ _ ihl ihr _ cur _ _ c hcc) r h
      | lt =>
        exact tallies_materialised asm _ _
          (fun c hcc => tallies_compileBinaryCondition _ _ _ ihl ihr _ cur _ _ c hcc) r h
      | ge =>
        exact tallies_materialised asm _ _
          (fun c hcc => tallies_compileBinaryCondition _ _ _ ihl ihr _ cur _ _ c hcc) r h
      | le =>
        exact tallies_materialised asm _ _
          (fun c hcc => tallies_compileBinaryCondition _ _ _ ihl ihr _ cur _ _ c hcc) r h
      | and =>
        exact tallies_materialised asm _ _
          (fun c hcc => tallies_compileBinaryCondition _ _ _ ihl ihr _ cur _ _ c hcc) r h
      | or =>
        exact tallies_materialised asm _ _
          (fun c hcc => tallies_compileBinaryCondition _ _ _ ihl ihr _ cur _ _ c hcc) r h
    · simp only [Expr.operand, Expr.compileCondition] at h
      exact tallies_compileBinaryCondition symbol _ _ ihl ihr asm cur t f r h
  | Unary pos length symbol expr ih =>
    refine ⟨fun asm cur r h => ?_, fun asm cur t f r h => ?_⟩
    · simp only [Expr.operand, Expr.compileValue] at h
      cases symbol with
      | neg =>
        simp only at h
        cases h1 : compileAndExpect (expr.operand scope) asm cur Ty.Int with
        | none =>
          simp only [Expr.operand] at h1
          simp [h1] at h
        | some v =>
          have p : Tallies w _ _ := tallies_compileAndExpect _ ih asm cur Ty.Int v h1
          simp only [Expr.operand] at h1
          simp only [h1] at h
          cases he : v.err with
          | some e =>
            simp only [he, Option.some.injEq] at h
            subst h
            exact p
          | none =>
            simp only [he, Option.some.injEq] at h
            subst h
            exact tallies_trans p (tallies_trans (tallies_storeToTemp _ _ _)
              (tallies_trans (tallies_getConstant _ _) (tallies_trans (tallies_emit _ _ _ _)
                (tallies_trans (tallies_emit _ _ _ _) (tallies_popTemp _ _)))))
      | not =>
        exact tallies_materialised asm _ _
          (fun c hcc => tallies_compileUnaryCondition _ _ ih _ cur _ _ pos c hcc) r h
    · simp only [Expr.operand, Expr.compileCondition] at h
      exact tallies_compileUnaryCondition symbol _ ih asm cur t f pos r h

theorem assign_tallying {w : Int} (name : String) (expr : Expr) (pos : Position) :
    (Assign.compile name expr pos).Tallying w := by
  intro asm cur scope errors r h
  simp only [Assign.compile] at h
  split_ifs at h with hprs
  · simp only [Option.some.injEq] at h
    subst h
    exact tallies_refl asm
  · cases h1 : compileAndExpect (expr.operand scope) asm cur (scope.get name).2.1 with
    | none => simp [h1] at h
    | some v =>
      have p : Tallies w _ _ :=
        tallies_compileAndExpect _ (operand_tallying scope expr) asm cur _ v h1
      simp only [h1] at h
      cases he : v.err with
      | some e =>
        simp only [he, Option.some.injEq] at h
        subst h
        exact p
      | none =>
        simp only [he, Option.some.injEq] at h
        subst h
        exact tallies_trans p (tallies_trans (tallies_loadToAcc _ _ _) (tallies_emit _ _ _ _))

theorem output_tallying {w : Int} (expr : Expr) : (Output.compile expr).Tallying w := by
  intro asm cur scope errors r h
  simp only [Output.compile] at h
  cases h1 : compileAndExpect (expr.operand scope) asm cur Ty.Int with
  | none => simp [h1] at h
  | some v =>
    have p : Tallies w _ _ :=
      tallies_compileAndExpect _ (operand_tallying scope expr) asm cur _ v h1
    simp only [h1] at h
    cases he : v.err with
    | some e =>
      simp only [he, Option.some.injEq] at h
      subst h
      exact p
    | none =>
      simp only [he, Option.some.injEq] at h
      subst h
      exact tallies_trans p (tallies_trans (tallies_loadToAcc _ _ _) (tallies_emit _ _ _ _))

theorem blockScope_tallying {w : Int} (statements : Lowering) (hs : statements.Tallying w) :
    (BlockScope.compile statements).Tallying w := by
  intro asm cur scope errors r h
  simp only [BlockScope.compile] at h
  cases h1 : statements asm cur scope.pushScope errors with
  | none => simp [h1] at h
  | some r1 =>
    simp only [h1] at h
    cases h2 : r1.scope.popScope with
    | none => simp [h2] at h
    | some sc =>
      simp only [h2, Option.some.injEq] at h
      subst h
      exact hs asm cur _ errors r1 h1

theorem while_tallying {w : Int} (cond : Expr) (loop : Lowering) (hl : loop.Tallying w) :
    (While.compile cond loop).Tallying w := by
  intro asm cur scope errors r h
  simp only [While.compile] at h
  have e4 : Tallies w asm (asm.newUniqueBlock.1.newUniqueBlock.1.newUniqueBlock.1.emitInstruction
      cur "BRA" (asm.newUniqueBlock.1.newUniqueBlock.1.newUniqueBlock.1.label
        asm.newUniqueBlock.2)) :=
    tallies_trans (tallies_newUniqueBlock _) (tallies_trans (tallies_newUniqueBlock _)
      (tallies_trans (tallies_newUniqueBlock _) (tallies_emit _ _ _ _)))
  cases h1 : cond.compileCondition
      (asm.newUniqueBlock.1.newUniqueBlock.1.newUniqueBlock.1.emitInstruction cur "BRA"
        (asm.newUniqueBlock.1.newUniqueBlock.1.newUniqueBlock.1.label asm.newUniqueBlock.2))
      asm.newUniqueBlock.2 asm.newUniqueBlock.1.newUniqueBlock.2
      asm.newUniqueBlock.1.newUniqueBlock.1.newUniqueBlock.2 scope with
  | none => simp [h1] at h
  | some cr =>
    have pc : Tallies w _ _ := tallies_trans e4 ((operand_tallying scope cond).2 _ _ _ _ cr h1)
    simp only [h1] at h
    cases he : cr.err with
    | some e =>
      simp only [he, Option.some.injEq] at h
      subst h
      exact pc
    | none =>
      simp only [he] at h
      cases h2 : loop cr.asm asm.newUniqueBlock.1.newUniqueBlock.2 scope errors with
      | none => simp [h2] at h
      | some r2 =>
        simp only [h2, Option.some.injEq] at h
        subst h
        exact tallies_trans pc (tallies_trans (hl _ _ _ _ r2 h2) (tallies_emit _ _ _ _))

theorem if_tallying {w : Int} (cond : Expr) (ifTrue : Lowering) (ifFalse : Option Lowering)
    (ht : ifTrue.Tallying w) (hf : ∀ s2, ifFalse = some s2 → s2.Tallying w) :
    (If.compile cond ifTrue ifFalse).Tallying w := by
  intro asm cur scope errors r h
  simp only [If.compile] at h
  have e2 : Tallies w asm asm.newUniqueBlock.1.newUniqueBlock.1 :=
    tallies_trans (tallies_newUniqueBlock _) (tallies_newUniqueBlock _)
  cases h1 : cond.compileCondition asm.newUniqueBlock.1.newUniqueBlock.1 cur
      asm.newUniqueBlock.2 asm.newUniqueBlock.1.newUniqueBlock.2 scope with
  | none => simp [h1] at h
  | some c =>
    have pc : Tallies w _ _ := tallies_trans e2 ((operand_tallying scope cond).2 _ _ _ _ c h1)
    simp only [h1] at h
    cases he : c.err with
    | some e =>
      simp only [he, Option.some.injEq] at h
      subst h
      exact pc
    | none =>
      simp only [he] at h
      cases h2 : ifTrue c.asm asm.newUniqueBlock.2 scope errors with
      | none => simp [h2] at h
      | some r1 =>
        have e1 : Tallies w asm r1.asm := tallies_trans pc (ht _ _ _ _ r1 h2)
        simp only [h2] at h
        split_ifs at h with hlen1
        · simp only [Option.some.injEq] at h
          subst h
          exact e1
        · cases ifFalse with
          | none =>
            simp only [Option.some.injEq] at h
            subst h
            exact tallies_trans e1 (tallies_emit _ _ _ _)
          | some s2 =>
            simp only at h
            cases h3 : s2 r1.asm.newUniqueBlock.1 asm.newUniqueBlock.1.newUniqueBlock.2
                r1.scope r1.errors with
            | none => simp [h3] at h
            | some r2 =>
              have e3 : Tallies w asm r2.asm :=
                tallies_trans e1 (tallies_trans (tallies_newUniqueBlock _)
                  (hf s2 rfl _ _ _ _ r2 h3))
              simp only [h3] at h
              split_ifs at h with hlen3
              · simp only [Option.some.injEq] at h
                subst h
                exact e3
              · simp only [Option.some.injEq] at h
                subst h
                exact tallies_trans e3 (tallies_trans (tallies_emit _ _ _ _) (tallies_emit _ _ _ _))



theorem declare_tallying {w : Int} (name : String) (expr : Option Expr) (ty : Ty)
    (pos : Position) (hn : name ≠ "c" ++ toString w) :
    (Declare.compile name expr ty pos).Tallying w := by
  intro asm cur scope errors r h
  cases expr with
  | none =>
    simp only [Declare.compile, Option.some.injEq] at h
    subst h
    exact tallies_createVariable _ _ _ (declare_label_ne scope name _ w hn)
  | some e =>
    simp only [Declare.compile] at h
    cases h1 : e.compileValue asm cur scope with
    | none => simp [h1] at h
    | some v =>
      have p : Tallies w _ _ := (operand_tallying scope e).1 asm cur v h1
      simp only [h1] at h
      cases he : v.err with
      | some e =>
        simp only [he, Option.some.injEq] at h
        subst h
        exact p
      | none =>
        simp only [he] at h
        split_ifs at h with hty
        · simp only [Option.some.injEq] at h
          subst h
          exact p
        · simp only [Option.some.injEq] at h
          subst h
          exact tallies_trans p (tallies_trans
            (tallies_createVariable _ _ _ (declare_label_ne scope name _ w hn))
            (tallies_trans (tallies_loadToAcc _ _ _) (tallies_emit _ _ _ _)))

mutual
theorem statement_tallying {w : Int} :
    ∀ s : Statement, "c" ++ toString w ∉ s.declared → s.compile.Tallying w
  | .Declare pos _ name expr ty => by
    intro hd
    simp only [Statement.compile]
    exact declare_tallying name expr ty pos
      (fun e => hd (by simp [Statement.declared, e]))
  | .Assign pos _ name expr => by
    intro _
    simp only [Statement.compile]
    exact assign_tallying name expr pos
  | .BlockScope _ _ statements => by
    intro hd
    simp only [Statement.compile]
    exact blockScope_tallying _
      (statements_tallying statements (by simpa [Statement.declared] using hd))
  | .If _ _ cond ifTrue none => by
    intro hd
    show (If.compile cond ifTrue.compile none).Tallying w
    exact if_tallying cond _ _
      (statement_tallying ifTrue (by simpa [Statement.declared] using hd))
      (fun s2 hs2 => by simp at hs2)
  | .If _ _ cond ifTrue (some s) => by
    intro hd
    show (If.compile cond ifTrue.compile (some s.compile)).Tallying w
    have hd2 : "c" ++ toString w ∉ ifTrue.declared ∧ "c" ++ toString w ∉ s.declared := by
      simpa [Statement.declared, not_or] using hd
    refine if_tallying cond _ _ (statement_tallying ifTrue hd2.1) ?_
    intro s2 hs2
    simp only [Option.some.injEq] at hs2
    subst hs2
    exact statement_tallying s hd2.2
  | .While _ _ cond loop => by
    intro hd
    simp only [Statement.compile]
    exact while_tallying cond _
      (statement_tallying loop (by simpa [Statement.declared] using hd))
  | .Output _ _ expr => by
    intro _
    simp only [Statement.compile]
    exact output_tallying expr
theorem statements_tallying {w : Int} :
    ∀ ss : List Statement, "c" ++ toString w ∉ programDeclared ss →
      (compileStatements ss).Tallying w
  | [] => by
    intro _ asm cur scope errors r h
    simp only [compileStatements, Option.some.injEq] at h
    subst h
    exact tallies_refl asm
  | s :: rest => by
    intro hd asm cur scope errors r h
    have hd2 : "c" ++ toString w ∉ s.declared ∧ "c" ++ toString w ∉ programDeclared rest := by
      simpa [programDeclared, not_or] using hd
    simp only [compileStatements] at h
    cases h1 : s.compile asm cur scope errors with
    | none => simp [h1] at h
    | some r1 =>
      simp only [h1] at h
      exact tallies_trans (statement_tallying s hd2.1 _ _ _ _ r1 h1)
        (statements_tallying rest hd2.2 _ _ _ _ r h)
end

/-- With the tally of `c<v>` kept, `v` recorded and its cell in the block list,
the cell is the one block labelled `c<v>`. -/
theorem single_cell (v : Int) (asm : Assembly) (ht : Tally v asm) (hv : v ∈ asm.constants)
    (hc : constantCell v ∈ asm.blocks) :
    asm.blocks.filter (fun b => b.label = "c" ++ toString v) = [constantCell v] := by
  unfold Tally cellCount at ht
  simp only [hv, if_true] at ht
  rw [List.countP_eq_length_filter] at ht
  have hm : constantCell v ∈ asm.blocks.filter (fun b => b.label = "c" ++ toString v) :=
    List.mem_filter.mpr ⟨hc, by simp [constantCell]⟩
  generalize asm.blocks.filter (fun b => b.label = "c" ++ toString v) = l at ht hm
  cases l with
  | nil => simp at ht
  | cons x t =>
    cases t with
    | nil =>
      simp only [List.mem_singleton] at hm
      rw [hm]
    | cons y t => simp at ht

/-- C5 (constant interning), amended: when a statement list is lowered without
error, then for every value `v` the program asks for (every integer literal, 0
or 1 for every boolean literal in value position, 0 and 1 for every
materialised boolean, 0 for every unary minus) `v` is recorded in the constant
pool and, when the program declares no variable named `c<v>`, the block list
holds exactly one block labelled `c<v>`, with the instruction list `[DAT v]`;
the pool records no value twice, and for every recorded value the block list
holds the cell `c<v>` with `[DAT v]`.  `getConstant v` appends that cell and
records `v` on its first call, changes nothing on later calls and always
returns `c<v>`; a boolean literal lowered in condition mode records nothing and
creates no block. -/
theorem constants_are_interned (statements : List Statement) (r : StmtResult)
    (h : lowerProgram statements = some r) (herr : r.errors = []) :
    (∀ v ∈ programConstants statements,
        v ∈ r.asm.constants ∧
          ("c" ++ toString v ∉ programDeclared statements →
            r.asm.blocks.filter (fun b => b.label = "c" ++ toString v) =
              [⟨"c" ++ toString v, [⟨"DAT", toString v⟩]⟩])) ∧
      r.asm.constants.Nodup ∧
      (∀ v ∈ r.asm.constants,
        (⟨"c" ++ toString v, [⟨"DAT", toString v⟩]⟩ : Block) ∈ r.asm.blocks) ∧
      (∀ (asm : Assembly) (v : Int),
        (v ∉ asm.constants →
          (asm.getConstant v).1.blocks =
              asm.blocks ++ [⟨"c" ++ toString v, [⟨"DAT", toString v⟩]⟩] ∧
            (asm.getConstant v).1.constants = v :: asm.constants) ∧
        (v ∈ asm.constants → (asm.getConstant v).1 = asm) ∧
        (asm.getConstant v).2 = "c" ++ toString v) ∧
      ∀ (asm : Assembly) (block ifTrue ifFalse : Nat) (scope : Scope) (pos : Position)
        (length : Int) (value : Bool),
        ((Expr.BoolLiteral pos length value).compileCondition asm block ifTrue ifFalse
            scope).map (fun c => (c.asm.constants, c.asm.blocks.length)) =
          some (asm.constants, asm.blocks.length) := by
  unfold lowerProgram at h
  cases h0 : compileStatements statements (InitAssembly.newBlock "start").1
      (InitAssembly.newBlock "start").2 InitScope [] with
  | none => simp [h0] at h
  | some r0 =>
    simp only [h0, Option.some.injEq] at h
    subst h
    simp only at herr
    have hstart : CodeAt (InitAssembly.newBlock "start").1 (InitAssembly.newBlock "start").2 :=
      ⟨⟨"start", []⟩, by simp [InitAssembly, Assembly.newBlock], fun inst hi => by simp at hi⟩
    have hrun := run_emit (statements_evolving statements _ _ _ _ r0 h0 hstart) "HLT" ""
      (by decide)
    have hpool : Pool (r0.asm.emitInstruction r0.block "HLT" "") :=
      hrun.1.2.2.2.2.1 ⟨by simp [InitAssembly, Assembly.newBlock],
        fun v hv => by simp [InitAssembly, Assembly.newBlock] at hv⟩
    refine ⟨fun v hv => ⟨?_, fun hd => ?_⟩, hpool.1, hpool.2,
      fun asm v => ⟨fun hv => ⟨?_, ?_⟩, ?_, ?_⟩, ?_⟩
    · exact (statements_interns statements _ _ _ _ r0 h0 herr).2 v hv
    · have hv0 : v ∈ r0.asm.constants := (statements_interns statements _ _ _ _ r0 h0 herr).2 v hv
      have ht0 : Tally v (InitAssembly.newBlock "start").1 := by
        unfold Tally cellCount
        simp [InitAssembly, Assembly.newBlock, start_label_ne v]
      have ht : Tally v (r0.asm.emitInstruction r0.block "HLT" "") :=
        tallies_emit _ _ _ _ (statements_tallying statements hd _ _ _ _ r0 h0 ht0)
      exact single_cell v _ ht hv0 (hpool.2 v hv0)
    · exact (getConstant_interns asm v).1 hv
    · simp [Assembly.getConstant, hv, constants_createVariable]
    · exact (getConstant_interns asm v).2.1
    · unfold Assembly.getConstant
      split_ifs <;> rfl
    · intro asm block ifTrue ifFalse scope pos length value
      cases value <;>
        simp [Expr.compileCondition, constants_emitInstruction, length_emitInstruction]

/-- Witness of C5 as amended: `if true out 5` is lowered without error, asks
for 5 and declares no variable, so 5 is recorded and the block list holds
exactly one block labelled `c5`, with `[DAT 5]`. -/
theorem constants_are_interned_witness :
    lowerProgram progIfTrue = some (loweredState progIfTrue) ∧
      (loweredState progIfTrue).errors = [] ∧
      (5 : Int) ∈ programConstants progIfTrue ∧
      "c" ++ toString (5 : Int) ∉ programDeclared progIfTrue ∧
      (5 : Int) ∈ (loweredState progIfTrue).asm.constants ∧
      (loweredState progIfTrue).asm.blocks.filter (fun b => b.label = "c" ++ toString (5 : Int)) =
        [⟨"c" ++ toString (5 : Int), [⟨"DAT", toString (5 : Int)⟩]⟩] := by
  have he : (lowerProgram progIfTrue).map (fun r => r.errors) = some [] := by decide!
  have hs : lowerProgram progIfTrue = some (loweredState progIfTrue) := by
    unfold loweredState
    cases h : lowerProgram progIfTrue with
    | none => simp [h] at he
    | some r => rfl
  have hn : (loweredState progIfTrue).errors = [] := by
    simpa [hs] using he
  have hm : (5 : Int) ∈ programConstants progIfTrue := by decide
  have hd : "c" ++ toString (5 : Int) ∉ programDeclared progIfTrue := by decide
  have k := (constants_are_interned progIfTrue (loweredState progIfTrue) hs hn).1 5 hm
  exact ⟨hs, hn, hm, hd, k.1, k.2 hd⟩

end LMCC
